import Mathlib

/-!
# Styled strings of Subtitle Composer (`src/core/sstring.cpp`)

A shallow embedding of `SStringStyle` (the per-character style buffer with its
capacity policy), of `SString` (a `QString` paired with one `SStringStyle`) and
of `SSHelper` (the matcher producing reference spans and the materializer
consuming them), followed by theorems about them.

Conventions of the embedding.

* A `QString` is a `List Char`; `QString::insert`, `QString::replace`,
  `QString::midRef` and `QString::indexOf` are the Qt library functions and are
  given here by their documented behaviour.
* A raw array obtained from `new T[n]` is a list of `n` cells.  A cell is `none`
  while it still holds the indeterminate value left by the allocation, and
  `some v` once `v` has been stored in it.  Reading outside the array gives
  `none` as well.  A null pointer is the empty list.
* `int` values that the callers keep non-negative (lengths, capacities, guarded
  indices) are natural numbers; the public entry points of `SString` take `Int`
  indices and lengths, apply the guards of the source and convert afterwards.
  Integers are unbounded: the arithmetic of the source is taken without overflow.
* Objects are values: an argument passed by reference is an object of its own,
  never the receiver itself.  The two calls in which a styled argument is the
  receiver, `s.insert(index, s)` and `s.replace(index, len, s)`, are functions of
  their own (`insertSelf`, `replaceSelf`); a plain `QString` argument is always
  taken as a text of its own.
-/

namespace SubtitleComposer

/-! ## Raw buffers -/

/-- One element of a raw array: `none` is an indeterminate (never written) value. -/
abbrev Cell := Option Nat

/-- A raw array (`quint8 *` or `QRgb *`); the null pointer is `[]`. -/
abbrev Buffer := List Cell

/-- Result of `new T[n]`: `n` cells with indeterminate contents. -/
def newBuffer (n : Nat) : Buffer := List.replicate n none

/-- Read `buf[i]`. -/
def cell (buf : Buffer) (i : Nat) : Cell := (buf[i]?).getD none

/-- The call `memcpy(dst + d, src + s, n * sizeof(T))`. -/
def memcpy (dst : Buffer) (d : Nat) (src : Buffer) (s n : Nat) : Buffer :=
  (List.range dst.length).map fun i =>
    if d ≤ i ∧ i < d + n then cell src (i - d + s) else cell dst i

/-- The call `memset_n(dest + d, value, count)`: stores `value` in `count` consecutive cells. -/
def memset_n (dest : Buffer) (d : Nat) (value : Cell) (count : Nat) : Buffer :=
  (List.range dest.length).map fun i =>
    if d ≤ i ∧ i < d + count then value else cell dest i

/-! ## Style flags -/

/-- Modelled from the spec: the `StyleFlag` enumeration of `core/sstring.h` (the header is
not part of the sources at hand); the spec lists the bit flags Bold, Italic, Underline,
StrikeThrough, Color. -/
def Bold : Nat := 0x1

/-- Modelled from the spec: see `Bold`. -/
def Italic : Nat := 0x2

/-- Modelled from the spec: see `Bold`. -/
def Underline : Nat := 0x4

/-- Modelled from the spec: see `Bold`. -/
def StrikeThrough : Nat := 0x8

/-- Modelled from the spec: see `Bold`. -/
def Color : Nat := 0x10

/-- Modelled from the spec: `AllStyles` is the union of all the flags. -/
def AllStyles : Nat := Bold ||| Italic ||| Underline ||| StrikeThrough ||| Color

/-- Conversion of an integer value to `quint8`. -/
def quint8 (v : Nat) : Nat := v % 256

/-- Conversion of an integer value to `QRgb`, an unsigned 32-bit integer. -/
def qRgb (v : Nat) : Nat := v % 4294967296

/-! ## `SStringStyle` -/

/-- The class `SStringStyle`: two parallel raw arrays, a length and a capacity. -/
structure SStringStyle where
  m_styleFlags : Buffer
  m_styleColors : Buffer
  m_length : Nat
  m_capacity : Nat
deriving DecidableEq, Repr

namespace SStringStyle

/-- `SStringStyle::detach()`. -/
def detach (st : SStringStyle) : SStringStyle :=
  { st with m_styleFlags := [], m_styleColors := [], m_capacity := 0 }

/-- `SStringStyle::updateCapacity()`.  The first three branches choose a new capacity and fall
through to the reallocation; the fourth returns early when the array pointer is not null. -/
def updateCapacity (st : SStringStyle) : SStringStyle :=
  let realloc (c : Nat) : SStringStyle :=
    if c ≠ 0 then
      { st with m_capacity := c, m_styleFlags := newBuffer c, m_styleColors := newBuffer c }
    else
      { st with m_capacity := c, m_styleFlags := [], m_styleColors := [] }
  if st.m_length > st.m_capacity then realloc (st.m_length * 2)
  else if st.m_length = 0 then realloc 0
  else if st.m_capacity > 100 ∧ st.m_length < st.m_capacity / 2 then realloc (st.m_capacity / 2)
  else if st.m_styleFlags ≠ [] then st
  else realloc st.m_capacity

/-- `SStringStyle::replace(index, lenRemove, lenAdd)`.  `Q_ASSERT(index + lenRemove <= m_length)`
is its precondition; under it the subtractions below are those of the source. -/
def replace (st : SStringStyle) (index lenRemove lenAdd : Nat) : SStringStyle :=
  let tailLength := st.m_length - index - lenRemove
  let oldStyleFlags := st.m_styleFlags
  let oldStyleColors := st.m_styleColors
  let st1 := st.detach
  let st2 := { st1 with m_length := st1.m_length + lenAdd - lenRemove }
  let st3 := st2.updateCapacity
  let st4 :=
    if index ≠ 0 then
      { st3 with
        m_styleFlags := memcpy st3.m_styleFlags 0 oldStyleFlags 0 index
        m_styleColors := memcpy st3.m_styleColors 0 oldStyleColors 0 index }
    else st3
  if tailLength ≠ 0 then
    let tailStart := index + lenAdd
    let tailStartOld := index + lenRemove
    { st4 with
      m_styleFlags := memcpy st4.m_styleFlags tailStart oldStyleFlags tailStartOld tailLength
      m_styleColors := memcpy st4.m_styleColors tailStart oldStyleColors tailStartOld tailLength }
  else st4

/-- `SStringStyle::insert(index, len)`. -/
def insert (st : SStringStyle) (index len : Nat) : SStringStyle := st.replace index 0 len

/-- `SStringStyle::fill(index, len, flags, color)`. -/
def fill (st : SStringStyle) (index len : Nat) (flags color : Cell) : SStringStyle :=
  if len ≠ 0 then
    { st with
      m_styleFlags := memset_n st.m_styleFlags index flags len
      m_styleColors := memset_n st.m_styleColors index color len }
  else st

/-- `SStringStyle::copy(index, len, src, srcOffset)`: `memcpy` between two regions that do not
overlap, be it in two arrays or in one; `copySelf` is the copy inside one array in general. -/
def copy (st : SStringStyle) (index len : Nat) (src : SStringStyle) (srcOffset : Nat) :
    SStringStyle :=
  if len ≠ 0 then
    { st with
      m_styleFlags := memcpy st.m_styleFlags index src.m_styleFlags srcOffset len
      m_styleColors := memcpy st.m_styleColors index src.m_styleColors srcOffset len }
  else st

/-- `SStringStyle::copy(index, len, src, srcOffset)` when `src` is the array itself, so that
`memcpy` copies inside one array.  A region copied onto itself is left as it is.  The effect
of `memcpy` on two different regions that overlap is undefined: the cells of the destination
are indeterminate afterwards. -/
def copySelf (st : SStringStyle) (index len srcOffset : Nat) : SStringStyle :=
  if len ≠ 0 then
    if index = srcOffset then st
    else if index < srcOffset + len ∧ srcOffset < index + len then
      { st with
        m_styleFlags := memset_n st.m_styleFlags index none len
        m_styleColors := memset_n st.m_styleColors index none len }
    else
      { st with
        m_styleFlags := memcpy st.m_styleFlags index st.m_styleFlags srcOffset len
        m_styleColors := memcpy st.m_styleColors index st.m_styleColors srcOffset len }
  else st

/-- The constructor `SStringStyle(int len)`. -/
def ofLength (len : Nat) : SStringStyle :=
  let st : SStringStyle := { m_styleFlags := [], m_styleColors := [], m_length := len, m_capacity := 0 }
  if st.m_length ≠ 0 then st.updateCapacity else st

/-- The constructor `SStringStyle(int len, quint8 styleFlags, QRgb styleColor)`. -/
def ofLengthStyle (len : Nat) (styleFlags styleColor : Nat) : SStringStyle :=
  let st : SStringStyle := { m_styleFlags := [], m_styleColors := [], m_length := len, m_capacity := 0 }
  if st.m_length ≠ 0 then
    let st1 := st.updateCapacity
    st1.fill 0 st1.m_length (some (quint8 (quint8 styleFlags &&& AllStyles)))
      (some (qRgb styleColor))
  else st

/-- The copy constructor `SStringStyle(const SStringStyle &other)`. -/
def ofCopy (other : SStringStyle) : SStringStyle :=
  let st : SStringStyle :=
    { m_styleFlags := [], m_styleColors := [], m_length := other.m_length, m_capacity := 0 }
  if st.m_length ≠ 0 then
    let st1 := st.updateCapacity
    st1.copy 0 st1.m_length other 0
  else st

/-- `SStringStyle::clear()`. -/
def clear (st : SStringStyle) : SStringStyle :=
  ({ st with m_length := 0 } : SStringStyle).updateCapacity

/-- `SStringStyle::operator=(const SStringStyle &other)`. -/
def assign (st other : SStringStyle) : SStringStyle :=
  let st1 := ({ st with m_length := other.m_length } : SStringStyle).updateCapacity
  st1.copy 0 st1.m_length other 0

end SStringStyle

/-! ## `SString`: construction and positional mutation -/

/-- The class `SString`: the `QString` base object and the owned `SStringStyle`. -/
structure SString where
  text : List Char
  m_style : SStringStyle
deriving DecidableEq, Repr

/-- `QString::insert(i, s)` for `0 <= i <= size()`. -/
def qInsert (t : List Char) (i : Nat) (s : List Char) : List Char :=
  t.take i ++ s ++ t.drop i

/-- `QString::replace(i, len, s)` for `0 <= i <= size()`; Qt clamps `len` to `size() - i`. -/
def qReplace (t : List Char) (i len : Nat) (s : List Char) : List Char :=
  t.take i ++ s ++ t.drop (i + min len (t.length - i))

namespace SString

/-- `QString::length()` of the base object, as an `int`. -/
def length (s : SString) : Int := s.text.length

/-- Modelled from the spec: the two-argument helper `SString::length(index, len)` of
`core/sstring.h` (the header is not part of the sources at hand).  The spec says that the
mutation APIs clamp a length lying outside `[0, length]` to the characters that remain after
the start index. -/
def lengthAt (s : SString) (index len : Int) : Int :=
  if len < 0 ∨ index + len > s.length then s.length - index else len

/-- The constructor `SString(const QString &string, quint8 styleFlags, QRgb styleColor)`. -/
def ofString (string : List Char) (styleFlags styleColor : Nat) : SString :=
  { text := string, m_style := SStringStyle.ofLengthStyle string.length styleFlags styleColor }

/-- The copy constructor `SString(const SString &sstring)`. -/
def ofCopy (sstring : SString) : SString :=
  { text := sstring.text, m_style := SStringStyle.ofCopy sstring.m_style }

/-- `SString::operator=(const SString &sstring)` for two distinct objects. -/
def assign (s sstring : SString) : SString :=
  { text := sstring.text, m_style := s.m_style.assign (SStringStyle.ofCopy sstring.m_style) }

/-- `SString::setString(string, styleFlags, styleColor)`. -/
def setString (s : SString) (string : List Char) (styleFlags styleColor : Nat) : SString :=
  { text := string
    m_style := s.m_style.assign (SStringStyle.ofLengthStyle string.length styleFlags styleColor) }

/-- `SString::clear()`. -/
def clear (s : SString) : SString :=
  { text := [], m_style := s.m_style.clear }

/-- `SString::insert(int index, QChar ch)`. -/
def insertChar (s : SString) (index : Int) (ch : Char) : SString :=
  if 0 ≤ index ∧ index ≤ s.length then
    let it := if index ≠ 0 then index.toNat - 1 else 0
    let fillFlags : Cell := if s.length ≠ 0 then cell s.m_style.m_styleFlags it else some 0
    let fillColor : Cell := if s.length ≠ 0 then cell s.m_style.m_styleColors it else some 0
    { text := qInsert s.text index.toNat [ch]
      m_style := ((s.m_style.insert index.toNat 1).fill index.toNat 1 fillFlags fillColor) }
  else s

/-- `SString::insert(int index, const QString &str)`; `setString(str)` uses the default
arguments `styleFlags = 0`, `styleColor = 0`. -/
def insertString (s : SString) (index : Int) (str : List Char) : SString :=
  if s.length = 0 then s.setString str 0 0
  else if str.length ≠ 0 ∧ 0 ≤ index ∧ index ≤ s.length then
    let it := if index ≠ 0 then index.toNat - 1 else 0
    let fillFlags := cell s.m_style.m_styleFlags it
    let fillColor := cell s.m_style.m_styleColors it
    { text := qInsert s.text index.toNat str
      m_style := (s.m_style.insert index.toNat str.length).fill index.toNat str.length
        fillFlags fillColor }
  else s

/-- `SString::insert(int index, const SString &str)` for an argument `str` that is another
object than the string itself; the call `s.insert(index, s)` is `insertSelf`. -/
def insertSString (s : SString) (index : Int) (str : SString) : SString :=
  if s.length = 0 then s.assign str
  else if str.length ≠ 0 ∧ 0 ≤ index ∧ index ≤ s.length then
    { text := qInsert s.text index.toNat str.text
      m_style := (s.m_style.insert index.toNat str.text.length).copy index.toNat str.text.length
        str.m_style 0 }
  else s

/-- `SString::replace(int index, int len, const QString &replacement)`. -/
def replaceString (s : SString) (index len : Int) (replacement : List Char) : SString :=
  if index < 0 ∨ index ≥ s.length then s
  else
    let len := s.lengthAt index len
    if len = 0 ∧ replacement.length = 0 then s
    else
      let text := qReplace s.text index.toNat len.toNat replacement
      let fillFlags := cell s.m_style.m_styleFlags index.toNat
      let fillColor := cell s.m_style.m_styleColors index.toNat
      if len ≠ replacement.length then
        { text := text
          m_style := (s.m_style.replace index.toNat len.toNat replacement.length).fill
            index.toNat replacement.length fillFlags fillColor }
      else if len = 1 then { s with text := text }
      else
        { text := text
          m_style := s.m_style.fill index.toNat replacement.length fillFlags fillColor }

/-- `SString::replace(int index, int len, const SString &replacement)` for an argument
`replacement` that is another object than the string itself; the call
`s.replace(index, len, s)` is `replaceSelf`. -/
def replaceSString (s : SString) (index len : Int) (replacement : SString) : SString :=
  if index < 0 ∨ index ≥ s.length then s
  else
    let len := s.lengthAt index len
    if len = 0 ∧ replacement.length = 0 then s
    else
      let text := qReplace s.text index.toNat len.toNat replacement.text
      let st := if len ≠ replacement.length then
          s.m_style.replace index.toNat len.toNat replacement.text.length
        else s.m_style
      { text := text, m_style := st.copy index.toNat replacement.text.length replacement.m_style 0 }

/-- `SString::insert(int index, const SString &str)` called with the string itself as `str`,
as in `s.insert(index, s)`: whatever is read through `str` is the string as the statements
before have left it.  The self-assignment `*this = str` does nothing (`this != &sstring`
fails), and `QString::insert` takes a copy of its argument when this lies in the string
itself, so the old text is inserted into the old text; after that `str.length()` is the
length of the new text, and `*str.m_style` is the style array just resized. -/
def insertSelf (s : SString) (index : Int) : SString :=
  if s.length = 0 then s
  else if s.length ≠ 0 ∧ 0 ≤ index ∧ index ≤ s.length then
    let text := qInsert s.text index.toNat s.text
    { text := text
      m_style := (s.m_style.insert index.toNat text.length).copySelf index.toNat text.length 0 }
  else s

/-- `SString::replace(int index, int len, const SString &replacement)` called with the string
itself as `replacement`, as in `s.replace(index, len, s)`: the test `!replacement.length()`
reads the old length; `QString::replace` takes a copy of its argument when this lies in the
string itself; after that `replacement.length()` is the length of the new text, and
`*replacement.m_style` is the style array of the string in its current state. -/
def replaceSelf (s : SString) (index len : Int) : SString :=
  if index < 0 ∨ index ≥ s.length then s
  else
    let len := s.lengthAt index len
    if len = 0 ∧ s.length = 0 then s
    else
      let text := qReplace s.text index.toNat len.toNat s.text
      let st := if len ≠ (text.length : Int) then
          s.m_style.replace index.toNat len.toNat text.length
        else s.m_style
      { text := text, m_style := st.copySelf index.toNat text.length 0 }

end SString

/-! ## Representation invariants -/

namespace SStringStyle

/-- Both raw arrays have exactly `m_capacity` cells. -/
def Sized (st : SStringStyle) : Prop :=
  st.m_styleFlags.length = st.m_capacity ∧ st.m_styleColors.length = st.m_capacity

/-- The representation invariant of `SStringStyle`: the arrays have `m_capacity` cells and the
length does not exceed the capacity. -/
def WF (st : SStringStyle) : Prop :=
  st.Sized ∧ st.m_length ≤ st.m_capacity

/-- The array that `replace` leaves behind, as a function of the old array. -/
def resized (old : Buffer) (m_length index lenRemove lenAdd : Nat) : Buffer :=
  let fresh := newBuffer ((m_length + lenAdd - lenRemove) * 2)
  let b1 := if index ≠ 0 then memcpy fresh 0 old 0 index else fresh
  if m_length - index - lenRemove ≠ 0 then
    memcpy b1 (index + lenAdd) old (index + lenRemove) (m_length - index - lenRemove)
  else b1

end SStringStyle

namespace SString

/-- The representation invariant of `SString`: as many style runs as characters, held in a
well-formed `SStringStyle`. -/
def WF (s : SString) : Prop :=
  s.text.length = s.m_style.m_length ∧ s.m_style.WF

/-- The strings obtained from the constructor by the positional mutators, `setString` and
`clear`; a styled argument of `insert` or `replace` is another such string, never the string
that is changed. -/
inductive Reachable : SString → Prop
  | ofString (string : List Char) (styleFlags styleColor : Nat) :
      Reachable (ofString string styleFlags styleColor)
  | insertChar {s : SString} (index : Int) (ch : Char) :
      Reachable s → Reachable (s.insertChar index ch)
  | insertString {s : SString} (index : Int) (str : List Char) :
      Reachable s → Reachable (s.insertString index str)
  | insertSString {s str : SString} (index : Int) :
      Reachable s → Reachable str → Reachable (s.insertSString index str)
  | replaceString {s : SString} (index len : Int) (replacement : List Char) :
      Reachable s → Reachable (s.replaceString index len replacement)
  | replaceSString {s replacement : SString} (index len : Int) :
      Reachable s → Reachable replacement → Reachable (s.replaceSString index len replacement)
  | setString {s : SString} (string : List Char) (styleFlags styleColor : Nat) :
      Reachable s → Reachable (s.setString string styleFlags styleColor)
  | clear {s : SString} : Reachable s → Reachable s.clear

end SString

/-! ## Observation of style runs -/

/-- The style run stored at position `i`: the values `iter(i).flags()` and `iter(i).color()`. -/
def SStringStyle.run (st : SStringStyle) (i : Nat) : Cell × Cell :=
  (cell st.m_styleFlags i, cell st.m_styleColors i)

/-- The style run of the character at position `i` of a string. -/
def SString.run (s : SString) (i : Nat) : Cell × Cell := s.m_style.run i

/-! ## Qt string functions used by the pattern-based replace -/

/-- The enumeration `Qt::CaseSensitivity`. -/
inductive CaseSensitivity where
  | CaseInsensitive
  | CaseSensitive
deriving DecidableEq, Repr

/-- Character comparison under a case sensitivity; case folding is that of the ASCII letters. -/
def charEq (cs : CaseSensitivity) (a b : Char) : Bool :=
  match cs with
  | .CaseSensitive => a == b
  | .CaseInsensitive => a.toLower == b.toLower

/-- Whether `pattern` occurs at the very start of `t`. -/
def startsWith (cs : CaseSensitivity) : List Char → List Char → Bool
  | [], _ => true
  | _ :: _, [] => false
  | p :: ps, c :: t => charEq cs p c && startsWith cs ps t

/-- Search of `before` in the text `t`, whose first character has index `pos`. -/
def qIndexOfAux (cs : CaseSensitivity) (before : List Char) : List Char → Nat → Option Nat
  | [], pos => if startsWith cs before [] then some pos else none
  | c :: t, pos =>
    if startsWith cs before (c :: t) then some pos else qIndexOfAux cs before t (pos + 1)

/-- `QString::indexOf(before, from, cs)` for `from >= 0`: the index of the first occurrence of
`before` at or after `from`; `none` stands for the return value `-1`. -/
def qIndexOf (t before : List Char) (src : Nat) (cs : CaseSensitivity) : Option Nat :=
  if src ≤ t.length then qIndexOfAux cs before (t.drop src) src else none

/-- `QString::midRef(position, n)` (the same slice as `QString::mid`): a start beyond the end
gives nothing, a negative start is moved to 0 with the length shortened accordingly, and a
negative or too large length extends to the end of the string. -/
def qMid (t : List Char) (position n : Int) : List Char :=
  let len : Int := t.length
  if position > len then []
  else if position < 0 then
    if n < 0 ∨ n + position ≥ len then t
    else if n + position ≤ 0 then []
    else t.take (n + position).toNat
  else if n < 0 ∨ n > len - position then t.drop position.toNat
  else (t.drop position.toNat).take n.toNat

/-- `QString::replace(QChar before, QChar after, cs)`, also the effect of
`QString::replace(const QString &, const QString &, cs)` on two one-character strings: every
character equal to `before` becomes `after`. -/
def qReplaceChar (t : List Char) (before after : Char) (cs : CaseSensitivity) : List Char :=
  t.map fun c => if charEq cs before c then after else c

/-- `QChar::digitValue()` on the ASCII digits; `-1` for any other character. -/
def digitValue (c : Char) : Int :=
  if c.isDigit then (c.toNat : Int) - 48 else -1

/-! ## `SSHelper`: reference spans -/

namespace SSHelper

/-- The anonymous enumeration of `MatchRef::ref`. -/
inductive Ref where
  | NONE
  | SUBJECT
  | REPLACEMENT
deriving DecidableEq, Repr

/-- The structure `SSHelper::MatchRef`. -/
structure MatchRef where
  offset : Int
  length : Int
  ref : Ref
deriving DecidableEq, Repr

/-- The type `SSHelper::MatchRefList`. -/
abbrev MatchRefList := List MatchRef

/-- The structure `SSHelper::BackRef`. -/
structure BackRef where
  start : Int
  «end» : Int
  no : Int
deriving DecidableEq, Repr

/-- The template parameter `T` of the `SSHelper` functions, which the callers instantiate with
`QString` (plain replacement) and with `SString` (styled replacement). -/
inductive Replacement where
  | plain (text : List Char)
  | styled (sstring : SString)
deriving DecidableEq, Repr

/-- The characters of a replacement. -/
def Replacement.text : Replacement → List Char
  | .plain t => t
  | .styled s => s.text

/-- `replacement.length()`. -/
def Replacement.length (r : Replacement) : Int := r.text.length

/-- `replacement.isEmpty()`. -/
def Replacement.isEmpty (r : Replacement) : Bool := r.text.isEmpty

/-- The local variables `matchList`, `newLength` and `matched` of the matchers. -/
structure MatchState where
  matchList : MatchRefList
  newLength : Int
  matched : Bool
deriving DecidableEq, Repr

/-- The statement `matchList.push_back(ref)`. -/
def MatchState.push (st : MatchState) (ref : MatchRef) : MatchState :=
  { st with matchList := st.matchList ++ [ref] }

/-- The closing statement of every matcher: the span carrying old and new total lengths. -/
def MatchState.finish (st : MatchState) (strLength : Int) : MatchRefList :=
  if st.matched ∨ st.matchList ≠ [] then
    st.matchList ++ [{ offset := strLength, length := st.newLength, ref := .NONE }]
  else st.matchList

/-! ### Literal target -/

/-- The loop of the branch `before.isEmpty()` of the literal matcher, from index `i` on, for
the `n` indices that remain. -/
def matchEmptyLoop (after : Replacement) : Nat → Int → MatchState → MatchState
  | 0, _, st => st
  | n + 1, i, st =>
    let st1 := if ¬ after.isEmpty then
        st.push { offset := 0, length := after.length, ref := .REPLACEMENT }
      else st
    let st2 := st1.push { offset := i, length := 1, ref := .SUBJECT }
    matchEmptyLoop after n (i + 1) st2

/-- The loop `for(;;)` of the literal matcher for a non-empty `before`; it returns the state
and the final value of `off`, and `none` when the fuel does not suffice. -/
def matchLiteralLoop (str before : List Char) (after : Replacement) (cs : CaseSensitivity) :
    Nat → Nat → MatchState → Option (MatchState × Nat)
  | 0, _, _ => none
  | fuel + 1, off, st =>
    match qIndexOf str before off cs with
    | none => some (st, off)
    | some idx =>
      let st1 := { st with matched := true,
                           newLength := st.newLength + (after.length - before.length) }
      let len : Int := (idx : Int) - off
      let st2 := if len ≠ 0 then st1.push { offset := off, length := len, ref := .SUBJECT }
        else st1
      let st3 := if ¬ after.isEmpty then
          st2.push { offset := 0, length := after.length, ref := .REPLACEMENT }
        else st2
      matchLiteralLoop str before after cs fuel (idx + before.length) st3

/-- `SSHelper::match(str, before, after, cs)` for a literal `before`.  Every pass of the loop
moves `off` forward, so `str.length() + 1` passes suffice. -/
def matchLiteral (str : SString) (before : List Char) (after : Replacement)
    (cs : CaseSensitivity) : Option MatchRefList :=
  let st0 : MatchState := { matchList := [], newLength := str.length, matched := false }
  if before.isEmpty then
    let st1 := matchEmptyLoop after str.text.length 0 st0
    let st2 := if ¬ after.isEmpty then
        { st1.push { offset := 0, length := after.length, ref := .REPLACEMENT } with
          newLength := st1.newLength + (str.length + 1) * after.length }
      else st1
    some (st2.finish str.length)
  else
    match matchLiteralLoop str.text before after cs (str.text.length + 1) 0 st0 with
    | none => none
    | some (st1, off) =>
      let len : Int := str.length - off
      let st2 := if len ≠ 0 then st1.push { offset := off, length := len, ref := .SUBJECT }
        else st1
      some (st2.finish str.length)

/-! ### Materializer -/

/-- The local variables of `SSHelper::replace`. -/
structure ReplaceState where
  newString : List Char
  newStyle : SStringStyle
  startNew : Int
  strStyleOffset : Int
deriving DecidableEq, Repr

/-- One pass of the loop of `SSHelper::replace` over the span `md`. -/
def replaceStep (str : SString) (replacement : Replacement) (st : ReplaceState) (md : MatchRef) :
    ReplaceState :=
  if md.length = 0 then st
  else if md.ref = .SUBJECT then
    { newString := st.newString ++ qMid str.text md.offset md.length
      newStyle := st.newStyle.copy st.startNew.toNat md.length.toNat str.m_style md.offset.toNat
      startNew := st.startNew + md.length
      strStyleOffset := md.offset + md.length }
  else if md.ref = .REPLACEMENT then
    match replacement with
    | .styled r =>
      { newString := st.newString ++ qMid r.text md.offset md.length
        newStyle := st.newStyle.copy st.startNew.toNat md.length.toNat r.m_style md.offset.toNat
        startNew := st.startNew + md.length
        strStyleOffset := st.strStyleOffset }
    | .plain r =>
      let strStyleOffset := if st.strStyleOffset < 0 then 0 else st.strStyleOffset
      let newStyle :=
        if strStyleOffset < str.length then
          st.newStyle.fill st.startNew.toNat md.length.toNat
            (cell str.m_style.m_styleFlags strStyleOffset.toNat)
            (cell str.m_style.m_styleColors strStyleOffset.toNat)
        else st.newStyle.fill st.startNew.toNat md.length.toNat (some 0) (some 0)
      { newString := st.newString ++ qMid r md.offset md.length
        newStyle := newStyle
        startNew := st.startNew + md.length
        strStyleOffset := strStyleOffset }
  else st

/-- `SSHelper::replace(matchList, str, replacement)`; the callers pass a non-empty list, whose
last entry holds the total lengths.  The result is `str` after the two `swap` calls. -/
def replace (matchList : MatchRefList) (str : SString) (replacement : Replacement) : SString :=
  let newLength : Int := (matchList.getLast?.map MatchRef.length).getD 0
  let st0 : ReplaceState :=
    { newString := [], newStyle := SStringStyle.ofLength newLength.toNat, startNew := 0,
      strStyleOffset := -1 }
  let st := matchList.foldl (replaceStep str replacement) st0
  { text := st.newString, m_style := st.newStyle }

end SSHelper

namespace SString

/-- `SString::replace(const QString &before, const QString &after, Qt::CaseSensitivity cs)`;
the fast path calls `QString::replace(before, after)`, whose case sensitivity is the default
`Qt::CaseSensitive`.  `none` when the matcher runs out of fuel. -/
def replaceLiteral (s : SString) (before after : List Char) (cs : CaseSensitivity) :
    Option SString :=
  if before.isEmpty ∧ after.isEmpty then some s
  else
    match before, after with
    | [b], [a] => some { s with text := qReplaceChar s.text b a .CaseSensitive }
    | _, _ =>
      match SSHelper.matchLiteral s before (.plain after) cs with
      | none => none
      | some matchList =>
        if matchList ≠ [] then some (SSHelper.replace matchList s (.plain after)) else some s

end SString

/-! ### Regular-expression targets

The regular-expression engines of Qt are external to the program; a compiled expression is
given by what the matcher asks of it. -/

namespace SSHelper

/-- The back-reference pre-scan of both regular-expression matchers, on the characters that
remain from template position `pos` on.  The result is `none` when the read position steps
over the end of the template (a backslash in last position: the scan reads the terminating
NUL as the digit, moves past `repEnd`, and the loop condition `repChar != repEnd` no longer
stops it). -/
def scanBackRefs (capCount : Int) : List Char → Nat → Option (List BackRef)
  | [], _ => some []
  | [c], _ => if c ≠ '\\' then some [] else none
  | c :: d :: rest, pos =>
    if c ≠ '\\' then scanBackRefs capCount (d :: rest) (pos + 1)
    else
      let no := digitValue d
      if no ≥ 0 ∧ no ≤ capCount then
        let start : Int := ((pos + 2 : Nat) : Int) - 2
        match rest with
        | [] => some [{ start := start, «end» := ((pos + 2 : Nat) : Int), no := no }]
        | e :: rest' =>
          let secondDigit := digitValue e
          let nn := no * 10 + secondDigit
          if secondDigit ≠ -1 ∧ nn ≤ capCount then
            (scanBackRefs capCount rest' (pos + 3)).map
              fun l => { start := start, «end» := ((pos + 3 : Nat) : Int), no := nn } :: l
          else
            (scanBackRefs capCount (e :: rest') (pos + 2)).map
              fun l => { start := start, «end» := ((pos + 2 : Nat) : Int), no := no } :: l
      else scanBackRefs capCount rest (pos + 2)

/-- The loop `for(const BackRef &backRef: backRefs)` of the regular-expression matchers, for a
match whose group `n` starts at `(captured n).1` and has length `(captured n).2`; the second
component of the state is `replacementOffset`. -/
def backRefStep (captured : Int → Int × Int) (acc : MatchState × Int) (backRef : BackRef) :
    MatchState × Int :=
  let st := acc.1
  let replacementOffset := acc.2
  let len1 := backRef.start - replacementOffset
  let st1 := if len1 ≠ 0 then
      { st.push { offset := replacementOffset, length := len1, ref := .REPLACEMENT } with
        newLength := st.newLength + len1 }
    else st
  let len2 := (captured backRef.no).2
  let st2 := if len2 ≠ 0 then
      { st1.push { offset := (captured backRef.no).1, length := len2, ref := .SUBJECT } with
        newLength := st1.newLength + len2 }
    else st1
  (st2, backRef.«end»)

/-- The spans of one match after the gap: the walk over the back-references, then the
remaining replacement text. -/
def expandMatch (captured : Int → Int × Int) (backRefs : List BackRef) (replacement : Replacement)
    (st : MatchState) : MatchState :=
  let acc := backRefs.foldl (backRefStep captured) (st, 0)
  let st1 := acc.1
  let len := replacement.length - acc.2
  if len ≠ 0 then
    { st1.push { offset := acc.2, length := len, ref := .REPLACEMENT } with
      newLength := st1.newLength + len }
  else st1

/-- The `n`-th entry of a table of groups; a group that is not in the table did not
participate (start `-1`, length `0`). -/
def groupAt (table : List (Int × Int)) (n : Int) : Int × Int :=
  if n < 0 then (-1, 0) else table.getD n.toNat (-1, 0)

end SSHelper

/-- What a `QRegExp` reports after a successful `indexIn`: the returned index,
`matchedLength()`, and for every group `n` the pair `(pos(n), cap(n).length())`. -/
structure QRegExpResult where
  matchedIndex : Int
  matchedLength : Int
  caps : List (Int × Int)
deriving DecidableEq, Repr

/-- A compiled `QRegExp`, as far as the matcher uses it; `indexIn str offset caretAtZero` is
`none` when the call returns `-1`. -/
structure QRegExp where
  isValid : Bool
  captureCount : Int
  indexIn : List Char → Int → Bool → Option QRegExpResult

/-- A `QRegularExpressionMatch`: for every group `n` the pair
`(capturedStart(n), capturedLength(n))`, group 0 being the whole match. -/
structure QRegularExpressionMatch where
  captured : List (Int × Int)
deriving DecidableEq, Repr

/-- `capturedStart()`. -/
def QRegularExpressionMatch.capturedStart (m : QRegularExpressionMatch) : Int :=
  (SSHelper.groupAt m.captured 0).1

/-- `capturedEnd()`. -/
def QRegularExpressionMatch.capturedEnd (m : QRegularExpressionMatch) : Int :=
  (SSHelper.groupAt m.captured 0).1 + (SSHelper.groupAt m.captured 0).2

/-- A compiled `QRegularExpression`, as far as the matcher uses it; `globalMatch str` lists the
matches that the iterator yields. -/
structure QRegularExpression where
  isValid : Bool
  captureCount : Int
  globalMatch : List Char → List QRegularExpressionMatch

namespace SSHelper

/-- The loop `for(;;)` of the `QRegExp` matcher; it returns the state and the final
`matchOffset`, and `none` when the fuel does not suffice. -/
def matchQRegExpLoop (str : List Char) (regExp : QRegExp) (backRefs : List BackRef)
    (replacement : Replacement) : Nat → Int → MatchState → Option (MatchState × Int)
  | 0, _, _ => none
  | fuel + 1, matchOffset, st =>
    match regExp.indexIn str matchOffset (matchOffset == 0) with
    | none => some (st, matchOffset)
    | some r =>
      let st0 := { st with matched := true }
      let len := r.matchedIndex - matchOffset
      let st1 := if len ≠ 0 then
          { st0.push { offset := matchOffset, length := len, ref := .SUBJECT } with
            newLength := st0.newLength + len }
        else st0
      let st2 := expandMatch (groupAt r.caps) backRefs replacement st1
      let ml := r.matchedLength
      if ml = 0 then
        let st3 := { st2.push { offset := matchOffset, length := 1, ref := .SUBJECT } with
                     newLength := st2.newLength + 1 }
        matchQRegExpLoop str regExp backRefs replacement fuel (r.matchedIndex + 1) st3
      else
        matchQRegExpLoop str regExp backRefs replacement fuel (r.matchedIndex + ml) st2

/-- `SSHelper::match(str, regExp, replacement)` for a `QRegExp`.  `none` when the pre-scan
leaves the template or the loop does not end within `str.length() + 2` passes. -/
def matchQRegExp (str : SString) (regExp : QRegExp) (replacement : Replacement) :
    Option MatchRefList :=
  if ¬ regExp.isValid then some []
  else
    match scanBackRefs regExp.captureCount replacement.text 0 with
    | none => none
    | some backRefs =>
      let st0 : MatchState := { matchList := [], newLength := 0, matched := false }
      match matchQRegExpLoop str.text regExp backRefs replacement (str.text.length + 2) 0 st0 with
      | none => none
      | some (st1, matchOffset) =>
        let len := str.length - matchOffset
        let st2 := if len > 0 then
            { st1.push { offset := matchOffset, length := len, ref := .SUBJECT } with
              newLength := st1.newLength + len }
          else st1
        some (st2.finish str.length)

/-- One pass of the loop `while(iterator.hasNext())` of the `QRegularExpression` matcher; the
second component of the state is `matchOffset`. -/
def matchQRegularExpressionStep (backRefs : List BackRef) (replacement : Replacement)
    (acc : MatchState × Int) (m : QRegularExpressionMatch) : MatchState × Int :=
  let st := acc.1
  let matchOffset := acc.2
  let len := m.capturedStart - matchOffset
  let st1 := if len ≠ 0 then
      { st.push { offset := matchOffset, length := len, ref := .SUBJECT } with
        newLength := st.newLength + len }
    else st
  let st2 := expandMatch (groupAt m.captured) backRefs replacement st1
  (st2, m.capturedEnd)

/-- `SSHelper::match(str, regExp, replacement)` for a `QRegularExpression`.  `none` when the
pre-scan leaves the template. -/
def matchQRegularExpression (str : SString) (regExp : QRegularExpression)
    (replacement : Replacement) : Option MatchRefList :=
  if ¬ regExp.isValid then some []
  else
    match scanBackRefs regExp.captureCount replacement.text 0 with
    | none => none
    | some backRefs =>
      let found := regExp.globalMatch str.text
      let st0 : MatchState :=
        { matchList := [], newLength := 0, matched := !found.isEmpty }
      let acc := found.foldl (matchQRegularExpressionStep backRefs replacement) (st0, 0)
      let st1 := acc.1
      let matchOffset := acc.2
      let len := str.length - matchOffset
      let st2 := if len > 0 then
          { st1.push { offset := matchOffset, length := len, ref := .SUBJECT } with
            newLength := st1.newLength + len }
        else st1
      some (st2.finish str.length)

end SSHelper

namespace SString

/-- `SString::replace(const QRegExp &regExp, const T &replacement)` for `T` among `QString`
and `SString`. -/
def replaceQRegExp (s : SString) (regExp : QRegExp) (replacement : SSHelper.Replacement) :
    Option SString :=
  match SSHelper.matchQRegExp s regExp replacement with
  | none => none
  | some matchList =>
    if matchList ≠ [] then some (SSHelper.replace matchList s replacement) else some s

/-- `SString::replace(const QRegularExpression &regExp, const T &replacement)` for `T` among
`QString` and `SString`. -/
def replaceQRegularExpression (s : SString) (regExp : QRegularExpression)
    (replacement : SSHelper.Replacement) : Option SString :=
  match SSHelper.matchQRegularExpression s regExp replacement with
  | none => none
  | some matchList =>
    if matchList ≠ [] then some (SSHelper.replace matchList s replacement) else some s

end SString

/-! ## Specification-side vocabulary for the pattern-based replace

An output of the replace is described as a list of characters, each tagged with the subject
position it was copied from (`some i`) or with `none` when it comes from the replacement. -/

/-- The characters of `l`, tagged with consecutive subject positions starting at `pos`. -/
def tagFrom : List Char → Nat → List (Char × Option Nat)
  | [], _ => []
  | c :: t, pos => (c, some pos) :: tagFrom t (pos + 1)

/-- The characters of `l`, tagged as replacement text. -/
def untagged (l : List Char) : List (Char × Option Nat) := l.map fun c => (c, none)

/-- The slice of `len` characters of the subject text `str` at `off`, tagged with their
positions. -/
def subjectSlice (str : List Char) (off len : Nat) : List (Char × Option Nat) :=
  tagFrom ((str.drop off).take len) off

namespace SSHelper

/-- The output that a span stands for. -/
def MatchRef.output (str rep : List Char) (md : MatchRef) : List (Char × Option Nat) :=
  match md.ref with
  | .SUBJECT => subjectSlice str md.offset.toNat md.length.toNat
  | .REPLACEMENT => untagged ((rep.drop md.offset.toNat).take md.length.toNat)
  | .NONE => []

/-- The output that a list of spans stands for. -/
def spanOutput (str rep : List Char) : MatchRefList → List (Char × Option Nat)
  | [] => []
  | md :: rest => md.output str rep ++ spanOutput str rep rest

/-- A span lies inside the text it refers to. -/
def MatchRef.InRange (strLen repLen : Nat) (md : MatchRef) : Prop :=
  match md.ref with
  | .SUBJECT => 0 ≤ md.offset ∧ 0 ≤ md.length ∧ md.offset + md.length ≤ strLen
  | .REPLACEMENT => 0 ≤ md.offset ∧ 0 ≤ md.length ∧ md.offset + md.length ≤ repLen
  | .NONE => False

end SSHelper

/-- The invariant of the loop of `SSHelper::replace`: `startNew` is the number of characters
written so far and the new style arrays have their full capacity. -/
structure SSHelper.ReplaceState.Inv (st : SSHelper.ReplaceState) : Prop where
  startNew_eq : st.startNew = st.newString.length
  sized : st.newStyle.Sized

/-- The replacement `r` put before every character of `t` and after the last one; the
characters of `t` are tagged with their positions, counted from `pos`. -/
def interleave (r : List Char) : List Char → Nat → List (Char × Option Nat)
  | [], _ => untagged r
  | c :: t, pos => untagged r ++ (c, some pos) :: interleave r t (pos + 1)

/-- The spans that the loop over an empty target pushes for `n` characters from index `i`. -/
def SSHelper.emptySpans (afterLen : Int) : Nat → Int → SSHelper.MatchRefList
  | 0, _ => []
  | n + 1, i =>
    { offset := 0, length := afterLen, ref := .REPLACEMENT } ::
      { offset := i, length := 1, ref := .SUBJECT } :: SSHelper.emptySpans afterLen n (i + 1)

/-- The left-to-right scan that replaces every non-overlapping occurrence of a non-empty
`before` by `after`: at a position where `before` occurs, `after` is emitted and the
occurrence is skipped (`skip` counts the characters of it still to pass); any other character
is emitted with its position, counted from `pos`. -/
def scanReplace (before after : List Char) : List Char → Nat → Nat → List (Char × Option Nat)
  | [], _, _ => []
  | c :: t, 0, pos =>
    if before.isPrefixOf (c :: t) then
      untagged after ++ scanReplace before after t (before.length - 1) (pos + 1)
    else (c, some pos) :: scanReplace before after t 0 (pos + 1)
  | _ :: t, skip + 1, pos => scanReplace before after t skip (pos + 1)

/-! ### Regular-expression replace: what the provider and the template must satisfy, and what
the result must be -/

namespace SSHelper

/-- A group reported by the provider lies inside the subject, or did not participate
(length 0). -/
def GroupOK (strLen : Nat) (g : Int × Int) : Prop :=
  0 ≤ g.2 ∧ (g.2 ≠ 0 → 0 ≤ g.1 ∧ g.1 + g.2 ≤ strLen)

/-- The matches reported by the provider are ordered, do not overlap, lie inside the subject
from position `off` on, and so do their groups. -/
def MatchesOK (strLen : Nat) : List QRegularExpressionMatch → Nat → Prop
  | [], off => off ≤ strLen
  | m :: ms, off =>
    (off : Int) ≤ m.capturedStart ∧ m.capturedStart ≤ m.capturedEnd ∧ m.capturedEnd ≤ strLen ∧
    (∀ g ∈ m.captured, GroupOK strLen g) ∧ MatchesOK strLen ms m.capturedEnd.toNat

/-- The recorded back-references follow one another inside a template of length `repLen`,
from template position `off` on. -/
def BackRefsOK (repLen : Nat) : List BackRef → Nat → Prop
  | [], off => off ≤ repLen
  | b :: bs, off =>
    (off : Int) ≤ b.start ∧ b.start ≤ b.«end» ∧ b.«end» ≤ repLen ∧
    BackRefsOK repLen bs b.«end».toNat

/-- The expansion of the template `rep` for one match: for every recorded back-reference, in
template order, the template text before it, then the text of its group taken from the
subject `str` (tagged with the subject positions); at the end the rest of the template. -/
def expandTemplate (str rep : List Char) (captured : Int → Int × Int) :
    List BackRef → Nat → List (Char × Option Nat)
  | [], off => untagged (rep.drop off)
  | b :: bs, off =>
    untagged ((rep.drop off).take (b.start.toNat - off)) ++
      subjectSlice str (captured b.no).1.toNat (captured b.no).2.toNat ++
      expandTemplate str rep captured bs b.«end».toNat

/-- The result of the regular-expression replace: the subject text between the matches is
kept, every match is replaced by the expansion of the template, and the subject text after
the last match is kept. -/
def regexReplaceSpec (str rep : List Char) (backRefs : List BackRef) :
    List QRegularExpressionMatch → Nat → List (Char × Option Nat)
  | [], off => subjectSlice str off (str.length - off)
  | m :: ms, off =>
    subjectSlice str off (m.capturedStart.toNat - off) ++
      expandTemplate str rep (groupAt m.captured) backRefs 0 ++
      regexReplaceSpec str rep backRefs ms m.capturedEnd.toNat

end SSHelper

/-- Every tag of `l` names a position of the subject `str` that holds the tagged character. -/
def TagsSound (str : List Char) (l : List (Char × Option Nat)) : Prop :=
  ∀ (j : Nat) (c : Char) (i : Nat), l[j]? = some (c, some i) → str[i]? = some c

/-! ## Concrete inputs used by the examples -/

/-- The expression `QRegExp("b*")`: at every offset inside the subject, or at its end, it
matches the run of `b` characters that starts there, which may be empty. -/
def bStar : QRegExp where
  isValid := true
  captureCount := 0
  indexIn := fun str offset _ =>
    if 0 ≤ offset ∧ offset ≤ str.length then
      some { matchedIndex := offset
             matchedLength := ((str.drop offset.toNat).takeWhile (· == 'b')).length
             caps := [(offset, ((str.drop offset.toNat).takeWhile (· == 'b')).length)] }
    else none

/-- The subject `John Smith` with `John` bold, the space unstyled and `Smith` italic. -/
def johnSmith : SString :=
  ((SString.ofString "John".toList Bold 0).insertSString 4
    (SString.ofString " ".toList 0 0)).insertSString 5 (SString.ofString "Smith".toList Italic 0)

/-- The expression `QRegularExpression("(\\w+) (\\w+)")` as it answers on the subject
`John Smith`: one match, the whole subject, with the groups `John` and `Smith`. -/
def wordPair : QRegularExpression where
  isValid := true
  captureCount := 2
  globalMatch := fun str =>
    if str = "John Smith".toList then [{ captured := [(0, 10), (0, 4), (5, 5)] }] else []

/-! ## Reachable style arrays -/

namespace SStringStyle

/-- `SStringStyle::swap(other)`: the four members are exchanged; the result is the pair of the
receiver and of `other` after the call. -/
def swap (st other : SStringStyle) : SStringStyle × SStringStyle :=
  ({ m_styleFlags := other.m_styleFlags, m_styleColors := other.m_styleColors,
     m_length := other.m_length, m_capacity := other.m_capacity },
   { m_styleFlags := st.m_styleFlags, m_styleColors := st.m_styleColors,
     m_length := st.m_length, m_capacity := st.m_capacity })

/-- The style arrays obtained from a constructor by the operations of the class, each called
within its `Q_ASSERT` precondition. -/
inductive Reachable : SStringStyle → Prop
  | ofLength (len : Nat) : Reachable (ofLength len)
  | ofLengthStyle (len styleFlags styleColor : Nat) :
      Reachable (ofLengthStyle len styleFlags styleColor)
  | ofCopy {other : SStringStyle} : Reachable other → Reachable (ofCopy other)
  | insert {st : SStringStyle} (index len : Nat) :
      Reachable st → index ≤ st.m_length → Reachable (st.insert index len)
  | replace {st : SStringStyle} (index lenRemove lenAdd : Nat) :
      Reachable st → index + lenRemove ≤ st.m_length →
      Reachable (st.replace index lenRemove lenAdd)
  | fill {st : SStringStyle} (index len : Nat) (flags color : Cell) :
      Reachable st → index + len ≤ st.m_length → Reachable (st.fill index len flags color)
  | copy {st src : SStringStyle} (index len srcOffset : Nat) :
      Reachable st → Reachable src → index + len ≤ st.m_length →
      Reachable (st.copy index len src srcOffset)
  | clear {st : SStringStyle} : Reachable st → Reachable st.clear
  | assign {st other : SStringStyle} :
      Reachable st → Reachable other → Reachable (st.assign other)
  | swapLeft {st other : SStringStyle} :
      Reachable st → Reachable other → Reachable (st.swap other).1
  | swapRight {st other : SStringStyle} :
      Reachable st → Reachable other → Reachable (st.swap other).2

end SStringStyle

/-! ## `SString`: attribute queries and mutation -/

/-- The element assignment `buf[i] = v`. -/
def setCell (buf : Buffer) (i : Nat) (v : Cell) : Buffer := buf.set i v

/-- The operand `~v` of an `int` expression, as the 32-bit pattern of the result. -/
def bitNot (v : Nat) : Nat := 4294967295 - v % 4294967296

/-- The low byte of an `int`, which is what an assignment to a `quint8` keeps. -/
def lowByte (v : Int) : Nat := (v % 256).toNat

namespace SString

/-- `SString::styleFlagsAt(index)`. -/
def styleFlagsAt (s : SString) (index : Int) : Cell :=
  if index < 0 ∨ index ≥ s.length then some 0
  else cell s.m_style.m_styleFlags index.toNat

/-- `SString::styleColorAt(index)`; the result is indeterminate when the flags are. -/
def styleColorAt (s : SString) (index : Int) : Cell :=
  if index < 0 ∨ index ≥ s.length then some 0
  else
    match cell s.m_style.m_styleFlags index.toNat with
    | none => none
    | some flags =>
      if flags &&& Color = 0 then some 0 else cell s.m_style.m_styleColors index.toNat

/-- The loop of `setStyleFlags(index, len, styleFlags)` for the `n` positions from `index`. -/
def setStyleFlagsLoop (styleFlags : Int) : Nat → Nat → SStringStyle → SStringStyle
  | 0, _, st => st
  | n + 1, index, st =>
    setStyleFlagsLoop styleFlags n (index + 1)
      { st with m_styleFlags := setCell st.m_styleFlags index (some (lowByte styleFlags)) }

/-- `SString::setStyleFlags(int index, int len, int styleFlags)`. -/
def setStyleFlags (s : SString) (index len : Int) (styleFlags : Int) : SString :=
  if index < 0 ∨ index ≥ s.length then s
  else
    { s with m_style :=
        setStyleFlagsLoop styleFlags (s.lengthAt index len).toNat index.toNat s.m_style }

/-- The loops of `setStyleFlags(index, len, styleFlags, on)`: `flags() |= styleFlags` when `on`
(here `isOn`),
and `flags() &= ~styleFlags` otherwise, for the `n` positions from `index`. -/
def setStyleFlagsOnLoop (styleFlags : Int) (isOn : Bool) : Nat → Nat → SStringStyle → SStringStyle
  | 0, _, st => st
  | n + 1, index, st =>
    let old := cell st.m_styleFlags index
    let new := if isOn then old.map fun f => quint8 (f ||| lowByte styleFlags)
      else old.map fun f => quint8 (f &&& lowByte (-styleFlags - 1))
    setStyleFlagsOnLoop styleFlags isOn n (index + 1)
      { st with m_styleFlags := setCell st.m_styleFlags index new }

/-- `SString::setStyleFlags(int index, int len, int styleFlags, bool on)`. -/
def setStyleFlagsOn (s : SString) (index len : Int) (styleFlags : Int) (isOn : Bool) :
    SString :=
  if index < 0 ∨ index ≥ s.length then s
  else
    { s with m_style :=
        setStyleFlagsOnLoop styleFlags isOn (s.lengthAt index len).toNat index.toNat s.m_style }

/-- The loop of `setStyleColor` for the `n` positions from `index`: the color is stored, then
the `Color` flag is set for a non-zero color and cleared for the color 0. -/
def setStyleColorLoop (color : Nat) : Nat → Nat → SStringStyle → SStringStyle
  | 0, _, st => st
  | n + 1, index, st =>
    let old := cell st.m_styleFlags index
    let new := if qRgb color ≠ 0 then old.map fun f => quint8 (f ||| Color)
      else old.map fun f => quint8 (f &&& bitNot Color)
    setStyleColorLoop color n (index + 1)
      { st with
        m_styleColors := setCell st.m_styleColors index (some (qRgb color))
        m_styleFlags := setCell st.m_styleFlags index new }

/-- `SString::setStyleColor(int index, int len, QRgb color)`. -/
def setStyleColor (s : SString) (index len : Int) (color : Nat) : SString :=
  if index < 0 ∨ index ≥ s.length then s
  else
    { s with m_style :=
        setStyleColorLoop color (s.lengthAt index len).toNat index.toNat s.m_style }

/-- Every style run of the string holds stored values of the element types: a `quint8` flag
byte and a `QRgb` color. -/
def Initialised (s : SString) : Prop :=
  ∀ i, i < s.text.length →
    ∃ f c, s.run i = (some f, some c) ∧ f < 256 ∧ c < 4294967296

/-- `SString::replace(QChar ch, const QString &after, Qt::CaseSensitivity cs)`; the fast path
calls `QString::replace(ch, after.at(0))`, whose case sensitivity is the default
`Qt::CaseSensitive`; the matcher receives `ch` converted to a one-character `QString`.
`none` when the matcher runs out of fuel. -/
def replaceChar (s : SString) (ch : Char) (after : List Char) (cs : CaseSensitivity) :
    Option SString :=
  match after with
  | [a] => some { s with text := qReplaceChar s.text ch a .CaseSensitive }
  | _ =>
    match SSHelper.matchLiteral s [ch] (.plain after) cs with
    | none => none
    | some matchList =>
      if matchList ≠ [] then some (SSHelper.replace matchList s (.plain after)) else some s

end SString

/-- The value of the style cursor `strStyleOffset` of `SSHelper::replace` with a plain
replacement after the spans of a list, from the value `c` before them: a subject span moves
it to the end of the span, a replacement span raises a negative value to 0, and a span of
length 0 is skipped. -/
def SSHelper.styleCursor : SSHelper.MatchRefList → Int → Int
  | [], c => c
  | md :: rest, c =>
    SSHelper.styleCursor rest
      (if md.length = 0 then c
       else if md.ref = .SUBJECT then md.offset + md.length
       else if md.ref = .REPLACEMENT then (if c < 0 then 0 else c)
       else c)

/-- An invalid `QRegularExpression`, such as one compiled from the pattern `(`. -/
def invalidExpression : QRegularExpression where
  isValid := false
  captureCount := -1
  globalMatch := fun _ => []

/-- An invalid `QRegExp`, such as one compiled from the pattern `(`. -/
def invalidRegExp : QRegExp where
  isValid := false
  captureCount := 0
  indexIn := fun _ _ _ => none

/-- The end of the last non-empty subject span of a span list, or `c` when the list has
none: the subject position that the spec calls the nearest one consumed so far. -/
def SSHelper.subjectEnd : SSHelper.MatchRefList → Int → Int
  | [], c => c
  | md :: rest, c =>
    SSHelper.subjectEnd rest
      (if md.length ≠ 0 ∧ md.ref = .SUBJECT then md.offset + md.length else c)

/-! ## Binary serialization

A `QDataStream` is the sequence of the items written to it: a `QString` in the serialized
form that `operator<<(QDataStream &, const QString &)` of Qt gives it, which the matching
`operator>>` reads back, and the bytes of raw data.  The byte of a cell that was never
written is indeterminate (`none`). -/

/-- One item of a `QDataStream`. -/
inductive StreamItem where
  | string (s : List Char)
  | byte (b : Cell)
deriving DecidableEq, Repr

/-- A `QDataStream`, as the items still to be read. -/
abbrev QDataStream := List StreamItem

/-- The four bytes of a `QRgb` cell in memory, least significant first. -/
def colorBytes (c : Cell) : List Cell :=
  match c with
  | none => [none, none, none, none]
  | some v => [some (v % 256), some (v / 256 % 256), some (v / 65536 % 256),
      some (v / 16777216 % 256)]

/-- The `QRgb` value held by four bytes of memory. -/
def colorOfBytes (a b c d : Cell) : Cell :=
  match a, b, c, d with
  | some a, some b, some c, some d => some (a + 256 * b + 65536 * c + 16777216 * d)
  | _, _, _, _ => none

/-- The `QRgb` cells held by a sequence of bytes; a cell of which only a part was read is
indeterminate. -/
def colorCells : List Cell → List Cell
  | a :: b :: c :: d :: rest => colorOfBytes a b c d :: colorCells rest
  | [] => []
  | _ => [none]

/-- The first `len` cells of an array. -/
def firstCells (buf : Buffer) (len : Nat) : List Cell := (List.range len).map (cell buf)

/-- `QDataStream::writeRawData(s, len)` for the bytes `bytes` of the memory at `s`. -/
def writeRawData (stream : QDataStream) (bytes : List Cell) : QDataStream :=
  stream ++ bytes.map StreamItem.byte

/-- `QDataStream::readRawData(s, len)`: the bytes read, at most `len` of them and fewer when
the stream does not hold `len` bytes next, and the stream after them. -/
def readRawData : QDataStream → Nat → List Cell × QDataStream
  | .byte b :: rest, n + 1 => (b :: (readRawData rest n).1, (readRawData rest n).2)
  | stream, _ => ([], stream)

/-- `operator>>(QDataStream &, QString &)` of Qt; a failed read clears the string. -/
def readQString : QDataStream → List Char × QDataStream
  | .string s :: rest => (s, rest)
  | stream => ([], stream)

/-- `operator<<(QDataStream &stream, const SString &string)`. -/
def writeSString (stream : QDataStream) (string : SString) : QDataStream :=
  let s1 := stream ++ [StreamItem.string string.text]
  let s2 := writeRawData s1
    ((firstCells string.m_style.m_styleFlags string.length.toNat).map fun c => c.map quint8)
  writeRawData s2
    ((firstCells string.m_style.m_styleColors string.length.toNat).flatMap colorBytes)

/-- `operator>>(QDataStream &stream, SString &string)`; the result is the string read and the
stream after it. -/
def readSString (stream : QDataStream) (string : SString) : SString × QDataStream :=
  let r0 := readQString stream
  let text := r0.1
  let st := ({ string.m_style with m_length := text.length } : SStringStyle).updateCapacity
  let r1 := readRawData r0.2 text.length
  let flags := memcpy st.m_styleFlags 0 r1.1 0 r1.1.length
  let r2 := readRawData r1.2 (text.length * 4)
  let colors := memcpy st.m_styleColors 0 (colorCells r2.1) 0 (colorCells r2.1).length
  ({ text := text, m_style := { st with m_styleFlags := flags, m_styleColors := colors } }, r2.2)

/-- The stored values of the style runs of a string fit their element types: a flag byte is
below 256 and a color below 2^32. -/
def SString.Typed (s : SString) : Prop :=
  ∀ i, i < s.text.length →
    (∀ f, cell s.m_style.m_styleFlags i = some f → f < 256) ∧
    (∀ c, cell s.m_style.m_styleColors i = some c → c < 4294967296)

/-! ## Rich text

`richString` writes the string with the tags `<i>`, `<b>`, `<u>`, `<s>` and
`<font color=#rrggbb>`; `setRichString` reads such a text back with the help of a regular
expression for the tags. -/

/-- The style iterator `SStringStyle::iter(index)` (class `Iterator`, `sstring.cpp` 41-64 and
81), read as the pair of its `flags()` and its `color()`, the flags and the color of the run
at `index`; `none` when one of them is indeterminate. -/
def SStringStyle.iter (st : SStringStyle) (index : Nat) : Option (Nat × Nat) :=
  match cell st.m_styleFlags index, cell st.m_styleColors index with
  | some f, some c => some (f, c)
  | _, _ => none

/-- The accessor `Iterator::flags(mask)`, `m_styleFlags[m_index] & mask`, used as a condition:
whether the run has a flag of `mask`. -/
def hasFlags (style : Nat × Nat) (mask : Nat) : Bool := decide (style.1 &&& mask ≠ 0)

/-- `Iterator::operator==`: `flags() == other.flags() && (!flags(SString::Color) || color() ==
other.color())`; the colors are compared only when the left run has the `Color` flag. -/
def iterEq (a b : Nat × Nat) : Bool :=
  decide (a.1 = b.1) && (!hasFlags a Color || decide (a.2 = b.2))

/-- A hexadecimal digit in lower case. -/
def hexDigit (n : Nat) : Char :=
  if n < 10 then Char.ofNat (48 + n) else Char.ofNat (87 + n)

/-- `QColor(rgb).name()`: the form `#rrggbb`. -/
def colorName (rgb : Nat) : List Char :=
  ['#', hexDigit (rgb / 1048576 % 16), hexDigit (rgb / 65536 % 16), hexDigit (rgb / 4096 % 16),
    hexDigit (rgb / 256 % 16), hexDigit (rgb / 16 % 16), hexDigit (rgb % 16)]

/-- The value of a hexadecimal digit. -/
def hexValue (c : Char) : Option Nat :=
  if c.isDigit then some (c.toNat - 48)
  else if 'a' ≤ c ∧ c ≤ 'f' then some (c.toNat - 87)
  else if 'A' ≤ c ∧ c ≤ 'F' then some (c.toNat - 55)
  else none

/-- `QColor::setNamedColor(name)` on a name of the form `#rrggbb`, as the value `0xrrggbb`;
`none` is the invalid color.  Qt also reads other hexadecimal widths and the SVG color names,
which are taken as invalid here. -/
def setNamedColor (name : List Char) : Option Nat :=
  match name with
  | ['#', a, b, c, d, e, f] =>
    match hexValue a, hexValue b, hexValue c, hexValue d, hexValue e, hexValue f with
    | some a, some b, some c, some d, some e, some f =>
      some (a * 1048576 + b * 65536 + c * 4096 + d * 256 + e * 16 + f)
    | _, _, _, _, _, _ => none
  | _ => none

/-- The expression `color.isValid() ? color.rgb() : 0`; `QColor::rgb()` has an opaque alpha. -/
def colorRgb (color : Option Nat) : Nat :=
  match color with
  | some v => 4278190080 + v % 16777216
  | none => 0

/-- `QString::replace(QChar ch, const QString &after)`. -/
def qReplaceCharString (t : List Char) (ch : Char) (after : List Char) : List Char :=
  t.flatMap fun c => if c = ch then after else [c]

/-- The expression `.replace('<', "&lt;").replace('>', "&gt;")`. -/
def escapeTags (t : List Char) : List Char :=
  qReplaceCharString (qReplaceCharString t '<' "&lt;".toList) '>' "&gt;".toList

/-- The tags that `richString` opens for the first run. -/
def initialTags (style : Nat × Nat) : List Char :=
  (if hasFlags style Italic then "<i>".toList else []) ++
  (if hasFlags style Bold then "<b>".toList else []) ++
  (if hasFlags style Underline then "<u>".toList else []) ++
  (if hasFlags style StrikeThrough then "<s>".toList else []) ++
  (if hasFlags style Color then "<font color=".toList ++ colorName style.2 ++ ">".toList else [])

/-- The tags that `richString` closes where the style changes from `prevStyle` to `style`. -/
def closeTags (prevStyle style : Nat × Nat) : List Char :=
  (if hasFlags prevStyle StrikeThrough ∧ ¬ hasFlags style StrikeThrough then "</s>".toList
    else []) ++
  (if hasFlags prevStyle Underline ∧ ¬ hasFlags style Underline then "</u>".toList else []) ++
  (if hasFlags prevStyle Bold ∧ ¬ hasFlags style Bold then "</b>".toList else []) ++
  (if hasFlags prevStyle Italic ∧ ¬ hasFlags style Italic then "</i>".toList else []) ++
  (if hasFlags prevStyle Color ∧ (¬ hasFlags style Color ∨ prevStyle.2 ≠ style.2) then
    "</font>".toList else [])

/-- The tags that `richString` opens where the style changes from `prevStyle` to `style`. -/
def openTags (prevStyle style : Nat × Nat) : List Char :=
  (if ¬ hasFlags prevStyle Italic ∧ hasFlags style Italic then "<i>".toList else []) ++
  (if ¬ hasFlags prevStyle Bold ∧ hasFlags style Bold then "<b>".toList else []) ++
  (if ¬ hasFlags prevStyle Underline ∧ hasFlags style Underline then "<u>".toList else []) ++
  (if ¬ hasFlags prevStyle StrikeThrough ∧ hasFlags style StrikeThrough then "<s>".toList
    else []) ++
  (if hasFlags style Color ∧ (¬ hasFlags prevStyle Color ∨ prevStyle.2 ≠ style.2) then
    "<font color=".toList ++ colorName style.2 ++ ">".toList else [])

/-- The tags that `richString` closes after the last run. -/
def finalTags (prevStyle : Nat × Nat) : List Char :=
  (if hasFlags prevStyle StrikeThrough then "</s>".toList else []) ++
  (if hasFlags prevStyle Underline then "</u>".toList else []) ++
  (if hasFlags prevStyle Bold then "</b>".toList else []) ++
  (if hasFlags prevStyle Italic then "</i>".toList else []) ++
  (if hasFlags prevStyle Color then "</font>".toList else [])

/-- The loop `while(index < size)` of `richString` over the characters from `index` on: the
white space appended to `ret` and the value of `index` after the loop. -/
def skipSpaces : List Char → Nat → List Char × Nat
  | [], index => ([], index)
  | ch :: rest, index =>
    if ch ≠ '\n' ∧ ch ≠ '\r' ∧ ch ≠ ' ' ∧ ch ≠ '\t' then ([], index)
    else (ch :: (skipSpaces rest (index + 1)).1, (skipSpaces rest (index + 1)).2)

/-- The local variables of `SString::richString`. -/
structure RichState where
  ret : List Char
  prevStyle : Nat × Nat
  prevIndex : Nat
deriving DecidableEq, Repr

namespace SString

/-- The loop `for(int index = 1; index < size; ++index)` of `richString`, from `index` on;
`prevStyle != style` is `Iterator::operator!=`, the negation of `iterEq`.  `none` when a run
read is indeterminate or the fuel does not suffice. -/
def richStringLoop (s : SString) : Nat → Nat → RichState → Option RichState
  | 0, index, st => if index < s.text.length then none else some st
  | fuel + 1, index, st =>
    if index < s.text.length then
      match s.m_style.iter index with
      | none => none
      | some style =>
        if ¬ iterEq st.prevStyle style then
          let ret1 := st.ret ++ escapeTags (qMid s.text st.prevIndex ((index : Int) - st.prevIndex))
            ++ closeTags st.prevStyle style
          let ws := skipSpaces (s.text.drop index) index
          let ret2 := ret1 ++ ws.1 ++ openTags st.prevStyle style
          richStringLoop s fuel (ws.2 + 1) { ret := ret2, prevStyle := style, prevIndex := ws.2 }
        else richStringLoop s fuel (index + 1) st
    else some st

/-- `SString::richString()`. -/
def richString (s : SString) : Option (List Char) :=
  if s.text.isEmpty then some []
  else
    match s.m_style.iter 0 with
    | none => none
    | some prevStyle =>
      match richStringLoop s s.text.length 1
          { ret := initialTags prevStyle, prevStyle := prevStyle, prevIndex := 0 } with
      | none => none
      | some st =>
        if (st.prevIndex : Int) ≠ s.length then
          some (st.ret ++ escapeTags (qMid s.text st.prevIndex (s.length - st.prevIndex))
            ++ finalTags st.prevStyle)
        else some st.ret

/-- Modelled from the spec: `SString::append(const SString &)` of `core/sstring.h` (the
header is not part of the sources at hand), which appends one styled segment: the insertion
at the end of the string. -/
def append (s str : SString) : SString := s.insertSString s.length str

end SString

/-- `QRegularExpressionMatch::captured(n)` on the subject `string`; a group that did not
participate gives the empty string. -/
def capturedText (string : List Char) (m : QRegularExpressionMatch) (n : Int) : List Char :=
  if (SSHelper.groupAt m.captured n).1 < 0 then []
  else (string.drop (SSHelper.groupAt m.captured n).1.toNat).take
    (SSHelper.groupAt m.captured n).2.toNat

/-- The local variables of `SString::setRichString`, with the string under construction. -/
structure RichParse where
  string : SString
  currentStyle : Nat
  currentColor : Option Nat
  offsetPos : Int
  matchedPos : Int
deriving DecidableEq, Repr

namespace SString

/-- One pass of the loop `while(it.hasNext())` of `setRichString` over the match `m`. -/
def setRichStringStep (string : List Char) (acc : RichParse) (m : QRegularExpressionMatch) :
    RichParse :=
  let matchedPos := m.capturedStart
  let found := (capturedText string m 1).map Char.toLower
  let currentStyle := acc.currentStyle
  let currentColor := acc.currentColor
  let new : Nat × Option Nat :=
    if found = "b".toList then (quint8 (currentStyle ||| Bold), currentColor)
    else if found = "i".toList then (quint8 (currentStyle ||| Italic), currentColor)
    else if found = "u".toList then (quint8 (currentStyle ||| Underline), currentColor)
    else if found = "s".toList then (quint8 (currentStyle ||| StrikeThrough), currentColor)
    else if found = "font".toList then
      let color := capturedText string m 4
      if ¬ color.isEmpty then
        (quint8 (currentStyle ||| Color), setNamedColor (color.map Char.toLower))
      else (currentStyle, currentColor)
    else if found = "/b".toList then (quint8 (currentStyle &&& bitNot Bold), currentColor)
    else if found = "/i".toList then (quint8 (currentStyle &&& bitNot Italic), currentColor)
    else if found = "/u".toList then (quint8 (currentStyle &&& bitNot Underline), currentColor)
    else if found = "/s".toList then
      (quint8 (currentStyle &&& bitNot StrikeThrough), currentColor)
    else if found = "/font".toList then (quint8 (currentStyle &&& bitNot Color), none)
    else (currentStyle, currentColor)
  let token := qMid string acc.offsetPos (matchedPos - acc.offsetPos)
  { string := acc.string.append (ofString token currentStyle (colorRgb currentColor))
    currentStyle := new.1
    currentColor := new.2
    offsetPos := m.capturedEnd
    matchedPos := matchedPos }

/-- `SString::setRichString(const QStringRef &string)`; `regExp` is the compiled
`tagRegExp`. -/
def setRichString (s : SString) (regExp : QRegularExpression) (string : List Char) : SString :=
  let found := regExp.globalMatch string
  let acc0 : RichParse :=
    { string := s.clear, currentStyle := 0, currentColor := none, offsetPos := 0,
      matchedPos := -1 }
  let acc := found.foldl (setRichStringStep string) acc0
  let token := qMid string acc.offsetPos (acc.matchedPos - acc.offsetPos)
  acc.string.append (ofString token acc.currentStyle (colorRgb acc.currentColor))

end SString

/-! ### The tag pattern

The pattern of `setRichString` is
`<(/?([bius]|font))[^>]*(\s+color="?([\w#]+)"?)?[^>]*>`, case-insensitive.  A match starts at
a `<` that a tag name follows and ends at the first `>` after it.  The greedy `[^>]*` after
the name runs up to that `>`, where the optional group 3 matches nothing and the pattern
succeeds at once: the groups 3 and 4 never take part in a match. -/

/-- The length of group 1 when the pattern matches at a `<` that `t` follows: an optional
`/` and one of the names `b`, `i`, `u`, `s`, `font` in either case. -/
def tagNameLength (t : List Char) : Option Nat :=
  match t with
  | '/' :: c :: r =>
    if c.toLower = 'b' ∨ c.toLower = 'i' ∨ c.toLower = 'u' ∨ c.toLower = 's' then some 2
    else if startsWith .CaseInsensitive "font".toList (c :: r) then some 5
    else none
  | c :: r =>
    if c.toLower = 'b' ∨ c.toLower = 'i' ∨ c.toLower = 'u' ∨ c.toLower = 's' then some 1
    else if startsWith .CaseInsensitive "font".toList (c :: r) then some 4
    else none
  | [] => none

/-- The matches of the tag pattern in the text `t`, whose first character has the index
`pos`; the first `skip` characters belong to the match before. -/
def tagScan : List Char → Nat → Nat → List QRegularExpressionMatch
  | [], _, _ => []
  | _ :: t, pos, skip + 1 => tagScan t (pos + 1) skip
  | c :: t, pos, 0 =>
    if c = '<' then
      match tagNameLength t with
      | none => tagScan t (pos + 1) 0
      | some n =>
        match (t.drop n).indexOf? '>' with
        | none => tagScan t (pos + 1) 0
        | some k =>
          let slash : Nat := if t.head? = some '/' then 1 else 0
          { captured := [((pos : Int), ((n + k + 2 : Nat) : Int)), ((pos : Int) + 1, (n : Int)),
              ((pos : Int) + 1 + slash, (n : Int) - slash)] }
            :: tagScan t (pos + 1) (n + k + 1)
    else tagScan t (pos + 1) 0

/-- The compiled `tagRegExp` of `setRichString`. -/
def tagRegExp : QRegularExpression where
  isValid := true
  captureCount := 4
  globalMatch := fun str => tagScan str 0 0

/-! ## Slices -/

/-- `QString::left(n)`: the whole string when `n` is negative or not below the size. -/
def qLeft (t : List Char) (n : Int) : List Char :=
  if n < 0 ∨ n ≥ t.length then t else t.take n.toNat

/-- `QString::right(n)`: the whole string when `n` is negative or not below the size. -/
def qRight (t : List Char) (n : Int) : List Char :=
  if n < 0 ∨ n ≥ t.length then t else t.drop (t.length - n.toNat)

/-- `QString::truncate(position)`; a negative position counts as 0 and a position beyond the
end does nothing. -/
def qTruncate (t : List Char) (position : Int) : List Char :=
  if position < 0 then [] else t.take position.toNat

namespace SString

/-- Modelled from the spec: `SString::operator=(const QString &string)` of `core/sstring.h`
(the header is not part of the sources at hand).  The text is replaced and the style array is
resized to the length of the new text; the runs of the positions that remain are kept, as the
spec requires of the case transforms, which assign the folded text this way. -/
def assignString (s : SString) (string : List Char) : SString :=
  { text := string
    m_style := s.m_style.replace (min s.m_style.m_length string.length)
      (s.m_style.m_length - min s.m_style.m_length string.length)
      (string.length - min s.m_style.m_length string.length) }

/-- Modelled from the spec: `SString::truncate(int size)` of `core/sstring.h` (the header is
not part of the sources at hand): both buffers are cut to `size` elements, a negative `size`
counting as 0. -/
def truncate (s : SString) (size : Int) : SString :=
  if size < s.length then
    { text := qTruncate s.text size
      m_style := s.m_style.replace size.toNat (s.m_style.m_length - size.toNat) 0 }
  else s

/-- `SString::left(int len)`; `SString ret;` is the string built from the default arguments
of the constructor. -/
def left (s : SString) (len : Int) : SString :=
  let len := s.lengthAt 0 len
  let ret := (ofString [] 0 0).assignString (qLeft s.text len)
  { ret with m_style := ret.m_style.copy 0 len.toNat s.m_style 0 }

/-- `SString::right(int len)`. -/
def right (s : SString) (len : Int) : SString :=
  let len := s.lengthAt 0 len
  let ret := (ofString [] 0 0).assignString (qRight s.text len)
  { ret with m_style := ret.m_style.copy 0 len.toNat s.m_style (s.length - len).toNat }

/-- `SString::mid(int index, int len)`. -/
def mid (s : SString) (index len : Int) : SString :=
  let len1 := if index < 0 ∧ len ≥ 0 then len + index else len
  let index1 := if index < 0 then 0 else index
  if index1 ≥ s.length then ofString [] 0 0
  else
    let len2 := s.lengthAt index1 len1
    let ret := (ofString [] 0 0).assignString (qMid s.text index1 len2)
    { ret with m_style := ret.m_style.copy 0 len2.toNat s.m_style index1.toNat }

end SString

/-! ## Case transforms

`QChar::toUpper`, `QChar::toLower`, `QChar::isLetterOrNumber` and `QChar::isSpace` are given on
the ASCII characters; `isSpace` also knows the two other separators of Latin-1. -/

/-- `QString::toLower()`. -/
def qToLower (t : List Char) : List Char := t.map Char.toLower

/-- `QChar::isLetterOrNumber()`. -/
def isLetterOrNumber (c : Char) : Bool := c.isAlphanum

/-- `QChar::isSpace()`: the space, the characters from tab to carriage return, next line and
the no-break space. -/
def isSpace (c : Char) : Bool :=
  c.toNat = 32 || (9 ≤ c.toNat && c.toNat ≤ 13) || c.toNat = 133 || c.toNat = 160

/-- The constant `wordSeparators` of `toTitleCase`. -/
def wordSeparators : List Char := " -_([:,;./\\\t\n\"".toList

/-- The loop of `toTitleCase` over the characters that remain, with the value of
`wordStart`. -/
def titleCaseLoop : List Char → Bool → List Char
  | [], _ => []
  | chr :: rest, wordStart =>
    if wordStart then
      if ¬ wordSeparators.contains chr then chr.toUpper :: titleCaseLoop rest false
      else chr :: titleCaseLoop rest true
    else if wordSeparators.contains chr then chr :: titleCaseLoop rest true
    else chr :: titleCaseLoop rest false

/-- The constant `sentenceEndChars` of `toSentenceCase`. -/
def sentenceEndChars : List Char := ".?!".toList

/-- The loop of `toSentenceCase` over the characters that remain, with the values of
`prevDots` and `startSentence`: the characters written and the two values after the loop.
`prevDots` counts characters of the string, so the `uint` does not wrap. -/
def sentenceCaseLoop : List Char → Nat → Bool → List Char × Nat × Bool
  | [], prevDots, startSentence => ([], prevDots, startSentence)
  | chr :: rest, prevDots, startSentence =>
    if sentenceEndChars.contains chr then
      if chr = '.' then
        (chr :: (sentenceCaseLoop rest (prevDots + 1) (decide (prevDots + 1 < 3))).1,
          (sentenceCaseLoop rest (prevDots + 1) (decide (prevDots + 1 < 3))).2)
      else
        (chr :: (sentenceCaseLoop rest 0 true).1, (sentenceCaseLoop rest 0 true).2)
    else
      let upper := startSentence && isLetterOrNumber chr
      let chr1 := if upper then chr.toUpper else chr
      let startSentence1 := if upper then false else startSentence
      let prevDots1 := if ¬ isSpace chr1 then 0 else prevDots
      (chr1 :: (sentenceCaseLoop rest prevDots1 startSentence1).1,
        (sentenceCaseLoop rest prevDots1 startSentence1).2)

namespace SString

/-- `SString::toTitleCase(bool lowerFirst)`; the loop runs over the characters of `ret`, which
has the length of the string. -/
def toTitleCase (s : SString) (lowerFirst : Bool) : SString :=
  let ret := ofCopy s
  let ret1 := if lowerFirst then ret.assignString (qToLower s.text) else ret
  { ret1 with text := titleCaseLoop ret1.text true }

/-- `SString::toSentenceCase(bool lowerFirst, bool *cont)`; `cont` is `none` for the null
pointer, and the second component of the result is the value of `*cont` after the call. -/
def toSentenceCase (s : SString) (lowerFirst : Bool) (cont : Option Bool) :
    SString × Option Bool :=
  let ret := ofCopy s
  let ret1 := if lowerFirst then ret.assignString (qToLower s.text) else ret
  if s.text.isEmpty then (ret1, cont)
  else
    let startSentence := match cont with
      | some c => !c
      | none => true
    let r := sentenceCaseLoop ret1.text 0 startSentence
    ({ ret1 with text := r.1 }, cont.map fun _ => decide (r.2.1 ≠ 1) && !r.2.2)

end SString

/-! ## Whitespace simplification -/

/-- `QString::at(i)` for an index inside the string. -/
def qAt (t : List Char) (i : Int) : Char := t.getD i.toNat (Char.ofNat 0)

/-- The assignment `text[i] = c` for an index inside the string. -/
def qSet (t : List Char) (i : Int) (c : Char) : List Char := t.set i.toNat c

/-- The local variables of the static `SString::simplifyWhiteSpace(QString &text)`. -/
structure SimplifyState where
  text : List Char
  di : Int
  lastWasSpace : Bool
  lastWasLineFeed : Bool
deriving DecidableEq, Repr

/-- One pass of the loop of the static `simplifyWhiteSpace` for the index `i`. -/
def simplifyStep (st : SimplifyState) (i : Nat) : SimplifyState :=
  let ch := qAt st.text i
  if st.lastWasSpace ∧ (ch = ' ' ∨ ch = '\t') then st
  else if st.lastWasLineFeed ∧ (ch = '\n' ∨ ch = '\r') then st
  else
    let di := if st.lastWasSpace ∧ (ch = '\n' ∨ ch = '\r') then st.di - 1 else st.di
    let text :=
      if ch = '\t' then qSet st.text di ' '
      else if ch = '\r' then qSet st.text di '\n'
      else if di ≠ i then qSet st.text di ch
      else st.text
    { text := text
      di := di + 1
      lastWasLineFeed := decide (qAt text di = '\n')
      lastWasSpace := decide (qAt text di = '\n') || decide (qAt text di = ' ') }

/-- The static `SString::simplifyWhiteSpace(QString &text)`: the text after the call. -/
def qSimplifyWhiteSpace (text : List Char) : List Char :=
  let st := (List.range text.length).foldl simplifyStep
    { text := text, di := 0, lastWasSpace := true, lastWasLineFeed := true }
  qTruncate st.text (if st.lastWasLineFeed then st.di - 1 else st.di)

/-- The local variables of the member `SString::simplifyWhiteSpace()`, with the string. -/
structure SimplifyStyledState where
  string : SString
  di : Int
  lastWasSpace : Bool
  lastWasLineFeed : Bool
deriving DecidableEq, Repr

namespace SString

/-- One pass of the loop of the member `simplifyWhiteSpace` for the index `i`. -/
def simplifyStep (st : SimplifyStyledState) (i : Nat) : SimplifyStyledState :=
  let ch := qAt st.string.text i
  if st.lastWasSpace ∧ (ch = ' ' ∨ ch = '\t') then st
  else if st.lastWasLineFeed ∧ (ch = '\n' ∨ ch = '\r') then st
  else
    let di := if st.lastWasSpace ∧ (ch = '\n' ∨ ch = '\r') then st.di - 1 else st.di
    let text :=
      if ch = '\t' then qSet st.string.text di ' '
      else if ch = '\r' then qSet st.string.text di '\n'
      else if di ≠ i then qSet st.string.text di ch
      else st.string.text
    let style :=
      if di ≠ i then st.string.m_style.copy di.toNat 1 st.string.m_style i
      else st.string.m_style
    { string := { text := text, m_style := style }
      di := di + 1
      lastWasLineFeed := decide (qAt text di = '\n')
      lastWasSpace := decide (qAt text di = '\n') || decide (qAt text di = ' ') }

/-- The member `SString::simplifyWhiteSpace()`: the string after the call. -/
def simplifyWhiteSpace (s : SString) : SString :=
  let st := (List.range s.text.length).foldl simplifyStep
    { string := s, di := 0, lastWasSpace := true, lastWasLineFeed := true }
  st.string.truncate (if st.lastWasLineFeed then st.di - 1 else st.di)

end SString

/-! ### Specification-side vocabulary for the whitespace simplification -/

/-- What a character that survives the simplification is written as. -/
def simplifiedChar (c : Char) : Char :=
  if c = '\t' then ' ' else if c = '\r' then '\n' else c

/-- The positions of the input whose characters survive so far, in the order of the output,
with the two flags of the scan. -/
structure SourceState where
  sources : List Nat
  lastWasSpace : Bool
  lastWasLineFeed : Bool
deriving DecidableEq, Repr

/-- The scan of the input position `i`: a space after a space and a line break after a line
break are dropped; a line break after a space takes the place of that space. -/
def sourceStep (text : List Char) (st : SourceState) (i : Nat) : SourceState :=
  let ch := qAt text i
  if st.lastWasSpace ∧ (ch = ' ' ∨ ch = '\t') then st
  else if st.lastWasLineFeed ∧ (ch = '\n' ∨ ch = '\r') then st
  else
    { sources := (if st.lastWasSpace ∧ (ch = '\n' ∨ ch = '\r') then st.sources.dropLast
        else st.sources) ++ [i]
      lastWasLineFeed := decide (simplifiedChar ch = '\n')
      lastWasSpace := decide (simplifiedChar ch = '\n') || decide (simplifiedChar ch = ' ') }

/-- For every position of the output of the simplification, the input position whose
character was copied or converted there. -/
def simplifySources (text : List Char) : List Nat :=
  let st := (List.range text.length).foldl (sourceStep text)
    { sources := [], lastWasSpace := true, lastWasLineFeed := true }
  if st.lastWasLineFeed then st.sources.dropLast else st.sources

/-- The expression `QRegExp("(?=b)")`, a lookahead: it matches the empty string in front of
the first `b` at or after the offset. -/
def beforeB : QRegExp where
  isValid := true
  captureCount := 0
  indexIn := fun str offset _ =>
    if 0 ≤ offset ∧ offset ≤ str.length then
      match (str.drop offset.toNat).indexOf? 'b' with
      | some k => some { matchedIndex := offset + k, matchedLength := 0,
                         caps := [(offset + k, 0)] }
      | none => none
    else none

/-! ### Specification-side vocabulary for the span lists -/

/-- The sum of the lengths of the spans of a list. -/
def SSHelper.spansLength (l : SSHelper.MatchRefList) : Int :=
  (l.map SSHelper.MatchRef.length).sum

/-- A span list ends with its only terminator, which holds the subject length and the sum of
the lengths of the spans before it. -/
def SSHelper.EndsWithTerminator (strLength : Int) (l : SSHelper.MatchRefList) : Prop :=
  ∃ spans, l = spans ++ [{ offset := strLength, length := SSHelper.spansLength spans,
                           ref := .NONE }] ∧
    ∀ m ∈ spans, m.ref ≠ .NONE

/-- The text with every `<` replaced by `&lt;` and every `>` replaced by `&gt;`. -/
def escapedText (t : List Char) : List Char :=
  t.flatMap fun c =>
    if c = '<' then "&lt;".toList else if c = '>' then "&gt;".toList else [c]

/-- The separator set that the spec gives for the title case: space, dash, underscore, the
two parentheses, colon, comma, semicolon, slash, backslash, tab, newline, double quote. -/
def specSeparators : List Char := " -_():,;/\\\t\n\"".toList

/-- The characters at which a word starts: the title case of the text `t` for a separator
set, written from the spec: a character that is not a separator is upper-cased when it is
the first one or follows a separator. -/
def titleCaseSpec (seps : List Char) (t : List Char) : List Char :=
  (List.range t.length).map fun i =>
    if ¬ seps.contains (t.getD i ' ') ∧ (i = 0 ∨ seps.contains (t.getD (i - 1) ' ')) then
      (t.getD i ' ').toUpper
    else t.getD i ' '

/-- The lower-case letters of which the words of the sentence-case examples are made. -/
def lowercaseLetters : List Char := "abcdefghijklmnopqrstuvwxyz".toList

/-- A text with its first character upper-cased. -/
def capitalized : List Char → List Char
  | [] => []
  | c :: t => c.toUpper :: t

/-- The invariant of the regular-expression matchers: `newLength` is the sum of the lengths of
the spans pushed so far, none of which is a terminator. -/
def SSHelper.MatchState.Counted (st : SSHelper.MatchState) : Prop :=
  st.newLength = SSHelper.spansLength st.matchList ∧ ∀ m ∈ st.matchList, m.ref ≠ .NONE

/-- The invariant that ties the loop of the member `simplifyWhiteSpace` on the string `s`,
after the indices below `n`, to the scan of the source positions: `di` is the number of
surviving characters, the characters and style runs from `n` on are still those of `s`, and
every position below `di` holds the converted character and the style run of its source. -/
structure SString.SimplifyInv (s : SString) (n : Nat) (st : SimplifyStyledState)
    (tr : SourceState) : Prop where
  di_eq : st.di = tr.sources.length
  space_eq : st.lastWasSpace = tr.lastWasSpace
  lineFeed_eq : st.lastWasLineFeed = tr.lastWasLineFeed
  text_length : st.string.text.length = s.text.length
  sized : st.string.m_style.Sized
  capacity_eq : st.string.m_style.m_capacity = s.m_style.m_capacity
  length_eq : st.string.m_style.m_length = s.m_style.m_length
  rest_eq : ∀ j, n ≤ j →
    st.string.text.getD j (Char.ofNat 0) = s.text.getD j (Char.ofNat 0) ∧
    st.string.m_style.run j = s.m_style.run j
  written : ∀ d, d < tr.sources.length →
    st.string.text.getD d (Char.ofNat 0)
      = simplifiedChar (s.text.getD (tr.sources.getD d 0) (Char.ofNat 0)) ∧
    st.string.m_style.run d = s.m_style.run (tr.sources.getD d 0)
  sources_lt : ∀ x ∈ tr.sources, x < n
  sources_length : tr.sources.length ≤ n
  sources_sorted : tr.sources.Pairwise (· < ·)
  initial : tr.sources = [] → tr.lastWasSpace = true ∧ tr.lastWasLineFeed = true

/-! ## Further entry points and vocabulary -/

/-! ### The back-reference pre-scan, pass by pass -/

namespace SSHelper

/-- One pass of the loop `while(repChar != repEnd)` of the back-reference pre-scan, entered
with the read position `pos` (the index `repChar - replacement.unicode()`) inside the
template `t`, that is `pos < t.length`.  Reading at the index `t.length` gives the NUL that
terminates a `QString`; a pass that starts inside the template reads no further.  The
result is the read position after the pass and the back-references that the pass records. -/
def preScanPass (capCount : Int) (t : List Char) (pos : Nat) : Nat × List BackRef :=
  let c := t.getD pos (Char.ofNat 0)
  let pos1 := pos + 1
  if c ≠ '\\' then (pos1, [])
  else
    let no := digitValue (t.getD pos1 (Char.ofNat 0))
    let pos2 := pos1 + 1
    if no ≥ 0 ∧ no ≤ capCount then
      let start : Int := (pos2 : Int) - 2
      if pos2 ≠ t.length then
        let secondDigit := digitValue (t.getD pos2 (Char.ofNat 0))
        let nn := no * 10 + secondDigit
        if secondDigit ≠ -1 ∧ nn ≤ capCount then
          (pos2 + 1, [{ start := start, «end» := ((pos2 + 1 : Nat) : Int), no := nn }])
        else (pos2, [{ start := start, «end» := (pos2 : Int), no := no }])
      else (pos2, [{ start := start, «end» := (pos2 : Int), no := no }])
    else (pos2, [])

end SSHelper

/-! ### Specification-side vocabulary for the back-reference pre-scan -/

/-- The number of consecutive backslashes of the template `t` that end right before the
position `p`. -/
def backslashesBefore (t : List Char) : Nat → Nat
  | 0 => 0
  | p + 1 => if t.getD p ' ' = '\\' then backslashesBefore t p + 1 else 0

/-- Whether the template `t` has at the position `p` a backslash followed by a digit that is
at most `capCount`. -/
def backslashDigitAt (capCount : Int) (t : List Char) (p : Nat) : Bool :=
  decide (t.getD p ' ' = '\\' ∧ 0 ≤ digitValue (t.getD (p + 1) ' ') ∧
    digitValue (t.getD (p + 1) ' ') ≤ capCount)

/-- Whether the template `t` has at the position `p` a backslash followed by a digit that is
at most `capCount`, the backslash having an even number of backslashes right before it. -/
def startsBackRef (capCount : Int) (t : List Char) (p : Nat) : Bool :=
  backslashDigitAt capCount t p && decide (backslashesBefore t p % 2 = 0)

/-- The back-reference that starts with the backslash at the position `p` of the template
`t`: the group of two digits with a range of three characters when a second digit follows
and the number of two digits is at most `capCount`, else the group of one digit with a
range of two characters. -/
def backRefAt (capCount : Int) (t : List Char) (p : Nat) : SSHelper.BackRef :=
  let d1 := digitValue (t.getD (p + 1) ' ')
  let d2 := digitValue (t.getD (p + 2) ' ')
  if d2 ≠ -1 ∧ 10 * d1 + d2 ≤ capCount then
    { start := p, «end» := (p : Int) + 3, no := 10 * d1 + d2 }
  else { start := p, «end» := (p : Int) + 2, no := d1 }

/-- The back-references of every backslash followed by a digit that is at most `capCount`, in
the order of the template. -/
def backRefsOfEveryBackslash (capCount : Int) (t : List Char) : List SSHelper.BackRef :=
  ((List.range t.length).filter (backslashDigitAt capCount t)).map (backRefAt capCount t)

/-- The back-references of the backslashes followed by a digit that is at most `capCount`
and preceded by an even number of backslashes, in the order of the template. -/
def backRefsOfFreeBackslashes (capCount : Int) (t : List Char) : List SSHelper.BackRef :=
  ((List.range t.length).filter (startsBackRef capCount t)).map (backRefAt capCount t)

/-- Whether the template `t` ends with a backslash that has an even number of backslashes
right before it. -/
def endsWithFreeBackslash (t : List Char) : Bool :=
  decide (t ≠ [] ∧ t.getD (t.length - 1) ' ' = '\\' ∧
    backslashesBefore t (t.length - 1) % 2 = 0)

/-! ### Splitting -/

/-- `QString::SplitBehavior`. -/
inductive SplitBehavior where
  | KeepEmptyParts
  | SkipEmptyParts
deriving DecidableEq, Repr

namespace SString

/-- The loop `for(;;)` of `SString::split` for a separator `sep` of `sepLength` characters,
from the offset `off` with the list `ret`; `ret << x` appends a copy of `x`.  It returns the
final `off` and the list, and `none` when the fuel does not suffice. -/
def splitLoop (s : SString) (sep : List Char) (sepLength : Nat) (behavior : SplitBehavior)
    (cs : CaseSensitivity) : Nat → Nat → List SString → Option (Nat × List SString)
  | 0, _, _ => none
  | fuel + 1, off, ret =>
    match qIndexOf s.text sep off cs with
    | none => some (off, ret)
    | some matchedIndex =>
      let ret1 := if behavior = .KeepEmptyParts ∨ matchedIndex ≠ off then
          ret ++ [ofCopy (s.mid off ((matchedIndex : Int) - off))]
        else ret
      splitLoop s sep sepLength behavior cs fuel (matchedIndex + sepLength) ret1

/-- `SString::split(const QString &sep, QString::SplitBehavior behavior,
Qt::CaseSensitivity cs)`; the call `mid(off)` has the default length `-1` of the
declaration, which stands for the rest of the string.  Every pass of the loop moves `off`
forward, so `length() + 1` passes suffice. -/
def split (s : SString) (sep : List Char) (behavior : SplitBehavior) (cs : CaseSensitivity) :
    Option (List SString) :=
  if sep.length ≠ 0 then
    match splitLoop s sep sep.length behavior cs (s.text.length + 1) 0 [] with
    | none => none
    | some (off, ret) =>
      if behavior = .KeepEmptyParts ∨ (off : Int) < s.length - 1 then
        some (ret ++ [ofCopy (s.mid off (-1))])
      else some ret
  else if behavior = .KeepEmptyParts ∨ s.length ≠ 0 then some [ofCopy s]
  else some []

/-- `SString::split(const QChar &sep, QString::SplitBehavior behavior,
Qt::CaseSensitivity cs)`; `indexOf(sep, off, cs)` looks for the one character. -/
def splitChar (s : SString) (sep : Char) (behavior : SplitBehavior) (cs : CaseSensitivity) :
    Option (List SString) :=
  match splitLoop s [sep] 1 behavior cs (s.text.length + 1) 0 [] with
  | none => none
  | some (off, ret) =>
    if behavior = .KeepEmptyParts ∨ (off : Int) < s.length - 1 then
      some (ret ++ [ofCopy (s.mid off (-1))])
    else some ret

/-- `SString::replace(const QString &before, const SString &after, Qt::CaseSensitivity cs)`.
`none` when the matcher runs out of fuel. -/
def replaceLiteralStyled (s : SString) (before : List Char) (after : SString)
    (cs : CaseSensitivity) : Option SString :=
  if before.isEmpty ∧ after.text.isEmpty then some s
  else
    match SSHelper.matchLiteral s before (.styled after) cs with
    | none => none
    | some matchList =>
      if matchList ≠ [] then some (SSHelper.replace matchList s (.styled after)) else some s

/-- `SString::replace(QChar ch, const SString &after, Qt::CaseSensitivity cs)`; the matcher
receives `ch` converted to a one-character `QString`.  `none` when the matcher runs out of
fuel. -/
def replaceCharStyled (s : SString) (ch : Char) (after : SString) (cs : CaseSensitivity) :
    Option SString :=
  match SSHelper.matchLiteral s [ch] (.styled after) cs with
  | none => none
  | some matchList =>
    if matchList ≠ [] then some (SSHelper.replace matchList s (.styled after)) else some s

end SString

/-! ### Specification-side vocabulary for the markup, the simplified text and the replace
without a match -/

/-- The number of positions of `t` at which `p` occurs. -/
def countOccurrences (p : List Char) : List Char → Nat
  | [] => 0
  | c :: t => (if p.isPrefixOf (c :: t) then 1 else 0) + countOccurrences p t

/-- The pairs of neighbours that a simplified text does not contain: two spaces, two line
feeds, a space before a line feed, and a space after a line feed. -/
def SimplifiedPair (a b : Char) : Prop :=
  ¬ (a = ' ' ∧ b = ' ') ∧ ¬ (a = '\n' ∧ b = '\n') ∧ ¬ (a = ' ' ∧ b = '\n') ∧
    ¬ (a = '\n' ∧ b = ' ')

/-- The text `out` written so far by the simplification is simplified, and the two flags of
the scan describe its last character. -/
def SimplifiedSoFar (out : List Char) (lastWasSpace lastWasLineFeed : Bool) : Prop :=
  out.Chain' SimplifiedPair ∧ (∀ c ∈ out, c ≠ '\t' ∧ c ≠ '\r') ∧
  (∀ c ∈ out.head?, c ≠ ' ' ∧ c ≠ '\n') ∧
  (out = [] → lastWasSpace = true ∧ lastWasLineFeed = true) ∧
  (∀ c ∈ out.getLast?, lastWasLineFeed = decide (c = '\n') ∧
    lastWasSpace = (decide (c = '\n') || decide (c = ' ')))

/-- The string `r` has the text of `s` and, at every position, the style run of `s`. -/
def SameTextAndRuns (s r : SString) : Prop :=
  r.text = s.text ∧ ∀ i, i < s.text.length → r.run i = s.run i

/-! ### Specification-side vocabulary for the copies of a literal replace -/

namespace SSHelper

/-- The number of subject characters that a span of a literal replace stands for: its length
for a subject span, the length of the target for a replacement span. -/
def MatchRef.consumed (beforeLength : Nat) (md : MatchRef) : Int :=
  match md.ref with
  | .SUBJECT => md.length
  | .REPLACEMENT => beforeLength
  | .NONE => 0

/-- The subject position reached after the spans `l` of a literal replace. -/
def subjectPosition (beforeLength : Nat) (l : MatchRefList) : Int :=
  (l.map (MatchRef.consumed beforeLength)).sum

/-- The number of replacement spans at the end of `l`: the matches right before the position
reached, each of which starts where the one before it ends. -/
def adjacentMatches (l : MatchRefList) : Nat :=
  (l.reverse.takeWhile fun md => decide (md.ref = .REPLACEMENT)).length

/-- What the literal matcher guarantees for a replacement span `md` that follows the spans
`pre`: it is the whole replacement, the target occurs at the subject position reached, and
the style cursor stands at the start of the adjacent matches that end there. -/
def CopyAt (str before : List Char) (afterLength : Nat) (cs : CaseSensitivity)
    (pre : MatchRefList) (md : MatchRef) : Prop :=
  md.length = afterLength ∧ md.offset = 0 ∧ 0 ≤ subjectPosition before.length pre ∧
  subjectPosition before.length pre + before.length ≤ str.length ∧
  startsWith cs before (str.drop (subjectPosition before.length pre).toNat) = true ∧
  subjectEnd pre 0 + adjacentMatches pre * before.length = subjectPosition before.length pre

/-- The invariant of the loop of the literal matcher, for the spans `acc` pushed so far and
the offset `off`. -/
structure LiteralInv (str before : List Char) (afterLength : Nat) (cs : CaseSensitivity)
    (acc : MatchRefList) (off : Nat) : Prop where
  off_le : off ≤ str.length
  position : subjectPosition before.length acc = off
  cursor : subjectEnd acc 0 + adjacentMatches acc * before.length = off
  spans : ∀ m ∈ acc, m.InRange str.length afterLength ∧ m.ref ≠ .NONE
  copies : ∀ pre md post, acc = pre ++ md :: post → md.ref = .REPLACEMENT →
    CopyAt str before afterLength cs pre md

end SSHelper

/-- Two runs have the same style: the same flags and, when the `Color` flag is set, the same
color. -/
def SameStyle (a b : Nat × Nat) : Prop :=
  a.1 = b.1 ∧ (hasFlags a Color = true → a.2 = b.2)

/-! ### The continuation flag of the sentence case, read from the end of the chunk -/

/-- Specification side: the number of dots at the end of the text `t`, the dots being counted
backwards from the end for as long as only dots and white space are met; `before` is the same
number for what precedes `t`, and it counts only when `t` has nothing but dots and white
space. -/
def dotsAtEnd (t : List Char) (before : Nat) : Nat :=
  (t.reverse.takeWhile fun c => c = '.' || isSpace c).count '.' +
    (if t.all (fun c => c = '.' || isSpace c) then before else 0)

/-- Specification side: whether a capital is awaited after the text `t`.  The last character
of `t` that is a terminator (`.`, `?`, `!`) or a letter or digit decides: after `?` or `!` a
capital is awaited, after a dot it is awaited when fewer than three dots end the text up to
that dot, and after a letter or digit it is not.  A text with no such character leaves
`awaitedBefore`, what was awaited before it. -/
def awaitsCapitalAfter (t : List Char) (dotsBefore : Nat) (awaitedBefore : Bool) : Bool :=
  match t.reverse.dropWhile (fun c => !sentenceEndChars.contains c && !isLetterOrNumber c) with
  | [] => awaitedBefore
  | c :: earlier =>
    if c = '.' then decide (dotsAtEnd (c :: earlier).reverse dotsBefore < 3)
    else decide (c = '?' ∨ c = '!')

/-! # Theorems -/

/-! ## Raw buffers -/

theorem newBuffer_length (n : Nat) : (newBuffer n).length = n := by
  simp [newBuffer]

theorem memcpy_length (dst : Buffer) (d : Nat) (src : Buffer) (s n : Nat) :
    (memcpy dst d src s n).length = dst.length := by
  simp [memcpy]

theorem memset_n_length (dest : Buffer) (d : Nat) (v : Cell) (n : Nat) :
    (memset_n dest d v n).length = dest.length := by
  simp [memset_n]

theorem cell_of_length_le (buf : Buffer) (i : Nat) (h : buf.length ≤ i) : cell buf i = none := by
  simp [cell, List.getElem?_eq_none h]

theorem cell_nil (i : Nat) : cell [] i = none := by
  simp [cell]

theorem cell_newBuffer (n i : Nat) : cell (newBuffer n) i = none := by
  unfold cell newBuffer
  by_cases h : i < n
  · simp [List.getElem?_replicate, h]
  · simp [List.getElem?_replicate, h]

theorem cell_memcpy (dst : Buffer) (d : Nat) (src : Buffer) (s n i : Nat) :
    cell (memcpy dst d src s n) i =
      if d ≤ i ∧ i < d + n ∧ i < dst.length then cell src (i - d + s) else cell dst i := by
  by_cases h : i < dst.length
  · simp [cell, memcpy, List.getElem?_map, List.getElem?_range, h]
  · have h1 : cell dst i = none := cell_of_length_le _ _ (by omega)
    have h2 : cell (memcpy dst d src s n) i = none :=
      cell_of_length_le _ _ (by rw [memcpy_length]; omega)
    simp [h, h1, h2]

theorem cell_memset_n (dest : Buffer) (d : Nat) (v : Cell) (n i : Nat) :
    cell (memset_n dest d v n) i =
      if d ≤ i ∧ i < d + n ∧ i < dest.length then v else cell dest i := by
  by_cases h : i < dest.length
  · simp [cell, memset_n, List.getElem?_map, List.getElem?_range, h]
  · have h1 : cell dest i = none := cell_of_length_le _ _ (by omega)
    have h2 : cell (memset_n dest d v n) i = none :=
      cell_of_length_le _ _ (by rw [memset_n_length]; omega)
    simp [h, h1, h2]
/-! ## `SStringStyle` -/

namespace SStringStyle

theorem updateCapacity_length (st : SStringStyle) :
    st.updateCapacity.m_length = st.m_length := by
  unfold updateCapacity
  simp only []
  split_ifs <;> rfl

theorem updateCapacity_wf (st : SStringStyle) (h : st.Sized) : st.updateCapacity.WF := by
  obtain ⟨h1, h2⟩ := h
  unfold updateCapacity WF Sized
  simp only []
  split_ifs <;> simp_all [newBuffer] <;> omega

/-- On a detached object `updateCapacity` allocates `2 * m_length` fresh cells. -/
theorem updateCapacity_fresh (st : SStringStyle) (hf : st.m_styleFlags = [])
    (hc : st.m_styleColors = []) (h0 : st.m_capacity = 0) :
    st.updateCapacity =
      { m_styleFlags := newBuffer (st.m_length * 2), m_styleColors := newBuffer (st.m_length * 2),
        m_length := st.m_length, m_capacity := st.m_length * 2 } := by
  cases st with
  | mk f c l cap =>
    simp only at hf hc h0
    subst hf hc h0
    unfold updateCapacity
    by_cases hl : l = 0
    · subst hl; simp [newBuffer]
    · have : l > 0 := Nat.pos_of_ne_zero hl
      simp [this, hl]

theorem replace_eq (st : SStringStyle) (index lenRemove lenAdd : Nat) :
    st.replace index lenRemove lenAdd =
      { m_styleFlags := resized st.m_styleFlags st.m_length index lenRemove lenAdd
        m_styleColors := resized st.m_styleColors st.m_length index lenRemove lenAdd
        m_length := st.m_length + lenAdd - lenRemove
        m_capacity := (st.m_length + lenAdd - lenRemove) * 2 } := by
  unfold replace resized
  simp only []
  rw [updateCapacity_fresh _ (by simp [detach]) (by simp [detach]) (by simp [detach])]
  simp only [detach]
  split_ifs <;> rfl

theorem resized_length (old : Buffer) (m_length index lenRemove lenAdd : Nat) :
    (resized old m_length index lenRemove lenAdd).length = (m_length + lenAdd - lenRemove) * 2 := by
  unfold resized
  simp only []
  split_ifs <;> simp [memcpy_length, newBuffer_length]

theorem cell_resized (old : Buffer) (m_length index lenRemove lenAdd i : Nat)
    (h : index + lenRemove ≤ m_length) :
    cell (resized old m_length index lenRemove lenAdd) i =
      if i < index then cell old i
      else if index + lenAdd ≤ i ∧ i < m_length + lenAdd - lenRemove then
        cell old (i - lenAdd + lenRemove)
      else none := by
  unfold resized
  simp only []
  by_cases h1 : i < index
  · have e1 : index ≠ 0 := by omega
    have e2 : i < (m_length + lenAdd - lenRemove) * 2 := by omega
    have e3 : ¬ (index + lenAdd ≤ i) := by omega
    by_cases ht : m_length - index - lenRemove ≠ 0
    · simp [cell_memcpy, memcpy_length, newBuffer_length, cell_newBuffer, h1, e1, e2, e3, ht]
    · simp [cell_memcpy, memcpy_length, newBuffer_length, cell_newBuffer, h1, e1, e2, ht]
  · by_cases h2 : index + lenAdd ≤ i ∧ i < m_length + lenAdd - lenRemove
    · have ht : m_length - index - lenRemove ≠ 0 := by omega
      have e2 : i < (m_length + lenAdd - lenRemove) * 2 := by omega
      have e4 : i < index + lenAdd + (m_length - index - lenRemove) := by omega
      have e5 : i - (index + lenAdd) + (index + lenRemove) = i - lenAdd + lenRemove := by omega
      by_cases e1 : index ≠ 0
      · simp [cell_memcpy, memcpy_length, newBuffer_length, cell_newBuffer, h1, e1, e2, h2, ht, e4, e5]
      · simp [cell_memcpy, memcpy_length, newBuffer_length, cell_newBuffer, h1, e1, e2, h2, ht, e4, e5]
    · have e4 : ¬ (index + lenAdd ≤ i ∧ i < index + lenAdd + (m_length - index - lenRemove)) := by
        omega
      by_cases e1 : index ≠ 0 <;> by_cases ht : m_length - index - lenRemove ≠ 0 <;>
        simp [cell_memcpy, memcpy_length, newBuffer_length, cell_newBuffer, h1, e1, h2, ht] <;>
        intros <;> omega

end SStringStyle

namespace SStringStyle

theorem fill_length (st : SStringStyle) (index len : Nat) (f c : Cell) :
    (st.fill index len f c).m_length = st.m_length := by
  unfold fill; split_ifs <;> rfl

theorem fill_wf (st : SStringStyle) (index len : Nat) (f c : Cell) (h : st.WF) :
    (st.fill index len f c).WF := by
  unfold fill; split_ifs
  · simpa [WF, Sized, memset_n_length] using h
  · exact h

theorem copy_length (st : SStringStyle) (index len : Nat) (src : SStringStyle) (off : Nat) :
    (st.copy index len src off).m_length = st.m_length := by
  unfold copy; split_ifs <;> rfl

theorem copy_wf (st : SStringStyle) (index len : Nat) (src : SStringStyle) (off : Nat)
    (h : st.WF) : (st.copy index len src off).WF := by
  unfold copy; split_ifs
  · simpa [WF, Sized, memcpy_length] using h
  · exact h

theorem replace_length (st : SStringStyle) (index lenRemove lenAdd : Nat) :
    (st.replace index lenRemove lenAdd).m_length = st.m_length + lenAdd - lenRemove := by
  rw [replace_eq]

theorem replace_wf (st : SStringStyle) (index lenRemove lenAdd : Nat) :
    (st.replace index lenRemove lenAdd).WF := by
  rw [replace_eq]
  refine ⟨⟨?_, ?_⟩, ?_⟩
  · simp only [resized_length]
  · simp only [resized_length]
  · simp only []; omega

theorem ofLength_eq (len : Nat) :
    ofLength len =
      { m_styleFlags := newBuffer (len * 2), m_styleColors := newBuffer (len * 2),
        m_length := len, m_capacity := len * 2 } := by
  unfold ofLength
  by_cases h : len = 0
  · subst h; simp [newBuffer]
  · simp only [ne_eq, h, not_false_eq_true, if_true]
    rw [updateCapacity_fresh _ rfl rfl rfl]

theorem ofLengthStyle_length (len f c : Nat) : (ofLengthStyle len f c).m_length = len := by
  unfold ofLengthStyle
  by_cases h : len = 0
  · simp [h]
  · simp only [ne_eq, h, not_false_eq_true, if_true, fill_length, updateCapacity_length]

theorem ofLengthStyle_wf (len f c : Nat) : (ofLengthStyle len f c).WF := by
  unfold ofLengthStyle
  by_cases h : len = 0
  · subst h; simp [WF, Sized]
  · simp only [ne_eq, h, not_false_eq_true, if_true]
    exact fill_wf _ _ _ _ _ (updateCapacity_wf _ ⟨rfl, rfl⟩)

theorem ofCopy_length (other : SStringStyle) : (ofCopy other).m_length = other.m_length := by
  unfold ofCopy
  by_cases h : other.m_length = 0
  · simp [h]
  · simp only [ne_eq, h, not_false_eq_true, if_true, copy_length, updateCapacity_length]

theorem ofCopy_wf (other : SStringStyle) : (ofCopy other).WF := by
  unfold ofCopy
  by_cases h : other.m_length = 0
  · simp [h, WF, Sized]
  · simp only [ne_eq, h, not_false_eq_true, if_true]
    exact copy_wf _ _ _ _ _ (updateCapacity_wf _ ⟨rfl, rfl⟩)

theorem assign_length (st other : SStringStyle) : (st.assign other).m_length = other.m_length := by
  unfold assign
  simp only [copy_length, updateCapacity_length]

theorem assign_wf (st other : SStringStyle) (h : st.Sized) : (st.assign other).WF := by
  unfold assign
  exact copy_wf _ _ _ _ _ (updateCapacity_wf _ h)

theorem clear_length (st : SStringStyle) : st.clear.m_length = 0 := by
  unfold clear
  rw [updateCapacity_length]

theorem clear_wf (st : SStringStyle) (h : st.Sized) : st.clear.WF := by
  unfold clear
  exact updateCapacity_wf _ h

end SStringStyle

theorem qInsert_length (t : List Char) (i : Nat) (s : List Char) :
    (qInsert t i s).length = t.length + s.length := by
  simp [qInsert]; omega

theorem qReplace_length (t : List Char) (i len : Nat) (s : List Char) (h : i + len ≤ t.length) :
    (qReplace t i len s).length = t.length - len + s.length := by
  simp [qReplace]; omega

namespace SString

theorem lengthAt_nonneg (s : SString) (index len : Int) (h : index ≤ s.length) :
    0 ≤ s.lengthAt index len := by
  unfold lengthAt; split_ifs <;> omega

theorem lengthAt_le (s : SString) (index len : Int) :
    index + s.lengthAt index len ≤ s.length := by
  unfold lengthAt; split_ifs <;> omega

theorem ofString_wf (string : List Char) (f c : Nat) : (ofString string f c).WF :=
  ⟨(SStringStyle.ofLengthStyle_length _ _ _).symm, SStringStyle.ofLengthStyle_wf _ _ _⟩

theorem setString_wf (s : SString) (string : List Char) (f c : Nat) (h : s.WF) :
    (s.setString string f c).WF :=
  ⟨by simp [setString, SStringStyle.assign_length, SStringStyle.ofLengthStyle_length],
    SStringStyle.assign_wf _ _ h.2.1⟩

theorem assignSString_wf (s o : SString) (h : s.WF) (ho : o.WF) : (s.assign o).WF :=
  ⟨by simp [assign, SStringStyle.assign_length, SStringStyle.ofCopy_length, ho.1],
    SStringStyle.assign_wf _ _ h.2.1⟩

theorem clearSString_wf (s : SString) (h : s.WF) : s.clear.WF :=
  ⟨by simp [clear, SStringStyle.clear_length], SStringStyle.clear_wf _ h.2.1⟩

theorem insertChar_wf (s : SString) (index : Int) (ch : Char) (h : s.WF) :
    (s.insertChar index ch).WF := by
  unfold insertChar
  by_cases hg : 0 ≤ index ∧ index ≤ s.length
  · rw [if_pos hg]
    refine ⟨?_, SStringStyle.fill_wf _ _ _ _ _ (SStringStyle.replace_wf _ _ _ _)⟩
    simp only [qInsert_length, SStringStyle.fill_length, SStringStyle.insert,
      SStringStyle.replace_length, h.1, List.length_singleton]
    omega
  · rw [if_neg hg]; exact h

theorem insertString_wf (s : SString) (index : Int) (str : List Char) (h : s.WF) :
    (s.insertString index str).WF := by
  unfold insertString
  by_cases h0 : s.length = 0
  · rw [if_pos h0]; exact setString_wf _ _ _ _ h
  · rw [if_neg h0]
    by_cases hg : str.length ≠ 0 ∧ 0 ≤ index ∧ index ≤ s.length
    · rw [if_pos hg]
      refine ⟨?_, SStringStyle.fill_wf _ _ _ _ _ (SStringStyle.replace_wf _ _ _ _)⟩
      simp only [qInsert_length, SStringStyle.fill_length, SStringStyle.insert,
        SStringStyle.replace_length, h.1]
      omega
    · rw [if_neg hg]; exact h

theorem insertSString_wf (s : SString) (index : Int) (str : SString) (h : s.WF) (ho : str.WF) :
    (s.insertSString index str).WF := by
  unfold insertSString
  by_cases h0 : s.length = 0
  · rw [if_pos h0]; exact assignSString_wf _ _ h ho
  · rw [if_neg h0]
    by_cases hg : str.length ≠ 0 ∧ 0 ≤ index ∧ index ≤ s.length
    · rw [if_pos hg]
      refine ⟨?_, SStringStyle.copy_wf _ _ _ _ _ (SStringStyle.replace_wf _ _ _ _)⟩
      simp only [qInsert_length, SStringStyle.copy_length, SStringStyle.insert,
        SStringStyle.replace_length, h.1]
      omega
    · rw [if_neg hg]; exact h

theorem replaceString_wf (s : SString) (index len : Int) (r : List Char) (h : s.WF) :
    (s.replaceString index len r).WF := by
  unfold replaceString
  have hl := h.1
  by_cases hg : index < 0 ∨ index ≥ s.length
  · rw [if_pos hg]; exact h
  rw [if_neg hg]
  simp only []
  by_cases h0 : s.lengthAt index len = 0 ∧ r.length = 0
  · rw [if_pos h0]; exact h
  rw [if_neg h0]
  have hn := lengthAt_nonneg s index len (by omega)
  have hle := lengthAt_le s index len
  simp only [length] at hg hle
  have hq := qReplace_length s.text index.toNat (s.lengthAt index len).toNat r (by omega)
  by_cases hne : s.lengthAt index len ≠ (r.length : Int)
  · rw [if_pos hne]
    refine ⟨?_, SStringStyle.fill_wf _ _ _ _ _ (SStringStyle.replace_wf _ _ _ _)⟩
    simp only [SStringStyle.fill_length, SStringStyle.replace_length]
    omega
  rw [if_neg hne]
  by_cases h1 : s.lengthAt index len = 1
  · rw [if_pos h1]
    refine ⟨?_, h.2⟩
    simp only []
    omega
  · rw [if_neg h1]
    refine ⟨?_, SStringStyle.fill_wf _ _ _ _ _ h.2⟩
    simp only [SStringStyle.fill_length]
    omega

theorem replaceSString_wf (s : SString) (index len : Int) (r : SString) (h : s.WF) :
    (s.replaceSString index len r).WF := by
  unfold replaceSString
  have hl := h.1
  by_cases hg : index < 0 ∨ index ≥ s.length
  · rw [if_pos hg]; exact h
  rw [if_neg hg]
  simp only []
  by_cases h0 : s.lengthAt index len = 0 ∧ r.length = 0
  · rw [if_pos h0]; exact h
  rw [if_neg h0]
  have hn := lengthAt_nonneg s index len (by omega)
  have hle := lengthAt_le s index len
  simp only [length] at hg hle
  have hq := qReplace_length s.text index.toNat (s.lengthAt index len).toNat r.text (by omega)
  by_cases hne : s.lengthAt index len ≠ r.length
  · rw [if_pos hne]
    refine ⟨?_, SStringStyle.copy_wf _ _ _ _ _ (SStringStyle.replace_wf _ _ _ _)⟩
    simp only [SStringStyle.copy_length, SStringStyle.replace_length]
    omega
  · rw [if_neg hne]
    simp only [length, ne_eq, not_not] at hne
    refine ⟨?_, SStringStyle.copy_wf _ _ _ _ _ h.2⟩
    simp only [SStringStyle.copy_length]
    omega

theorem Reachable.wf {s : SString} (h : Reachable s) : s.WF := by
  induction h with
  | ofString string f c => exact ofString_wf _ _ _
  | insertChar index ch _ ih => exact insertChar_wf _ _ _ ih
  | insertString index str _ ih => exact insertString_wf _ _ _ ih
  | insertSString index _ _ ih1 ih2 => exact insertSString_wf _ _ _ ih1 ih2
  | replaceString index len r _ ih => exact replaceString_wf _ _ _ _ ih
  | replaceSString index len _ _ ih1 _ => exact replaceSString_wf _ _ _ _ ih1
  | setString string f c _ ih => exact setString_wf _ _ _ _ ih
  | clear _ ih => exact clearSString_wf _ ih

end SString

namespace SStringStyle

theorem run_fill (st : SStringStyle) (index len : Nat) (f c : Cell) (i : Nat) (h : st.Sized) :
    (st.fill index len f c).run i =
      if index ≤ i ∧ i < index + len ∧ i < st.m_capacity then (f, c) else st.run i := by
  unfold fill run
  by_cases hl : len ≠ 0
  · rw [if_pos hl]
    simp only [cell_memset_n, h.1, h.2]
    split_ifs <;> rfl
  · rw [if_neg hl]
    have : ¬ (index ≤ i ∧ i < index + len ∧ i < st.m_capacity) := by omega
    rw [if_neg this]

theorem run_copy (st : SStringStyle) (index len : Nat) (src : SStringStyle) (off i : Nat)
    (h : st.Sized) :
    (st.copy index len src off).run i =
      if index ≤ i ∧ i < index + len ∧ i < st.m_capacity then src.run (i - index + off)
      else st.run i := by
  unfold copy run
  by_cases hl : len ≠ 0
  · rw [if_pos hl]
    simp only [cell_memcpy, h.1, h.2]
    split_ifs <;> rfl
  · rw [if_neg hl]
    have : ¬ (index ≤ i ∧ i < index + len ∧ i < st.m_capacity) := by omega
    rw [if_neg this]

theorem run_replace (st : SStringStyle) (index lenRemove lenAdd i : Nat)
    (h : index + lenRemove ≤ st.m_length) :
    (st.replace index lenRemove lenAdd).run i =
      if i < index then st.run i
      else if index + lenAdd ≤ i ∧ i < st.m_length + lenAdd - lenRemove then
        st.run (i - lenAdd + lenRemove)
      else (none, none) := by
  rw [replace_eq]
  unfold run
  simp only [cell_resized _ _ _ _ _ _ h]
  split_ifs <;> rfl

theorem replace_capacity (st : SStringStyle) (index lenRemove lenAdd : Nat) :
    (st.replace index lenRemove lenAdd).m_capacity = (st.m_length + lenAdd - lenRemove) * 2 := by
  rw [replace_eq]

end SStringStyle

namespace SString

end SString

namespace SStringStyle

theorem run_ofLengthStyle (len f c i : Nat) (h : i < len) :
    (ofLengthStyle len f c).run i
      = (some (quint8 (quint8 f &&& AllStyles)), some (qRgb c)) := by
  unfold ofLengthStyle
  have hl : len ≠ 0 := by omega
  simp only [ne_eq, hl, not_false_eq_true, if_true]
  have hw := updateCapacity_wf
    { m_styleFlags := [], m_styleColors := [], m_length := len, m_capacity := 0 } ⟨rfl, rfl⟩
  rw [run_fill _ _ _ _ _ _ hw.1, if_pos]
  have := hw.2
  rw [updateCapacity_length] at this ⊢
  simp only at this ⊢
  omega

theorem run_ofCopy (other : SStringStyle) (i : Nat) (h : i < other.m_length) :
    (ofCopy other).run i = other.run i := by
  unfold ofCopy
  have hl : other.m_length ≠ 0 := by omega
  simp only [ne_eq, hl, not_false_eq_true, if_true]
  have hw := updateCapacity_wf
    { m_styleFlags := [], m_styleColors := [], m_length := other.m_length, m_capacity := 0 }
    ⟨rfl, rfl⟩
  rw [run_copy _ _ _ _ _ _ hw.1, if_pos]
  · simp
  · have := hw.2
    rw [updateCapacity_length] at this ⊢
    simp only at this ⊢
    omega

theorem run_assign (st other : SStringStyle) (i : Nat) (hs : st.Sized) (h : i < other.m_length) :
    (st.assign other).run i = other.run i := by
  unfold assign
  have hw := updateCapacity_wf { st with m_length := other.m_length } hs
  simp only []
  rw [run_copy _ _ _ _ _ _ hw.1, if_pos]
  · simp
  · have := hw.2
    rw [updateCapacity_length] at this ⊢
    simp only at this ⊢
    omega

end SStringStyle

theorem qReplace_one (t : List Char) (i : Nat) (c : Char) (h : i < t.length) :
    qReplace t i 1 [c] = t.set i c := by
  have : min 1 (t.length - i) = 1 := by omega
  rw [qReplace, this, List.set_eq_take_append_cons_drop, if_pos h]
  simp

theorem tagFrom_map_fst (l : List Char) (pos : Nat) : (tagFrom l pos).map Prod.fst = l := by
  induction l generalizing pos with
  | nil => rfl
  | cons c t ih => simp [tagFrom, ih]

theorem tagFrom_length (l : List Char) (pos : Nat) : (tagFrom l pos).length = l.length := by
  induction l generalizing pos with
  | nil => rfl
  | cons c t ih => simp [tagFrom, ih]

theorem tagFrom_append (a b : List Char) (pos : Nat) :
    tagFrom (a ++ b) pos = tagFrom a pos ++ tagFrom b (pos + a.length) := by
  induction a generalizing pos with
  | nil => simp [tagFrom]
  | cons c t ih =>
    have e : pos + (t.length + 1) = pos + 1 + t.length := by omega
    show tagFrom (c :: (t ++ b)) pos = _
    simp only [tagFrom, List.length_cons, e, List.cons_append]
    exact congrArg _ (ih (pos + 1))

theorem tagFrom_getElem? (l : List Char) (pos j : Nat) :
    (tagFrom l pos)[j]? = (l[j]?).map fun c => (c, some (pos + j)) := by
  induction l generalizing pos j with
  | nil => simp [tagFrom]
  | cons c t ih =>
    cases j with
    | zero => simp [tagFrom]
    | succ j =>
      simp only [tagFrom, List.getElem?_cons_succ, ih]
      rw [show pos + 1 + j = pos + (j + 1) by omega]

theorem untagged_map_fst (l : List Char) : (untagged l).map Prod.fst = l := by
  simp [untagged, Function.comp_def]

theorem untagged_length (l : List Char) : (untagged l).length = l.length := by
  simp [untagged]

theorem untagged_getElem? (l : List Char) (j : Nat) (c : Char) (i : Nat) :
    (untagged l)[j]? ≠ some (c, some i) := by
  simp [untagged]

theorem subjectSlice_length (str : List Char) (off len : Nat) (h : off + len ≤ str.length) :
    (subjectSlice str off len).length = len := by
  simp [subjectSlice, tagFrom_length]; omega

theorem subjectSlice_origin (str : List Char) (off len j : Nat) (c : Char) (i : Nat)
    (h : (subjectSlice str off len)[j]? = some (c, some i)) :
    i = off + j ∧ j < len ∧ str[i]? = some c := by
  unfold subjectSlice at h
  rw [tagFrom_getElem?] at h
  simp only [Option.map_eq_some', Prod.mk.injEq, Option.some.injEq] at h
  obtain ⟨a, h1, h2, h3⟩ := h
  subst h2 h3
  rw [List.getElem?_take] at h1
  split_ifs at h1 with hj
  · rw [List.getElem?_drop] at h1
    exact ⟨rfl, hj, h1⟩

theorem qMid_inRange (t : List Char) (off len : Int) (h0 : 0 ≤ off) (h1 : 0 ≤ len)
    (h2 : off + len ≤ t.length) : qMid t off len = (t.drop off.toNat).take len.toNat := by
  unfold qMid
  simp only []
  rw [if_neg (by omega), if_neg (by omega), if_neg (by omega)]

namespace SStringStyle

theorem fill_sized (st : SStringStyle) (index len : Nat) (f c : Cell) (h : st.Sized) :
    (st.fill index len f c).Sized := by
  unfold fill; split_ifs
  · exact ⟨by simp [memset_n_length, h.1], by simp [memset_n_length, h.2]⟩
  · exact h

theorem fill_capacity (st : SStringStyle) (index len : Nat) (f c : Cell) :
    (st.fill index len f c).m_capacity = st.m_capacity := by
  unfold fill; split_ifs <;> rfl

theorem copy_sized (st : SStringStyle) (index len : Nat) (src : SStringStyle) (off : Nat)
    (h : st.Sized) : (st.copy index len src off).Sized := by
  unfold copy; split_ifs
  · exact ⟨by simp [memcpy_length, h.1], by simp [memcpy_length, h.2]⟩
  · exact h

theorem copy_capacity (st : SStringStyle) (index len : Nat) (src : SStringStyle) (off : Nat) :
    (st.copy index len src off).m_capacity = st.m_capacity := by
  unfold copy; split_ifs <;> rfl

end SStringStyle

namespace SSHelper

theorem MatchRef.output_length (str rep : List Char) (md : MatchRef)
    (h : md.InRange str.length rep.length) : ((md.output str rep).length : Int) = md.length := by
  unfold MatchRef.InRange at h
  unfold MatchRef.output
  cases hr : md.ref <;> simp only [hr] at h ⊢
  · rw [subjectSlice_length _ _ _ (by omega)]; omega
  · simp only [untagged_length, List.length_take, List.length_drop]; omega

theorem MatchRef.output_map_fst (str rep : List Char) (md : MatchRef) :
    (md.output str rep).map Prod.fst =
      match md.ref with
      | .SUBJECT => (str.drop md.offset.toNat).take md.length.toNat
      | .REPLACEMENT => (rep.drop md.offset.toNat).take md.length.toNat
      | .NONE => [] := by
  unfold MatchRef.output
  cases md.ref <;> simp [subjectSlice, tagFrom_map_fst, untagged_map_fst]

theorem replaceStep_spec (str : SString) (replacement : Replacement) (st : ReplaceState)
    (md : MatchRef) (hmd : md.InRange str.text.length replacement.text.length)
    (hinv : st.Inv)
    (hcap : st.startNew + md.length ≤ st.newStyle.m_capacity) :
    (replaceStep str replacement st md).Inv ∧
    (replaceStep str replacement st md).newString
      = st.newString ++ (md.output str.text replacement.text).map Prod.fst ∧
    (replaceStep str replacement st md).newStyle.m_capacity = st.newStyle.m_capacity ∧
    (replaceStep str replacement st md).newStyle.m_length = st.newStyle.m_length ∧
    (∀ p, p < st.newString.length →
      (replaceStep str replacement st md).newStyle.run p = st.newStyle.run p) ∧
    (∀ j c i, (md.output str.text replacement.text)[j]? = some (c, some i) →
      (replaceStep str replacement st md).newStyle.run (st.newString.length + j)
        = str.m_style.run i) := by
  have hlen := MatchRef.output_length str.text replacement.text md hmd
  have hfst := MatchRef.output_map_fst str.text replacement.text md
  obtain ⟨hs1, hs2⟩ := hinv
  have hsn : st.startNew.toNat = st.newString.length := by omega
  unfold MatchRef.InRange at hmd
  by_cases h0 : md.length = 0
  · have e : md.output str.text replacement.text = [] :=
      List.length_eq_zero.mp (by omega)
    simp only [replaceStep, if_pos h0, e]
    exact ⟨⟨hs1, hs2⟩, by simp, by trivial, by trivial, fun _ _ => by trivial, by simp⟩
  cases hr : md.ref
  · simp only [hr] at hmd
  · -- SUBJECT
    simp only [hr] at hmd hfst
    have hq := qMid_inRange str.text md.offset md.length hmd.1 hmd.2.1 hmd.2.2
    simp only [replaceStep, if_neg h0, hr, if_true, hq, hfst, hsn]
    refine ⟨⟨?_, ?_⟩, by trivial, ?_, ?_, ?_, ?_⟩
    · simp only [List.length_append, List.length_take, List.length_drop]
      omega
    · exact SStringStyle.copy_sized _ _ _ _ _ hs2
    · rw [SStringStyle.copy_capacity]
    · rw [SStringStyle.copy_length]
    · intro p hp
      rw [SStringStyle.run_copy _ _ _ _ _ _ hs2, if_neg (by omega)]
    · intro j c i hj
      unfold MatchRef.output at hj
      simp only [hr] at hj
      obtain ⟨e1, e2, _⟩ := subjectSlice_origin _ _ _ _ _ _ hj
      rw [SStringStyle.run_copy _ _ _ _ _ _ hs2, if_pos (by omega)]
      congr 1; omega
  · -- REPLACEMENT
    simp only [hr] at hmd hfst
    have htag : ∀ (j : Nat) (c : Char) (i : Nat),
        (md.output str.text replacement.text)[j]? ≠ some (c, some i) := by
      intro j c i
      unfold MatchRef.output
      simp only [hr]
      exact untagged_getElem? _ _ _ _
    cases replacement with
    | styled r =>
      simp only [Replacement.text] at hmd hfst htag ⊢
      have hq := qMid_inRange r.text md.offset md.length hmd.1 hmd.2.1 hmd.2.2
      simp only [replaceStep, if_neg h0, hr, if_true, hq, hfst, hsn, reduceCtorEq, if_false]
      refine ⟨⟨?_, ?_⟩, by trivial, ?_, ?_, ?_, ?_⟩
      · simp only [List.length_append, List.length_take, List.length_drop]
        omega
      · exact SStringStyle.copy_sized _ _ _ _ _ hs2
      · rw [SStringStyle.copy_capacity]
      · rw [SStringStyle.copy_length]
      · intro p hp
        rw [SStringStyle.run_copy _ _ _ _ _ _ hs2, if_neg (by omega)]
      · intro j c i hj
        exact absurd hj (htag j c i)
    | plain r =>
      simp only [Replacement.text] at hmd hfst htag ⊢
      have hq := qMid_inRange r md.offset md.length hmd.1 hmd.2.1 hmd.2.2
      simp only [replaceStep, if_neg h0, hr, if_true, hq, hfst, hsn, reduceCtorEq, if_false]
      refine ⟨⟨?_, ?_⟩, by trivial, ?_, ?_, ?_, ?_⟩
      · simp only [List.length_append, List.length_take, List.length_drop]
        omega
      · split_ifs <;> exact SStringStyle.fill_sized _ _ _ _ _ hs2
      · split_ifs <;> rw [SStringStyle.fill_capacity]
      · split_ifs <;> rw [SStringStyle.fill_length]
      · intro p hp
        split_ifs <;> rw [SStringStyle.run_fill _ _ _ _ _ _ hs2, if_neg (by omega)]
      · intro j c i hj
        exact absurd hj (htag j c i)

theorem spanOutput_append (str rep : List Char) (a b : MatchRefList) :
    spanOutput str rep (a ++ b) = spanOutput str rep a ++ spanOutput str rep b := by
  induction a with
  | nil => rfl
  | cons md rest ih => simp [spanOutput, ih]

theorem foldl_replaceStep_spec (str : SString) (replacement : Replacement)
    (spans : MatchRefList) (st : ReplaceState)
    (hspans : ∀ md ∈ spans, md.InRange str.text.length replacement.text.length)
    (hinv : st.Inv)
    (hcap : st.newString.length + (spanOutput str.text replacement.text spans).length
      ≤ st.newStyle.m_capacity) :
    (spans.foldl (replaceStep str replacement) st).Inv ∧
    (spans.foldl (replaceStep str replacement) st).newString
      = st.newString ++ (spanOutput str.text replacement.text spans).map Prod.fst ∧
    (spans.foldl (replaceStep str replacement) st).newStyle.m_capacity
      = st.newStyle.m_capacity ∧
    (spans.foldl (replaceStep str replacement) st).newStyle.m_length = st.newStyle.m_length ∧
    (∀ p, p < st.newString.length →
      (spans.foldl (replaceStep str replacement) st).newStyle.run p = st.newStyle.run p) ∧
    (∀ (j : Nat) (c : Char) (i : Nat),
      (spanOutput str.text replacement.text spans)[j]? = some (c, some i) →
      (spans.foldl (replaceStep str replacement) st).newStyle.run (st.newString.length + j)
        = str.m_style.run i) := by
  induction spans generalizing st with
  | nil =>
    simp only [List.foldl_nil, spanOutput, List.map_nil, List.append_nil]
    exact ⟨hinv, by trivial, by trivial, by trivial, fun _ _ => by trivial, by simp⟩
  | cons md rest ih =>
    have hmd := hspans md (List.mem_cons_self _ _)
    have hlen := MatchRef.output_length str.text replacement.text md hmd
    simp only [spanOutput, List.length_append] at hcap
    obtain ⟨h1, h2, h3, h4, h5, h6⟩ :=
      replaceStep_spec str replacement st md hmd hinv (by have := hinv.1; omega)
    have hl2 : (replaceStep str replacement st md).newString.length
        = st.newString.length + (md.output str.text replacement.text).length := by
      rw [h2]; simp
    obtain ⟨g1, g2, g3, g4, g5, g6⟩ :=
      ih (replaceStep str replacement st md)
        (fun m hm => hspans m (List.mem_cons_of_mem _ hm)) h1 (by rw [hl2, h3]; omega)
    simp only [List.foldl_cons, spanOutput, List.map_append]
    refine ⟨g1, ?_, ?_, ?_, ?_, ?_⟩
    · rw [g2, h2, List.append_assoc]
    · rw [g3, h3]
    · rw [g4, h4]
    · intro p hp
      rw [g5 p (by omega), h5 p hp]
    · intro j c i hj
      by_cases hjl : j < (md.output str.text replacement.text).length
      · rw [List.getElem?_append_left hjl] at hj
        rw [g5 _ (by omega)]
        exact h6 j c i hj
      · rw [List.getElem?_append_right (by omega)] at hj
        have := g6 _ c i hj
        rw [hl2] at this
        rw [← this]
        congr 1; omega

/-- What `SSHelper::replace` builds from spans that lie inside their texts and are closed by a
span holding their total length. -/
theorem replace_spec (str : SString) (replacement : Replacement) (spans : MatchRefList)
    (last : MatchRef)
    (hspans : ∀ md ∈ spans, md.InRange str.text.length replacement.text.length)
    (hlast : last.ref = .NONE)
    (htotal : last.length = (spanOutput str.text replacement.text spans).length) :
    (replace (spans ++ [last]) str replacement).text
      = (spanOutput str.text replacement.text spans).map Prod.fst ∧
    (replace (spans ++ [last]) str replacement).WF ∧
    (∀ (j : Nat) (c : Char) (i : Nat),
      (spanOutput str.text replacement.text spans)[j]? = some (c, some i) →
      (replace (spans ++ [last]) str replacement).run j = str.run i) := by
  have hst0 : ReplaceState.Inv
      { newString := [], newStyle := SStringStyle.ofLength last.length.toNat, startNew := 0,
        strStyleOffset := -1 } := ⟨rfl, by rw [SStringStyle.ofLength_eq]; simp [SStringStyle.Sized, newBuffer_length]⟩
  obtain ⟨g1, g2, g3, g4, g5, g6⟩ :=
    foldl_replaceStep_spec str replacement spans _ hspans hst0
      (by rw [SStringStyle.ofLength_eq]; simp only [List.length_nil]; omega)
  have hlaststep : ∀ st, replaceStep str replacement st last = st := by
    intro st
    unfold replaceStep
    simp [hlast]
  have hgl : (spans ++ [last]).getLast? = some last := by simp
  unfold replace
  simp only [hgl, Option.map_some', Option.getD_some, List.foldl_append, List.foldl_cons,
    List.foldl_nil, hlaststep]
  refine ⟨?_, ⟨?_, ⟨g1.2, ?_⟩⟩, ?_⟩
  · rw [g2]; simp
  · rw [g2, g4, SStringStyle.ofLength_eq]
    simp only [List.nil_append, List.length_map]
    omega
  · rw [g3, g4, SStringStyle.ofLength_eq]
    simp only
    omega
  · intro j c i hj
    have := g6 j c i hj
    simpa [SString.run] using this

end SSHelper

theorem interleave_length (r t : List Char) (pos : Nat) :
    (interleave r t pos).length = t.length + (t.length + 1) * r.length := by
  induction t generalizing pos with
  | nil => simp [interleave, untagged_length]
  | cons c t ih =>
    simp only [interleave, List.length_append, List.length_cons, untagged_length, ih]
    ring

namespace SSHelper

theorem matchEmptyLoop_eq (after : Replacement) (h : after.isEmpty = false) (n : Nat) (i : Int)
    (st : MatchState) :
    matchEmptyLoop after n i st =
      { st with matchList := st.matchList ++ emptySpans after.length n i } := by
  induction n generalizing i st with
  | zero => simp [matchEmptyLoop, emptySpans]
  | succ n ih =>
    simp only [matchEmptyLoop, h, Bool.false_eq_true, not_false_eq_true, if_true, ih,
      MatchState.push, emptySpans, List.append_assoc, List.singleton_append, List.cons_append,
      List.nil_append]

theorem subjectSlice_one (str : List Char) (i : Nat) (c : Char) (t : List Char)
    (h : str.drop i = c :: t) : subjectSlice str i 1 = [(c, some i)] := by
  simp [subjectSlice, h, tagFrom]

theorem emptySpans_output (str r : List Char) (n i : Nat) (h : i + n = str.length) :
    spanOutput str r (emptySpans r.length n i) ++ untagged r = interleave r (str.drop i) i := by
  induction n generalizing i with
  | zero =>
    have : str.drop i = [] := List.drop_eq_nil_of_le (by omega)
    simp [emptySpans, spanOutput, this, interleave]
  | succ n ih =>
    have hi : i < str.length := by omega
    obtain ⟨c, t, hct⟩ : ∃ c t, str.drop i = c :: t := by
      cases hd : str.drop i with
      | nil => have := List.drop_eq_nil_iff.mp hd; omega
      | cons c t => exact ⟨c, t, rfl⟩
    have ht : str.drop (i + 1) = t := by
      rw [← List.drop_drop, hct]; rfl
    have hrec := ih (i + 1) (by omega)
    rw [ht] at hrec
    simp only [emptySpans, spanOutput, MatchRef.output, Int.toNat_zero, List.drop_zero,
      Int.toNat_ofNat, List.take_length, hct, interleave, List.append_assoc]
    rw [show ((i : Int) + 1) = ((i + 1 : Nat) : Int) by simp] 
    rw [hrec]
    simp [subjectSlice_one str i c t hct]

theorem emptySpans_inRange (strLen r : Nat) (n i : Nat) (h : i + n ≤ strLen) :
    ∀ md ∈ emptySpans r n i, md.InRange strLen r := by
  induction n generalizing i with
  | zero => simp [emptySpans]
  | succ n ih =>
    intro md hmd
    simp only [emptySpans, List.mem_cons] at hmd
    rcases hmd with rfl | rfl | hmd
    · simp [MatchRef.InRange]
    · simp only [MatchRef.InRange]; omega
    · rw [show ((i : Int) + 1) = ((i + 1 : Nat) : Int) by simp] at hmd
      exact ih (i + 1) (by omega) md hmd

end SSHelper

namespace SSHelper

theorem matchLiteral_empty (str : SString) (r : List Char) (hr : r ≠ []) (cs : CaseSensitivity) :
    matchLiteral str [] (.plain r) cs =
      some ((emptySpans r.length str.text.length 0
          ++ [{ offset := 0, length := r.length, ref := .REPLACEMENT }])
        ++ [{ offset := str.text.length,
              length := str.text.length + (str.text.length + 1) * r.length, ref := .NONE }]) := by
  have he : (Replacement.plain r).isEmpty = false := by
    cases r with
    | nil => exact absurd rfl hr
    | cons c t => rfl
  unfold matchLiteral
  simp only [List.isEmpty_nil, if_true, he, Bool.false_eq_true, not_false_eq_true,
    matchEmptyLoop_eq _ he, MatchState.push, MatchState.finish, List.nil_append,
    Replacement.length, Replacement.text, SString.length]
  rw [if_pos (Or.inr (by simp))]

end SSHelper

namespace SString

/-- Replacing the empty target by a non-empty text: the result is the replacement put before
every character and after the last one, and every character of the subject keeps its run. -/
theorem replaceLiteral_empty_spec (s : SString) (r : List Char) (hr : r ≠ []) (cs : CaseSensitivity) :
    ∃ s', s.replaceLiteral [] r cs = some s' ∧
      s'.text = (interleave r s.text 0).map Prod.fst ∧
      s'.text.length = s.text.length + (s.text.length + 1) * r.length ∧
      (∀ (j : Nat) (c : Char) (i : Nat),
        (interleave r s.text 0)[j]? = some (c, some i) → s'.run j = s.run i) := by
  have hout : SSHelper.spanOutput s.text r
      (SSHelper.emptySpans r.length s.text.length 0
        ++ [{ offset := 0, length := r.length, ref := .REPLACEMENT }])
      = interleave r s.text 0 := by
    rw [SSHelper.spanOutput_append]
    have := SSHelper.emptySpans_output s.text r s.text.length 0 (by omega)
    simp only [List.drop_zero] at this
    rw [← this]
    simp [SSHelper.spanOutput, SSHelper.MatchRef.output]
  have hrange : ∀ md ∈ SSHelper.emptySpans r.length s.text.length 0
        ++ [{ offset := 0, length := r.length, ref := .REPLACEMENT }],
      md.InRange s.text.length r.length := by
    intro md hmd
    rw [List.mem_append] at hmd
    rcases hmd with hmd | hmd
    · exact SSHelper.emptySpans_inRange _ _ _ 0 (by omega) md hmd
    · simp only [List.mem_singleton] at hmd
      subst hmd
      simp [SSHelper.MatchRef.InRange]
  obtain ⟨g1, g2, g3⟩ := SSHelper.replace_spec s (.plain r) _
    { offset := s.text.length,
      length := s.text.length + (s.text.length + 1) * r.length, ref := .NONE }
    hrange rfl (by
      simp only [SSHelper.Replacement.text, hout, interleave_length]
      push_cast; ring)
  simp only [SSHelper.Replacement.text, hout] at g1 g3
  refine ⟨_, ?_, g1, ?_, g3⟩
  · unfold replaceLiteral
    have h1 : ¬ (([] : List Char).isEmpty = true ∧ r.isEmpty = true) := by
      cases r with
      | nil => exact absurd rfl hr
      | cons c t => simp
    rw [if_neg h1]
    simp only [SSHelper.matchLiteral_empty s r hr cs]
    rw [if_pos (by simp)]
  · rw [g1, List.length_map, interleave_length]

end SString

theorem interleave_getElem?_rep (r t : List Char) (pos k m : Nat) (hk : k ≤ t.length)
    (hm : m < r.length) :
    (interleave r t pos)[k * (r.length + 1) + m]? = (r[m]?).map fun c => (c, none) := by
  induction t generalizing pos k with
  | nil =>
    have : k = 0 := by simpa using hk
    subst this
    simp [interleave, untagged]
  | cons c t ih =>
    cases k with
    | zero =>
      simp only [interleave, Nat.zero_mul, Nat.zero_add]
      rw [List.getElem?_append_left (by rw [untagged_length]; exact hm)]
      simp [untagged]
    | succ k =>
      simp only [interleave]
      rw [List.getElem?_append_right (by rw [untagged_length]; nlinarith)]
      have e : (k + 1) * (r.length + 1) + m - (untagged r).length
          = (k * (r.length + 1) + m) + 1 := by
        rw [untagged_length]
        have : (k + 1) * (r.length + 1) = k * (r.length + 1) + r.length + 1 := by ring
        omega
      rw [e, List.getElem?_cons_succ]
      exact ih (pos + 1) k (by simpa using hk)

theorem interleave_getElem?_subject (r t : List Char) (pos i : Nat) :
    (interleave r t pos)[i * (r.length + 1) + r.length]? =
      (t[i]?).map fun c => (c, some (pos + i)) := by
  induction t generalizing pos i with
  | nil =>
    simp only [interleave, List.getElem?_nil, Option.map_none']
    apply List.getElem?_eq_none
    rw [untagged_length]; omega
  | cons c t ih =>
    simp only [interleave]
    rw [List.getElem?_append_right (by rw [untagged_length]; omega)]
    cases i with
    | zero => simp [untagged_length]
    | succ i =>
      have e : (i + 1) * (r.length + 1) + r.length - (untagged r).length
          = (i * (r.length + 1) + r.length) + 1 := by
        rw [untagged_length]
        have : (i + 1) * (r.length + 1) = i * (r.length + 1) + r.length + 1 := by ring
        omega
      rw [e, List.getElem?_cons_succ, List.getElem?_cons_succ, ih (pos + 1) i]
      rw [show pos + 1 + i = pos + (i + 1) by omega]

theorem scanReplace_skip (before after t : List Char) (k pos : Nat) (h : k ≤ t.length) :
    scanReplace before after t k pos = scanReplace before after (t.drop k) 0 (pos + k) := by
  induction t generalizing k pos with
  | nil =>
    have : k = 0 := by simpa using h
    subst this; rfl
  | cons c t ih =>
    cases k with
    | zero => rfl
    | succ k =>
      simp only [scanReplace, List.drop_succ_cons]
      rw [ih k (pos + 1) (by simpa using h)]
      rw [show pos + 1 + k = pos + (k + 1) by omega]

theorem scanReplace_gap (before after t : List Char) (k pos : Nat) (h : k ≤ t.length)
    (hno : ∀ j, j < k → before.isPrefixOf (t.drop j) = false) :
    scanReplace before after t 0 pos =
      tagFrom (t.take k) pos ++ scanReplace before after (t.drop k) 0 (pos + k) := by
  induction k generalizing t pos with
  | zero => simp [tagFrom]
  | succ k ih =>
    cases t with
    | nil => simp at h
    | cons c t =>
      have h0 := hno 0 (by omega)
      simp only [List.drop_zero] at h0
      simp only [scanReplace, h0, Bool.false_eq_true, if_false, List.take_succ_cons, tagFrom,
        List.drop_succ_cons, List.cons_append]
      rw [ih t (pos + 1) (by simpa using h) (fun j hj => by
        have := hno (j + 1) (by omega)
        simpa using this)]
      rw [show pos + 1 + k = pos + (k + 1) by omega]

theorem scanReplace_occurrence (before after t : List Char) (pos : Nat) (hb : before ≠ [])
    (h : before.isPrefixOf t = true) :
    scanReplace before after t 0 pos =
      untagged after ++ scanReplace before after (t.drop before.length) 0 (pos + before.length) := by
  have hlen : before.length ≤ t.length := by
    have := List.isPrefixOf_iff_prefix.mp h
    exact this.length_le
  cases t with
  | nil =>
    cases before with
    | nil => exact absurd rfl hb
    | cons b bs => simp at hlen
  | cons c t =>
    have hpos : 0 < before.length := List.length_pos.mpr hb
    simp only [scanReplace, h, if_true]
    rw [scanReplace_skip _ _ _ _ _ (by simp at hlen; omega)]
    have e1 : (c :: t).drop before.length = t.drop (before.length - 1) := by
      obtain ⟨n, hn⟩ : ∃ n, before.length = n + 1 := ⟨before.length - 1, by omega⟩
      rw [hn]; simp
    rw [e1, show pos + 1 + (before.length - 1) = pos + before.length by omega]

theorem startsWith_caseSensitive (p t : List Char) :
    startsWith .CaseSensitive p t = p.isPrefixOf t := by
  induction p generalizing t with
  | nil => simp [startsWith]
  | cons a p ih =>
    cases t with
    | nil => simp [startsWith]
    | cons c t => simp [startsWith, charEq, ih, List.isPrefixOf]

theorem startsWith_length (cs : CaseSensitivity) (p t : List Char)
    (h : startsWith cs p t = true) : p.length ≤ t.length := by
  induction p generalizing t with
  | nil => simp
  | cons a p ih =>
    cases t with
    | nil => simp [startsWith] at h
    | cons c t =>
      simp only [startsWith, Bool.and_eq_true] at h
      simpa using ih t h.2

theorem qIndexOfAux_none (cs : CaseSensitivity) (before t : List Char) (pos : Nat)
    (h : qIndexOfAux cs before t pos = none) :
    ∀ j, j ≤ t.length → startsWith cs before (t.drop j) = false := by
  induction t generalizing pos with
  | nil =>
    intro j hj
    have : j = 0 := by simpa using hj
    subst this
    simp only [qIndexOfAux] at h
    split_ifs at h with h1
    simpa using h1
  | cons c t ih =>
    intro j hj
    simp only [qIndexOfAux] at h
    split_ifs at h with h1
    cases j with
    | zero => simpa using h1
    | succ j => simpa using ih (pos + 1) h j (by simpa using hj)

theorem qIndexOfAux_some (cs : CaseSensitivity) (before t : List Char) (pos idx : Nat)
    (h : qIndexOfAux cs before t pos = some idx) :
    ∃ k, k ≤ t.length ∧ idx = pos + k ∧ startsWith cs before (t.drop k) = true ∧
      ∀ j, j < k → startsWith cs before (t.drop j) = false := by
  induction t generalizing pos with
  | nil =>
    simp only [qIndexOfAux] at h
    split_ifs at h with h1
    simp only [Option.some.injEq] at h
    exact ⟨0, by simp, by omega, by simpa using h1, by simp⟩
  | cons c t ih =>
    simp only [qIndexOfAux] at h
    split_ifs at h with h1
    · simp only [Option.some.injEq] at h
      exact ⟨0, by simp, by omega, by simpa using h1, by simp⟩
    · obtain ⟨k, hk1, hk2, hk3, hk4⟩ := ih (pos + 1) h
      refine ⟨k + 1, by simpa using hk1, by omega, by simpa using hk3, ?_⟩
      intro j hj
      cases j with
      | zero => simpa using h1
      | succ j => simpa using hk4 j (by omega)

namespace SSHelper

theorem spanOutput_length_append (str rep : List Char) (a b : MatchRefList) :
    (spanOutput str rep (a ++ b)).length
      = (spanOutput str rep a).length + (spanOutput str rep b).length := by
  rw [spanOutput_append, List.length_append]

theorem matchLiteralLoop_spec (str before after : List Char) (hb : before ≠ []) :
    ∀ (fuel off : Nat) (st : MatchState), off ≤ str.length → str.length - off < fuel →
      ∃ st' off' L,
        matchLiteralLoop str before (.plain after) .CaseSensitive fuel off st = some (st', off') ∧
        st'.matchList = st.matchList ++ L ∧ off ≤ off' ∧ off' ≤ str.length ∧
        (∀ md ∈ L, md.InRange str.length after.length) ∧
        spanOutput str after L ++ subjectSlice str off' (str.length - off')
          = scanReplace before after (str.drop off) 0 off ∧
        st'.newLength = st.newLength + (spanOutput str after L).length - ((off' : Int) - off) ∧
        (st'.matched = true ∨ (st'.matched = st.matched ∧ L = [] ∧ off' = off)) := by
  intro fuel
  induction fuel with
  | zero => intro off st _ h; omega
  | succ fuel ih =>
    intro off st hoff hfuel
    unfold matchLiteralLoop
    cases hq : qIndexOf str before off .CaseSensitive with
    | none =>
      simp only []
      refine ⟨st, off, [], rfl, by simp, le_refl _, hoff, by simp, ?_, by simp [spanOutput],
        Or.inr ⟨rfl, rfl, rfl⟩⟩
      unfold qIndexOf at hq
      rw [if_pos hoff] at hq
      have hno := qIndexOfAux_none _ _ _ _ hq
      have := scanReplace_gap before after (str.drop off) (str.drop off).length off (le_refl _)
        (fun j hj => by
          rw [← startsWith_caseSensitive]
          exact hno j (by omega))
      rw [this]
      have e : List.drop (off + (str.length - off)) str = [] :=
        List.drop_eq_nil_of_le (by omega)
      simp [spanOutput, subjectSlice, scanReplace, e]
    | some idx =>
      simp only []
      unfold qIndexOf at hq
      rw [if_pos hoff] at hq
      obtain ⟨k, hk1, hk2, hk3, hk4⟩ := qIndexOfAux_some _ _ _ _ _ hq
      have hbl := startsWith_length _ _ _ hk3
      simp only [List.length_drop] at hk1 hbl
      have hbpos : 0 < before.length := List.length_pos.mpr hb
      subst hk2
      have key : ∀ (st3 : MatchState) (Lp : MatchRefList),
          st3.matchList = st.matchList ++ Lp →
          st3.newLength = st.newLength + ((after.length : Int) - before.length) →
          spanOutput str after Lp = tagFrom ((str.drop off).take k) off ++ untagged after →
          (∀ md ∈ Lp, md.InRange str.length after.length) →
          st3.matched = true →
          ∃ st' off' L,
            matchLiteralLoop str before (.plain after) .CaseSensitive fuel
              (off + k + before.length) st3 = some (st', off') ∧
            st'.matchList = st.matchList ++ L ∧ off ≤ off' ∧ off' ≤ str.length ∧
            (∀ md ∈ L, md.InRange str.length after.length) ∧
            spanOutput str after L ++ subjectSlice str off' (str.length - off')
              = scanReplace before after (str.drop off) 0 off ∧
            st'.newLength
              = st.newLength + (spanOutput str after L).length - ((off' : Int) - off) ∧
            (st'.matched = true ∨ (st'.matched = st.matched ∧ L = [] ∧ off' = off)) := by
        intro st3 Lp hml hnl hgapOut hrange hmt
        obtain ⟨st', off', L', h1, h2, h3, h4, h5, h6, h7, h8⟩ :=
          ih (off + k + before.length) st3 (by omega) (by omega)
        refine ⟨st', off', Lp ++ L', h1, ?_, by omega, h4, ?_, ?_, ?_, ?_⟩
        · rw [h2, hml, List.append_assoc]
        · intro md hmd
          rw [List.mem_append] at hmd
          rcases hmd with hmd | hmd
          · exact hrange md hmd
          · exact h5 md hmd
        · rw [spanOutput_append, List.append_assoc, h6, hgapOut]
          rw [scanReplace_gap before after (str.drop off) k off (by simp; omega)
            (fun j hj => by rw [← startsWith_caseSensitive]; exact hk4 j hj)]
          rw [scanReplace_occurrence before after _ (off + k) hb
            (by rw [← startsWith_caseSensitive]; exact hk3)]
          simp only [List.drop_drop, List.append_assoc]
        · rw [h7, hnl, spanOutput_length_append, hgapOut]
          simp only [List.length_append, tagFrom_length, untagged_length, List.length_take,
            List.length_drop]
          have : min k (str.length - off) = k := by omega
          rw [this]
          push_cast
          omega
        · rcases h8 with h8 | ⟨h8, -, -⟩
          · exact Or.inl h8
          · exact Or.inl (h8.trans hmt)
      have ek : (((off + k : Nat) : Int) - off).toNat = k := by omega
      have hr1 : MatchRef.InRange str.length after.length
          { offset := off, length := ((off + k : Nat) : Int) - off, ref := .SUBJECT } := by
        simp only [MatchRef.InRange]; omega
      have hr2 : MatchRef.InRange str.length after.length
          { offset := 0, length := (after.length : Int), ref := .REPLACEMENT } := by
        simp only [MatchRef.InRange]; omega
      have ho1 : spanOutput str after
          [{ offset := off, length := ((off + k : Nat) : Int) - off, ref := .SUBJECT }]
          = tagFrom ((str.drop off).take k) off := by
        simp [spanOutput, MatchRef.output, subjectSlice, ek]
      have ho2 : spanOutput str after
          [{ offset := 0, length := (after.length : Int), ref := .REPLACEMENT }]
          = untagged after := by
        simp [spanOutput, MatchRef.output]
      by_cases hk0 : ((off + k : Nat) : Int) - off ≠ 0
      · by_cases ha : (Replacement.plain after).isEmpty = true
        · have hae : after = [] := by simpa [Replacement.isEmpty, Replacement.text] using ha
          simp only [if_pos hk0, ha, not_true_eq_false, if_false]
          refine key _ [{ offset := off, length := ((off + k : Nat) : Int) - off, ref := .SUBJECT }]
            (by simp [MatchState.push]) (by simp [MatchState.push, Replacement.length, Replacement.text])
            (by rw [ho1, hae]; simp [untagged]) (by simpa using hr1) (by simp [MatchState.push])
        · have hae : (Replacement.plain after).length = after.length := rfl
          simp only [if_pos hk0, ha, not_false_eq_true, if_true, Bool.false_eq_true]
          refine key _ [{ offset := off, length := ((off + k : Nat) : Int) - off, ref := .SUBJECT },
              { offset := 0, length := (after.length : Int), ref := .REPLACEMENT }]
            (by simp [MatchState.push, hae]) (by simp [MatchState.push, hae])
            (by
              rw [show ([{ offset := off, length := ((off + k : Nat) : Int) - off, ref := .SUBJECT },
                  { offset := 0, length := (after.length : Int), ref := .REPLACEMENT }] : MatchRefList)
                = [{ offset := off, length := ((off + k : Nat) : Int) - off, ref := .SUBJECT }]
                  ++ [{ offset := 0, length := (after.length : Int), ref := .REPLACEMENT }] from rfl,
                spanOutput_append, ho1, ho2])
            (by
              intro md hmd
              simp only [List.mem_cons, List.mem_singleton, List.not_mem_nil, or_false] at hmd
              rcases hmd with rfl | rfl
              · exact hr1
              · exact hr2)
            (by simp [MatchState.push])
      · have hkz : k = 0 := by omega
        by_cases ha : (Replacement.plain after).isEmpty = true
        · have hae : after = [] := by simpa [Replacement.isEmpty, Replacement.text] using ha
          simp only [if_neg hk0, ha, not_true_eq_false, if_false]
          refine key _ []
            (by simp) (by simp [Replacement.length, Replacement.text])
            (by rw [hae, hkz]; simp [untagged, spanOutput, tagFrom]) (by simp) (by simp)
        · have hae : (Replacement.plain after).length = after.length := rfl
          simp only [if_neg hk0, ha, not_false_eq_true, if_true, Bool.false_eq_true]
          refine key _ [{ offset := 0, length := (after.length : Int), ref := .REPLACEMENT }]
            (by simp [MatchState.push, hae]) (by simp [MatchState.push, hae])
            (by rw [ho2, hkz]; simp [tagFrom]) (by simpa using hr2) (by simp [MatchState.push])

end SSHelper

theorem scanReplace_origin (before after t : List Char) (k pos j : Nat) (c : Char) (i : Nat)
    (h : (scanReplace before after t k pos)[j]? = some (c, some i)) :
    pos ≤ i ∧ t[i - pos]? = some c := by
  induction t generalizing k pos j with
  | nil => simp [scanReplace] at h
  | cons c0 t ih =>
    cases k with
    | zero =>
      simp only [scanReplace] at h
      split_ifs at h with hp
      · by_cases hj : j < (untagged after).length
        · rw [List.getElem?_append_left hj] at h
          exact absurd h (untagged_getElem? _ _ _ _)
        · rw [List.getElem?_append_right (by omega)] at h
          obtain ⟨e1, e2⟩ := ih _ _ _ h
          refine ⟨by omega, ?_⟩
          rw [show i - pos = (i - (pos + 1)) + 1 by omega, List.getElem?_cons_succ]
          exact e2
      · cases j with
        | zero =>
          simp only [List.getElem?_cons_zero, Option.some.injEq, Prod.mk.injEq] at h
          obtain ⟨e1, e2⟩ := h
          subst e1 e2
          simp
        | succ j =>
          rw [List.getElem?_cons_succ] at h
          obtain ⟨e1, e2⟩ := ih _ _ _ h
          refine ⟨by omega, ?_⟩
          rw [show i - pos = (i - (pos + 1)) + 1 by omega, List.getElem?_cons_succ]
          exact e2
    | succ k =>
      simp only [scanReplace] at h
      obtain ⟨e1, e2⟩ := ih _ _ _ h
      refine ⟨by omega, ?_⟩
      rw [show i - pos = (i - (pos + 1)) + 1 by omega, List.getElem?_cons_succ]
      exact e2

namespace SSHelper

/-- The literal matcher on a non-empty, case-sensitive target and a plain replacement: either
it returns no span at all, for an empty subject, or spans that lie inside their texts and
stand for the left-to-right scan, closed by a span holding their total length. -/
theorem matchLiteral_spec (str : SString) (before after : List Char) (hb : before ≠ []) :
    (matchLiteral str before (.plain after) .CaseSensitive = some [] ∧ str.text = []) ∨
    ∃ spans last,
      matchLiteral str before (.plain after) .CaseSensitive = some (spans ++ [last]) ∧
      (∀ md ∈ spans, md.InRange str.text.length after.length) ∧
      last.ref = .NONE ∧ last.offset = str.text.length ∧
      last.length = (spanOutput str.text after spans).length ∧
      spanOutput str.text after spans = scanReplace before after str.text 0 0 := by
  obtain ⟨st', off', L, h1, h2, h3, h4, h5, h6, h7, h8⟩ :=
    matchLiteralLoop_spec str.text before after hb (str.text.length + 1) 0
      { matchList := [], newLength := str.length, matched := false } (by omega) (by omega)
  have hbe : before.isEmpty = false := by
    cases before with
    | nil => exact absurd rfl hb
    | cons b bs => rfl
  simp only [List.nil_append, List.drop_zero, SString.length] at h1 h2 h6 h7
  unfold matchLiteral
  simp only [hbe, Bool.false_eq_true, if_false, SString.length, h1]
  by_cases hlen : (str.text.length : Int) - off' ≠ 0
  · right
    have hr : MatchRef.InRange str.text.length after.length
        { offset := off', length := (str.text.length : Int) - off', ref := .SUBJECT } := by
      simp only [MatchRef.InRange]; omega
    have ht : ((str.text.length : Int) - off').toNat = str.text.length - off' := by omega
    refine ⟨L ++ [{ offset := off', length := (str.text.length : Int) - off', ref := .SUBJECT }],
      { offset := str.text.length, length := st'.newLength, ref := .NONE }, ?_, ?_, rfl, rfl,
      ?_, ?_⟩
    · simp only [if_pos hlen, MatchState.push, MatchState.finish, h2]
      rw [if_pos (Or.inr (by simp))]
    · intro md hmd
      rw [List.mem_append] at hmd
      rcases hmd with hmd | hmd
      · exact h5 md hmd
      · simp only [List.mem_singleton] at hmd
        subst hmd; exact hr
    · simp only [spanOutput_length_append, spanOutput, MatchRef.output, List.append_nil,
        Int.toNat_ofNat, ht, h7]
      rw [subjectSlice_length _ _ _ (by omega)]
      omega
    · rw [spanOutput_append, ← h6]
      simp [spanOutput, MatchRef.output, ht]
  · have hoff : off' = str.text.length := by omega
    have htail : subjectSlice str.text off' (str.text.length - off') = [] := by
      rw [hoff]; simp [subjectSlice, tagFrom]
    rw [htail, List.append_nil] at h6
    simp only [if_neg hlen, MatchState.finish, h2]
    by_cases hfin : st'.matched = true ∨ L ≠ []
    · right
      refine ⟨L, { offset := str.text.length, length := st'.newLength, ref := .NONE }, ?_, h5,
        rfl, rfl, ?_, h6⟩
      · rw [if_pos hfin]
      · show st'.newLength = _
        rw [h7]; omega
    · left
      rw [if_neg hfin]
      rcases h8 with h8 | ⟨-, h9, h10⟩
      · exact absurd (Or.inl h8) hfin
      · subst h9
        refine ⟨rfl, ?_⟩
        exact List.length_eq_zero.mp (by omega)

end SSHelper

namespace SString

theorem replaceLiteral_slow (s : SString) (before after : List Char) (cs : CaseSensitivity)
    (h1 : ¬ (before.isEmpty = true ∧ after.isEmpty = true))
    (hfast : ¬ (before.length = 1 ∧ after.length = 1)) :
    s.replaceLiteral before after cs =
      match SSHelper.matchLiteral s before (.plain after) cs with
      | none => none
      | some matchList =>
        if matchList ≠ [] then some (SSHelper.replace matchList s (.plain after)) else some s := by
  unfold replaceLiteral
  rw [if_neg h1]
  split
  · exact absurd ⟨rfl, rfl⟩ hfast
  · rfl

end SString

namespace SSHelper

theorem groupAt_ok (strLen : Nat) (table : List (Int × Int))
    (h : ∀ g ∈ table, GroupOK strLen g) (n : Int) : GroupOK strLen (groupAt table n) := by
  unfold groupAt
  split_ifs
  · simp [GroupOK]
  · rw [List.getD_eq_getElem?_getD]
    cases hq : table[n.toNat]? with
    | none => simp [GroupOK]
    | some g => exact h g (List.getElem?_mem hq)

theorem subjectSlice_zero (str : List Char) (off : Nat) : subjectSlice str off 0 = [] := by
  simp [subjectSlice, tagFrom]

theorem backRefStep_spec (str rep : List Char) (captured : Int → Int × Int)
    (hg : ∀ n, GroupOK str.length (captured n)) (b : BackRef) (off : Nat) (st : MatchState)
    (h1 : (off : Int) ≤ b.start) (h2 : b.start ≤ b.«end») (h3 : b.«end» ≤ rep.length) :
    ∃ L, (backRefStep captured (st, (off : Int)) b).1.matchList = st.matchList ++ L ∧
      (backRefStep captured (st, (off : Int)) b).1.newLength
        = st.newLength + (spanOutput str rep L).length ∧
      (backRefStep captured (st, (off : Int)) b).1.matched = st.matched ∧
      (backRefStep captured (st, (off : Int)) b).2 = b.«end» ∧
      (∀ md ∈ L, md.InRange str.length rep.length) ∧
      spanOutput str rep L =
        untagged ((rep.drop off).take (b.start.toNat - off)) ++
          subjectSlice str (captured b.no).1.toNat (captured b.no).2.toNat := by
  obtain ⟨hg1, hg2⟩ := hg b.no
  have et : (b.start - (off : Int)).toNat = b.start.toNat - off := by omega
  have hr1 : MatchRef.InRange str.length rep.length
      { offset := off, length := b.start - off, ref := .REPLACEMENT } := by
    simp only [MatchRef.InRange]; omega
  have ho1 : spanOutput str rep [{ offset := off, length := b.start - off, ref := .REPLACEMENT }]
      = untagged ((rep.drop off).take (b.start.toNat - off)) := by
    simp [spanOutput, MatchRef.output, et]
  have ho2 : spanOutput str rep
      [{ offset := (captured b.no).1, length := (captured b.no).2, ref := .SUBJECT }]
      = subjectSlice str (captured b.no).1.toNat (captured b.no).2.toNat := by
    simp [spanOutput, MatchRef.output]
  have hl1 : ((untagged ((rep.drop off).take (b.start.toNat - off))).length : Int)
      = b.start - off := by
    simp only [untagged_length, List.length_take, List.length_drop]; omega
  unfold backRefStep
  by_cases c1 : b.start - (off : Int) ≠ 0 <;> by_cases c2 : (captured b.no).2 ≠ 0
  · have hr2 : MatchRef.InRange str.length rep.length
        { offset := (captured b.no).1, length := (captured b.no).2, ref := .SUBJECT } := by
      simp only [MatchRef.InRange]; have := hg2 c2; omega
    have hl2 : ((subjectSlice str (captured b.no).1.toNat (captured b.no).2.toNat).length : Int)
        = (captured b.no).2 := by
      have := hg2 c2
      rw [subjectSlice_length _ _ _ (by omega)]; omega
    refine ⟨[{ offset := off, length := b.start - off, ref := .REPLACEMENT }]
        ++ [{ offset := (captured b.no).1, length := (captured b.no).2, ref := .SUBJECT }],
      ?_, ?_, ?_, ?_, ?_, ?_⟩
    · simp [if_pos c1, if_pos c2, MatchState.push]
    · simp only [if_pos c1, if_pos c2, MatchState.push, spanOutput_append, ho1, ho2,
        List.length_append]
      push_cast
      rw [hl1, hl2]; ring
    · simp [if_pos c1, if_pos c2, MatchState.push]
    · simp
    · intro md hmd
      simp only [List.mem_append, List.mem_singleton] at hmd
      rcases hmd with rfl | rfl
      · exact hr1
      · exact hr2
    · rw [spanOutput_append, ho1, ho2]
  · have e2 : (captured b.no).2 = 0 := by simpa using c2
    refine ⟨[{ offset := off, length := b.start - off, ref := .REPLACEMENT }],
      ?_, ?_, ?_, ?_, ?_, ?_⟩
    · simp [if_pos c1, if_neg c2, MatchState.push]
    · simp only [if_pos c1, if_neg c2, MatchState.push, ho1]
      rw [hl1]
    · simp [if_pos c1, if_neg c2, MatchState.push]
    · simp
    · intro md hmd
      simp only [List.mem_singleton] at hmd
      subst hmd; exact hr1
    · rw [ho1, e2]; simp [subjectSlice_zero]
  · have e1 : b.start.toNat - off = 0 := by omega
    have hr2 : MatchRef.InRange str.length rep.length
        { offset := (captured b.no).1, length := (captured b.no).2, ref := .SUBJECT } := by
      simp only [MatchRef.InRange]; have := hg2 c2; omega
    have hl2 : ((subjectSlice str (captured b.no).1.toNat (captured b.no).2.toNat).length : Int)
        = (captured b.no).2 := by
      have := hg2 c2
      rw [subjectSlice_length _ _ _ (by omega)]; omega
    refine ⟨[{ offset := (captured b.no).1, length := (captured b.no).2, ref := .SUBJECT }],
      ?_, ?_, ?_, ?_, ?_, ?_⟩
    · simp [if_neg c1, if_pos c2, MatchState.push]
    · simp only [if_neg c1, if_pos c2, MatchState.push, ho2]
      rw [hl2]
    · simp [if_neg c1, if_pos c2, MatchState.push]
    · simp
    · intro md hmd
      simp only [List.mem_singleton] at hmd
      subst hmd; exact hr2
    · rw [ho2, e1]; simp [untagged]
  · have e1 : b.start.toNat - off = 0 := by omega
    have e2 : (captured b.no).2 = 0 := by simpa using c2
    refine ⟨[], ?_, ?_, ?_, ?_, ?_, ?_⟩
    · simp [if_neg c1, if_neg c2]
    · simp [if_neg c1, if_neg c2, spanOutput]
    · simp [if_neg c1, if_neg c2]
    · simp
    · simp
    · rw [e1, e2]; simp [spanOutput, untagged, subjectSlice_zero]

end SSHelper

namespace SSHelper

theorem foldl_backRefStep_spec (str rep : List Char) (captured : Int → Int × Int)
    (hg : ∀ n, GroupOK str.length (captured n)) :
    ∀ (refs : List BackRef) (off : Nat) (st : MatchState), BackRefsOK rep.length refs off →
      ∃ (L : MatchRefList) (off' : Nat),
        (refs.foldl (backRefStep captured) (st, (off : Int))).2 = off' ∧ off' ≤ rep.length ∧
        (refs.foldl (backRefStep captured) (st, (off : Int))).1.matchList = st.matchList ++ L ∧
        (refs.foldl (backRefStep captured) (st, (off : Int))).1.newLength
          = st.newLength + (spanOutput str rep L).length ∧
        (refs.foldl (backRefStep captured) (st, (off : Int))).1.matched = st.matched ∧
        (∀ md ∈ L, md.InRange str.length rep.length) ∧
        spanOutput str rep L ++ untagged (rep.drop off')
          = expandTemplate str rep captured refs off := by
  intro refs
  induction refs with
  | nil =>
    intro off st h
    exact ⟨[], off, rfl, h, by simp, by simp [spanOutput], rfl, by simp,
      by simp [spanOutput, expandTemplate]⟩
  | cons b bs ih =>
    intro off st h
    obtain ⟨h1, h2, h3, h4⟩ := h
    obtain ⟨Lp, p1, p2, p3, p4, p5, p6⟩ := backRefStep_spec str rep captured hg b off st h1 h2 h3
    have hend : ((b.«end».toNat : Nat) : Int) = b.«end» := by omega
    have hstep : backRefStep captured (st, (off : Int)) b
        = ((backRefStep captured (st, (off : Int)) b).1, ((b.«end».toNat : Nat) : Int)) := by
      rw [hend, ← p4]
    obtain ⟨L', off', q1, q2, q3, q4, q5, q6, q7⟩ :=
      ih b.«end».toNat (backRefStep captured (st, (off : Int)) b).1 h4
    simp only [List.foldl_cons]
    rw [hstep]
    refine ⟨Lp ++ L', off', q1, q2, ?_, ?_, ?_, ?_, ?_⟩
    · rw [q3, p1, List.append_assoc]
    · rw [q4, p2, spanOutput_length_append]; push_cast; ring
    · rw [q5, p3]
    · intro md hmd
      rw [List.mem_append] at hmd
      rcases hmd with hmd | hmd
      · exact p5 md hmd
      · exact q6 md hmd
    · rw [spanOutput_append, List.append_assoc, q7, p6]
      simp [expandTemplate]

theorem expandMatch_spec (str : List Char) (replacement : Replacement)
    (captured : Int → Int × Int) (hg : ∀ n, GroupOK str.length (captured n))
    (refs : List BackRef) (st : MatchState) (h : BackRefsOK replacement.text.length refs 0) :
    ∃ L : MatchRefList,
      (expandMatch captured refs replacement st).matchList = st.matchList ++ L ∧
      (expandMatch captured refs replacement st).newLength
        = st.newLength + (spanOutput str replacement.text L).length ∧
      (expandMatch captured refs replacement st).matched = st.matched ∧
      (∀ md ∈ L, md.InRange str.length replacement.text.length) ∧
      spanOutput str replacement.text L
        = expandTemplate str replacement.text captured refs 0 := by
  obtain ⟨L, off', q1, q2, q3, q4, q5, q6, q7⟩ :=
    foldl_backRefStep_spec str replacement.text captured hg refs 0 st h
  simp only [Nat.cast_zero] at q1 q3 q4 q5
  have et : ((replacement.text.length : Int) - off').toNat = replacement.text.length - off' := by
    omega
  have ho : spanOutput str replacement.text
      [{ offset := off', length := (replacement.text.length : Int) - off', ref := .REPLACEMENT }]
      = untagged (replacement.text.drop off') := by
    simp only [spanOutput, MatchRef.output, et, Int.toNat_ofNat, List.append_nil]
    rw [List.take_of_length_le (by simp)]
  unfold expandMatch
  simp only [q1, Replacement.length]
  by_cases c : (replacement.text.length : Int) - off' ≠ 0
  · rw [if_pos c]
    refine ⟨L ++ [(⟨off', (replacement.text.length : Int) - off', .REPLACEMENT⟩ : MatchRef)],
      ?_, ?_, ?_, ?_, ?_⟩
    · simp [MatchState.push, q3]
    · simp only [MatchState.push, q4, spanOutput_length_append, ho, untagged_length,
        List.length_drop]
      push_cast
      omega
    · simp [MatchState.push, q5]
    · intro md hmd
      rw [List.mem_append] at hmd
      rcases hmd with hmd | hmd
      · exact q6 md hmd
      · simp only [List.mem_singleton] at hmd
        subst hmd
        simp only [MatchRef.InRange]; omega
    · rw [spanOutput_append, ho, q7]
  · rw [if_neg c]
    have : replacement.text.drop off' = [] := List.drop_eq_nil_of_le (by omega)
    rw [this] at q7
    refine ⟨L, q3, q4, q5, q6, ?_⟩
    simpa [untagged] using q7

end SSHelper

namespace SSHelper

theorem foldl_matchStep_spec (str : List Char) (replacement : Replacement)
    (refs : List BackRef) (hrefs : BackRefsOK replacement.text.length refs 0) :
    ∀ (ms : List QRegularExpressionMatch) (off : Nat) (st : MatchState),
      MatchesOK str.length ms off →
      ∃ (L : MatchRefList) (off' : Nat),
        (ms.foldl (matchQRegularExpressionStep refs replacement) (st, (off : Int))).2 = off' ∧
        off' ≤ str.length ∧
        (ms.foldl (matchQRegularExpressionStep refs replacement) (st, (off : Int))).1.matchList
          = st.matchList ++ L ∧
        (ms.foldl (matchQRegularExpressionStep refs replacement) (st, (off : Int))).1.newLength
          = st.newLength + (spanOutput str replacement.text L).length ∧
        (ms.foldl (matchQRegularExpressionStep refs replacement) (st, (off : Int))).1.matched
          = st.matched ∧
        (∀ md ∈ L, md.InRange str.length replacement.text.length) ∧
        spanOutput str replacement.text L ++ subjectSlice str off' (str.length - off')
          = regexReplaceSpec str replacement.text refs ms off := by
  intro ms
  induction ms with
  | nil =>
    intro off st h
    exact ⟨[], off, rfl, h, by simp, by simp [spanOutput], rfl, by simp,
      by simp [spanOutput, regexReplaceSpec]⟩
  | cons m ms ih =>
    intro off st h
    obtain ⟨h1, h2, h3, h4, h5⟩ := h
    have hg := groupAt_ok str.length m.captured h4
    -- the gap before the match
    have et : (m.capturedStart - (off : Int)).toNat = m.capturedStart.toNat - off := by omega
    obtain ⟨st1, hst1, Lg, g1, g2, g3, g4, g5⟩ : ∃ st1 : MatchState,
        st1 = (if m.capturedStart - (off : Int) ≠ 0 then
            { st.push { offset := off, length := m.capturedStart - off, ref := .SUBJECT } with
              newLength := st.newLength + (m.capturedStart - off) }
          else st) ∧
        ∃ Lg : MatchRefList, st1.matchList = st.matchList ++ Lg ∧
          st1.newLength = st.newLength + (spanOutput str replacement.text Lg).length ∧
          st1.matched = st.matched ∧
          (∀ md ∈ Lg, md.InRange str.length replacement.text.length) ∧
          spanOutput str replacement.text Lg
            = subjectSlice str off (m.capturedStart.toNat - off) := by
      refine ⟨_, rfl, ?_⟩
      by_cases c : m.capturedStart - (off : Int) ≠ 0
      · rw [if_pos c]
        refine ⟨[(⟨off, m.capturedStart - off, .SUBJECT⟩ : MatchRef)], by simp [MatchState.push],
          ?_, by simp [MatchState.push], ?_, ?_⟩
        · simp only [spanOutput, MatchRef.output, List.append_nil, Int.toNat_ofNat, et]
          rw [subjectSlice_length _ _ _ (by omega)]
          omega
        · intro md hmd
          simp only [List.mem_singleton] at hmd
          subst hmd
          simp only [MatchRef.InRange]; omega
        · simp [spanOutput, MatchRef.output, et]
      · rw [if_neg c]
        have : m.capturedStart.toNat - off = 0 := by omega
        exact ⟨[], by simp, by simp [spanOutput], rfl, by simp,
          by rw [this]; simp [spanOutput, subjectSlice_zero]⟩
    obtain ⟨Le, e1, e2, e3, e4, e5⟩ :=
      expandMatch_spec str replacement (groupAt m.captured) hg refs st1 hrefs
    have hend : ((m.capturedEnd.toNat : Nat) : Int) = m.capturedEnd := by omega
    have hstep : matchQRegularExpressionStep refs replacement (st, (off : Int)) m
        = (expandMatch (groupAt m.captured) refs replacement st1,
            ((m.capturedEnd.toNat : Nat) : Int)) := by
      rw [hend, hst1]; rfl
    obtain ⟨L', off', q1, q2, q3, q4, q5, q6, q7⟩ :=
      ih m.capturedEnd.toNat (expandMatch (groupAt m.captured) refs replacement st1) h5
    simp only [List.foldl_cons]
    rw [hstep]
    refine ⟨Lg ++ Le ++ L', off', q1, q2, ?_, ?_, ?_, ?_, ?_⟩
    · rw [q3, e1, g1]; simp
    · rw [q4, e2, g2]
      simp only [spanOutput_length_append]
      push_cast; ring
    · rw [q5, e3, g3]
    · intro md hmd
      simp only [List.mem_append] at hmd
      rcases hmd with (hmd | hmd) | hmd
      · exact g4 md hmd
      · exact e4 md hmd
      · exact q6 md hmd
    · simp only [spanOutput_append, List.append_assoc, q7, e5, g5, regexReplaceSpec]

/-- The `QRegularExpression` matcher on a valid expression whose matches are ordered and lie
inside the subject, and on a template that the pre-scan leaves in order: either it returns no
span at all, for an empty subject without match, or spans that lie inside their texts and
stand for the specified result, closed by a span holding their total length. -/
theorem matchQRegularExpression_spec (str : SString) (regExp : QRegularExpression)
    (replacement : Replacement) (refs : List BackRef)
    (hvalid : regExp.isValid = true)
    (hscan : scanBackRefs regExp.captureCount replacement.text 0 = some refs)
    (hrefs : BackRefsOK replacement.text.length refs 0)
    (hms : MatchesOK str.text.length (regExp.globalMatch str.text) 0) :
    (matchQRegularExpression str regExp replacement = some [] ∧ str.text = [] ∧
      regExp.globalMatch str.text = []) ∨
    ∃ spans last,
      matchQRegularExpression str regExp replacement = some (spans ++ [last]) ∧
      (∀ md ∈ spans, md.InRange str.text.length replacement.text.length) ∧
      last.ref = .NONE ∧ last.offset = str.text.length ∧
      last.length = (spanOutput str.text replacement.text spans).length ∧
      spanOutput str.text replacement.text spans
        = regexReplaceSpec str.text replacement.text refs (regExp.globalMatch str.text) 0 := by
  obtain ⟨L, off', q1, q2, q3, q4, q5, q6, q7⟩ :=
    foldl_matchStep_spec str.text replacement refs hrefs (regExp.globalMatch str.text) 0
      { matchList := [], newLength := 0, matched := !(regExp.globalMatch str.text).isEmpty } hms
  simp only [Nat.cast_zero, List.nil_append, zero_add] at q1 q3 q4 q5
  unfold matchQRegularExpression
  simp only [hvalid, not_true_eq_false, if_false, hscan, SString.length]
  generalize List.foldl (matchQRegularExpressionStep refs replacement)
    (({ matchList := [], newLength := 0, matched := !(regExp.globalMatch str.text).isEmpty } :
      MatchState), (0 : Int)) (regExp.globalMatch str.text) = r at q1 q3 q4 q5 ⊢
  simp only [q1]
  by_cases hlen : (str.text.length : Int) - off' > 0
  · right
    have ht : ((str.text.length : Int) - off').toNat = str.text.length - off' := by omega
    refine ⟨L ++ [(⟨off', (str.text.length : Int) - off', .SUBJECT⟩ : MatchRef)],
      ⟨str.text.length, r.1.newLength + ((str.text.length : Int) - off'), .NONE⟩,
      ?_, ?_, rfl, rfl, ?_, ?_⟩
    · simp only [if_pos hlen, MatchState.push, MatchState.finish, q3]
      rw [if_pos (Or.inr (by simp))]
    · intro md hmd
      rw [List.mem_append] at hmd
      rcases hmd with hmd | hmd
      · exact q6 md hmd
      · simp only [List.mem_singleton] at hmd
        subst hmd
        simp only [MatchRef.InRange]; omega
    · simp only [spanOutput_length_append, spanOutput, MatchRef.output, List.append_nil,
        Int.toNat_ofNat, ht, q4]
      rw [subjectSlice_length _ _ _ (by omega)]
      omega
    · rw [spanOutput_append, ← q7]
      simp [spanOutput, MatchRef.output, ht]
  · have hoff : off' = str.text.length := by omega
    have htail : subjectSlice str.text off' (str.text.length - off') = [] := by
      rw [hoff]; simp [subjectSlice, tagFrom]
    rw [htail, List.append_nil] at q7
    simp only [if_neg hlen, MatchState.finish, q3, q5]
    by_cases hfin : (!(regExp.globalMatch str.text).isEmpty) = true ∨ L ≠ []
    · right
      refine ⟨L, ⟨str.text.length, r.1.newLength, .NONE⟩, ?_, q6, rfl, rfl, ?_, q7⟩
      · rw [if_pos hfin]
      · exact q4
    · left
      rw [if_neg hfin]
      have hL : L = [] := by
        by_contra hne
        exact hfin (Or.inr hne)
      have hm : regExp.globalMatch str.text = [] := by
        cases hgm : regExp.globalMatch str.text with
        | nil => rfl
        | cons m ms => rw [hgm] at hfin; simp at hfin
      refine ⟨by rw [hL], ?_, hm⟩
      rw [hm] at q7
      simp only [regexReplaceSpec, hL, spanOutput] at q7
      have := congrArg List.length q7
      simp only [List.length_nil, subjectSlice, tagFrom_length, List.drop_zero,
        List.length_take] at this
      exact List.length_eq_zero.mp (by omega)

end SSHelper

namespace SSHelper

theorem BackRefsOK_mono (n : Nat) (refs : List BackRef) (off off' : Nat) (h : off' ≤ off)
    (hok : BackRefsOK n refs off) : BackRefsOK n refs off' := by
  cases refs with
  | nil => simp only [BackRefsOK] at hok ⊢; omega
  | cons b bs =>
    simp only [BackRefsOK] at hok ⊢
    exact ⟨by omega, hok.2⟩

theorem scanBackRefs_ok (capCount : Int) :
    ∀ (n : Nat) (l : List Char) (pos : Nat) (refs : List BackRef), l.length ≤ n →
      scanBackRefs capCount l pos = some refs → BackRefsOK (pos + l.length) refs pos := by
  intro n
  induction n with
  | zero =>
    intro l pos refs hl h
    have : l = [] := List.length_eq_zero.mp (by omega)
    subst this
    simp only [scanBackRefs, Option.some.injEq] at h
    subst h
    simp [BackRefsOK]
  | succ n ih =>
    intro l pos refs hl h
    match l, hl, h with
    | [], _, h =>
      simp only [scanBackRefs, Option.some.injEq] at h
      subst h
      simp [BackRefsOK]
    | [c], _, h =>
      simp only [scanBackRefs] at h
      split_ifs at h
      simp only [Option.some.injEq] at h
      subst h
      simp [BackRefsOK]
    | c :: d :: rest, hl, h =>
      simp only [List.length_cons] at hl
      simp only [scanBackRefs] at h
      split_ifs at h with h1 h2
      · have := ih (d :: rest) (pos + 1) refs (by simp; omega) h
        simp only [List.length_cons] at this ⊢
        exact BackRefsOK_mono _ refs (pos + 1) pos (by omega)
          (by rw [show pos + (rest.length + 1 + 1) = pos + 1 + (rest.length + 1) by omega]
              exact this)
      · match rest, hl, h with
        | [], _, h =>
          simp only [Option.some.injEq] at h
          subst h
          simp only [BackRefsOK, List.length_cons, List.length_nil]
          push_cast
          omega
        | e :: rest', hl, h =>
          simp only [List.length_cons] at hl
          simp only [] at h
          split_ifs at h with h3
          · simp only [Option.map_eq_some'] at h
            obtain ⟨bs, hbs, rfl⟩ := h
            have := ih rest' (pos + 3) bs (by omega) hbs
            simp only [BackRefsOK, List.length_cons]
            refine ⟨by push_cast; omega, by push_cast; omega, by push_cast; omega, ?_⟩
            rw [show pos + (rest'.length + 1 + 1 + 1) = pos + 3 + rest'.length by omega]
            simpa using this
          · simp only [Option.map_eq_some'] at h
            obtain ⟨bs, hbs, rfl⟩ := h
            have := ih (e :: rest') (pos + 2) bs (by simp; omega) hbs
            simp only [BackRefsOK, List.length_cons] at this ⊢
            refine ⟨by push_cast; omega, by push_cast; omega, by push_cast; omega, ?_⟩
            rw [show pos + (rest'.length + 1 + 1 + 1) = pos + 2 + (rest'.length + 1) by omega]
            simpa using this
      · have := ih rest (pos + 2) refs (by omega) h
        simp only [List.length_cons] at this ⊢
        exact BackRefsOK_mono _ refs (pos + 2) pos (by omega)
          (by rw [show pos + (rest.length + 1 + 1) = pos + 2 + rest.length by omega]
              exact this)

end SSHelper

theorem TagsSound.append {str : List Char} {a b : List (Char × Option Nat)}
    (ha : TagsSound str a) (hb : TagsSound str b) : TagsSound str (a ++ b) := by
  intro j c i h
  by_cases hj : j < a.length
  · rw [List.getElem?_append_left hj] at h
    exact ha j c i h
  · rw [List.getElem?_append_right (by omega)] at h
    exact hb _ c i h

theorem TagsSound.untagged (str l : List Char) : TagsSound str (untagged l) := by
  intro j c i h
  exact absurd h (untagged_getElem? _ _ _ _)

theorem TagsSound.subjectSlice (str : List Char) (off len : Nat) :
    TagsSound str (subjectSlice str off len) := by
  intro j c i h
  exact (subjectSlice_origin _ _ _ _ _ _ h).2.2

namespace SSHelper

theorem expandTemplate_sound (str rep : List Char) (captured : Int → Int × Int)
    (refs : List BackRef) (off : Nat) :
    TagsSound str (expandTemplate str rep captured refs off) := by
  induction refs generalizing off with
  | nil => exact TagsSound.untagged _ _
  | cons b bs ih =>
    exact ((TagsSound.untagged _ _).append (TagsSound.subjectSlice _ _ _)).append (ih _)

theorem regexReplaceSpec_sound (str rep : List Char) (refs : List BackRef)
    (ms : List QRegularExpressionMatch) (off : Nat) :
    TagsSound str (regexReplaceSpec str rep refs ms off) := by
  induction ms generalizing off with
  | nil => exact TagsSound.subjectSlice _ _ _
  | cons m ms ih =>
    exact ((TagsSound.subjectSlice _ _ _).append (expandTemplate_sound _ _ _ _ _)).append (ih _)

end SSHelper

namespace SString

end SString

/-! # Claims -/

namespace SString

/-- Every string built by the constructor and then changed by any sequence of the positional
`insert` and `replace` overloads, `setString` and `clear`, with arbitrary integer indices and
lengths and with arguments that are other objects than the string changed, has as many style
runs as characters. -/
theorem reachable_text_length_eq_style_length (s : SString) (h : Reachable s) :
    s.text.length = s.m_style.m_length :=
  h.wf.1

/-- A string reached through one call of most mutators, among them calls with a negative index
and with a length that exceeds the string. -/
theorem reachable_text_length_eq_style_length_example :
    Reachable
      ((((((ofString "ab".toList Bold 0).insertChar 1 'x').insertString (-3) "no".toList).replaceString
        1 99 "tail".toList).insertSString 0 (ofString "hi".toList Italic 255)).replaceSString 2 (-1)
          (ofString "z".toList 0 0)) ∧
    ((((((ofString "ab".toList Bold 0).insertChar 1 'x').insertString (-3) "no".toList).replaceString
        1 99 "tail".toList).insertSString 0 (ofString "hi".toList Italic 255)).replaceSString 2 (-1)
          (ofString "z".toList 0 0)).text.length
      = ((((((ofString "ab".toList Bold 0).insertChar 1 'x').insertString (-3)
          "no".toList).replaceString 1 99 "tail".toList).insertSString 0
            (ofString "hi".toList Italic 255)).replaceSString 2 (-1)
              (ofString "z".toList 0 0)).m_style.m_length :=
  have hr : Reachable
      ((((((ofString "ab".toList Bold 0).insertChar 1 'x').insertString (-3) "no".toList).replaceString
        1 99 "tail".toList).insertSString 0 (ofString "hi".toList Italic 255)).replaceSString 2 (-1)
          (ofString "z".toList 0 0)) :=
    .replaceSString _ _
      (.insertSString _
        (.replaceString _ _ _ (.insertString _ _ (.insertChar _ _ (.ofString _ _ _))))
        (.ofString _ _ _))
      (.ofString _ _ _)
  ⟨hr, reachable_text_length_eq_style_length _ hr⟩

set_option maxRecDepth 100000 in
/-- C1, evaluated: the text and the style array have different lengths after a call whose
styled argument is the string itself.  On the bold string `ab`, `s.insert(1, s)` leaves the
text `aabb` of 4 characters and a style array of 6 runs, and `s.replace(0, 1, s)` leaves the
text `abb` of 3 characters and a style array of 4 runs: the length of the argument is read
again after the text has grown. -/
theorem C1_self_argument_breaks_length_invariant :
    ((ofString "ab".toList Bold 0).insertSelf 1).text = "aabb".toList ∧
    ((ofString "ab".toList Bold 0).insertSelf 1).text.length = 4 ∧
    ((ofString "ab".toList Bold 0).insertSelf 1).m_style.m_length = 6 ∧
    ((ofString "ab".toList Bold 0).replaceSelf 0 1).text = "abb".toList ∧
    ((ofString "ab".toList Bold 0).replaceSelf 0 1).text.length = 3 ∧
    ((ofString "ab".toList Bold 0).replaceSelf 0 1).m_style.m_length = 4 := by
  decide

set_option maxRecDepth 100000 in
/-- C2, evaluated on the subject `a` (bold), the expression `QRegExp("b*")` and the plain
replacement `Z`: the matcher reports the spans `Z`, `a`, `Z` and a one-character subject span
at offset 1, past the last character, with total length 4; the materializer appends nothing for
that span, so the new text `ZaZ` has 3 characters while the new style array has length 4. -/
theorem C2_qregexp_zero_length_match_at_end :
    SSHelper.matchQRegExp (ofString ['a'] Bold 0) bStar (.plain ['Z'])
      = some [{ offset := 0, length := 1, ref := .REPLACEMENT },
              { offset := 0, length := 1, ref := .SUBJECT },
              { offset := 0, length := 1, ref := .REPLACEMENT },
              { offset := 1, length := 1, ref := .SUBJECT },
              { offset := 1, length := 4, ref := .NONE }] ∧
    ((ofString ['a'] Bold 0).replaceQRegExp bStar (.plain ['Z'])).map
      (fun r => (r.text, r.text.length, r.m_style.m_length)) = some (['Z', 'a', 'Z'], 3, 4) := by
  decide

/-- The replace by a valid `QRegularExpression` whose matches are ordered and lie inside the
subject, for a template of which the pre-scan returns the back-references `refs`: the result
has the subject text between the matches and, for every match, the template in which every
back-reference of `refs` is replaced by the text of its group taken from the original
subject; every character that comes from the subject, in particular every character of a
group, carries the style run it had in the original subject. -/
theorem regexReplace_of_recorded_backRefs (s : SString) (regExp : QRegularExpression)
    (replacement : SSHelper.Replacement) (refs : List SSHelper.BackRef)
    (hvalid : regExp.isValid = true)
    (hscan : SSHelper.scanBackRefs regExp.captureCount replacement.text 0 = some refs)
    (hms : SSHelper.MatchesOK s.text.length (regExp.globalMatch s.text) 0) :
    ∃ s', s.replaceQRegularExpression regExp replacement = some s' ∧
      s'.text = (SSHelper.regexReplaceSpec s.text replacement.text refs
        (regExp.globalMatch s.text) 0).map Prod.fst ∧
      (∀ (j : Nat) (c : Char) (i : Nat),
        (SSHelper.regexReplaceSpec s.text replacement.text refs
          (regExp.globalMatch s.text) 0)[j]? = some (c, some i) →
          s'.text[j]? = some c ∧ s.text[i]? = some c ∧ s'.run j = s.run i) := by
  have hrefs : SSHelper.BackRefsOK replacement.text.length refs 0 := by
    have := SSHelper.scanBackRefs_ok regExp.captureCount _ replacement.text 0 refs (le_refl _) hscan
    simpa using this
  have hsound := SSHelper.regexReplaceSpec_sound s.text replacement.text refs
    (regExp.globalMatch s.text) 0
  unfold replaceQRegularExpression
  rcases SSHelper.matchQRegularExpression_spec s regExp replacement refs hvalid hscan hrefs hms
    with ⟨hm, he, hn⟩ | ⟨spans, last, hm, hr, hl1, _, hl2, hout⟩
  · rw [hm]
    have hspec : SSHelper.regexReplaceSpec s.text replacement.text refs
        (regExp.globalMatch s.text) 0 = [] := by
      rw [hn, he]; simp [SSHelper.regexReplaceSpec, subjectSlice, tagFrom]
    rw [hspec]
    refine ⟨s, by simp, by simp [he], ?_⟩
    intro j c i hj
    simp at hj
  · rw [hm]
    obtain ⟨g1, _, g3⟩ := SSHelper.replace_spec s replacement spans last hr hl1 hl2
    simp only [hout] at g1 g3
    refine ⟨_, by simp, g1, ?_⟩
    intro j c i hj
    refine ⟨?_, hsound j c i hj, g3 j c i hj⟩
    rw [g1, List.getElem?_map, hj]; rfl

/-- C4: for a non-empty case-sensitive target `before` and a plain replacement `after` outside
the one-character fast path, the text produced by `replace(before, after)` is the left-to-right
scan of the subject in which every non-overlapping occurrence of `before` is replaced by
`after`, and every subject character outside the matches keeps its own style run. -/
theorem C4_literal_replace (s : SString) (before after : List Char) (hb : before ≠ [])
    (hfast : ¬ (before.length = 1 ∧ after.length = 1)) :
    ∃ s', s.replaceLiteral before after .CaseSensitive = some s' ∧
      s'.text = (scanReplace before after s.text 0 0).map Prod.fst ∧
      (∀ (j : Nat) (c : Char) (i : Nat),
        (scanReplace before after s.text 0 0)[j]? = some (c, some i) →
          s'.text[j]? = some c ∧ s.text[i]? = some c ∧ s'.run j = s.run i) := by
  have h1 : ¬ (before.isEmpty = true ∧ after.isEmpty = true) := by
    cases before with
    | nil => exact absurd rfl hb
    | cons b bs => simp
  rw [replaceLiteral_slow s before after _ h1 hfast]
  rcases SSHelper.matchLiteral_spec s before after hb with ⟨hm, he⟩ | ⟨spans, last, hm, hr, hl1, _, hl2, hout⟩
  · rw [hm]
    refine ⟨s, by simp, by simp [he, scanReplace], ?_⟩
    intro j c i hj
    simp [he, scanReplace] at hj
  · rw [hm]
    obtain ⟨g1, _, g3⟩ := SSHelper.replace_spec s (.plain after) spans last hr hl1 hl2
    simp only [SSHelper.Replacement.text, hout] at g1 g3
    refine ⟨_, by simp, g1, ?_⟩
    intro j c i hj
    refine ⟨?_, ?_, g3 j c i hj⟩
    · rw [g1, List.getElem?_map, hj]; rfl
    · simpa using (scanReplace_origin _ _ _ _ _ _ _ _ hj).2


set_option maxRecDepth 100000 in
/-- Witness of C4: replacing `ab` by `Z` in `abcabd` gives `ZcZd`, and `c` and `d` keep their
runs. -/
theorem C4_literal_replace_witness :
    "ab".toList ≠ [] ∧ ¬ ("ab".toList.length = 1 ∧ "Z".toList.length = 1) ∧
    ∃ s', (ofString "abcabd".toList Bold 0).replaceLiteral "ab".toList "Z".toList .CaseSensitive
        = some s' ∧
      s'.text = "ZcZd".toList ∧
      s'.run 1 = (ofString "abcabd".toList Bold 0).run 2 ∧
      s'.run 3 = (ofString "abcabd".toList Bold 0).run 5 := by
  refine ⟨by decide, by decide, ?_⟩
  obtain ⟨s', h1, h2, h3⟩ := C4_literal_replace (ofString "abcabd".toList Bold 0)
    "ab".toList "Z".toList (by decide) (by decide)
  exact ⟨s', h1, by rw [h2]; decide, (h3 1 'c' 2 (by decide)).2.2, (h3 3 'd' 5 (by decide)).2.2⟩

/-- C5: for a subject of `n` characters and a non-empty replacement `R`, `replace("", R)`
yields `R c0 R c1 ... R c(n-1) R`: the text has `n + (n+1)*|R|` characters, every block of
`|R| + 1` characters starts with a copy of `R`, followed by the next subject character, which
keeps its style run, and a last copy of `R` ends the text. -/
theorem C5_empty_target_replace (s : SString) (r : List Char) (hr : r ≠ [])
    (cs : CaseSensitivity) :
    ∃ s', s.replaceLiteral [] r cs = some s' ∧
      s'.text = (interleave r s.text 0).map Prod.fst ∧
      s'.text.length = s.text.length + (s.text.length + 1) * r.length ∧
      (∀ k m, k ≤ s.text.length → m < r.length →
        s'.text[k * (r.length + 1) + m]? = r[m]?) ∧
      (∀ i, i < s.text.length →
        s'.text[i * (r.length + 1) + r.length]? = s.text[i]? ∧
        s'.run (i * (r.length + 1) + r.length) = s.run i) := by
  obtain ⟨s', h1, h2, h3, h4⟩ := replaceLiteral_empty_spec s r hr cs
  refine ⟨s', h1, h2, h3, ?_, ?_⟩
  · intro k m hk hm
    rw [h2, List.getElem?_map, interleave_getElem?_rep r s.text 0 k m hk hm]
    cases r[m]? <;> rfl
  · intro i hi
    have hg := interleave_getElem?_subject r s.text 0 i
    have hs : s.text[i]? = some s.text[i] := List.getElem?_eq_getElem hi
    rw [hs] at hg
    simp only [Option.map_some', Nat.zero_add] at hg
    refine ⟨?_, h4 _ _ _ hg⟩
    rw [h2, List.getElem?_map, hg, hs]; rfl

set_option maxRecDepth 100000 in
/-- Witness of C5: `replace("", "Z")` on `ab` yields `ZaZbZ`. -/
theorem C5_empty_target_replace_witness :
    "Z".toList ≠ [] ∧
    ∃ s', (ofString "ab".toList Bold 0).replaceLiteral [] "Z".toList .CaseSensitive = some s' ∧
      s'.text = "ZaZbZ".toList ∧ s'.text.length = 2 + (2 + 1) * 1 := by
  refine ⟨by decide, ?_⟩
  obtain ⟨s', h1, h2, h3, _⟩ := C5_empty_target_replace (ofString "ab".toList Bold 0)
    "Z".toList (by decide) .CaseSensitive
  exact ⟨s', h1, by rw [h2]; decide, h3⟩

/-- C7: for `0 <= i < length(s)` and a one-character text `c`, `replace(i, 1, c)` changes the
text only at position `i`, which becomes `c`, and leaves the whole style object, hence the
style run of every position, unchanged. -/
theorem C7_char_substitution (s : SString) (i : Int) (c : Char)
    (h0 : 0 ≤ i) (h1 : i < s.length) :
    (s.replaceString i 1 [c]).text = s.text.set i.toNat c ∧
    (∀ j, j ≠ i.toNat → (s.replaceString i 1 [c]).text[j]? = s.text[j]?) ∧
    (s.replaceString i 1 [c]).text[i.toNat]? = some c ∧
    (s.replaceString i 1 [c]).m_style = s.m_style ∧
    (∀ j, (s.replaceString i 1 [c]).run j = s.run j) := by
  simp only [length] at h1
  have hg : ¬ (i < 0 ∨ i ≥ s.length) := by simp only [length]; omega
  have hl : s.lengthAt i 1 = 1 := by
    unfold lengthAt
    simp only [length]
    rw [if_neg (by omega)]
  have hlt : i.toNat < s.text.length := by omega
  have e : s.replaceString i 1 [c] = { s with text := s.text.set i.toNat c } := by
    unfold replaceString
    simp only [if_neg hg, hl, List.length_singleton]
    simp [qReplace_one _ _ _ hlt]
  rw [e]
  refine ⟨rfl, ?_, ?_, rfl, fun j => rfl⟩
  · intro j hj
    simp only [List.getElem?_set]
    rw [if_neg (Ne.symm hj)]
  · simp [List.getElem?_set, hlt]

set_option maxRecDepth 100000 in
/-- Witness of C7: substituting the character at index 1 of `abc`. -/
theorem C7_char_substitution_witness :
    (0 : Int) ≤ 1 ∧ (1 : Int) < (ofString "abc".toList Bold 7).length ∧
    ((ofString "abc".toList Bold 7).replaceString 1 1 ['X']).text = "aXc".toList ∧
    ((ofString "abc".toList Bold 7).replaceString 1 1 ['X']).m_style
      = (ofString "abc".toList Bold 7).m_style := by
  have h := C7_char_substitution (ofString "abc".toList Bold 7) 1 'X' (by decide) (by decide)
  exact ⟨by decide, by decide, by rw [h.1]; decide, h.2.2.2.1⟩

/-- For `0 <= index < length(s)`, `n` the clamped length and a styled text `t` that is another
object than `s`, `replace(index, len, t)` gives the text `s[0..index) ++ text(t) ++ s[index+n..)`; position
`index+k` carries the style run of `t` at `k` for every `k < |t|`, positions before `index`
keep their runs, and positions after the removed range keep theirs, shifted by `|t| - n`. -/
theorem replaceSString_positional (s : SString) (index len : Int) (t : SString) (n : Nat)
    (hs : s.WF) (h0 : 0 ≤ index) (h1 : index < s.length)
    (hn : (n : Int) = s.lengthAt index len) :
    (0 ≤ len → (n : Int) = min len (s.length - index)) ∧
    (s.replaceSString index len t).text
      = s.text.take index.toNat ++ t.text ++ s.text.drop (index.toNat + n) ∧
    (∀ k, k < t.text.length →
      (s.replaceSString index len t).run (index.toNat + k) = t.run k) ∧
    (∀ j, j < index.toNat → (s.replaceSString index len t).run j = s.run j) ∧
    (∀ j, index.toNat + n ≤ j → j < s.text.length →
      (s.replaceSString index len t).run (j - n + t.text.length) = s.run j) := by
  have hn' : s.lengthAt index len = (n : Int) := hn.symm
  have hle := lengthAt_le s index len
  rw [hn'] at hle
  have hsz := hs.2.1
  have hcap := hs.2.2
  have hlen := hs.1
  simp only [length] at h1 hle
  have hg : ¬ (index < 0 ∨ index ≥ (s.text.length : Int)) := by omega
  have hmin : min n (s.text.length - index.toNat) = n := by omega
  have htext : qReplace s.text index.toNat n t.text
      = s.text.take index.toNat ++ t.text ++ s.text.drop (index.toNat + n) := by
    rw [qReplace, hmin]
  refine ⟨?_, ?_⟩
  · intro hl
    have e := hn
    unfold lengthAt at e
    simp only [length] at e ⊢
    split_ifs at e <;> omega
  unfold replaceSString
  simp only [length, hn', Int.toNat_ofNat, if_neg hg]
  by_cases hnop : (n : Int) = 0 ∧ (t.text.length : Int) = 0
  · have e1 : n = 0 := by omega
    have e2 : t.text = [] := List.length_eq_zero.mp (by omega)
    simp only [if_pos hnop, e1, e2]
    simp
  simp only [if_neg hnop]
  by_cases hne : (n : Int) ≠ (t.text.length : Int)
  · simp only [if_pos hne, htext, run, true_and]
    have hsz' := (SStringStyle.replace_wf s.m_style index.toNat n t.text.length).1
    have hc := SStringStyle.replace_capacity s.m_style index.toNat n t.text.length
    have hpre : index.toNat + n ≤ s.m_style.m_length := by omega
    refine ⟨?_, ?_, ?_⟩
    · intro k hk
      rw [SStringStyle.run_copy _ _ _ _ _ _ hsz', if_pos (by omega)]
      congr 1; omega
    · intro j hj
      rw [SStringStyle.run_copy _ _ _ _ _ _ hsz', if_neg (by omega),
        SStringStyle.run_replace _ _ _ _ _ hpre, if_pos hj]
    · intro j hj1 hj2
      rw [SStringStyle.run_copy _ _ _ _ _ _ hsz', if_neg (by omega),
        SStringStyle.run_replace _ _ _ _ _ hpre, if_neg (by omega), if_pos (by omega)]
      congr 1; omega
  · have hnr : n = t.text.length := by omega
    simp only [if_neg hne, htext, run, true_and]
    refine ⟨?_, ?_, ?_⟩
    · intro k hk
      rw [SStringStyle.run_copy _ _ _ _ _ _ hsz, if_pos (by omega)]
      congr 1; omega
    · intro j hj
      rw [SStringStyle.run_copy _ _ _ _ _ _ hsz, if_neg (by omega)]
    · intro j hj1 hj2
      rw [SStringStyle.run_copy _ _ _ _ _ _ hsz, if_neg (by omega)]
      congr 1; omega

set_option maxRecDepth 100000 in
/-- Replacing two characters of `hello` at index 1 by an italic `XYZ`. -/
theorem replaceSString_positional_example :
    (ofString "hello".toList Bold 0).WF ∧ (0 : Int) ≤ 1 ∧
    (1 : Int) < (ofString "hello".toList Bold 0).length ∧
    ((2 : Nat) : Int) = (ofString "hello".toList Bold 0).lengthAt 1 2 ∧
    ((ofString "hello".toList Bold 0).replaceSString 1 2 (ofString "XYZ".toList Italic 9)).text
      = "hXYZlo".toList ∧
    ((ofString "hello".toList Bold 0).replaceSString 1 2 (ofString "XYZ".toList Italic 9)).run
      (1 + 2) = (ofString "XYZ".toList Italic 9).run 2 := by
  have h := replaceSString_positional (ofString "hello".toList Bold 0) 1 2
    (ofString "XYZ".toList Italic 9) 2 (ofString_wf _ _ _) (by decide) (by decide) (by decide)
  exact ⟨ofString_wf _ _ _, by decide, by decide, by decide, by rw [h.2.1]; decide,
    h.2.2.1 2 (by decide)⟩

set_option maxRecDepth 100000 in
/-- C8, evaluated: `s.replace(0, 1, s)` on `ab` with a bold `a` and an italic `b`.  The text is
`abb`, but the style array has 4 runs for these 3 characters: the runs at 0, 1 and 2, where
the runs of the argument (bold, italic) and the italic run of the kept `b` belong, are
indeterminate cells of the new arrays, and the italic run of the kept `b` stands at
position 3. -/
theorem C8_replace_by_itself :
    ((ofString "ab".toList Bold 0).setStyleFlags 1 1 Italic).run 0 = (some Bold, some 0) ∧
    ((ofString "ab".toList Bold 0).setStyleFlags 1 1 Italic).run 1 = (some Italic, some 0) ∧
    (((ofString "ab".toList Bold 0).setStyleFlags 1 1 Italic).replaceSelf 0 1).text
      = "abb".toList ∧
    (((ofString "ab".toList Bold 0).setStyleFlags 1 1 Italic).replaceSelf 0 1).m_style.m_length
      = 4 ∧
    (((ofString "ab".toList Bold 0).setStyleFlags 1 1 Italic).replaceSelf 0 1).run 0
      = (none, none) ∧
    (((ofString "ab".toList Bold 0).setStyleFlags 1 1 Italic).replaceSelf 0 1).run 1
      = (none, none) ∧
    (((ofString "ab".toList Bold 0).setStyleFlags 1 1 Italic).replaceSelf 0 1).run 2
      = (none, none) ∧
    (((ofString "ab".toList Bold 0).setStyleFlags 1 1 Italic).replaceSelf 0 1).run 3
      = (some Italic, some 0) := by
  decide

/-- For `0 <= index <= length(s)` and a styled string `o` that is another object than `s`,
`insert(index, o)` gives the text `s[0..index) ++ text(o) ++ s[index..)`; position `index+k` carries the style run of `o` at
`k` for every `k < length(o)`, and every original character of `s` keeps its run. -/
theorem insertSString_positional (s : SString) (index : Int) (o : SString)
    (hs : s.WF) (ho : o.WF) (h0 : 0 ≤ index) (h1 : index ≤ s.length) :
    (s.insertSString index o).text
      = s.text.take index.toNat ++ o.text ++ s.text.drop index.toNat ∧
    (∀ k, k < o.text.length → (s.insertSString index o).run (index.toNat + k) = o.run k) ∧
    (∀ j, j < index.toNat → (s.insertSString index o).run j = s.run j) ∧
    (∀ j, index.toNat ≤ j → j < s.text.length →
      (s.insertSString index o).run (j + o.text.length) = s.run j) := by
  have hlen := hs.1
  simp only [length] at h1
  unfold insertSString
  by_cases he : s.text = []
  · have hi : index.toNat = 0 := by simp [he] at h1; omega
    have hl0 : s.length = 0 := by simp [length, he]
    simp only [if_pos hl0, assign, run, he, hi]
    refine ⟨by simp, ?_, ?_, ?_⟩
    · intro k hk
      rw [SStringStyle.run_assign _ _ _ hs.2.1
          (by rw [SStringStyle.ofCopy_length, ← ho.1]; omega),
        SStringStyle.run_ofCopy _ _ (by rw [← ho.1]; omega)]
      simp
    · intro j hj; omega
    · intro j _ hj; simp at hj
  · have hl0 : ¬ (s.length = 0) := by
      simp only [length]
      intro h
      exact he (List.length_eq_zero.mp (by omega))
    simp only [if_neg hl0]
    by_cases hol : o.text = []
    · have hg : ¬ (o.length ≠ 0 ∧ 0 ≤ index ∧ index ≤ s.length) := by
        simp [length, hol]
      simp only [if_neg hg, hol]
      refine ⟨by simp, ?_, ?_, ?_⟩
      · intro k hk; simp at hk
      · intro j _; trivial
      · intro j _ _; trivial
    · have hol' : o.text.length ≠ 0 := fun h => hol (List.length_eq_zero.mp h)
      have hg : o.length ≠ 0 ∧ 0 ≤ index ∧ index ≤ s.length :=
        ⟨by simp only [length]; omega, h0, by simpa [length] using h1⟩
      simp only [if_pos hg, run, qInsert, true_and, SStringStyle.insert]
      have hsz' := (SStringStyle.replace_wf s.m_style index.toNat 0 o.text.length).1
      have hc := SStringStyle.replace_capacity s.m_style index.toNat 0 o.text.length
      have hpre : index.toNat + 0 ≤ s.m_style.m_length := by omega
      refine ⟨?_, ?_, ?_⟩
      · intro k hk
        rw [SStringStyle.run_copy _ _ _ _ _ _ hsz', if_pos (by omega)]
        congr 1; omega
      · intro j hj
        rw [SStringStyle.run_copy _ _ _ _ _ _ hsz', if_neg (by omega),
          SStringStyle.run_replace _ _ _ _ _ hpre, if_pos hj]
      · intro j hj1 hj2
        rw [SStringStyle.run_copy _ _ _ _ _ _ hsz', if_neg (by omega),
          SStringStyle.run_replace _ _ _ _ _ hpre, if_neg (by omega), if_pos (by omega)]
        congr 1; omega

set_option maxRecDepth 100000 in
/-- Inserting an italic `xy` at index 1 of the bold string `ab`. -/
theorem insertSString_positional_example :
    (ofString "ab".toList Bold 0).WF ∧ (ofString "xy".toList Italic 5).WF ∧ (0 : Int) ≤ 1 ∧
    (1 : Int) ≤ (ofString "ab".toList Bold 0).length ∧
    ((ofString "ab".toList Bold 0).insertSString 1 (ofString "xy".toList Italic 5)).text
      = "axyb".toList ∧
    ((ofString "ab".toList Bold 0).insertSString 1 (ofString "xy".toList Italic 5)).run (1 + 1)
      = (ofString "xy".toList Italic 5).run 1 := by
  have h := insertSString_positional (ofString "ab".toList Bold 0) 1 (ofString "xy".toList Italic 5)
    (ofString_wf _ _ _) (ofString_wf _ _ _) (by decide) (by decide)
  exact ⟨ofString_wf _ _ _, ofString_wf _ _ _, by decide, by decide, by rw [h.1]; decide,
    h.2.1 1 (by decide)⟩

set_option maxRecDepth 100000 in
/-- C10, evaluated: `s.insert(1, s)` on `ab` with a bold `a` and an italic `b`.  The text is
`aabb`, but the style array has 6 runs for these 4 characters: the runs at 1 to 4 are
indeterminate, being written by a `memcpy` between overlapping regions of one array, so the
inserted characters at 1 and 2 do not carry the runs of the argument (bold, italic), and the
italic run of the original `b`, which is now the character at position 3, stands at
position 5. -/
theorem C10_insert_into_itself :
    ((ofString "ab".toList Bold 0).setStyleFlags 1 1 Italic).run 0 = (some Bold, some 0) ∧
    ((ofString "ab".toList Bold 0).setStyleFlags 1 1 Italic).run 1 = (some Italic, some 0) ∧
    (((ofString "ab".toList Bold 0).setStyleFlags 1 1 Italic).insertSelf 1).text
      = "aabb".toList ∧
    (((ofString "ab".toList Bold 0).setStyleFlags 1 1 Italic).insertSelf 1).m_style.m_length
      = 6 ∧
    (((ofString "ab".toList Bold 0).setStyleFlags 1 1 Italic).insertSelf 1).run 1
      = (none, none) ∧
    (((ofString "ab".toList Bold 0).setStyleFlags 1 1 Italic).insertSelf 1).run 2
      = (none, none) ∧
    (((ofString "ab".toList Bold 0).setStyleFlags 1 1 Italic).insertSelf 1).run 3
      = (none, none) ∧
    (((ofString "ab".toList Bold 0).setStyleFlags 1 1 Italic).insertSelf 1).run 5
      = (some Italic, some 0) := by
  decide

end SString

/-! # Further lemmas -/

namespace SStringStyle

/-- What `updateCapacity` establishes from any state: the capacity covers the length, and it is
0 for the length 0. -/
theorem updateCapacity_policy (st : SStringStyle) :
    st.updateCapacity.m_length ≤ st.updateCapacity.m_capacity ∧
    (st.updateCapacity.m_length = 0 → st.updateCapacity.m_capacity = 0) := by
  unfold updateCapacity
  simp only []
  split_ifs <;> simp_all <;> omega

/-- The capacity invariant holds for every reachable style array. -/
theorem Reachable.policy {st : SStringStyle} (h : Reachable st) :
    st.m_length ≤ st.m_capacity ∧ (st.m_length = 0 → st.m_capacity = 0) := by
  induction h with
  | ofLength len =>
    rw [ofLength_eq]; simp only []; omega
  | ofLengthStyle len f c =>
    unfold SStringStyle.ofLengthStyle
    by_cases hl : len = 0
    · simp [hl]
    · simp only [ne_eq, hl, not_false_eq_true, if_true, fill_length, fill_capacity]
      exact updateCapacity_policy _
  | @ofCopy other _ _ =>
    unfold SStringStyle.ofCopy
    by_cases hl : other.m_length = 0
    · simp [hl]
    · simp only [ne_eq, hl, not_false_eq_true, if_true, copy_length, copy_capacity]
      exact updateCapacity_policy _
  | insert index len _ _ _ =>
    unfold SStringStyle.insert
    rw [replace_eq]; simp only []; omega
  | replace index lenRemove lenAdd _ _ _ =>
    rw [replace_eq]; simp only []; omega
  | fill index len f c _ _ ih =>
    rw [fill_length, fill_capacity]; exact ih
  | copy index len off _ _ _ ih _ =>
    rw [copy_length, copy_capacity]; exact ih
  | clear _ _ =>
    unfold SStringStyle.clear
    exact updateCapacity_policy _
  | assign _ _ _ _ =>
    unfold SStringStyle.assign
    simp only [copy_length, copy_capacity]
    exact updateCapacity_policy _
  | swapLeft _ _ _ ih2 => exact ih2
  | swapRight _ _ ih1 _ => exact ih1

end SStringStyle

theorem setCell_length (buf : Buffer) (i : Nat) (v : Cell) : (setCell buf i v).length = buf.length := by
  simp [setCell]

theorem cell_setCell (buf : Buffer) (i : Nat) (v : Cell) (j : Nat) :
    cell (setCell buf i v) j = if j = i ∧ i < buf.length then v else cell buf j := by
  unfold cell setCell
  rw [List.getElem?_set]
  by_cases h : i = j
  · subst h
    by_cases hl : i < buf.length
    · simp [hl]
    · simp [hl, List.getElem?_eq_none (Nat.le_of_not_lt hl)]
  · have : ¬ (j = i ∧ i < buf.length) := fun hh => h hh.1.symm
    simp [h, this]

namespace SString

theorem setStyleColorLoop_spec (color : Nat) :
    ∀ (n index : Nat) (st : SStringStyle), st.Sized → index + n ≤ st.m_capacity →
      (setStyleColorLoop color n index st).Sized ∧
      (setStyleColorLoop color n index st).m_length = st.m_length ∧
      (setStyleColorLoop color n index st).m_capacity = st.m_capacity ∧
      ∀ j,
        cell (setStyleColorLoop color n index st).m_styleFlags j =
          (if index ≤ j ∧ j < index + n then
            (cell st.m_styleFlags j).map fun f =>
              if qRgb color ≠ 0 then quint8 (f ||| Color) else quint8 (f &&& bitNot Color)
          else cell st.m_styleFlags j) ∧
        cell (setStyleColorLoop color n index st).m_styleColors j =
          (if index ≤ j ∧ j < index + n then some (qRgb color) else cell st.m_styleColors j) := by
  intro n
  induction n with
  | zero =>
    intro index st hs hc
    refine ⟨hs, rfl, rfl, fun j => ?_⟩
    have : ¬ (index ≤ j ∧ j < index) := by omega
    simp [setStyleColorLoop, this]
  | succ n ih =>
    intro index st hs hc
    obtain ⟨hs1, hs2⟩ := hs
    simp only [setStyleColorLoop]
    obtain ⟨g1, g2, g3, g4⟩ := ih (index + 1)
      { st with
        m_styleColors := setCell st.m_styleColors index (some (qRgb color))
        m_styleFlags := setCell st.m_styleFlags index
          (if qRgb color ≠ 0 then (cell st.m_styleFlags index).map fun f => quint8 (f ||| Color)
           else (cell st.m_styleFlags index).map fun f => quint8 (f &&& bitNot Color)) }
      ⟨by simp [setCell_length, hs1], by simp [setCell_length, hs2]⟩ (by simp only; omega)
    refine ⟨g1, g2, g3, fun j => ?_⟩
    obtain ⟨e1, e2⟩ := g4 j
    rw [e1, e2]
    simp only [cell_setCell, hs1, hs2]
    by_cases hj : j = index
    · subst hj
      have a1 : ¬ (j + 1 ≤ j ∧ j < j + 1 + n) := by omega
      have a2 : j ≤ j ∧ j < j + (n + 1) := by omega
      have a3 : j < st.m_capacity := by omega
      simp only [a1, a2, a3, if_false, if_true, and_self]
      by_cases hc0 : qRgb color ≠ 0
      · simp [hc0]
      · simp [hc0]
    · by_cases hr : index + 1 ≤ j ∧ j < index + 1 + n
      · have a2 : index ≤ j ∧ j < index + (n + 1) := by omega
        simp [hr, a2, hj]
      · have a2 : ¬ (index ≤ j ∧ j < index + (n + 1)) := by omega
        simp [hr, a2, hj]

end SString

set_option maxRecDepth 100000 in
theorem colorFlag_bits_fin : ∀ f : Fin 256,
    quint8 (f.val ||| Color) &&& Color ≠ 0 ∧ quint8 (f.val ||| Color) ||| Color = f.val ||| Color ∧
    quint8 (f.val ||| Color) < 256 ∧
    quint8 (f.val &&& bitNot Color) &&& Color = 0 ∧
    quint8 (f.val &&& bitNot Color) ||| Color = f.val ||| Color ∧
    quint8 (f.val &&& bitNot Color) < 256 := by
  decide

theorem colorFlag_bits (f : Nat) (h : f < 256) :
    quint8 (f ||| Color) &&& Color ≠ 0 ∧ quint8 (f ||| Color) ||| Color = f ||| Color ∧
    quint8 (f ||| Color) < 256 ∧
    quint8 (f &&& bitNot Color) &&& Color = 0 ∧
    quint8 (f &&& bitNot Color) ||| Color = f ||| Color ∧
    quint8 (f &&& bitNot Color) < 256 :=
  colorFlag_bits_fin ⟨f, h⟩

namespace SString

end SString

namespace SSHelper

theorem foldl_replaceStep_cursor (str : SString) (r : List Char) (spans : MatchRefList)
    (st : ReplaceState) :
    (spans.foldl (replaceStep str (.plain r)) st).strStyleOffset
      = styleCursor spans st.strStyleOffset := by
  induction spans generalizing st with
  | nil => rfl
  | cons md rest ih =>
    simp only [List.foldl_cons, styleCursor]
    rw [ih]
    congr 1
    unfold replaceStep
    by_cases h0 : md.length = 0
    · simp [h0]
    · by_cases h1 : md.ref = .SUBJECT
      · simp [h0, h1]
      · by_cases h2 : md.ref = .REPLACEMENT
        · simp [h0, h2]
        · simp [h0, h1, h2]

theorem styleCursor_no_subject (spans : MatchRefList) (c : Int)
    (h : ∀ m ∈ spans, m.ref = .SUBJECT → m.length = 0) (hc : c = -1 ∨ c = 0) :
    styleCursor spans c = -1 ∨ styleCursor spans c = 0 := by
  induction spans generalizing c with
  | nil => exact hc
  | cons md rest ih =>
    simp only [styleCursor]
    apply ih _ (fun m hm => h m (List.mem_cons_of_mem _ hm))
    by_cases h0 : md.length = 0
    · simp only [h0, if_true]; exact hc
    · have h1 : ¬ md.ref = .SUBJECT := fun hs => h0 (h md (List.mem_cons_self _ _) hs)
      simp only [h0, h1, if_false]
      split_ifs <;> omega

/-- The cells that one pass of the materializer writes for a replacement span of a plain
replacement. -/
theorem replaceStep_plain_written (str : SString) (r : List Char) (st : ReplaceState)
    (md : MatchRef) (hr : md.ref = .REPLACEMENT)
    (hinv : st.Inv) (hcap : st.startNew + md.length ≤ st.newStyle.m_capacity) :
    ∀ k, k < md.length.toNat →
      (replaceStep str (.plain r) st md).newStyle.run (st.newString.length + k) =
        if max st.strStyleOffset 0 < str.length then str.run (max st.strStyleOffset 0).toNat
        else (some 0, some 0) := by
  intro k hk
  obtain ⟨hs1, hs2⟩ := hinv
  have hsn : st.startNew.toNat = st.newString.length := by omega
  have h0 : ¬ md.length = 0 := by omega
  have hmax : (if st.strStyleOffset < 0 then (0 : Int) else st.strStyleOffset)
      = max st.strStyleOffset 0 := by
    split_ifs <;> omega
  simp only [replaceStep, if_neg h0, hr, reduceCtorEq, if_false, if_true, hmax, hsn]
  by_cases hlt : max st.strStyleOffset 0 < str.length
  · simp only [if_pos hlt]
    rw [SStringStyle.run_fill _ _ _ _ _ _ hs2, if_pos (by omega)]
    rfl
  · simp only [if_neg hlt]
    rw [SStringStyle.run_fill _ _ _ _ _ _ hs2, if_pos (by omega)]

end SSHelper

namespace SSHelper

theorem styleCursor_subjectEnd (spans : MatchRefList) (c c' : Int) (h : max c 0 = max c' 0) :
    max (styleCursor spans c) 0 = max (subjectEnd spans c') 0 := by
  induction spans generalizing c c' with
  | nil => exact h
  | cons md rest ih =>
    simp only [styleCursor, subjectEnd]
    apply ih
    by_cases h0 : md.length = 0
    · rw [if_pos h0, if_neg (show ¬(md.length ≠ 0 ∧ md.ref = .SUBJECT) from fun hh => hh.1 h0)]
      exact h
    · rw [if_neg h0]
      by_cases h1 : md.ref = .SUBJECT
      · rw [if_pos h1, if_pos (show md.length ≠ 0 ∧ md.ref = .SUBJECT from ⟨h0, h1⟩)]
      · rw [if_neg h1, if_neg (show ¬(md.length ≠ 0 ∧ md.ref = .SUBJECT) from fun hh => h1 hh.2)]
        by_cases h2 : md.ref = .REPLACEMENT
        · rw [if_pos h2]
          split_ifs <;> omega
        · rw [if_neg h2]; exact h

theorem subjectEnd_nonneg (spans : MatchRefList) (c : Int) (n m : Nat)
    (h : ∀ md ∈ spans, md.InRange n m) (hc : 0 ≤ c) : 0 ≤ subjectEnd spans c := by
  induction spans generalizing c with
  | nil => exact hc
  | cons md rest ih =>
    simp only [subjectEnd]
    apply ih _ (fun x hx => h x (List.mem_cons_of_mem _ hx))
    have hmd := h md (List.mem_cons_self _ _)
    unfold MatchRef.InRange at hmd
    by_cases hh : md.length ≠ 0 ∧ md.ref = .SUBJECT
    · rw [if_pos hh]
      simp only [hh.2] at hmd
      omega
    · rw [if_neg hh]; exact hc

theorem subjectEnd_no_subject (spans : MatchRefList) (c : Int)
    (h : ∀ m ∈ spans, m.ref = .SUBJECT → m.length = 0) : subjectEnd spans c = c := by
  induction spans generalizing c with
  | nil => rfl
  | cons md rest ih =>
    simp only [subjectEnd]
    rw [ih _ (fun m hm => h m (List.mem_cons_of_mem _ hm))]
    have := h md (List.mem_cons_self _ _)
    by_cases hh : md.length ≠ 0 ∧ md.ref = .SUBJECT
    · exact absurd (this hh.2) hh.1
    · rw [if_neg hh]

/-- The cells that `SSHelper::replace` with a plain replacement writes for a replacement span:
the style of the subject at the end of the last non-empty subject span before it (position
0 when there is none), and no style when that position is not in the subject. -/
theorem replace_plain_written (str : SString) (r : List Char) (pre post : MatchRefList)
    (md last : MatchRef)
    (hpre : ∀ m ∈ pre, m.InRange str.text.length r.length)
    (hmd : md.InRange str.text.length r.length) (hr : md.ref = .REPLACEMENT)
    (hpost : ∀ m ∈ post, m.InRange str.text.length r.length)
    (hlast : last.ref = .NONE)
    (htotal : last.length = (spanOutput str.text r (pre ++ md :: post)).length) :
    ∀ k, k < md.length.toNat →
      (replace (pre ++ md :: post ++ [last]) str (.plain r)).run
          ((spanOutput str.text r pre).length + k) =
        if subjectEnd pre 0 < str.length then str.run (subjectEnd pre 0).toNat
        else (some 0, some 0) := by
  intro k hk
  have hst0 : ReplaceState.Inv
      { newString := [], newStyle := SStringStyle.ofLength last.length.toNat, startNew := 0,
        strStyleOffset := -1 } :=
    ⟨rfl, by rw [SStringStyle.ofLength_eq]; simp [SStringStyle.Sized, newBuffer_length]⟩
  have hlenmd := MatchRef.output_length str.text r md hmd
  simp only [spanOutput_append, spanOutput, List.length_append] at htotal
  -- the spans before
  obtain ⟨g1, g2, g3, g4, g5, g6⟩ :=
    foldl_replaceStep_spec str (.plain r) pre _ hpre hst0
      (by rw [SStringStyle.ofLength_eq]; simp only [List.length_nil, Replacement.text]; omega)
  have hcur := foldl_replaceStep_cursor str r pre
    { newString := [], newStyle := SStringStyle.ofLength last.length.toNat, startNew := 0,
      strStyleOffset := -1 }
  generalize hst1 : pre.foldl (replaceStep str (.plain r))
    { newString := [], newStyle := SStringStyle.ofLength last.length.toNat, startNew := 0,
      strStyleOffset := -1 } = st1 at g1 g2 g3 g4 g5 g6 hcur
  simp only [Replacement.text, List.nil_append] at g2
  have hl1 : st1.newString.length = (spanOutput str.text r pre).length := by
    rw [g2]; simp
  have hcap1 : st1.newStyle.m_capacity = 2 * last.length.toNat := by
    rw [g3, SStringStyle.ofLength_eq]
    simp only
    omega
  -- the span itself
  obtain ⟨h1, h2, h3, h4, h5, h6⟩ :=
    replaceStep_spec str (.plain r) st1 md hmd g1 (by have := g1.1; omega)
  have hw := replaceStep_plain_written str r st1 md hr g1 (by have := g1.1; omega) k hk
  have hl2 : (replaceStep str (.plain r) st1 md).newString.length
      = st1.newString.length + (md.output str.text r).length := by
    rw [h2]; simp [Replacement.text]
  -- the spans after
  obtain ⟨f1, f2, f3, f4, f5, f6⟩ :=
    foldl_replaceStep_spec str (.plain r) post _ hpost h1
      (by rw [hl2, h3, hcap1]; simp only [Replacement.text]; omega)
  have hlaststep : ∀ st, replaceStep str (.plain r) st last = st := by
    intro st
    unfold replaceStep
    simp [hlast]
  have hgl : (pre ++ md :: post ++ [last]).getLast? = some last := by
    have hgen : ∀ l : MatchRefList, (l ++ [last]).getLast? = some last := fun l => by simp
    exact hgen _
  have hfold : (pre ++ md :: post ++ [last]) = pre ++ (md :: (post ++ [last])) := by simp
  have hmax : max st1.strStyleOffset 0 = subjectEnd pre 0 := by
    rw [hcur, styleCursor_subjectEnd pre (-1) 0 (by decide)]
    exact max_eq_left (subjectEnd_nonneg pre 0 _ _ hpre (le_refl 0))
  unfold replace
  simp only [hgl, Option.map_some', Option.getD_some]
  rw [hfold, List.foldl_append, hst1, List.foldl_cons, List.foldl_append, List.foldl_cons,
    List.foldl_nil, hlaststep]
  simp only [SString.run]
  rw [f5 _ (by rw [hl2, hl1]; omega), ← hl1, hw, hmax]
  rfl

end SSHelper

namespace SString

theorem ofString_initialised (string : List Char) (f c : Nat) :
    (ofString string f c).Initialised := by
  intro i hi
  refine ⟨quint8 (quint8 f &&& AllStyles), qRgb c, ?_, ?_, ?_⟩
  · exact SStringStyle.run_ofLengthStyle _ _ _ _ hi
  · unfold quint8; omega
  · unfold qRgb; omega

end SString

theorem readRawData_bytes (bytes : List Cell) (rest : QDataStream) :
    readRawData (bytes.map StreamItem.byte ++ rest) bytes.length = (bytes, rest) := by
  induction bytes with
  | nil =>
    cases rest with
    | nil => rfl
    | cons x r => cases x <;> rfl
  | cons b t ih =>
    have e : readRawData (StreamItem.byte b :: (t.map StreamItem.byte ++ rest)) (t.length + 1)
        = (b :: (readRawData (t.map StreamItem.byte ++ rest) t.length).1,
            (readRawData (t.map StreamItem.byte ++ rest) t.length).2) := rfl
    simp only [List.map_cons, List.cons_append, List.length_cons]
    rw [e, ih]

theorem colorOfBytes_colorBytes (v : Nat) (h : v < 4294967296) :
    colorOfBytes (some (v % 256)) (some (v / 256 % 256)) (some (v / 65536 % 256))
      (some (v / 16777216 % 256)) = some v := by
  simp only [colorOfBytes, Option.some.injEq]
  omega

theorem colorCells_colorBytes (cells : List Cell)
    (h : ∀ c ∈ cells, ∀ v, c = some v → v < 4294967296) :
    colorCells (cells.flatMap colorBytes) = cells := by
  induction cells with
  | nil => rfl
  | cons c t ih =>
    have iht := ih (fun x hx => h x (List.mem_cons_of_mem _ hx))
    cases c with
    | none =>
      have e : (none :: t).flatMap colorBytes
          = none :: none :: none :: none :: t.flatMap colorBytes := by
        simp [List.flatMap_cons, colorBytes]
      rw [e]
      simp only [colorCells, colorOfBytes, iht]
    | some v =>
      have hv := h (some v) (List.mem_cons_self _ _) v rfl
      have e : (some v :: t).flatMap colorBytes
          = some (v % 256) :: some (v / 256 % 256) :: some (v / 65536 % 256) ::
            some (v / 16777216 % 256) :: t.flatMap colorBytes := by
        simp [List.flatMap_cons, colorBytes]
      rw [e]
      simp only [colorCells, colorOfBytes_colorBytes v hv, iht]

theorem length_flatMap_colorBytes (cells : List Cell) :
    (cells.flatMap colorBytes).length = cells.length * 4 := by
  induction cells with
  | nil => rfl
  | cons c t ih =>
    cases c <;> simp only [List.flatMap_cons, colorBytes, List.length_append, List.length_cons,
      List.length_nil, ih] <;> omega

theorem firstCells_length (buf : Buffer) (n : Nat) : (firstCells buf n).length = n := by
  simp [firstCells]

theorem cell_firstCells (buf : Buffer) (n i : Nat) (h : i < n) :
    cell (firstCells buf n) i = cell buf i := by
  simp [cell, firstCells, List.getElem?_map, List.getElem?_range, h]

theorem mem_firstCells (buf : Buffer) (n : Nat) (c : Cell) (h : c ∈ firstCells buf n) :
    ∃ i, i < n ∧ c = cell buf i := by
  simp only [firstCells, List.mem_map, List.mem_range] at h
  obtain ⟨i, hi, e⟩ := h
  exact ⟨i, hi, e.symm⟩

theorem map_quint8_firstCells (buf : Buffer) (n : Nat)
    (h : ∀ i, i < n → ∀ f, cell buf i = some f → f < 256) :
    (firstCells buf n).map (fun c => c.map quint8) = firstCells buf n := by
  unfold firstCells
  rw [List.map_map]
  apply List.map_congr_left
  intro i hi
  rw [List.mem_range] at hi
  simp only [Function.comp]
  cases hc : cell buf i with
  | none => rfl
  | some f =>
    have := h i hi f hc
    simp only [Option.map_some', quint8, Option.some.injEq]
    omega

namespace SString

theorem Initialised.typed {s : SString} (h : s.Initialised) : s.Typed := by
  intro i hi
  obtain ⟨f, c, e, hf, hc⟩ := h i hi
  simp only [SString.run, SStringStyle.run, Prod.mk.injEq] at e
  refine ⟨?_, ?_⟩
  · intro f' hf'
    rw [e.1] at hf'
    cases hf'; exact hf
  · intro c' hc'
    rw [e.2] at hc'
    cases hc'; exact hc

/-- Reading back what `operator<<` wrote. -/
theorem readSString_writeSString (s t : SString) (rest : QDataStream)
    (hs : s.Typed) (ht : t.m_style.Sized) :
    (readSString (writeSString [] s ++ rest) t).1.text = s.text ∧
    (readSString (writeSString [] s ++ rest) t).1.WF ∧
    (∀ i, i < s.text.length → (readSString (writeSString [] s ++ rest) t).1.run i = s.run i) ∧
    (readSString (writeSString [] s ++ rest) t).2 = rest := by
  have hlen : s.length.toNat = s.text.length := by simp [length]
  have hf : (firstCells s.m_style.m_styleFlags s.text.length).map (fun c => c.map quint8)
      = firstCells s.m_style.m_styleFlags s.text.length :=
    map_quint8_firstCells _ _ (fun i hi => (hs i hi).1)
  have hc : colorCells ((firstCells s.m_style.m_styleColors s.text.length).flatMap colorBytes)
      = firstCells s.m_style.m_styleColors s.text.length := by
    apply colorCells_colorBytes
    intro c hc v hv
    obtain ⟨i, hi, e⟩ := mem_firstCells _ _ _ hc
    exact (hs i hi).2 v (by rw [← e, hv])
  have hw : writeSString [] s ++ rest
      = StreamItem.string s.text ::
        ((firstCells s.m_style.m_styleFlags s.text.length).map StreamItem.byte ++
          (((firstCells s.m_style.m_styleColors s.text.length).flatMap colorBytes).map
            StreamItem.byte ++ rest)) := by
    simp only [writeSString, writeRawData, hlen, hf, List.nil_append, List.append_assoc,
      List.singleton_append, List.cons_append]
  have hr1 := readRawData_bytes (firstCells s.m_style.m_styleFlags s.text.length)
    (((firstCells s.m_style.m_styleColors s.text.length).flatMap colorBytes).map
      StreamItem.byte ++ rest)
  rw [firstCells_length] at hr1
  have hr2 := readRawData_bytes
    ((firstCells s.m_style.m_styleColors s.text.length).flatMap colorBytes) rest
  rw [length_flatMap_colorBytes, firstCells_length] at hr2
  have hwf := SStringStyle.updateCapacity_wf
    ({ t.m_style with m_length := s.text.length } : SStringStyle) ht
  have hul := SStringStyle.updateCapacity_length
    ({ t.m_style with m_length := s.text.length } : SStringStyle)
  simp only at hul
  generalize hst : SStringStyle.updateCapacity
    ({ t.m_style with m_length := s.text.length } : SStringStyle) = st at hwf hul
  have hdef : readSString (writeSString [] s ++ rest) t
      = (⟨s.text, ⟨memcpy st.m_styleFlags 0 (firstCells s.m_style.m_styleFlags s.text.length) 0
            s.text.length,
          memcpy st.m_styleColors 0 (firstCells s.m_style.m_styleColors s.text.length) 0
            s.text.length, st.m_length, st.m_capacity⟩⟩, rest) := by
    rw [hw]
    simp only [readSString, readQString, hr1, hr2, hc, hst, firstCells_length]
  rw [hdef]
  obtain ⟨⟨hz1, hz2⟩, hz3⟩ := hwf
  refine ⟨rfl, ⟨?_, ⟨?_, ?_⟩, ?_⟩, ?_, rfl⟩
  · simp only [hul]
  · simp only [memcpy_length, hz1]
  · simp only [memcpy_length, hz2]
  · exact hz3
  · intro i hi
    simp only [SString.run, SStringStyle.run, cell_memcpy]
    rw [if_pos (by omega), if_pos (by omega)]
    simp only [Nat.sub_zero, Nat.add_zero, cell_firstCells _ _ _ hi]

end SString

/-! # Claims on the style array and the attributes -/

namespace SStringStyle

/-- C11: for a style array of length `L` and `index + lenRemove <= L`, the resize
`replace(index, lenRemove, lenAdd)` gives an array of length `L - lenRemove + lenAdd` whose
run at every position before `index` is the old run there, and whose run at
`index + lenAdd + j` is the old run at `index + lenRemove + j` for every
`j < L - index - lenRemove`. -/
theorem C11_resize_keeps_prefix_and_tail (st : SStringStyle) (index lenRemove lenAdd : Nat)
    (h : index + lenRemove ≤ st.m_length) :
    (st.replace index lenRemove lenAdd).m_length = st.m_length - lenRemove + lenAdd ∧
    (∀ i, i < index → (st.replace index lenRemove lenAdd).run i = st.run i) ∧
    (∀ j, j < st.m_length - index - lenRemove →
      (st.replace index lenRemove lenAdd).run (index + lenAdd + j)
        = st.run (index + lenRemove + j)) := by
  refine ⟨?_, ?_, ?_⟩
  · rw [replace_length]; omega
  · intro i hi
    rw [run_replace _ _ _ _ _ h, if_pos hi]
  · intro j hj
    rw [run_replace _ _ _ _ _ h, if_neg (by omega), if_pos (by omega)]
    congr 1; omega

set_option maxRecDepth 100000 in
/-- Witness of C11: one run is removed and two are opened at position 1 of three bold runs
whose last run was made italic. -/
theorem C11_resize_keeps_prefix_and_tail_witness :
    1 + 1 ≤ ((ofLengthStyle 3 Bold 0).fill 2 1 (some Italic) (some 0)).m_length ∧
    (((ofLengthStyle 3 Bold 0).fill 2 1 (some Italic) (some 0)).replace 1 1 2).m_length = 4 ∧
    (((ofLengthStyle 3 Bold 0).fill 2 1 (some Italic) (some 0)).replace 1 1 2).run 0
      = (some Bold, some 0) ∧
    (((ofLengthStyle 3 Bold 0).fill 2 1 (some Italic) (some 0)).replace 1 1 2).run 3
      = (some Italic, some 0) :=
  ⟨by decide,
    (C11_resize_keeps_prefix_and_tail
      ((ofLengthStyle 3 Bold 0).fill 2 1 (some Italic) (some 0)) 1 1 2 (by decide)).1,
    by decide, by decide⟩

/-- C12: every style array reached from a constructor by the operations of the class
(insert, resize, fill, copy, clear, assignment, swap) has a capacity that is at least its
length, and capacity 0 when its length is 0. -/
theorem C12_capacity_covers_length (st : SStringStyle) (h : Reachable st) :
    st.m_length ≤ st.m_capacity ∧ (st.m_length = 0 → st.m_capacity = 0) :=
  h.policy

/-- Witness of C12: an array of 3 runs, grown by 2, emptied by a resize, then swapped with a
fresh array of 7 runs. -/
theorem C12_capacity_covers_length_witness :
    Reachable ((((ofLength 3).insert 1 2).replace 0 5 0).swap (ofLength 7)).2 ∧
    (((((ofLength 3).insert 1 2).replace 0 5 0).swap (ofLength 7)).2.m_length
        ≤ ((((ofLength 3).insert 1 2).replace 0 5 0).swap (ofLength 7)).2.m_capacity ∧
      (((((ofLength 3).insert 1 2).replace 0 5 0).swap (ofLength 7)).2.m_length = 0 →
        ((((ofLength 3).insert 1 2).replace 0 5 0).swap (ofLength 7)).2.m_capacity = 0)) :=
  have hr : Reachable ((((ofLength 3).insert 1 2).replace 0 5 0).swap (ofLength 7)).2 :=
    .swapRight (.replace 0 5 0 (.insert 1 2 (.ofLength 3) (by decide)) (by decide))
      (.ofLength 7)
  ⟨hr, C12_capacity_covers_length _ hr⟩

set_option maxRecDepth 100000 in
/-- C13, evaluated: an array of 10 runs has capacity 20; removing one run leaves 9 runs and
capacity 18, and inserting one run again gives capacity 20: the capacity drops although it
was not above 100, and every resize allocates anew. -/
theorem C13_resize_drops_small_capacity :
    (ofLength 10).m_capacity = 20 ∧
    ((ofLength 10).replace 0 1 0).m_length = 9 ∧
    ((ofLength 10).replace 0 1 0).m_capacity = 18 ∧
    (((ofLength 10).replace 0 1 0).insert 0 1).m_capacity = 20 := by
  refine ⟨by decide, ?_, ?_, ?_⟩
  · rw [replace_length]; decide
  · rw [replace_capacity]; decide
  · unfold insert; rw [replace_capacity, replace_length]; decide

end SStringStyle

namespace SString

/-- C14: for a string with stored style runs, an index inside it, any `len` and any `QRgb`
color `c`, `setStyleColor(index, len, c)` keeps the text; at every position of the clamped
range (whose length is `min(len, length - index)` for `len >= 0`) `styleColorAt` is `c`, the
`Color` flag is set exactly when `c` is not 0 and the other flag bits are those of before;
outside the range `styleFlagsAt` and `styleColorAt` are those of before; and `styleColorAt`
is 0 wherever the `Color` flag is not set. -/
theorem C14_setStyleColor (s : SString) (index len : Int) (c : Nat)
    (hs : s.WF) (hi : s.Initialised) (h0 : 0 ≤ index) (h1 : index < s.length)
    (hc : c < 4294967296) :
    (s.setStyleColor index len c).text = s.text ∧
    (0 ≤ len → s.lengthAt index len = min len (s.length - index)) ∧
    (∀ i : Int, index ≤ i → i < index + s.lengthAt index len →
      (s.setStyleColor index len c).styleColorAt i = some c ∧
      ∃ f f', s.styleFlagsAt i = some f ∧ (s.setStyleColor index len c).styleFlagsAt i = some f' ∧
        (f' &&& Color ≠ 0 ↔ c ≠ 0) ∧ f' ||| Color = f ||| Color) ∧
    (∀ i : Int, i < index ∨ index + s.lengthAt index len ≤ i →
      (s.setStyleColor index len c).styleFlagsAt i = s.styleFlagsAt i ∧
      (s.setStyleColor index len c).styleColorAt i = s.styleColorAt i) ∧
    (∀ (i : Int) (f : Nat), (s.setStyleColor index len c).styleFlagsAt i = some f →
      f &&& Color = 0 → (s.setStyleColor index len c).styleColorAt i = some 0) := by
  have hn := lengthAt_nonneg s index len (by omega)
  have hle := lengthAt_le s index len
  have hlen := hs.1
  have hcap := hs.2.2
  have hq : qRgb c = c := by unfold qRgb; omega
  simp only [length] at h1 hle
  have hg : ¬ (index < 0 ∨ index ≥ s.length) := by simp only [length]; omega
  obtain ⟨g1, g2, g3, g4⟩ := setStyleColorLoop_spec c (s.lengthAt index len).toNat index.toNat
    s.m_style hs.2.1 (by omega)
  have hdef : s.setStyleColor index len c
      = ⟨s.text, setStyleColorLoop c (s.lengthAt index len).toNat index.toNat s.m_style⟩ := by
    unfold setStyleColor; rw [if_neg hg]
  rw [hdef]
  refine ⟨rfl, ?_, ?_, ?_, ?_⟩
  · intro hl
    unfold lengthAt
    simp only [length]
    split_ifs <;> omega
  · intro i hi1 hi2
    have hir : ¬ (i < 0 ∨ i ≥ (s.text.length : Int)) := by omega
    have hin : index.toNat ≤ i.toNat ∧ i.toNat < index.toNat + (s.lengthAt index len).toNat := by
      omega
    obtain ⟨f, col, hrun, hf, _⟩ := hi i.toNat (by omega)
    have hfc : cell s.m_style.m_styleFlags i.toNat = some f := by
      have := congrArg Prod.fst hrun; simpa [run, SStringStyle.run] using this
    obtain ⟨e1, e2⟩ := g4 i.toNat
    rw [if_pos hin, hfc] at e1
    rw [if_pos hin] at e2
    obtain ⟨b1, b2, b3, b4, b5, b6⟩ := colorFlag_bits f hf
    simp only [styleColorAt, styleFlagsAt, length, if_neg hir, e1, e2, hfc, Option.map_some', hq]
    by_cases hc0 : c = 0
    · subst hc0
      simp only [ne_eq, not_true_eq_false, if_false, b4, if_true, true_and]
      exact ⟨f, _, rfl, rfl, by simp [b4], b5⟩
    · simp only [ne_eq, hc0, not_false_eq_true, if_true, if_neg b1, true_and]
      exact ⟨f, _, rfl, rfl, by simp [b1, hc0], b2⟩
  · intro i hi1
    by_cases hir : i < 0 ∨ i ≥ (s.text.length : Int)
    · simp only [styleColorAt, styleFlagsAt, length, if_pos hir, and_self]
    · have hout : ¬ (index.toNat ≤ i.toNat ∧
          i.toNat < index.toNat + (s.lengthAt index len).toNat) := by omega
      obtain ⟨e1, e2⟩ := g4 i.toNat
      rw [if_neg hout] at e1 e2
      simp only [styleColorAt, styleFlagsAt, length, if_neg hir, e1, e2, and_self]
  · intro i f hf hz
    by_cases hir : i < 0 ∨ i ≥ (s.text.length : Int)
    · simp only [styleColorAt, length, if_pos hir]
    · simp only [styleFlagsAt, length, if_neg hir] at hf
      simp only [styleColorAt, length, if_neg hir, hf, hz, if_true]


set_option maxRecDepth 100000 in
/-- Witness of C14: the middle character of a bold `abc` is coloured. -/
theorem C14_setStyleColor_witness :
    (ofString "abc".toList Bold 0).WF ∧ (ofString "abc".toList Bold 0).Initialised ∧
    ((ofString "abc".toList Bold 0).setStyleColor 1 1 16711680).styleColorAt 1 = some 16711680 ∧
    ((ofString "abc".toList Bold 0).setStyleColor 1 1 16711680).styleFlagsAt 1
      = some (Bold ||| Color) ∧
    ((ofString "abc".toList Bold 0).setStyleColor 1 1 16711680).styleFlagsAt 2 = some Bold ∧
    ((ofString "abc".toList Bold 0).setStyleColor 1 1 16711680).text = "abc".toList :=
  ⟨ofString_wf _ _ _, ofString_initialised _ _ _, by decide, by decide, by decide,
    (C14_setStyleColor (ofString "abc".toList Bold 0) 1 1 16711680 (ofString_wf _ _ _)
      (ofString_initialised _ _ _) (by decide) (by decide) (by decide)).1⟩

end SString

/-! # Claims on error handling and on the pattern replace -/

namespace SString

set_option maxRecDepth 100000 in
/-- C15, evaluated: on an empty string `insert(index, QString)` and `insert(index, SString)`
with the out-of-range indices 5 and -1 store the inserted text and its style, while
`insert(5, QChar)` leaves the empty string as it is. -/
theorem C15_insert_into_empty_ignores_index :
    ((ofString [] 0 0).insertString 5 "abc".toList).text = "abc".toList ∧
    ((ofString [] 0 0).insertString (-1) "abc".toList).text = "abc".toList ∧
    ((ofString [] 0 0).insertSString 5 (ofString "abc".toList Bold 0)).text = "abc".toList ∧
    ((ofString [] 0 0).insertSString 5 (ofString "abc".toList Bold 0)).styleFlagsAt 0
      = some Bold ∧
    ((ofString [] 0 0).insertSString (-1) (ofString "abc".toList Bold 0)).text
      = "abc".toList ∧
    (ofString [] 0 0).insertChar 5 'x' = ofString [] 0 0 := by
  decide

/-- C16: when the compiled pattern is invalid, the `QRegularExpression` matcher and the
`QRegExp` matcher return an empty span list, without a terminator, for every subject and
every plain or styled replacement, and the public `replace` returns the subject as it was,
text and style object. -/
theorem C16_invalid_pattern_is_noop (s : SString) (replacement : SSHelper.Replacement)
    (regExp : QRegularExpression) (rx : QRegExp)
    (h1 : regExp.isValid = false) (h2 : rx.isValid = false) :
    SSHelper.matchQRegularExpression s regExp replacement = some [] ∧
    s.replaceQRegularExpression regExp replacement = some s ∧
    SSHelper.matchQRegExp s rx replacement = some [] ∧
    s.replaceQRegExp rx replacement = some s := by
  have e1 : SSHelper.matchQRegularExpression s regExp replacement = some [] := by
    unfold SSHelper.matchQRegularExpression
    simp [h1]
  have e2 : SSHelper.matchQRegExp s rx replacement = some [] := by
    unfold SSHelper.matchQRegExp
    simp [h2]
  refine ⟨e1, ?_, e2, ?_⟩
  · unfold replaceQRegularExpression
    rw [e1]
    simp
  · unfold replaceQRegExp
    rw [e2]
    simp

/-- Witness of C16: an invalid pattern applied to a bold `ab` with the template `\1`. -/
theorem C16_invalid_pattern_is_noop_witness :
    invalidExpression.isValid = false ∧ invalidRegExp.isValid = false ∧
    (SSHelper.matchQRegularExpression (ofString "ab".toList Bold 0) invalidExpression
        (.plain "\\1".toList) = some [] ∧
      (ofString "ab".toList Bold 0).replaceQRegularExpression invalidExpression
        (.plain "\\1".toList) = some (ofString "ab".toList Bold 0) ∧
      SSHelper.matchQRegExp (ofString "ab".toList Bold 0) invalidRegExp
        (.plain "\\1".toList) = some [] ∧
      (ofString "ab".toList Bold 0).replaceQRegExp invalidRegExp
        (.plain "\\1".toList) = some (ofString "ab".toList Bold 0)) :=
  ⟨rfl, rfl, C16_invalid_pattern_is_noop _ _ invalidExpression invalidRegExp rfl rfl⟩

set_option maxRecDepth 100000 in
/-- C17, evaluated: with `Qt::CaseInsensitive`, replacing the target `a` by the
one-character text `x` in the subject `A` leaves `A`, for the literal and for the
single-character overload, while the two-character replacement `xy` replaces the `A`. -/
theorem C17_fast_path_ignores_case_option :
    ((ofString "A".toList 0 0).replaceLiteral "a".toList "x".toList .CaseInsensitive).map
        (fun t => t.text) = some "A".toList ∧
    ((ofString "A".toList 0 0).replaceChar 'a' "x".toList .CaseInsensitive).map
        (fun t => t.text) = some "A".toList ∧
    ((ofString "A".toList 0 0).replaceLiteral "a".toList "xy".toList .CaseInsensitive).map
        (fun t => t.text) = some "xy".toList ∧
    ((ofString "A".toList 0 0).replaceChar 'a' "xy".toList .CaseInsensitive).map
        (fun t => t.text) = some "xy".toList := by
  decide

set_option maxRecDepth 100000 in
/-- C18, counterexample: replacing the empty target by the plain text `Z` in a bold `ab`
gives `ZaZbZ`; the first `Z` comes from a replacement span that precedes every subject span,
and it is bold; the last `Z`, written with the cursor at the subject's end, has no style. -/
theorem C18_leading_replacement_counterexample :
    SSHelper.matchLiteral (ofString "ab".toList Bold 0) [] (.plain "Z".toList) .CaseSensitive
      = some [⟨0, 1, .REPLACEMENT⟩, ⟨0, 1, .SUBJECT⟩, ⟨0, 1, .REPLACEMENT⟩, ⟨1, 1, .SUBJECT⟩,
          ⟨0, 1, .REPLACEMENT⟩, ⟨2, 5, .NONE⟩] ∧
    ((ofString "ab".toList Bold 0).replaceLiteral [] "Z".toList .CaseSensitive).map
        (fun t => (t.text, t.run 0, t.run 4))
      = some ("ZaZbZ".toList, (some Bold, some 0), (some 0, some 0)) := by
  decide

/-- C18, amended: with a plain replacement, every cell that the materializer writes for a
replacement span holds the style of the subject at the end of the last non-empty subject
span before it, or at position 0 when no such span precedes it; it holds no style (flags 0,
color 0) exactly when that position is not inside the subject, which for a replacement span
before every subject span means that the subject is empty. -/
theorem C18_plain_replacement_fill (str : SString) (r : List Char)
    (pre post : SSHelper.MatchRefList) (md last : SSHelper.MatchRef)
    (hpre : ∀ m ∈ pre, m.InRange str.text.length r.length)
    (hmd : md.InRange str.text.length r.length) (hr : md.ref = .REPLACEMENT)
    (hpost : ∀ m ∈ post, m.InRange str.text.length r.length)
    (hlast : last.ref = .NONE)
    (htotal : last.length = (SSHelper.spanOutput str.text r (pre ++ md :: post)).length) :
    (∀ k, k < md.length.toNat →
      (SSHelper.replace (pre ++ md :: post ++ [last]) str (.plain r)).run
          ((SSHelper.spanOutput str.text r pre).length + k) =
        if SSHelper.subjectEnd pre 0 < str.length then str.run (SSHelper.subjectEnd pre 0).toNat
        else (some 0, some 0)) ∧
    ((∀ m ∈ pre, m.ref = .SUBJECT → m.length = 0) → SSHelper.subjectEnd pre 0 = 0) ∧
    ((∀ m ∈ pre, m.ref = .SUBJECT → m.length = 0) → str.text ≠ [] →
      ∀ k, k < md.length.toNat →
        (SSHelper.replace (pre ++ md :: post ++ [last]) str (.plain r)).run
          ((SSHelper.spanOutput str.text r pre).length + k) = str.run 0) := by
  have hw := SSHelper.replace_plain_written str r pre post md last hpre hmd hr hpost hlast htotal
  refine ⟨hw, SSHelper.subjectEnd_no_subject pre 0, ?_⟩
  intro hno hne k hk
  rw [hw k hk, SSHelper.subjectEnd_no_subject pre 0 hno]
  have : (0 : Int) < str.length := by
    unfold length
    have := List.length_pos.mpr hne
    omega
  rw [if_pos this]
  rfl

set_option maxRecDepth 100000 in
/-- Witness of C18: the span list of `Z` followed by the whole subject, on a bold `ab`. -/
theorem C18_plain_replacement_fill_witness :
    (⟨0, 1, .REPLACEMENT⟩ : SSHelper.MatchRef).InRange
      (ofString "ab".toList Bold 0).text.length "Z".toList.length ∧
    (SSHelper.replace [⟨0, 1, .REPLACEMENT⟩, ⟨0, 2, .SUBJECT⟩, ⟨2, 3, .NONE⟩]
      (ofString "ab".toList Bold 0) (.plain "Z".toList)).run 0 = (some Bold, some 0) ∧
    (∀ k, k < (1 : Int).toNat →
      (SSHelper.replace ([] ++ ⟨0, 1, .REPLACEMENT⟩ :: [⟨0, 2, .SUBJECT⟩] ++ [⟨2, 3, .NONE⟩])
        (ofString "ab".toList Bold 0) (.plain "Z".toList)).run
          ((SSHelper.spanOutput (ofString "ab".toList Bold 0).text "Z".toList []).length + k) =
        (ofString "ab".toList Bold 0).run 0) :=
  ⟨by simp [SSHelper.MatchRef.InRange, ofString], by decide,
    (C18_plain_replacement_fill (ofString "ab".toList Bold 0) "Z".toList []
      [⟨0, 2, .SUBJECT⟩] ⟨0, 1, .REPLACEMENT⟩ ⟨2, 3, .NONE⟩
      (fun _ hm => absurd hm (List.not_mem_nil _))
      (by simp [SSHelper.MatchRef.InRange, ofString]) rfl
      (by intro m hm; rw [List.mem_singleton] at hm; subst hm; simp [SSHelper.MatchRef.InRange, ofString])
      rfl (by decide)).2.2 (fun _ hm => absurd hm (List.not_mem_nil _)) (by decide)⟩

end SString

/-! # Claims on the serialized forms -/

namespace SString

/-- C19: for every styled string `s` whose stored flags and colors fit their element types
(the empty string included) and every target `t` with arbitrary contents, reading with
`operator>>` into `t` what `operator<<` wrote for `s` gives a string with the text of `s`
and, at every position, the style run, `styleFlagsAt` and `styleColorAt` of `s`; the read
consumes exactly what was written. -/
theorem C19_stream_round_trip (s t : SString) (rest : QDataStream)
    (hs : s.Typed) (ht : t.m_style.Sized) :
    (readSString (writeSString [] s ++ rest) t).1.text = s.text ∧
    (readSString (writeSString [] s ++ rest) t).2 = rest ∧
    (∀ i, i < s.text.length → (readSString (writeSString [] s ++ rest) t).1.run i = s.run i) ∧
    (∀ i : Int, (readSString (writeSString [] s ++ rest) t).1.styleFlagsAt i = s.styleFlagsAt i ∧
      (readSString (writeSString [] s ++ rest) t).1.styleColorAt i = s.styleColorAt i) := by
  obtain ⟨h1, _, h3, h4⟩ := readSString_writeSString s t rest hs ht
  refine ⟨h1, h4, h3, ?_⟩
  intro i
  unfold styleFlagsAt styleColorAt
  simp only [length, h1]
  by_cases hi : i < 0 ∨ i ≥ (s.text.length : Int)
  · simp only [if_pos hi, and_self]
  · simp only [if_neg hi]
    have hr := h3 i.toNat (by omega)
    simp only [SString.run, SStringStyle.run, Prod.mk.injEq] at hr
    rw [hr.1, hr.2]
    exact ⟨rfl, rfl⟩

set_option maxRecDepth 100000 in
/-- Witness of C19: a bold `ab` with a red `b` is written and read into an italic `xyz`, and
the empty string is written and read into it as well. -/
theorem C19_stream_round_trip_witness :
    ((ofString "ab".toList Bold 0).setStyleColor 1 1 16711680).Typed ∧
    (ofString "xyz".toList Italic 0).m_style.Sized ∧
    (readSString (writeSString [] ((ofString "ab".toList Bold 0).setStyleColor 1 1 16711680))
        (ofString "xyz".toList Italic 0)).1.styleColorAt 1 = some 16711680 ∧
    (readSString (writeSString [] (ofString [] 0 0)) (ofString "xyz".toList Italic 0)).1.text
      = [] ∧
    (readSString (writeSString [] ((ofString "ab".toList Bold 0).setStyleColor 1 1 16711680) ++ [])
        (ofString "xyz".toList Italic 0)).1.text
      = ((ofString "ab".toList Bold 0).setStyleColor 1 1 16711680).text :=
  have hs : ((ofString "ab".toList Bold 0).setStyleColor 1 1 16711680).Typed := by
    intro i hi
    have hi2 : i < 2 := hi
    interval_cases i <;> exact ⟨fun f hf => by cases hf; decide, fun c hc => by cases hc; decide⟩
  ⟨hs, (ofString_wf _ _ _).2.1, by decide, by decide,
    (C19_stream_round_trip _ (ofString "xyz".toList Italic 0) [] hs (ofString_wf _ _ _).2.1).1⟩

end SString

/-! # Claims on the rich text -/

namespace SString

set_option maxRecDepth 100000 in
/-- C20, evaluated: for `x` = `a b` with a bold `a` and an italic ` b`, `richString` gives
`<b>a</b> <i>b</i>`; `setRichString` reads that text as a bold `a`, an unstyled space and an
italic `b`, whose `richString` is `<b>a</b> b`, without the italic tags.  For a red `a`,
`richString` gives `<font color=#ff0000>a</font>`, which `setRichString` reads as an unstyled
`a`, whose `richString` is `a`. -/
theorem C20_markup_round_trip_loses_style :
    ((ofString "a b".toList Bold 0).setStyleFlags 1 2 Italic).richString
      = some "<b>a</b> <i>b</i>".toList ∧
    tagRegExp.globalMatch "<b>a</b> <i>b</i>".toList
      = [⟨[(0, 3), (1, 1), (1, 1)]⟩, ⟨[(4, 4), (5, 2), (6, 1)]⟩, ⟨[(9, 3), (10, 1), (10, 1)]⟩,
          ⟨[(13, 4), (14, 2), (15, 1)]⟩] ∧
    ((ofString [] 0 0).setRichString tagRegExp "<b>a</b> <i>b</i>".toList).text = "a b".toList ∧
    ((ofString [] 0 0).setRichString tagRegExp "<b>a</b> <i>b</i>".toList).styleFlagsAt 0
      = some Bold ∧
    ((ofString [] 0 0).setRichString tagRegExp "<b>a</b> <i>b</i>".toList).styleFlagsAt 1
      = some 0 ∧
    ((ofString [] 0 0).setRichString tagRegExp "<b>a</b> <i>b</i>".toList).styleFlagsAt 2
      = some Italic ∧
    ((ofString [] 0 0).setRichString tagRegExp "<b>a</b> <i>b</i>".toList).richString
      = some "<b>a</b> b".toList ∧
    ((ofString "a".toList 0 0).setStyleColor 0 1 4294901760).richString
      = some "<font color=#ff0000>a</font>".toList ∧
    ((ofString [] 0 0).setRichString tagRegExp "<font color=#ff0000>a</font>".toList).richString
      = some "a".toList := by
  refine ⟨by decide, by decide, by decide, by decide, by decide, by decide, by decide,
    by decide, by decide⟩

end SString

namespace SSHelper

theorem spansLength_append (a b : MatchRefList) :
    spansLength (a ++ b) = spansLength a + spansLength b := by
  simp [spansLength, List.map_append, List.sum_append]

theorem spansLength_singleton (m : MatchRef) : spansLength [m] = m.length := by
  simp [spansLength]

theorem MatchState.Counted.ite_push {st : MatchState} (h : st.Counted) (c : Prop) [Decidable c]
    (m : MatchRef) (hm : m.ref ≠ .NONE) (n : Int) (hn : n = st.newLength + m.length) :
    MatchState.Counted (if c then { st.push m with newLength := n } else st) := by
  split_ifs
  · obtain ⟨h1, h2⟩ := h
    refine ⟨?_, ?_⟩
    · simp only [MatchState.push, spansLength_append, spansLength_singleton, hn, h1]
    · intro x hx
      simp only [MatchState.push, List.mem_append, List.mem_singleton] at hx
      rcases hx with hx | hx
      · exact h2 x hx
      · rw [hx]; exact hm
  · exact h

theorem MatchState.Counted.push_add {st : MatchState} (h : st.Counted)
    (m : MatchRef) (hm : m.ref ≠ .NONE) :
    MatchState.Counted { st.push m with newLength := st.newLength + m.length } := by
  have := h.ite_push True m hm _ rfl
  simpa using this

theorem backRefStep_counted (captured : Int → Int × Int) (acc : MatchState × Int)
    (backRef : BackRef) (h : acc.1.Counted) : (backRefStep captured acc backRef).1.Counted := by
  unfold backRefStep
  exact MatchState.Counted.ite_push
    (MatchState.Counted.ite_push h _ ⟨_, _, .REPLACEMENT⟩ (by simp) _ rfl) _
    ⟨_, _, .SUBJECT⟩ (by simp) _ rfl

theorem foldl_backRefStep_counted (captured : Int → Int × Int) (backRefs : List BackRef)
    (acc : MatchState × Int) (h : acc.1.Counted) :
    (backRefs.foldl (backRefStep captured) acc).1.Counted := by
  induction backRefs generalizing acc with
  | nil => exact h
  | cons b rest ih => exact ih _ (backRefStep_counted captured acc b h)

theorem expandMatch_counted (captured : Int → Int × Int) (backRefs : List BackRef)
    (replacement : Replacement) (st : MatchState) (h : st.Counted) :
    (expandMatch captured backRefs replacement st).Counted := by
  unfold expandMatch
  exact MatchState.Counted.ite_push (foldl_backRefStep_counted captured backRefs (st, 0) h) _
    ⟨_, _, .REPLACEMENT⟩ (by simp) _ rfl

theorem matchQRegExpLoop_counted (str : List Char) (regExp : QRegExp) (backRefs : List BackRef)
    (replacement : Replacement) :
    ∀ (fuel : Nat) (matchOffset : Int) (st : MatchState) (r : MatchState × Int),
      matchQRegExpLoop str regExp backRefs replacement fuel matchOffset st = some r →
      st.Counted → r.1.Counted := by
  intro fuel
  induction fuel with
  | zero => intro _ _ _ h; simp [matchQRegExpLoop] at h
  | succ fuel ih =>
    intro matchOffset st res h hc
    unfold matchQRegExpLoop at h
    cases hq : regExp.indexIn str matchOffset (matchOffset == 0) with
    | none =>
      simp only [hq, Option.some.injEq] at h
      rw [← h]; exact hc
    | some r =>
      simp only [hq] at h
      have h0 : MatchState.Counted { st with matched := true } := hc
      have h2 := expandMatch_counted (groupAt r.caps) backRefs replacement _
        (MatchState.Counted.ite_push h0 (r.matchedIndex - matchOffset ≠ 0)
          ⟨matchOffset, r.matchedIndex - matchOffset, .SUBJECT⟩ (by simp) _ rfl)
      by_cases hml : r.matchedLength = 0
      · rw [if_pos hml] at h
        exact ih _ _ _ h (h2.push_add ⟨matchOffset, 1, .SUBJECT⟩ (by simp))
      · rw [if_neg hml] at h
        exact ih _ _ _ h h2

theorem matchQRegularExpressionStep_counted (backRefs : List BackRef) (replacement : Replacement)
    (acc : MatchState × Int) (m : QRegularExpressionMatch) (h : acc.1.Counted) :
    (matchQRegularExpressionStep backRefs replacement acc m).1.Counted := by
  unfold matchQRegularExpressionStep
  exact expandMatch_counted _ _ _ _
    (MatchState.Counted.ite_push h _ ⟨_, _, .SUBJECT⟩ (by simp) _ rfl)

theorem foldl_matchStep_counted (backRefs : List BackRef) (replacement : Replacement)
    (found : List QRegularExpressionMatch) (acc : MatchState × Int) (h : acc.1.Counted) :
    (found.foldl (matchQRegularExpressionStep backRefs replacement) acc).1.Counted := by
  induction found generalizing acc with
  | nil => exact h
  | cons m rest ih => exact ih _ (matchQRegularExpressionStep_counted backRefs replacement acc m h)

/-- The closing statement of a matcher turns a counted state into a list that is empty or
ends with its only terminator. -/
theorem finish_counted (st : MatchState) (strLength : Int) (h : st.Counted)
    (hne : st.finish strLength ≠ []) : EndsWithTerminator strLength (st.finish strLength) := by
  unfold MatchState.finish at hne ⊢
  by_cases hc : st.matched ∨ st.matchList ≠ []
  · rw [if_pos hc]
    exact ⟨st.matchList, by rw [h.1], h.2⟩
  · rw [if_neg hc] at hne
    exact absurd (by
      by_contra hx
      exact hc (Or.inr hx)) hne

theorem matchQRegExp_terminator (str : SString) (regExp : QRegExp) (replacement : Replacement)
    (l : MatchRefList) (h : matchQRegExp str regExp replacement = some l) (hne : l ≠ []) :
    EndsWithTerminator str.length l := by
  unfold matchQRegExp at h
  by_cases hv : regExp.isValid = true
  · simp only [hv, not_true_eq_false, if_false] at h
    cases hs : scanBackRefs regExp.captureCount replacement.text 0 with
    | none => simp [hs] at h
    | some backRefs =>
      simp only [hs] at h
      cases hl : matchQRegExpLoop str.text regExp backRefs replacement (str.text.length + 2) 0
          { matchList := [], newLength := 0, matched := false } with
      | none => simp [hl] at h
      | some r =>
        simp only [hl, Option.some.injEq] at h
        have hc := matchQRegExpLoop_counted _ _ _ _ _ _ _ _ hl
          ⟨by simp [spansLength], by simp⟩
        subst h
        exact finish_counted _ _
          (MatchState.Counted.ite_push hc _ ⟨_, _, .SUBJECT⟩ (by simp) _ rfl) hne
  · have hf : regExp.isValid = false := by simpa using hv
    simp only [hf, Bool.false_eq_true, not_false_eq_true, if_true, Option.some.injEq] at h
    exact absurd h.symm hne

theorem matchQRegularExpression_terminator (str : SString) (regExp : QRegularExpression)
    (replacement : Replacement) (l : MatchRefList)
    (h : matchQRegularExpression str regExp replacement = some l) (hne : l ≠ []) :
    EndsWithTerminator str.length l := by
  unfold matchQRegularExpression at h
  by_cases hv : regExp.isValid = true
  · simp only [hv, not_true_eq_false, if_false] at h
    cases hs : scanBackRefs regExp.captureCount replacement.text 0 with
    | none => simp [hs] at h
    | some backRefs =>
      simp only [hs, Option.some.injEq] at h
      have hc := foldl_matchStep_counted backRefs replacement (regExp.globalMatch str.text)
        ({ matchList := [], newLength := 0, matched := !(regExp.globalMatch str.text).isEmpty }, 0)
        ⟨by simp [spansLength], by simp⟩
      subst h
      exact finish_counted _ _
        (MatchState.Counted.ite_push hc _ ⟨_, _, .SUBJECT⟩ (by simp) _ rfl) hne
  · have hf : regExp.isValid = false := by simpa using hv
    simp only [hf, Bool.false_eq_true, not_false_eq_true, if_true, Option.some.injEq] at h
    exact absurd h.symm hne

end SSHelper

namespace SSHelper

theorem Replacement.length_of_isEmpty (r : Replacement) (h : r.isEmpty = true) : r.length = 0 := by
  unfold Replacement.isEmpty at h
  unfold Replacement.length
  have := List.isEmpty_iff.mp h
  rw [this]; rfl

theorem noTerminator_ite_push (st : MatchState) (c : Prop) [Decidable c] (m : MatchRef)
    (hm : m.ref ≠ .NONE) (h : ∀ x ∈ st.matchList, x.ref ≠ .NONE) :
    ∀ x ∈ (if c then st.push m else st).matchList, x.ref ≠ .NONE := by
  intro x hx
  split_ifs at hx
  · simp only [MatchState.push, List.mem_append, List.mem_singleton] at hx
    rcases hx with hx | hx
    · exact h x hx
    · rw [hx]; exact hm
  · exact h x hx

theorem matchEmptyLoop_sum (after : Replacement) :
    ∀ (n : Nat) (i : Int) (st : MatchState),
      spansLength (matchEmptyLoop after n i st).matchList
        = spansLength st.matchList + n * (after.length + 1) ∧
      ((∀ m ∈ st.matchList, m.ref ≠ .NONE) →
        ∀ m ∈ (matchEmptyLoop after n i st).matchList, m.ref ≠ .NONE) ∧
      (matchEmptyLoop after n i st).newLength = st.newLength := by
  intro n
  induction n with
  | zero => intro i st; simp [matchEmptyLoop]
  | succ n ih =>
    intro i st
    unfold matchEmptyLoop
    simp only []
    obtain ⟨h1, h2, h3⟩ := ih (i + 1)
      ((if ¬ after.isEmpty then
          st.push { offset := 0, length := after.length, ref := .REPLACEMENT }
        else st).push { offset := i, length := 1, ref := .SUBJECT })
    refine ⟨?_, ?_, ?_⟩
    · rw [h1]
      by_cases he : after.isEmpty = true
      · rw [if_neg (not_not.mpr he)]
        simp only [MatchState.push, spansLength_append,
          spansLength_singleton, Replacement.length_of_isEmpty after he]
        push_cast; ring
      · rw [if_pos he]
        simp only [MatchState.push, spansLength_append, spansLength_singleton]
        push_cast; ring
    · intro hst
      apply h2
      exact noTerminator_ite_push _ True _ (by simp)
        (noTerminator_ite_push _ _ _ (by simp) hst)
    · rw [h3]
      split_ifs <;> rfl

theorem matchLiteralLoop_sum (str before : List Char) (after : Replacement)
    (cs : CaseSensitivity) :
    ∀ (fuel off : Nat) (st : MatchState) (r : MatchState × Nat),
      matchLiteralLoop str before after cs fuel off st = some r →
      spansLength r.1.matchList - r.1.newLength - r.2
        = spansLength st.matchList - st.newLength - off ∧
      ((∀ m ∈ st.matchList, m.ref ≠ .NONE) → ∀ m ∈ r.1.matchList, m.ref ≠ .NONE) := by
  intro fuel
  induction fuel with
  | zero => intro _ _ _ h; simp [matchLiteralLoop] at h
  | succ fuel ih =>
    intro off st r h
    unfold matchLiteralLoop at h
    cases hq : qIndexOf str before off cs with
    | none =>
      simp only [hq, Option.some.injEq] at h
      rw [← h]; exact ⟨rfl, id⟩
    | some idx =>
      simp only [hq] at h
      obtain ⟨h1, h2⟩ := ih _ _ _ h
      refine ⟨?_, ?_⟩
      · rw [h1]
        by_cases hlen : (idx : Int) - off ≠ 0 <;> by_cases he : after.isEmpty = true
        · rw [if_neg (not_not.mpr he), if_pos hlen]
          simp only [MatchState.push, spansLength_append, spansLength_singleton,
            Replacement.length_of_isEmpty after he]
          push_cast; ring
        · rw [if_pos he, if_pos hlen]
          simp only [MatchState.push, spansLength_append, spansLength_singleton]
          push_cast; ring
        · have hz : (idx : Int) - off = 0 := by omega
          rw [if_neg (not_not.mpr he), if_neg hlen]
          simp only [Replacement.length_of_isEmpty after he]
          push_cast; omega
        · have hz : (idx : Int) - off = 0 := by omega
          rw [if_pos he, if_neg hlen]
          simp only [MatchState.push, spansLength_append, spansLength_singleton]
          push_cast; omega
      · intro hst
        apply h2
        exact noTerminator_ite_push _ _ _ (by simp) (noTerminator_ite_push _ _ _ (by simp) hst)

theorem matchLiteral_terminator (str : SString) (before : List Char) (after : Replacement)
    (cs : CaseSensitivity) (l : MatchRefList)
    (h : matchLiteral str before after cs = some l) (hne : l ≠ []) :
    EndsWithTerminator str.length l := by
  have e0 : spansLength ([] : MatchRefList) = 0 := rfl
  unfold matchLiteral at h
  by_cases hb : before.isEmpty = true
  · simp only [hb, if_true, Option.some.injEq] at h
    obtain ⟨h1, h2, h3⟩ := matchEmptyLoop_sum after str.text.length 0
      { matchList := [], newLength := str.length, matched := false }
    have h2' := h2 (by simp)
    subst h
    apply finish_counted _ _ _ hne
    simp only [SString.length, e0, zero_add] at h1 h3
    by_cases he : after.isEmpty = true
    · rw [if_neg (not_not.mpr he)]
      refine ⟨?_, h2'⟩
      simp only [SString.length, h3, h1, Replacement.length_of_isEmpty after he]
      ring
    · rw [if_pos he]
      refine ⟨?_, ?_⟩
      · simp only [MatchState.push, spansLength_append, spansLength_singleton, SString.length,
          h3, h1]
        ring
      · exact noTerminator_ite_push _ True _ (by simp) h2'
  · simp only [hb, Bool.false_eq_true, if_false] at h
    cases hl : matchLiteralLoop str.text before after cs (str.text.length + 1) 0
        { matchList := [], newLength := str.length, matched := false } with
    | none => simp [hl] at h
    | some r =>
      simp only [hl, Option.some.injEq] at h
      obtain ⟨h1, h2⟩ := matchLiteralLoop_sum _ _ _ _ _ _ _ _ hl
      simp only [e0] at h1
      have h2' := h2 (by simp)
      subst h
      apply finish_counted _ _ _ hne
      refine ⟨?_, noTerminator_ite_push _ _ _ (by simp) h2'⟩
      by_cases hlen : str.length - (r.2 : Int) ≠ 0
      · rw [if_pos hlen]
        simp only [MatchState.push, spansLength_append, spansLength_singleton]
        push_cast at h1 ⊢
        omega
      · rw [if_neg hlen]
        push_cast at h1 ⊢
        omega

end SSHelper

theorem escapedText_append (a b : List Char) :
    escapedText (a ++ b) = escapedText a ++ escapedText b := by
  simp [escapedText, List.flatMap_append]

theorem escapeTags_eq (t : List Char) : escapeTags t = escapedText t := by
  induction t with
  | nil => rfl
  | cons c t ih =>
    have hc : escapeTags (c :: t) = escapeTags [c] ++ escapeTags t := by
      simp [escapeTags, qReplaceCharString, List.flatMap_append]
    have hs : escapedText (c :: t) = escapedText [c] ++ escapedText t :=
      escapedText_append [c] t
    rw [hc, hs, ih]
    congr 1
    by_cases h1 : c = '<'
    · subst h1; decide
    · by_cases h2 : c = '>'
      · subst h2; decide
      · simp [escapeTags, escapedText, qReplaceCharString, h1, h2]

theorem hasFlags_of_none (style : Nat × Nat) (h : style.1 &&& AllStyles = 0) (mask : Nat)
    (hm : AllStyles &&& mask = mask) : hasFlags style mask = false := by
  unfold hasFlags
  have : style.1 &&& mask = 0 := by
    rw [← hm, ← Nat.land_assoc, h, Nat.zero_and]
  simp [this]

theorem initialTags_of_none (style : Nat × Nat) (h : style.1 &&& AllStyles = 0) :
    initialTags style = [] := by
  unfold initialTags
  simp [hasFlags_of_none style h Bold (by decide), hasFlags_of_none style h Italic (by decide),
    hasFlags_of_none style h Underline (by decide),
    hasFlags_of_none style h StrikeThrough (by decide),
    hasFlags_of_none style h Color (by decide)]

theorem finalTags_of_none (style : Nat × Nat) (h : style.1 &&& AllStyles = 0) :
    finalTags style = [] := by
  unfold finalTags
  simp [hasFlags_of_none style h Bold (by decide), hasFlags_of_none style h Italic (by decide),
    hasFlags_of_none style h Underline (by decide),
    hasFlags_of_none style h StrikeThrough (by decide),
    hasFlags_of_none style h Color (by decide)]

theorem closeTags_of_none (prevStyle style : Nat × Nat) (h : prevStyle.1 &&& AllStyles = 0) :
    closeTags prevStyle style = [] := by
  unfold closeTags
  simp [hasFlags_of_none prevStyle h Bold (by decide),
    hasFlags_of_none prevStyle h Italic (by decide),
    hasFlags_of_none prevStyle h Underline (by decide),
    hasFlags_of_none prevStyle h StrikeThrough (by decide),
    hasFlags_of_none prevStyle h Color (by decide)]

theorem openTags_of_none (prevStyle style : Nat × Nat) (h : style.1 &&& AllStyles = 0) :
    openTags prevStyle style = [] := by
  unfold openTags
  simp [hasFlags_of_none style h Bold (by decide), hasFlags_of_none style h Italic (by decide),
    hasFlags_of_none style h Underline (by decide),
    hasFlags_of_none style h StrikeThrough (by decide),
    hasFlags_of_none style h Color (by decide)]

/-- The white space that the inner loop of `richString` appends is a prefix of the characters
that remain, and escaping leaves it as it is. -/
theorem skipSpaces_spec (l : List Char) (index : Nat) :
    ∃ k, k ≤ l.length ∧ (skipSpaces l index).1 = l.take k ∧ (skipSpaces l index).2 = index + k ∧
      escapedText (l.take k) = l.take k := by
  induction l generalizing index with
  | nil => exact ⟨0, le_refl _, rfl, rfl, rfl⟩
  | cons c t ih =>
    unfold skipSpaces
    by_cases h : c ≠ '\n' ∧ c ≠ '\r' ∧ c ≠ ' ' ∧ c ≠ '\t'
    · rw [if_pos h]
      exact ⟨0, Nat.zero_le _, rfl, rfl, rfl⟩
    · rw [if_neg h]
      obtain ⟨k, hk, h1, h2, h3⟩ := ih (index + 1)
      refine ⟨k + 1, by simp; omega, ?_, ?_, ?_⟩
      · simp only [h1, List.take_succ_cons]
      · simp only [h2]; omega
      · have hc : escapedText [c] = [c] := by
          have h1 : c ≠ '<' := by
            rintro rfl; exact h (by decide)
          have h2 : c ≠ '>' := by
            rintro rfl; exact h (by decide)
          simp [escapedText, h1, h2]
        rw [List.take_succ_cons]
        have := escapedText_append [c] (t.take k)
        simp only [List.singleton_append] at this
        rw [this, hc, h3]
        rfl

namespace SString

/-- The loop of `richString` on a string without style flags: it ends, and what it has
written is the escaped text up to `prevIndex`. -/
theorem richStringLoop_plain (s : SString)
    (H : ∀ i, i < s.text.length →
      ∃ style, s.m_style.iter i = some style ∧ style.1 &&& AllStyles = 0) :
    ∀ (fuel index : Nat) (st : RichState),
      st.prevIndex ≤ index → st.prevIndex ≤ s.text.length → s.text.length + 1 ≤ fuel + index →
      st.prevStyle.1 &&& AllStyles = 0 → st.ret = escapedText (s.text.take st.prevIndex) →
      ∃ st', richStringLoop s fuel index st = some st' ∧ st'.prevIndex ≤ s.text.length ∧
        st'.prevStyle.1 &&& AllStyles = 0 ∧
        st'.ret = escapedText (s.text.take st'.prevIndex) := by
  intro fuel
  induction fuel with
  | zero =>
    intro index st h1 h2 h3 h4 h5
    refine ⟨st, ?_, h2, h4, h5⟩
    unfold richStringLoop
    rw [if_neg (by omega)]
  | succ fuel ih =>
    intro index st h1 h2 h3 h4 h5
    unfold richStringLoop
    by_cases hi : index < s.text.length
    · rw [if_pos hi]
      obtain ⟨style, hs, hf⟩ := H index hi
      simp only [hs]
      by_cases hne : ¬ iterEq st.prevStyle style = true
      · rw [if_pos hne]
        obtain ⟨k, hk, e1, e2, e3⟩ := skipSpaces_spec (s.text.drop index) index
        rw [List.length_drop] at hk
        apply ih
        · simp only [e2]; omega
        · simp only [e2]; omega
        · simp only [e2]; omega
        · exact hf
        · simp only [e1, e2, closeTags_of_none _ _ h4, openTags_of_none _ _ hf,
            List.append_nil, escapeTags_eq, h5]
          rw [qMid_inRange _ _ _ (by omega) (by omega) (by omega)]
          have ha : ((index : Int) - (st.prevIndex : Int)).toNat = index - st.prevIndex := by
            omega
          have hb : ((st.prevIndex : Nat) : Int).toNat = st.prevIndex := by omega
          rw [ha, hb, List.take_add, escapedText_append, e3]
          congr 1
          have hc : index = st.prevIndex + (index - st.prevIndex) := by omega
          conv_rhs => rw [hc, List.take_add, escapedText_append]
      · rw [if_neg hne]
        exact ih _ _ (by omega) h2 (by omega) h4 h5
    · rw [if_neg hi]
      exact ⟨st, rfl, h2, h4, h5⟩

/-- On a string without style flags `richString` returns the escaped text. -/
theorem richString_plain (s : SString)
    (H : ∀ i, i < s.text.length →
      ∃ style, s.m_style.iter i = some style ∧ style.1 &&& AllStyles = 0) :
    s.richString = some (escapedText s.text) := by
  unfold richString
  by_cases he : s.text.isEmpty = true
  · rw [if_pos he]
    rw [List.isEmpty_iff.mp he]
    rfl
  · rw [if_neg he]
    have hpos : 0 < s.text.length := by
      cases ht : s.text with
      | nil => rw [ht] at he; exact absurd rfl he
      | cons c t => simp
    obtain ⟨style, hs, hf⟩ := H 0 hpos
    simp only [hs]
    obtain ⟨st', e, h1, h2, h3⟩ := richStringLoop_plain s H s.text.length 1
      { ret := initialTags style, prevStyle := style, prevIndex := 0 }
      (Nat.zero_le _) (Nat.zero_le _) (by omega) hf
      (by simp [initialTags_of_none style hf, escapedText])
    simp only [e]
    by_cases hp : (st'.prevIndex : Int) ≠ s.length
    · rw [if_pos hp]
      simp only [length] at hp ⊢
      rw [qMid_inRange _ _ _ (by omega) (by omega) (by omega), escapeTags_eq,
        finalTags_of_none _ h2, List.append_nil, h3, ← escapedText_append]
      congr 2
      have ha : ((s.text.length : Int) - (st'.prevIndex : Int)).toNat
          = s.text.length - st'.prevIndex := by omega
      have hb : ((st'.prevIndex : Nat) : Int).toNat = st'.prevIndex := by omega
      have hd : (s.text.drop st'.prevIndex).take (s.text.length - st'.prevIndex)
          = s.text.drop st'.prevIndex := List.take_of_length_le (by simp)
      rw [ha, hb, hd, List.take_append_drop]
    · rw [if_neg hp]
      simp only [length] at hp
      have : st'.prevIndex = s.text.length := by omega
      rw [h3, this, List.take_length]

end SString

/-- The title-case loop from a given value of `wordStart`, position by position. -/
theorem titleCaseLoop_eq (t : List Char) (wordStart : Bool) :
    titleCaseLoop t wordStart =
      (List.range t.length).map fun i =>
        if ¬ wordSeparators.contains (t.getD i ' ') ∧
            ((i = 0 ∧ wordStart = true) ∨ (0 < i ∧ wordSeparators.contains (t.getD (i - 1) ' ')))
        then (t.getD i ' ').toUpper
        else t.getD i ' ' := by
  induction t generalizing wordStart with
  | nil => rfl
  | cons c t ih =>
    have htail : ∀ w : Bool,
        (List.range (c :: t).length).map (fun i =>
          if ¬ wordSeparators.contains ((c :: t).getD i ' ') ∧
              ((i = 0 ∧ w = true) ∨
                (0 < i ∧ wordSeparators.contains ((c :: t).getD (i - 1) ' ')))
          then ((c :: t).getD i ' ').toUpper
          else (c :: t).getD i ' ')
        = (if ¬ wordSeparators.contains c ∧ w = true then c.toUpper else c) ::
            titleCaseLoop t (wordSeparators.contains c) := by
      intro w
      rw [List.length_cons, List.range_succ_eq_map, List.map_cons, List.map_map, ih]
      congr 1
      · simp
      · apply List.map_congr_left
        intro j _
        cases j with
        | zero => simp
        | succ j => simp
    rw [htail]
    conv_lhs => rw [titleCaseLoop]
    cases wordStart <;> by_cases hs : c ∈ wordSeparators <;> simp [hs]

theorem titleCaseLoop_spec (t : List Char) :
    titleCaseLoop t true = titleCaseSpec wordSeparators t := by
  rw [titleCaseLoop_eq]
  unfold titleCaseSpec
  apply List.map_congr_left
  intro i _
  cases i with
  | zero => simp
  | succ i => simp

theorem titleCaseLoop_length (t : List Char) (w : Bool) : (titleCaseLoop t w).length = t.length := by
  rw [titleCaseLoop_eq]; simp

theorem lowercase_facts : ∀ c ∈ lowercaseLetters,
    sentenceEndChars.contains c = false ∧ isLetterOrNumber c = true ∧ isSpace c = false ∧
    isSpace c.toUpper = false := by
  decide

set_option maxRecDepth 100000 in
theorem ascii_alnum_upper : ∀ n : Fin 128, isLetterOrNumber (Char.ofNat n.val) = true →
    isSpace (Char.ofNat n.val).toUpper = false ∧ sentenceEndChars.contains (Char.ofNat n.val) = false := by
  decide

theorem alnum_lt (c : Char) (h : isLetterOrNumber c = true) : c.toNat < 128 := by
  unfold isLetterOrNumber Char.isAlphanum Char.isAlpha Char.isUpper Char.isLower Char.isDigit at h
  simp only [Bool.or_eq_true, Bool.and_eq_true, decide_eq_true_eq] at h
  have : c.toNat = c.val.toNat := rfl
  simp only [ge_iff_le, UInt32.le_def] at h
  rw [this]
  simp only [BitVec.le_def] at h
  have e : c.val.toBitVec.toNat = c.val.toNat := rfl
  have e1 : (UInt32.toBitVec 65).toNat = 65 := rfl
  have e2 : (UInt32.toBitVec 90).toNat = 90 := rfl
  have e3 : (UInt32.toBitVec 97).toNat = 97 := rfl
  have e4 : (UInt32.toBitVec 122).toNat = 122 := rfl
  have e5 : (UInt32.toBitVec 48).toNat = 48 := rfl
  have e6 : (UInt32.toBitVec 57).toNat = 57 := rfl
  rw [e, e1, e2, e3, e4, e5, e6] at h
  omega

theorem alnum_facts (c : Char) (h : isLetterOrNumber c = true) :
    isSpace c.toUpper = false ∧ sentenceEndChars.contains c = false := by
  have hlt := alnum_lt c h
  have hc : Char.ofNat c.toNat = c := Char.ofNat_toNat c
  have := ascii_alnum_upper ⟨c.toNat, hlt⟩
  simp only [hc] at this
  exact this h


theorem sentenceCaseLoop_dot (rest : List Char) (p : Nat) (s : Bool) :
    sentenceCaseLoop ('.' :: rest) p s =
      ('.' :: (sentenceCaseLoop rest (p + 1) (decide (p + 1 < 3))).1,
        (sentenceCaseLoop rest (p + 1) (decide (p + 1 < 3))).2) := by
  rw [sentenceCaseLoop]
  rw [if_pos (by decide), if_pos rfl]

theorem sentenceCaseLoop_other (c : Char) (rest : List Char) (p : Nat) (s : Bool)
    (h : sentenceEndChars.contains c = false) :
    sentenceCaseLoop (c :: rest) p s =
      ((if s && isLetterOrNumber c then c.toUpper else c) ::
          (sentenceCaseLoop rest
            (if ¬ isSpace (if s && isLetterOrNumber c then c.toUpper else c) then 0 else p)
            (if s && isLetterOrNumber c then false else s)).1,
        (sentenceCaseLoop rest
            (if ¬ isSpace (if s && isLetterOrNumber c then c.toUpper else c) then 0 else p)
            (if s && isLetterOrNumber c then false else s)).2) := by
  rw [sentenceCaseLoop]
  rw [if_neg (show ¬ (sentenceEndChars.contains c = true) by rw [h]; exact Bool.false_ne_true)]

/-- A letter or digit met while a capital is awaited is upper-cased. -/
theorem sentenceCaseLoop_upper (c : Char) (rest : List Char) (p : Nat)
    (h : isLetterOrNumber c = true) :
    sentenceCaseLoop (c :: rest) p true =
      (c.toUpper :: (sentenceCaseLoop rest 0 false).1, (sentenceCaseLoop rest 0 false).2) := by
  obtain ⟨h1, h2⟩ := alnum_facts c h
  rw [sentenceCaseLoop_other c rest p true h2]
  simp [h, h1]

/-- Lower-case letters met while no capital is awaited are kept. -/
theorem sentenceCaseLoop_word (w : List Char) (hw : ∀ c ∈ w, c ∈ lowercaseLetters)
    (rest : List Char) (p : Nat) :
    sentenceCaseLoop (w ++ rest) p false =
      (w ++ (sentenceCaseLoop rest (if w = [] then p else 0) false).1,
        (sentenceCaseLoop rest (if w = [] then p else 0) false).2) := by
  induction w generalizing p with
  | nil => simp
  | cons c t ih =>
    obtain ⟨h1, h2, h3, h4⟩ := lowercase_facts c (hw c (List.mem_cons_self _ _))
    rw [List.cons_append, sentenceCaseLoop_other c _ p false h1]
    simp only [Bool.false_and, Bool.false_eq_true, if_false, h3, not_false_eq_true, if_true]
    rw [ih (fun x hx => hw x (List.mem_cons_of_mem _ hx))]
    simp only [reduceCtorEq, if_false, List.cons_append]
    by_cases ht : t = [] <;> simp [ht]

theorem sentenceCaseLoop_dots (k : Nat) (rest : List Char) (p : Nat) (s : Bool) :
    sentenceCaseLoop (List.replicate k '.' ++ rest) p s =
      (List.replicate k '.' ++
          (sentenceCaseLoop rest (p + k) (if k = 0 then s else decide (p + k < 3))).1,
        (sentenceCaseLoop rest (p + k) (if k = 0 then s else decide (p + k < 3))).2) := by
  induction k generalizing p s with
  | zero => simp
  | succ k ih =>
    rw [List.replicate_succ, List.cons_append, sentenceCaseLoop_dot, ih]
    have e : p + 1 + k = p + (k + 1) := by omega
    simp only [e, Nat.add_one_ne_zero, if_false, List.cons_append]
    by_cases hk : k = 0
    · subst hk; simp
    · simp [hk]

theorem sentenceCaseLoop_space (rest : List Char) (p : Nat) (s : Bool) :
    sentenceCaseLoop (' ' :: rest) p s =
      (' ' :: (sentenceCaseLoop rest p s).1, (sentenceCaseLoop rest p s).2) := by
  rw [sentenceCaseLoop_other ' ' rest p s (by decide)]
  have h1 : isLetterOrNumber ' ' = false := by decide
  have h2 : isSpace ' ' = true := by decide
  simp [h1, h2]

theorem sentenceCaseLoop_nil (p : Nat) (s : Bool) : sentenceCaseLoop [] p s = ([], p, s) := rfl

/-- Characters that are neither terminators nor letters or digits are kept and leave the
awaited capital as it is. -/
theorem sentenceCaseLoop_pre (pre : List Char)
    (hpre : ∀ x ∈ pre, sentenceEndChars.contains x = false ∧ isLetterOrNumber x = false)
    (rest : List Char) (p : Nat) (s : Bool) :
    ∃ p', sentenceCaseLoop (pre ++ rest) p s =
      (pre ++ (sentenceCaseLoop rest p' s).1, (sentenceCaseLoop rest p' s).2) := by
  induction pre generalizing p with
  | nil => exact ⟨p, by simp⟩
  | cons c t ih =>
    obtain ⟨h1, h2⟩ := hpre c (List.mem_cons_self _ _)
    rw [List.cons_append, sentenceCaseLoop_other c _ p s h1]
    simp only [h2, Bool.and_false, Bool.false_eq_true, if_false]
    obtain ⟨p', e⟩ := ih (fun x hx => hpre x (List.mem_cons_of_mem _ hx))
      (if ¬ isSpace c then 0 else p)
    exact ⟨p', by rw [e]; rfl⟩

/-- One dot before the end of the loop means that a capital is awaited. -/
theorem sentenceCaseLoop_oneDot (l : List Char) (p : Nat) (s : Bool)
    (h : p = 1 → s = true) :
    (sentenceCaseLoop l p s).2.1 = 1 → (sentenceCaseLoop l p s).2.2 = true := by
  induction l generalizing p s with
  | nil => exact h
  | cons c t ih =>
    by_cases hc : sentenceEndChars.contains c = true
    · by_cases hd : c = '.'
      · subst hd
        rw [sentenceCaseLoop_dot]
        exact ih _ _ (fun hp => by simp; omega)
      · rw [sentenceCaseLoop]
        rw [if_pos hc, if_neg hd]
        exact ih _ _ (fun _ => rfl)
    · have hc' : sentenceEndChars.contains c = false := by simpa using hc
      rw [sentenceCaseLoop_other c t p s hc']
      apply ih
      intro hp
      by_cases hu : (s && isLetterOrNumber c) = true
      · have hl : isLetterOrNumber c = true := by
          simp only [Bool.and_eq_true] at hu; exact hu.2
        rw [if_pos hu, (alnum_facts c hl).1] at hp
        simp at hp
      · rw [if_neg hu] at hp ⊢
        by_cases hsp : isSpace c = true
        · rw [if_neg (not_not.mpr hsp)] at hp
          exact h hp
        · rw [if_pos hsp] at hp
          omega

namespace SString

/-- The common end of `left`, `right` and `mid`: a fresh string takes the text `t`, then
`t.length` style runs of `s` from `off` on. -/
theorem slice_spec (s : SString) (t : List Char) (n off : Nat) (ht : t.length = n) :
    (⟨((ofString [] 0 0).assignString t).text,
        ((ofString [] 0 0).assignString t).m_style.copy 0 n s.m_style off⟩ : SString).text = t ∧
    (⟨((ofString [] 0 0).assignString t).text,
        ((ofString [] 0 0).assignString t).m_style.copy 0 n s.m_style off⟩ : SString).WF ∧
    ∀ k, k < n →
      (⟨((ofString [] 0 0).assignString t).text,
        ((ofString [] 0 0).assignString t).m_style.copy 0 n s.m_style off⟩ : SString).run k
        = s.run (off + k) := by
  have h0 : (ofString [] 0 0).m_style.m_length = 0 := rfl
  have hm : (ofString [] 0 0).assignString t
      = ⟨t, (ofString [] 0 0).m_style.replace 0 0 t.length⟩ := by
    unfold assignString
    simp only [h0, Nat.zero_min, Nat.sub_zero]
  rw [hm]
  have hwf := SStringStyle.replace_wf (ofString [] 0 0).m_style 0 0 t.length
  have hl := SStringStyle.replace_length (ofString [] 0 0).m_style 0 0 t.length
  have hc := SStringStyle.replace_capacity (ofString [] 0 0).m_style 0 0 t.length
  rw [h0] at hl hc
  simp only [Nat.zero_add, Nat.sub_zero] at hl hc
  refine ⟨rfl, ⟨?_, SStringStyle.copy_wf _ _ _ _ _ hwf⟩, ?_⟩
  · simp only [SStringStyle.copy_length, hl]
  · intro k hk
    simp only [SString.run]
    rw [SStringStyle.run_copy _ _ _ _ _ _ hwf.1, if_pos (by rw [hc]; omega)]
    congr 1; omega

theorem left_spec (s : SString) (m : Int) (h0 : 0 ≤ m) (h1 : m ≤ s.length) :
    (s.left m).text = s.text.take m.toNat ∧ (s.left m).WF ∧
    ∀ k, k < m.toNat → (s.left m).run k = s.run k := by
  have hl : s.lengthAt 0 m = m := by unfold lengthAt; rw [if_neg (by omega)]
  have hq : qLeft s.text m = s.text.take m.toNat := by
    unfold qLeft
    simp only [length] at h1
    by_cases h : m < 0 ∨ m ≥ (s.text.length : Int)
    · rw [if_pos h, List.take_of_length_le (by omega)]
    · rw [if_neg h]
  have hlen : (s.text.take m.toNat).length = m.toNat := by
    simp only [length] at h1
    rw [List.length_take]; omega
  obtain ⟨e1, e2, e3⟩ := slice_spec s (s.text.take m.toNat) m.toNat 0 hlen
  have hd : s.left m = ⟨((ofString [] 0 0).assignString (s.text.take m.toNat)).text,
      ((ofString [] 0 0).assignString (s.text.take m.toNat)).m_style.copy 0 m.toNat
        s.m_style 0⟩ := by
    unfold left
    simp only [hl, hq]
  rw [hd]
  refine ⟨e1, e2, ?_⟩
  intro k hk
  rw [e3 k hk, Nat.zero_add]

theorem right_spec (s : SString) (m : Int) (h0 : 0 ≤ m) (h1 : m ≤ s.length) :
    (s.right m).text = s.text.drop (s.text.length - m.toNat) ∧ (s.right m).WF ∧
    ∀ k, k < m.toNat → (s.right m).run k = s.run (s.text.length - m.toNat + k) := by
  have hl : s.lengthAt 0 m = m := by unfold lengthAt; rw [if_neg (by omega)]
  simp only [length] at h1
  have hq : qRight s.text m = s.text.drop (s.text.length - m.toNat) := by
    unfold qRight
    by_cases h : m < 0 ∨ m ≥ (s.text.length : Int)
    · rw [if_pos h]
      have : s.text.length - m.toNat = 0 := by omega
      rw [this, List.drop_zero]
    · rw [if_neg h]
  have hlen : (s.text.drop (s.text.length - m.toNat)).length = m.toNat := by
    rw [List.length_drop]; omega
  obtain ⟨e1, e2, e3⟩ := slice_spec s (s.text.drop (s.text.length - m.toNat)) m.toNat
    (s.text.length - m.toNat) hlen
  have ho : (s.length - m).toNat = s.text.length - m.toNat := by
    simp only [length]; omega
  have hd : s.right m = ⟨((ofString [] 0 0).assignString
        (s.text.drop (s.text.length - m.toNat))).text,
      ((ofString [] 0 0).assignString (s.text.drop (s.text.length - m.toNat))).m_style.copy 0
        m.toNat s.m_style (s.text.length - m.toNat)⟩ := by
    unfold right
    simp only [hl, hq, ho]
  rw [hd]
  exact ⟨e1, e2, e3⟩

theorem mid_spec (s : SString) (index len : Int) (h0 : 0 ≤ index) (h1 : index < s.length) :
    (s.mid index len).text = (s.text.drop index.toNat).take (s.lengthAt index len).toNat ∧
    (s.mid index len).WF ∧
    (s.mid index len).text.length = (s.lengthAt index len).toNat ∧
    ∀ k, k < (s.lengthAt index len).toNat →
      (s.mid index len).run k = s.run (index.toNat + k) := by
  have hn := lengthAt_nonneg s index len (by omega)
  have hle := lengthAt_le s index len
  have hq := qMid_inRange s.text index (s.lengthAt index len) h0 hn hle
  have hlen : ((s.text.drop index.toNat).take (s.lengthAt index len).toNat).length
      = (s.lengthAt index len).toNat := by
    simp only [length] at hle h1
    rw [List.length_take, List.length_drop]; omega
  obtain ⟨e1, e2, e3⟩ := slice_spec s ((s.text.drop index.toNat).take (s.lengthAt index len).toNat)
    (s.lengthAt index len).toNat index.toNat hlen
  have hd : s.mid index len = ⟨((ofString [] 0 0).assignString
        ((s.text.drop index.toNat).take (s.lengthAt index len).toNat)).text,
      ((ofString [] 0 0).assignString
        ((s.text.drop index.toNat).take (s.lengthAt index len).toNat)).m_style.copy 0
        (s.lengthAt index len).toNat s.m_style index.toNat⟩ := by
    unfold mid
    have hi : ¬ index < 0 := by omega
    simp only [hi, false_and, if_false]
    rw [if_neg (by omega)]
    simp only [hq]
  rw [hd]
  exact ⟨e1, e2, by rw [e1, hlen], e3⟩

end SString

theorem qAt_natCast (t : List Char) (i : Nat) : qAt t (i : Int) = t.getD i (Char.ofNat 0) := by
  simp [qAt]

theorem getD_qSet (t : List Char) (i : Nat) (c : Char) (j : Nat) (hi : i < t.length) :
    (qSet t (i : Int) c).getD j (Char.ofNat 0) = if j = i then c else t.getD j (Char.ofNat 0) := by
  unfold qSet
  simp only [Int.toNat_ofNat, List.getD_eq_getElem?_getD, List.getElem?_set]
  by_cases h : j = i
  · subst h; simp [hi]
  · have : ¬ i = j := fun e => h e.symm
    simp [h, this]

theorem length_qSet (t : List Char) (i : Int) (c : Char) : (qSet t i c).length = t.length := by
  simp [qSet]

/-- What one pass of the loop writes: the converted character, at `di`. -/
theorem simplify_text_eq (t : List Char) (i di : Nat) (hi : i < t.length) (hd : di ≤ i) :
    (if t.getD i (Char.ofNat 0) = '\t' then qSet t (di : Int) ' '
      else if t.getD i (Char.ofNat 0) = '\r' then qSet t (di : Int) '\n'
      else if (di : Int) ≠ (i : Int) then qSet t (di : Int) (t.getD i (Char.ofNat 0))
      else t)
    = qSet t (di : Int) (simplifiedChar (t.getD i (Char.ofNat 0))) := by
  unfold simplifiedChar
  by_cases h1 : t.getD i (Char.ofNat 0) = '\t'
  · simp only [h1, if_true]
  · by_cases h2 : t.getD i (Char.ofNat 0) = '\r'
    · simp only [h2, if_true]
      rw [if_neg (by decide), if_neg (by decide)]
    · simp only [h1, h2, if_false]
      by_cases h3 : (di : Int) ≠ (i : Int)
      · rw [if_pos h3]
      · rw [if_neg h3]
        have : di = i := by omega
        subst this
        unfold qSet
        simp only [Int.toNat_ofNat]
        apply List.ext_getElem?
        intro j
        rw [List.getElem?_set]
        by_cases hj : di = j
        · subst hj
          simp [hi, List.getD_eq_getElem?_getD]
        · simp [hj]


namespace SString

/-- One pass of the member loop that writes a character, in closed form. -/
theorem simplifyStep_write (st : SimplifyStyledState) (n k : Nat)
    (hn : n < st.string.text.length) (hkn : k ≤ n)
    (hk : (if st.lastWasSpace = true ∧ (st.string.text.getD n (Char.ofNat 0) = '\n' ∨
        st.string.text.getD n (Char.ofNat 0) = '\r') then st.di - 1 else st.di) = (k : Int))
    (c1 : ¬ (st.lastWasSpace = true ∧ (st.string.text.getD n (Char.ofNat 0) = ' ' ∨
        st.string.text.getD n (Char.ofNat 0) = '\t')))
    (c2 : ¬ (st.lastWasLineFeed = true ∧ (st.string.text.getD n (Char.ofNat 0) = '\n' ∨
        st.string.text.getD n (Char.ofNat 0) = '\r'))) :
    simplifyStep st n =
      { string := ⟨qSet st.string.text (k : Int)
            (simplifiedChar (st.string.text.getD n (Char.ofNat 0))),
          if k ≠ n then st.string.m_style.copy k 1 st.string.m_style n else st.string.m_style⟩
        di := (k : Int) + 1
        lastWasLineFeed := decide (simplifiedChar (st.string.text.getD n (Char.ofNat 0)) = '\n')
        lastWasSpace := decide (simplifiedChar (st.string.text.getD n (Char.ofNat 0)) = '\n') ||
          decide (simplifiedChar (st.string.text.getD n (Char.ofNat 0)) = ' ') } := by
  unfold simplifyStep
  simp only [qAt_natCast]
  rw [if_neg c1, if_neg c2]
  simp only [hk]
  rw [simplify_text_eq _ _ _ hn hkn]
  have hq : qAt (qSet st.string.text (k : Int)
      (simplifiedChar (st.string.text.getD n (Char.ofNat 0)))) (k : Int)
      = simplifiedChar (st.string.text.getD n (Char.ofNat 0)) := by
    rw [qAt_natCast, getD_qSet _ _ _ _ (by omega), if_pos rfl]
  simp only [hq, Int.toNat_ofNat, ne_eq, Nat.cast_inj]


theorem getD_take_lt (l : List Nat) (k d : Nat) (h : d < k) : (l.take k).getD d 0 = l.getD d 0 := by
  simp [List.getD_eq_getElem?_getD, List.getElem?_take, h]

/-- The invariant after a pass that writes the character of position `n` at `k`. -/
theorem SimplifyInv.write {s : SString} (hs : s.WF) {n : Nat} (hn : n < s.text.length)
    {st : SimplifyStyledState} {tr : SourceState} (h : SimplifyInv s n st tr)
    (k : Nat) (hk : k ≤ tr.sources.length) (lf sp : Bool) :
    SimplifyInv s (n + 1)
      { string := ⟨qSet st.string.text (k : Int)
            (simplifiedChar (s.text.getD n (Char.ofNat 0))),
          if k ≠ n then st.string.m_style.copy k 1 st.string.m_style n else st.string.m_style⟩
        di := (k : Int) + 1
        lastWasLineFeed := lf
        lastWasSpace := sp }
      { sources := tr.sources.take k ++ [n], lastWasLineFeed := lf, lastWasSpace := sp } := by
  have hkn : k ≤ n := le_trans hk h.sources_length
  have htl := h.text_length
  have hcap : n < st.string.m_style.m_capacity := by
    rw [h.capacity_eq]
    have := hs.1
    have := hs.2.2
    omega
  have hlen : (tr.sources.take k).length = k := by
    rw [List.length_take]; omega
  refine ⟨?_, rfl, rfl, ?_, ?_, ?_, ?_, ?_, ?_, ?_, ?_, ?_, ?_⟩
  · simp only [List.length_append, hlen, List.length_singleton]; push_cast; rfl
  · simp only [length_qSet, htl]
  · by_cases hkn' : k ≠ n
    · rw [if_pos hkn']; exact SStringStyle.copy_sized _ _ _ _ _ h.sized
    · rw [if_neg hkn']; exact h.sized
  · by_cases hkn' : k ≠ n
    · rw [if_pos hkn', SStringStyle.copy_capacity]; exact h.capacity_eq
    · rw [if_neg hkn']; exact h.capacity_eq
  · by_cases hkn' : k ≠ n
    · rw [if_pos hkn', SStringStyle.copy_length]; exact h.length_eq
    · rw [if_neg hkn']; exact h.length_eq
  · intro j hj
    refine ⟨?_, ?_⟩
    · simp only []
      rw [getD_qSet _ _ _ _ (by omega), if_neg (by omega)]
      exact (h.rest_eq j (by omega)).1
    · by_cases hkn' : k ≠ n
      · simp only [if_pos hkn']
        rw [SStringStyle.run_copy _ _ _ _ _ _ h.sized, if_neg (by omega)]
        exact (h.rest_eq j (by omega)).2
      · simp only [if_neg hkn']
        exact (h.rest_eq j (by omega)).2
  · intro d hd
    simp only [List.length_append, hlen, List.length_singleton] at hd
    by_cases hdk : d = k
    · subst hdk
      have hg : (tr.sources.take d ++ [n]).getD d 0 = n := by
        simp [List.getD_eq_getElem?_getD, List.getElem?_append_right, hlen]
      simp only [hg]
      refine ⟨?_, ?_⟩
      · rw [getD_qSet _ _ _ _ (by omega), if_pos rfl]
      · by_cases hkn' : d ≠ n
        · simp only [if_pos hkn']
          rw [SStringStyle.run_copy _ _ _ _ _ _ h.sized, if_pos (by omega)]
          have : d - d + n = n := by omega
          rw [this]
          exact (h.rest_eq n (le_refl _)).2
        · simp only [if_neg hkn']
          have : d = n := by omega
          rw [this]
          exact (h.rest_eq n (le_refl _)).2
    · have hdk' : d < k := by omega
      have hg : (tr.sources.take k ++ [n]).getD d 0 = tr.sources.getD d 0 := by
        rw [List.getD_eq_getElem?_getD, List.getElem?_append_left (by omega),
          ← List.getD_eq_getElem?_getD, getD_take_lt _ _ _ hdk']
      simp only [hg]
      obtain ⟨w1, w2⟩ := h.written d (by omega)
      refine ⟨?_, ?_⟩
      · rw [getD_qSet _ _ _ _ (by omega), if_neg hdk]
        exact w1
      · by_cases hkn' : k ≠ n
        · simp only [if_pos hkn']
          rw [SStringStyle.run_copy _ _ _ _ _ _ h.sized, if_neg (by omega)]
          exact w2
        · simp only [if_neg hkn']
          exact w2
  · intro x hx
    simp only [List.mem_append, List.mem_singleton] at hx
    rcases hx with hx | hx
    · have := h.sources_lt x (List.mem_of_mem_take hx)
      omega
    · omega
  · simp only [List.length_append, hlen, List.length_singleton]; omega
  · rw [List.pairwise_append]
    refine ⟨h.sources_sorted.sublist (List.take_sublist _ _), List.pairwise_singleton _ _, ?_⟩
    intro a ha b hb
    rw [List.mem_singleton] at hb
    subst hb
    exact h.sources_lt a (List.mem_of_mem_take ha)
  · intro he
    simp at he


theorem SimplifyInv.skip {s : SString} {n : Nat} {st : SimplifyStyledState} {tr : SourceState}
    (h : SimplifyInv s n st tr) : SimplifyInv s (n + 1) st tr :=
  ⟨h.di_eq, h.space_eq, h.lineFeed_eq, h.text_length, h.sized, h.capacity_eq, h.length_eq,
    fun j hj => h.rest_eq j (by omega), h.written,
    fun x hx => Nat.lt_succ_of_lt (h.sources_lt x hx), Nat.le_succ_of_le h.sources_length,
    h.sources_sorted, h.initial⟩

/-- One pass of the member loop keeps the invariant. -/
theorem SimplifyInv.step {s : SString} (hs : s.WF) {n : Nat} (hn : n < s.text.length)
    {st : SimplifyStyledState} {tr : SourceState} (h : SimplifyInv s n st tr) :
    SimplifyInv s (n + 1) (simplifyStep st n) (sourceStep s.text tr n) := by
  have hch : st.string.text.getD n (Char.ofNat 0) = s.text.getD n (Char.ofNat 0) :=
    (h.rest_eq n (le_refl _)).1
  by_cases c1 : tr.lastWasSpace = true ∧
      (s.text.getD n (Char.ofNat 0) = ' ' ∨ s.text.getD n (Char.ofNat 0) = '\t')
  · have e1 : simplifyStep st n = st := by
      unfold simplifyStep
      simp only [qAt_natCast, hch, h.space_eq]
      rw [if_pos c1]
    have e2 : sourceStep s.text tr n = tr := by
      unfold sourceStep
      simp only [qAt_natCast]
      rw [if_pos c1]
    rw [e1, e2]
    exact h.skip
  · by_cases c2 : tr.lastWasLineFeed = true ∧
        (s.text.getD n (Char.ofNat 0) = '\n' ∨ s.text.getD n (Char.ofNat 0) = '\r')
    · have e1 : simplifyStep st n = st := by
        unfold simplifyStep
        simp only [qAt_natCast, hch, h.space_eq, h.lineFeed_eq]
        rw [if_neg c1, if_pos c2]
      have e2 : sourceStep s.text tr n = tr := by
        unfold sourceStep
        simp only [qAt_natCast]
        rw [if_neg c1, if_pos c2]
      rw [e1, e2]
      exact h.skip
    · have hex : ∃ k, k ≤ tr.sources.length ∧
          (if tr.lastWasSpace = true ∧ (s.text.getD n (Char.ofNat 0) = '\n' ∨
              s.text.getD n (Char.ofNat 0) = '\r') then tr.sources.dropLast else tr.sources)
            = tr.sources.take k ∧
          (if tr.lastWasSpace = true ∧ (s.text.getD n (Char.ofNat 0) = '\n' ∨
              s.text.getD n (Char.ofNat 0) = '\r') then st.di - 1 else st.di) = (k : Int) := by
        by_cases c3 : tr.lastWasSpace = true ∧ (s.text.getD n (Char.ofNat 0) = '\n' ∨
            s.text.getD n (Char.ofNat 0) = '\r')
        · have hne : tr.sources ≠ [] := by
            intro he
            exact c2 ⟨(h.initial he).2, c3.2⟩
          have hpos : 0 < tr.sources.length := List.length_pos.mpr hne
          refine ⟨tr.sources.length - 1, Nat.sub_le _ _, ?_, ?_⟩
          · rw [if_pos c3, List.dropLast_eq_take]
          · rw [if_pos c3, h.di_eq]; omega
        · refine ⟨tr.sources.length, le_refl _, ?_, ?_⟩
          · rw [if_neg c3, List.take_length]
          · rw [if_neg c3, h.di_eq]
      obtain ⟨k, hk, hsrc, hdi⟩ := hex
      have e1 := simplifyStep_write st n k (by rw [h.text_length]; exact hn)
        (le_trans hk h.sources_length) (by rw [hch, h.space_eq]; exact hdi)
        (by rw [hch, h.space_eq]; exact c1) (by rw [hch, h.lineFeed_eq]; exact c2)
      have e2 : sourceStep s.text tr n =
          { sources := tr.sources.take k ++ [n]
            lastWasLineFeed := decide (simplifiedChar (s.text.getD n (Char.ofNat 0)) = '\n')
            lastWasSpace := decide (simplifiedChar (s.text.getD n (Char.ofNat 0)) = '\n') ||
              decide (simplifiedChar (s.text.getD n (Char.ofNat 0)) = ' ') } := by
        unfold sourceStep
        simp only [qAt_natCast]
        rw [if_neg c1, if_neg c2, hsrc]
      rw [e1, e2, hch]
      exact h.write hs hn k hk _ _

/-- The invariant holds after the passes for the indices below `n`. -/
theorem SimplifyInv.fold {s : SString} (hs : s.WF) (n : Nat) (hn : n ≤ s.text.length) :
    SimplifyInv s n
      ((List.range n).foldl simplifyStep
        { string := s, di := 0, lastWasSpace := true, lastWasLineFeed := true })
      ((List.range n).foldl (sourceStep s.text)
        { sources := [], lastWasSpace := true, lastWasLineFeed := true }) := by
  induction n with
  | zero =>
    exact ⟨rfl, rfl, rfl, rfl, hs.2.1, rfl, rfl, fun _ _ => ⟨rfl, rfl⟩,
      fun d hd => absurd hd (Nat.not_lt_zero _), fun x hx => absurd hx (List.not_mem_nil _),
      le_refl _, List.Pairwise.nil, fun _ => ⟨rfl, rfl⟩⟩
  | succ n ih =>
    rw [List.range_succ, List.foldl_append, List.foldl_append]
    exact (ih (by omega)).step hs (by omega)


/-- The modelled `truncate`, for a size that is at most the length. -/
theorem truncate_spec (t : SString) (f : Int) (hf : f ≤ t.length)
    (hwf : t.text.length = t.m_style.m_length) :
    (t.truncate f).text = t.text.take f.toNat ∧
    (t.truncate f).m_style.m_length = f.toNat ∧
    ∀ d, d < f.toNat → (t.truncate f).run d = t.run d := by
  simp only [length] at hf
  unfold truncate
  by_cases h : f < t.length
  · rw [if_pos h]
    simp only [length] at h
    refine ⟨?_, ?_, ?_⟩
    · simp only [qTruncate]
      by_cases h0 : f < 0
      · rw [if_pos h0]
        have : f.toNat = 0 := by omega
        rw [this, List.take_zero]
      · rw [if_neg h0]
    · simp only [SStringStyle.replace_length]; omega
    · intro d hd
      simp only [SString.run]
      rw [SStringStyle.run_replace _ _ _ _ _ (by omega), if_pos hd]
  · rw [if_neg h]
    simp only [length] at h
    have e : f.toNat = t.text.length := by omega
    refine ⟨?_, ?_, fun _ _ => rfl⟩
    · rw [e, List.take_length]
    · rw [e, hwf]

/-- The member `simplifyWhiteSpace`, position by position: the output has one character for
every source position; it holds the converted character and the style run of its source. -/
theorem simplifyWhiteSpace_spec (s : SString) (hs : s.WF) :
    s.simplifyWhiteSpace.text.length = (simplifySources s.text).length ∧
    s.simplifyWhiteSpace.m_style.m_length = (simplifySources s.text).length ∧
    (simplifySources s.text).Pairwise (· < ·) ∧
    ∀ d, d < (simplifySources s.text).length →
      (simplifySources s.text).getD d 0 < s.text.length ∧
      s.simplifyWhiteSpace.text.getD d (Char.ofNat 0)
        = simplifiedChar (s.text.getD ((simplifySources s.text).getD d 0) (Char.ofNat 0)) ∧
      s.simplifyWhiteSpace.run d = s.run ((simplifySources s.text).getD d 0) := by
  have inv := SimplifyInv.fold hs s.text.length (le_refl _)
  unfold simplifyWhiteSpace simplifySources
  generalize (List.range s.text.length).foldl simplifyStep
    { string := s, di := 0, lastWasSpace := true, lastWasLineFeed := true } = st at inv
  generalize (List.range s.text.length).foldl (sourceStep s.text)
    { sources := [], lastWasSpace := true, lastWasLineFeed := true } = tr at inv
  simp only [inv.lineFeed_eq]
  have hex : ∃ k, k ≤ tr.sources.length ∧
      (if tr.lastWasLineFeed = true then tr.sources.dropLast else tr.sources)
        = tr.sources.take k ∧
      (if tr.lastWasLineFeed = true then st.di - 1 else st.di).toNat = k ∧
      (if tr.lastWasLineFeed = true then st.di - 1 else st.di) ≤ st.string.length := by
    have hl := inv.sources_length
    have ht := inv.text_length
    by_cases c : tr.lastWasLineFeed = true
    · refine ⟨tr.sources.length - 1, Nat.sub_le _ _, ?_, ?_, ?_⟩
      · rw [if_pos c, List.dropLast_eq_take]
      · rw [if_pos c, inv.di_eq]; omega
      · rw [if_pos c, inv.di_eq]; simp only [length]; omega
    · refine ⟨tr.sources.length, le_refl _, ?_, ?_, ?_⟩
      · rw [if_neg c, List.take_length]
      · rw [if_neg c, inv.di_eq]; omega
      · rw [if_neg c, inv.di_eq]; simp only [length]; omega
  obtain ⟨k, hk, hsrc, hdi, hle⟩ := hex
  have hwf : st.string.text.length = st.string.m_style.m_length := by
    rw [inv.text_length, inv.length_eq]; exact hs.1
  obtain ⟨t1, t2, t3⟩ := truncate_spec st.string _ hle hwf
  rw [hdi] at t1 t2 t3
  have hlen : (tr.sources.take k).length = k := by
    rw [List.length_take]; omega
  have hkl : k ≤ st.string.text.length := by
    rw [inv.text_length]; exact le_trans hk inv.sources_length
  rw [hsrc, hlen]
  refine ⟨?_, t2, inv.sources_sorted.sublist (List.take_sublist _ _), ?_⟩
  · rw [t1, List.length_take]; omega
  · intro d hd
    rw [getD_take_lt _ _ _ hd]
    obtain ⟨w1, w2⟩ := inv.written d (by omega)
    refine ⟨?_, ?_, ?_⟩
    · apply inv.sources_lt
      rw [List.getD_eq_getElem?_getD, List.getElem?_eq_getElem (by omega)]
      exact List.getElem_mem _
    · rw [t1, ← w1]
      simp [List.getD_eq_getElem?_getD, List.getElem?_take, hd]
    · rw [t3 d hd]
      exact w2

end SString

namespace SString

theorem truncate_text (t : SString) (f : Int) : (t.truncate f).text = qTruncate t.text f := by
  unfold truncate
  by_cases h : f < t.length
  · rw [if_pos h]
  · rw [if_neg h]
    simp only [length] at h
    unfold qTruncate
    rw [if_neg (by omega), List.take_of_length_le (by omega)]

/-- The member loop changes the text as the static loop does. -/
theorem simplifyStep_text (st : SimplifyStyledState) (i : Nat) :
    (⟨(simplifyStep st i).string.text, (simplifyStep st i).di, (simplifyStep st i).lastWasSpace,
      (simplifyStep st i).lastWasLineFeed⟩ : SimplifyState)
      = SubtitleComposer.simplifyStep
          ⟨st.string.text, st.di, st.lastWasSpace, st.lastWasLineFeed⟩ i := by
  unfold simplifyStep SubtitleComposer.simplifyStep
  simp only []
  split_ifs <;> rfl

theorem foldl_simplifyStep_text (l : List Nat) (st : SimplifyStyledState) :
    (⟨(l.foldl simplifyStep st).string.text, (l.foldl simplifyStep st).di,
      (l.foldl simplifyStep st).lastWasSpace, (l.foldl simplifyStep st).lastWasLineFeed⟩ :
        SimplifyState)
      = l.foldl SubtitleComposer.simplifyStep
          ⟨st.string.text, st.di, st.lastWasSpace, st.lastWasLineFeed⟩ := by
  induction l generalizing st with
  | nil => rfl
  | cons i rest ih =>
    simp only [List.foldl_cons]
    rw [ih, simplifyStep_text]

/-- The member `simplifyWhiteSpace` gives the text of the static one. -/
theorem simplifyWhiteSpace_text (s : SString) :
    s.simplifyWhiteSpace.text = qSimplifyWhiteSpace s.text := by
  unfold simplifyWhiteSpace qSimplifyWhiteSpace
  simp only [truncate_text]
  have h := foldl_simplifyStep_text (List.range s.text.length)
    { string := s, di := 0, lastWasSpace := true, lastWasLineFeed := true }
  simp only [] at h
  rw [← h]

end SString

/-- The sentence-case loop on two lower-case words separated by `k` dots and a space. -/
theorem sentenceCaseLoop_two_words (c1 : Char) (t1 : List Char) (c2 : Char) (t2 : List Char)
    (k : Nat) (hk : 1 ≤ k) (h1 : ∀ c ∈ c1 :: t1, c ∈ lowercaseLetters)
    (h2 : ∀ c ∈ c2 :: t2, c ∈ lowercaseLetters) :
    (sentenceCaseLoop (c1 :: t1 ++ List.replicate k '.' ++ [' '] ++ c2 :: t2) 0 true).1 =
      c1.toUpper :: t1 ++ List.replicate k '.' ++ [' '] ++
        (if k < 3 then c2.toUpper :: t2 else c2 :: t2) := by
  have f1 := (lowercase_facts c1 (h1 c1 (List.mem_cons_self _ _))).2.1
  have f2 := (lowercase_facts c2 (h2 c2 (List.mem_cons_self _ _))).2.1
  have ht1 : ∀ c ∈ t1, c ∈ lowercaseLetters := fun c hc => h1 c (List.mem_cons_of_mem _ hc)
  have ht2 : ∀ c ∈ t2, c ∈ lowercaseLetters := fun c hc => h2 c (List.mem_cons_of_mem _ hc)
  have hk0 : ¬ k = 0 := by omega
  simp only [List.append_assoc, List.cons_append, List.singleton_append, List.nil_append]
  rw [sentenceCaseLoop_upper c1 _ 0 f1]
  simp only []
  rw [sentenceCaseLoop_word t1 ht1]
  simp only []
  rw [sentenceCaseLoop_dots k]
  simp only [if_neg hk0]
  rw [sentenceCaseLoop_space]
  simp only []
  have hw2 := sentenceCaseLoop_word t2 ht2 [] 0
  rw [List.append_nil] at hw2
  by_cases h3 : k < 3
  · have hd : (if t1 = [] then 0 else 0) + k < 3 := by
      split_ifs <;> omega
    simp only [hd, decide_True, if_pos h3, List.nil_append]
    rw [sentenceCaseLoop_upper c2 _ _ f2]
    simp only [hw2, sentenceCaseLoop_nil, List.append_nil]
  · have hd : ¬ ((if t1 = [] then 0 else 0) + k < 3) := by
      split_ifs <;> omega
    simp only [hd, decide_False, if_neg h3, List.nil_append]
    have hw := sentenceCaseLoop_word (c2 :: t2) h2 [] ((if t1 = [] then 0 else 0) + k)
    rw [List.append_nil] at hw
    simp only [hw, sentenceCaseLoop_nil, List.append_nil]

/-! # Claims on the rich text, the case transforms and the white space -/

namespace SString

/-- C21: for every string whose style runs are stored and have none of the five style flags,
`richString` returns the text with every `<` replaced by `&lt;` and every `>` replaced by
`&gt;`, without any tag; for the empty string it returns the empty string. -/
theorem C21_markup_of_unstyled (s : SString)
    (h : ∀ i, i < s.text.length → ∃ f c, s.run i = (some f, some c) ∧ f &&& AllStyles = 0) :
    s.richString = some (escapedText s.text) ∧ (s.text = [] → s.richString = some []) := by
  have H : ∀ i, i < s.text.length →
      ∃ style, s.m_style.iter i = some style ∧ style.1 &&& AllStyles = 0 := by
    intro i hi
    obtain ⟨f, c, e, hf⟩ := h i hi
    simp only [SString.run, SStringStyle.run, Prod.mk.injEq] at e
    exact ⟨(f, c), by unfold SStringStyle.iter; rw [e.1, e.2], hf⟩
  have hr := richString_plain s H
  refine ⟨hr, ?_⟩
  intro he
  rw [hr, he]
  rfl

set_option maxRecDepth 100000 in
/-- Witness of C21: the unstyled text `a<b> c` and the empty string. -/
theorem C21_markup_of_unstyled_witness :
    (∀ i, i < (ofString "a<b> c".toList 0 0).text.length →
      ∃ f c, (ofString "a<b> c".toList 0 0).run i = (some f, some c) ∧ f &&& AllStyles = 0) ∧
    (ofString "a<b> c".toList 0 0).richString = some "a&lt;b&gt; c".toList ∧
    (ofString [] 0 0).richString = some [] :=
  have h : ∀ i, i < (ofString "a<b> c".toList 0 0).text.length →
      ∃ f c, (ofString "a<b> c".toList 0 0).run i = (some f, some c) ∧ f &&& AllStyles = 0 := by
    intro i hi
    refine ⟨0, 0, ?_, by decide⟩
    have hi6 : i < 6 := hi
    interval_cases i <;> decide
  ⟨h, (C21_markup_of_unstyled (ofString "a<b> c".toList 0 0) h).1, by decide⟩

set_option maxRecDepth 100000 in
/-- C22, evaluated: `setRichString` reads `<b>x</b>y` as a bold `x` and an unstyled `y`, but
it reads `<font color=#ff0000>x</font>` as an `x` without the `Color` flag and without a
color, and it reads `a<br>b` as `ab` with a bold `b`. -/
theorem C22_markup_font_color_is_lost :
    tagRegExp.globalMatch "<font color=#ff0000>x</font>".toList
      = [⟨[(0, 20), (1, 4), (1, 4)]⟩, ⟨[(21, 7), (22, 5), (23, 4)]⟩] ∧
    ((ofString [] 0 0).setRichString tagRegExp "<font color=#ff0000>x</font>".toList).text
      = "x".toList ∧
    ((ofString [] 0 0).setRichString tagRegExp "<font color=#ff0000>x</font>".toList).run 0
      = (some 0, some 0) ∧
    ((ofString [] 0 0).setRichString tagRegExp "<b>x</b>y".toList).text = "xy".toList ∧
    ((ofString [] 0 0).setRichString tagRegExp "<b>x</b>y".toList).run 0 = (some Bold, some 0) ∧
    ((ofString [] 0 0).setRichString tagRegExp "<b>x</b>y".toList).run 1 = (some 0, some 0) ∧
    ((ofString [] 0 0).setRichString tagRegExp "a<br>b".toList).text = "ab".toList ∧
    ((ofString [] 0 0).setRichString tagRegExp "a<br>b".toList).run 1 = (some Bold, some 0) := by
  refine ⟨by decide, by decide, by decide, by decide, by decide, by decide, by decide,
    by decide⟩

set_option maxRecDepth 100000 in
/-- C23, counterexample: in `a)b a.b` the code upper-cases the `b` after the period and not
the `b` after the closing parenthesis, while the separator set of the claim gives the
opposite. -/
theorem C23_title_case_separators_counterexample :
    ((ofString "a)b a.b".toList 0 0).toTitleCase false).text = "A)b A.B".toList ∧
    titleCaseSpec specSeparators "a)b a.b".toList = "A)B A.b".toList := by
  decide

/-- C23, amended: `toTitleCase(false)` returns a string of the same length, with the style
runs of the string, in which the character at position `i` is upper-cased exactly when it is
not a separator and `i` is 0 or the character at `i - 1` is a separator, every other character
being kept; the separators are exactly space, dash, underscore, opening parenthesis, opening
square bracket, colon, comma, semicolon, period, slash, backslash, tab, newline and double
quote. -/
theorem C23_title_case (s : SString) :
    (s.toTitleCase false).text = titleCaseSpec wordSeparators s.text ∧
    (s.toTitleCase false).text.length = s.text.length ∧
    wordSeparators
      = [' ', '-', '_', '(', '[', ':', ',', ';', '.', '/', '\\', '\t', '\n', '"'] ∧
    (∀ i, i < s.m_style.m_length → (s.toTitleCase false).run i = s.run i) := by
  have hd : s.toTitleCase false = ⟨titleCaseLoop s.text true, SStringStyle.ofCopy s.m_style⟩ := by
    unfold toTitleCase ofCopy
    simp
  rw [hd]
  refine ⟨titleCaseLoop_spec s.text, titleCaseLoop_length s.text true, by decide, ?_⟩
  intro i hi
  exact SStringStyle.run_ofCopy s.m_style i hi

/-- C24: for two non-empty words `w1` and `w2` of lower-case letters and `k >= 1`,
`toSentenceCase(false)` without a continuation flag, applied to `w1`, `k` dots, one space and
`w2`, upper-cases the first letter of `w1`, upper-cases the first letter of `w2` when `k` is
1 or 2, and keeps `w2` when `k >= 3`; everything else is kept. -/
theorem C24_sentence_case_ellipsis (s : SString) (w1 w2 : List Char) (k : Nat)
    (h1 : w1 ≠ []) (h2 : w2 ≠ []) (hw1 : ∀ c ∈ w1, c ∈ lowercaseLetters)
    (hw2 : ∀ c ∈ w2, c ∈ lowercaseLetters) (hk : 1 ≤ k)
    (ht : s.text = w1 ++ List.replicate k '.' ++ [' '] ++ w2) :
    (s.toSentenceCase false none).1.text =
      capitalized w1 ++ List.replicate k '.' ++ [' '] ++
        (if k < 3 then capitalized w2 else w2) := by
  cases w1 with
  | nil => exact absurd rfl h1
  | cons c1 t1 =>
    cases w2 with
    | nil => exact absurd rfl h2
    | cons c2 t2 =>
      have hne : s.text.isEmpty = false := by rw [ht]; rfl
      have hd : (s.toSentenceCase false none).1.text = (sentenceCaseLoop s.text 0 true).1 := by
        unfold toSentenceCase ofCopy
        simp [hne]
      rw [hd, ht, sentenceCaseLoop_two_words c1 t1 c2 t2 k hk hw1 hw2]
      simp only [capitalized]

set_option maxRecDepth 100000 in
/-- Witness of C24: `hello... world` keeps `world`, and `hello. world` gives `World`. -/
theorem C24_sentence_case_ellipsis_witness :
    ((ofString "hello... world".toList 0 0).toSentenceCase false none).1.text
      = "Hello... world".toList ∧
    ((ofString "hello. world".toList 0 0).toSentenceCase false none).1.text
      = "Hello. World".toList ∧
    ((ofString "hello.. world".toList 0 0).toSentenceCase false none).1.text =
      capitalized "hello".toList ++ List.replicate 2 '.' ++ [' '] ++
        (if 2 < 3 then capitalized "world".toList else "world".toList) :=
  ⟨by decide, by decide,
    C24_sentence_case_ellipsis (ofString "hello.. world".toList 0 0) "hello".toList
      "world".toList 2 (by decide) (by decide) (by decide) (by decide) (by decide) rfl⟩

set_option maxRecDepth 100000 in
/-- C25, counterexample: with the flag passed in as `true` the chunk `hello` is left as it is,
and with the flag passed in as `false` it becomes `Hello`; in both cases the flag is `true` on
return, although no capital is awaited after the chunk, and after `hello.`, where a capital is
awaited, the flag is `false` on return. -/
theorem C25_continuation_flag_counterexample :
    ((ofString "hello".toList 0 0).toSentenceCase false (some true)).1.text = "hello".toList ∧
    ((ofString "hello".toList 0 0).toSentenceCase false (some false)).1.text = "Hello".toList ∧
    ((ofString "hello".toList 0 0).toSentenceCase false (some true)).2 = some true ∧
    ((ofString "hello".toList 0 0).toSentenceCase false (some false)).2 = some true ∧
    ((ofString "hello.".toList 0 0).toSentenceCase false (some false)).2 = some false := by
  decide

end SString

/-! ### The flags of the sentence case, read from the end of the text -/

theorem takeWhile_append_of_not_all {α : Type} (p : α → Bool) (r l : List α)
    (h : r.all p = false) : (r ++ l).takeWhile p = r.takeWhile p := by
  induction r with
  | nil => simp at h
  | cons a r ih =>
    rw [List.cons_append, List.takeWhile_cons, List.takeWhile_cons]
    cases ha : p a with
    | false => rfl
    | true =>
      simp only [if_true]
      rw [ih]
      rw [List.all_cons, ha, Bool.true_and] at h
      exact h

theorem dropWhile_append_of_not_all {α : Type} (p : α → Bool) (r l : List α)
    (h : r.all p = false) : (r ++ l).dropWhile p = r.dropWhile p ++ l := by
  induction r with
  | nil => simp at h
  | cons a r ih =>
    rw [List.cons_append, List.dropWhile_cons, List.dropWhile_cons]
    cases ha : p a with
    | false => rfl
    | true =>
      simp only [if_true]
      rw [ih]
      rw [List.all_cons, ha, Bool.true_and] at h
      exact h

theorem takeWhile_of_all {α : Type} (p : α → Bool) (r : List α) (h : r.all p = true) :
    r.takeWhile p = r := by
  rw [List.takeWhile_eq_self_iff]
  intro x hx
  exact (List.all_eq_true.mp h) x hx

theorem dropWhile_of_all {α : Type} (p : α → Bool) (r : List α) (h : r.all p = true) :
    r.dropWhile p = [] := by
  rw [List.dropWhile_eq_nil_iff]
  intro x hx
  exact (List.all_eq_true.mp h) x hx

theorem takeWhile_append_of_all {α : Type} (p : α → Bool) (r l : List α) (h : r.all p = true) :
    (r ++ l).takeWhile p = r ++ l.takeWhile p :=
  List.takeWhile_append_of_pos (fun x hx => (List.all_eq_true.mp h) x hx)

theorem dropWhile_append_of_all {α : Type} (p : α → Bool) (r l : List α) (h : r.all p = true) :
    (r ++ l).dropWhile p = l.dropWhile p :=
  List.dropWhile_append_of_pos (fun x hx => (List.all_eq_true.mp h) x hx)

/-- The value of `prevDots` after one character `c` of the sentence case, as the
specification reads it. -/
theorem dotsAtEnd_cons (c : Char) (t : List Char) (p : Nat) :
    dotsAtEnd (c :: t) p = dotsAtEnd t (if c = '.' then p + 1 else if isSpace c then p else 0) := by
  unfold dotsAtEnd
  rw [List.reverse_cons, List.all_cons]
  cases hall : t.all (fun c => c = '.' || isSpace c) with
  | false =>
    have hr : t.reverse.all (fun c => decide (c = '.') || isSpace c) = false := by
      rw [List.all_reverse]; exact hall
    rw [takeWhile_append_of_not_all _ _ _ hr]
    simp
  | true =>
    have hr : t.reverse.all (fun c => decide (c = '.') || isSpace c) = true := by
      rw [List.all_reverse]; exact hall
    rw [takeWhile_append_of_all _ _ _ hr, takeWhile_of_all _ _ hr]
    by_cases hd : c = '.'
    · subst hd
      simp [List.takeWhile_cons]
      omega
    · by_cases hs : isSpace c = true
      · simp [List.takeWhile_cons, hd, hs]
        rw [List.count_cons, List.count_nil]
        have : (c == '.') = false := by simp [hd]
        rw [this]; rfl
      · simp [List.takeWhile_cons, hd, hs]

/-- What is awaited after one character `c` of the sentence case, as the specification reads
it. -/
theorem awaitsCapitalAfter_cons (c : Char) (t : List Char) (p : Nat) (a : Bool) :
    awaitsCapitalAfter (c :: t) p a =
      awaitsCapitalAfter t (if c = '.' then p + 1 else if isSpace c then p else 0)
        (if c = '.' then decide (p + 1 < 3) else if c = '?' ∨ c = '!' then true
          else if isLetterOrNumber c then false else a) := by
  unfold awaitsCapitalAfter
  rw [List.reverse_cons]
  cases hall : t.reverse.all (fun c => !sentenceEndChars.contains c && !isLetterOrNumber c) with
  | true =>
    rw [dropWhile_append_of_all _ _ _ hall, dropWhile_of_all _ _ hall]
    simp only []
    by_cases hd : c = '.'
    · subst hd
      rw [List.dropWhile_cons]
      simp only [if_true]
      have : (!sentenceEndChars.contains '.' && !isLetterOrNumber '.') = false := by decide
      rw [this]
      simp only [Bool.false_eq_true, if_false, if_true, List.reverse_cons, List.reverse_nil,
        List.nil_append]
      have : dotsAtEnd ['.'] p = p + 1 := by
        rw [dotsAtEnd_cons]; simp [dotsAtEnd]
      rw [this]
    · by_cases hq : c = '?' ∨ c = '!'
      · have : (!sentenceEndChars.contains c && !isLetterOrNumber c) = false := by
          rcases hq with h | h <;> subst h <;> decide
        rw [List.dropWhile_cons, this]
        simp [hd, hq]
      · have hcont : sentenceEndChars.contains c = false := by
          simp only [sentenceEndChars]
          have : ".?!".toList = ['.', '?', '!'] := rfl
          rw [this]
          simp only [List.contains_cons, List.contains_nil, Bool.or_false, Bool.or_eq_false_iff,
            beq_eq_false_iff_ne, ne_eq]
          exact ⟨hd, fun h => hq (Or.inl h), fun h => hq (Or.inr h)⟩
        cases hl : isLetterOrNumber c with
        | true =>
          rw [List.dropWhile_cons, hcont, hl]
          simp [hd, hq]
        | false =>
          rw [List.dropWhile_cons, hcont, hl]
          simp [hd, hq]
  | false =>
    rw [dropWhile_append_of_not_all _ _ _ hall]
    cases hdw : t.reverse.dropWhile
        (fun c => !sentenceEndChars.contains c && !isLetterOrNumber c) with
    | nil =>
      rw [List.dropWhile_eq_nil_iff] at hdw
      have : t.reverse.all (fun c => !sentenceEndChars.contains c && !isLetterOrNumber c)
          = true := List.all_eq_true.mpr hdw
      rw [this] at hall; exact absurd hall (by decide)
    | cons x e =>
      simp only [List.cons_append]
      have : (x :: (e ++ [c])).reverse = c :: (x :: e).reverse := by simp
      rw [this, dotsAtEnd_cons]

theorem alnum_not_space (c : Char) (h : isLetterOrNumber c = true) : isSpace c = false := by
  have hlt := alnum_lt c h
  unfold isLetterOrNumber Char.isAlphanum Char.isAlpha Char.isUpper Char.isLower Char.isDigit at h
  simp only [Bool.or_eq_true, Bool.and_eq_true, decide_eq_true_eq] at h
  simp only [ge_iff_le, UInt32.le_def, BitVec.le_def] at h
  have e : c.val.toBitVec.toNat = c.toNat := rfl
  have e1 : (UInt32.toBitVec 65).toNat = 65 := rfl
  have e2 : (UInt32.toBitVec 90).toNat = 90 := rfl
  have e3 : (UInt32.toBitVec 97).toNat = 97 := rfl
  have e4 : (UInt32.toBitVec 122).toNat = 122 := rfl
  have e5 : (UInt32.toBitVec 48).toNat = 48 := rfl
  have e6 : (UInt32.toBitVec 57).toNat = 57 := rfl
  rw [e, e1, e2, e3, e4, e5, e6] at h
  unfold isSpace
  simp only [Bool.or_eq_false_iff, Bool.and_eq_false_iff, decide_eq_false_iff_not]
  omega

/-- The loop of the sentence case leaves `prevDots` and `startSentence` as the specification
reads them from the end of the text. -/
theorem sentenceCaseLoop_flags (t : List Char) : ∀ (p : Nat) (a : Bool),
    (sentenceCaseLoop t p a).2 = (dotsAtEnd t p, awaitsCapitalAfter t p a) := by
  induction t with
  | nil =>
    intro p a
    simp [sentenceCaseLoop, dotsAtEnd, awaitsCapitalAfter]
  | cons c t ih =>
    intro p a
    rw [dotsAtEnd_cons, awaitsCapitalAfter_cons]
    by_cases hd : c = '.'
    · subst hd
      rw [sentenceCaseLoop_dot]
      simp only [if_true]
      exact ih _ _
    · by_cases hq : c = '?' ∨ c = '!'
      · have hs : isSpace c = false := by rcases hq with h | h <;> subst h <;> decide
        have hcont : sentenceEndChars.contains c = true := by
          rcases hq with h | h <;> subst h <;> decide
        rw [sentenceCaseLoop, if_pos hcont, if_neg hd, if_neg hd, if_neg hd, if_pos hq, hs]
        simp only [Bool.false_eq_true, if_false]
        exact ih _ _
      · have hcont : sentenceEndChars.contains c = false := by
          simp only [sentenceEndChars]
          have : ".?!".toList = ['.', '?', '!'] := rfl
          rw [this]
          simp only [List.contains_cons, List.contains_nil, Bool.or_false, Bool.or_eq_false_iff,
            beq_eq_false_iff_ne, ne_eq]
          exact ⟨hd, fun h => hq (Or.inl h), fun h => hq (Or.inr h)⟩
        rw [sentenceCaseLoop_other c t p a hcont, if_neg hd, if_neg hd, if_neg hq]
        simp only []
        rw [ih]
        cases hl : isLetterOrNumber c with
        | true =>
          have h1 := (alnum_facts c hl).1
          have h2 := alnum_not_space c hl
          cases a <;> simp [h1, h2]
        | false =>
          cases hsp : isSpace c <;> cases a <;> simp [hsp]

namespace SString

/-- C25, amended: the flag means that no capital is awaited (the sentence continues).  For
every non-empty chunk, the flag is `true` on return exactly when no capital is awaited after
the chunk, which is read from the end of the chunk (`awaitsCapitalAfter`), the chunk being
entered awaiting a capital exactly when the flag is passed in as `false`; and a first letter
or digit `c` of the chunk that has neither a terminator nor a letter or digit before it is
kept when the flag is passed in as `true` and upper-cased when it is passed in as `false`,
what stands before it being kept. -/
theorem C25_continuation_flag (s : SString) (flag : Bool) (hne : s.text ≠ []) :
    (s.toSentenceCase false (some flag)).2 = some (!awaitsCapitalAfter s.text 0 (!flag)) ∧
    ∀ (pre rest : List Char) (c : Char), s.text = pre ++ c :: rest →
      (∀ x ∈ pre, sentenceEndChars.contains x = false ∧ isLetterOrNumber x = false) →
      isLetterOrNumber c = true →
      ((s.toSentenceCase false (some flag)).1.text)[pre.length]?
        = some (if flag then c else c.toUpper) ∧
      (s.toSentenceCase false (some flag)).1.text.take pre.length = pre := by
  have hne1 : s.text.isEmpty = false := by
    cases h : s.text with
    | nil => exact absurd h hne
    | cons a l => rfl
  have hd : s.toSentenceCase false (some flag) =
      (⟨(sentenceCaseLoop s.text 0 (!flag)).1, SStringStyle.ofCopy s.m_style⟩,
        some (decide ((sentenceCaseLoop s.text 0 (!flag)).2.1 ≠ 1) &&
          !(sentenceCaseLoop s.text 0 (!flag)).2.2)) := by
    unfold toSentenceCase ofCopy
    simp [hne1]
  rw [hd]
  refine ⟨?_, ?_⟩
  · simp only [Option.some.injEq]
    have hf := sentenceCaseLoop_flags s.text 0 (!flag)
    have ho := sentenceCaseLoop_oneDot s.text 0 (!flag) (fun h0 => absurd h0 (by decide))
    have e2 : (sentenceCaseLoop s.text 0 (!flag)).2.2 = awaitsCapitalAfter s.text 0 (!flag) := by
      rw [hf]
    rw [← e2]
    by_cases h1 : (sentenceCaseLoop s.text 0 (!flag)).2.1 = 1
    · rw [ho h1]; simp
    · simp [h1]
  · intro pre rest c ht hpre hc
    obtain ⟨p, e⟩ := sentenceCaseLoop_pre pre hpre (c :: rest) 0 (!flag)
    have hc2 := (alnum_facts c hc).2
    have hfirst : (sentenceCaseLoop (c :: rest) p (!flag)).1
        = (if flag then c else c.toUpper) ::
            (sentenceCaseLoop (c :: rest) p (!flag)).1.tail := by
      rw [sentenceCaseLoop_other c rest p (!flag) hc2]
      cases flag <;> simp [hc]
    refine ⟨?_, ?_⟩
    · simp only []
      rw [ht, e]
      simp only []
      rw [hfirst, List.getElem?_append_right (le_refl _)]
      simp
    · simp only []
      rw [ht, e]
      simp

set_option maxRecDepth 100000 in
/-- Witness of C25: the chunk ` "hello.. ` with the flag `false`: two dots and a space end
it, so a capital is awaited and the flag is `false` on return, and the `h` after the space
and the quotation mark is upper-cased. -/
theorem C25_continuation_flag_witness :
    (ofString " \"hello.. ".toList 0 0).text ≠ [] ∧
    awaitsCapitalAfter " \"hello.. ".toList 0 (!false) = true ∧
    ((ofString " \"hello.. ".toList 0 0).toSentenceCase false (some false)).2 = some false ∧
    ((ofString " \"hello.. ".toList 0 0).toSentenceCase false (some false)).1.text
      = " \"Hello.. ".toList ∧
    (((ofString " \"hello.. ".toList 0 0).toSentenceCase false (some false)).1.text)[
        " \"".toList.length]? = some 'H' :=
  ⟨by decide, by decide,
    (C25_continuation_flag (ofString " \"hello.. ".toList 0 0) false (by decide)).1.trans
      (by decide),
    by decide,
    ((C25_continuation_flag (ofString " \"hello.. ".toList 0 0) false (by decide)).2
      " \"".toList "ello.. ".toList 'h' rfl (by decide) (by decide)).1.trans (by decide)⟩

end SString

namespace SString

set_option maxRecDepth 100000 in
/-- C26, evaluated: on the text of a space, `a`, two spaces, `b`, two tabs, `c`, a space, CR,
LF, CR, LF, `d` and a space, the static and the member `simplifyWhiteSpace` both give
`a b c`, a line feed, `d` and a space: the space at the end is kept. -/
theorem C26_simplify_keeps_trailing_space :
    qSimplifyWhiteSpace " a  b\t\tc \r\n\r\nd ".toList = "a b c\nd ".toList ∧
    (ofString " a  b\t\tc \r\n\r\nd ".toList Bold 0).simplifyWhiteSpace.text
      = "a b c\nd ".toList ∧
    (ofString " a  b\t\tc \r\n\r\nd ".toList Bold 0).simplifyWhiteSpace.m_style.m_length = 8 ∧
    qSimplifyWhiteSpace "a ".toList = "a ".toList ∧
    qSimplifyWhiteSpace "a\n".toList = "a".toList := by
  refine ⟨by decide, by decide, by decide, by decide, by decide⟩

/-- C27: for every well-formed styled string, after the member `simplifyWhiteSpace` the text
and the style array have the same length, which is the number of surviving source positions;
these positions increase, and every output position `d` holds the converted character and the
style run (flags and color) that the input had at the source position of `d`.  The cut to the
final length is `truncate` of the header. -/
theorem C27_simplify_keeps_styles (s : SString) (hs : s.WF) :
    s.simplifyWhiteSpace.text.length = (simplifySources s.text).length ∧
    s.simplifyWhiteSpace.m_style.m_length = s.simplifyWhiteSpace.text.length ∧
    (simplifySources s.text).Pairwise (· < ·) ∧
    ∀ d, d < s.simplifyWhiteSpace.text.length →
      (simplifySources s.text).getD d 0 < s.text.length ∧
      s.simplifyWhiteSpace.text.getD d (Char.ofNat 0)
        = simplifiedChar (s.text.getD ((simplifySources s.text).getD d 0) (Char.ofNat 0)) ∧
      s.simplifyWhiteSpace.run d = s.run ((simplifySources s.text).getD d 0) := by
  obtain ⟨h1, h2, h3, h4⟩ := simplifyWhiteSpace_spec s hs
  refine ⟨h1, by rw [h2, h1], h3, ?_⟩
  intro d hd
  exact h4 d (by rw [← h1]; exact hd)

set_option maxRecDepth 100000 in
/-- Witness of C27: in ` a` tab tab `b` with a bold ` a`, italic tabs and an underlined `b`,
the output `a b` takes its runs from the positions 1, 2 and 4. -/
theorem C27_simplify_keeps_styles_witness :
    (((ofString " a".toList Bold 0).insertSString 2 (ofString "\t\t".toList Italic 0)).insertSString
      4 (ofString "b".toList Underline 0)).WF ∧
    simplifySources " a\t\tb".toList = [1, 2, 4] ∧
    (((ofString " a".toList Bold 0).insertSString 2 (ofString "\t\t".toList Italic 0)).insertSString
      4 (ofString "b".toList Underline 0)).simplifyWhiteSpace.text = "a b".toList ∧
    (((ofString " a".toList Bold 0).insertSString 2 (ofString "\t\t".toList Italic 0)).insertSString
      4 (ofString "b".toList Underline 0)).simplifyWhiteSpace.run 1 = (some Italic, some 0) ∧
    (((ofString " a".toList Bold 0).insertSString 2 (ofString "\t\t".toList Italic 0)).insertSString
      4 (ofString "b".toList Underline 0)).simplifyWhiteSpace.m_style.m_length =
    (((ofString " a".toList Bold 0).insertSString 2 (ofString "\t\t".toList Italic 0)).insertSString
      4 (ofString "b".toList Underline 0)).simplifyWhiteSpace.text.length :=
  have hwf : (((ofString " a".toList Bold 0).insertSString 2
      (ofString "\t\t".toList Italic 0)).insertSString 4 (ofString "b".toList Underline 0)).WF :=
    ⟨by decide, ⟨by decide, by decide⟩, by decide⟩
  ⟨hwf, by decide, by decide, by decide, (C27_simplify_keeps_styles _ hwf).2.1⟩

/-- C28: for an index inside the string and any `len`, `mid(index, len)` has `n` characters,
`n` being the clamped `len` (`min(len, length - index)` for `len >= 0`), and its `k`-th
character and style run are those of the string at `index + k`; for `0 <= m <= length`,
`left(m)` holds the first `m` characters with their style runs and `right(m)` the last `m`
characters with theirs. -/
theorem C28_slices_keep_styles (s : SString) (index len m : Int) :
    (0 ≤ index → index < s.length →
      (s.mid index len).text = (s.text.drop index.toNat).take (s.lengthAt index len).toNat ∧
      (s.mid index len).text.length = (s.lengthAt index len).toNat ∧
      (s.mid index len).m_style.m_length = (s.lengthAt index len).toNat ∧
      (0 ≤ len → s.lengthAt index len = min len (s.length - index)) ∧
      ∀ k, k < (s.lengthAt index len).toNat →
        (s.mid index len).text[k]? = s.text[index.toNat + k]? ∧
        (s.mid index len).run k = s.run (index.toNat + k)) ∧
    (0 ≤ m → m ≤ s.length →
      (s.left m).text = s.text.take m.toNat ∧ (s.left m).m_style.m_length = m.toNat ∧
      ∀ k, k < m.toNat → (s.left m).run k = s.run k) ∧
    (0 ≤ m → m ≤ s.length →
      (s.right m).text = s.text.drop (s.text.length - m.toNat) ∧
      (s.right m).m_style.m_length = m.toNat ∧
      ∀ k, k < m.toNat → (s.right m).run k = s.run (s.text.length - m.toNat + k)) := by
  refine ⟨?_, ?_, ?_⟩
  · intro h0 h1
    obtain ⟨e1, e2, e3, e4⟩ := mid_spec s index len h0 h1
    refine ⟨e1, e3, by rw [← e2.1, e3], ?_, ?_⟩
    · intro hl
      unfold lengthAt
      split_ifs <;> omega
    · intro k hk
      refine ⟨?_, e4 k hk⟩
      rw [e1, List.getElem?_take_of_lt hk, List.getElem?_drop]
  · intro h0 h1
    obtain ⟨e1, e2, e3⟩ := left_spec s m h0 h1
    refine ⟨e1, ?_, e3⟩
    simp only [length] at h1
    rw [← e2.1, e1, List.length_take]; omega
  · intro h0 h1
    obtain ⟨e1, e2, e3⟩ := right_spec s m h0 h1
    refine ⟨e1, ?_, e3⟩
    simp only [length] at h1
    rw [← e2.1, e1, List.length_drop]; omega

set_option maxRecDepth 100000 in
/-- Witness of C28: slices of `abcdef` whose characters `c` and `d` are italic and whose other
characters are bold. -/
theorem C28_slices_keep_styles_witness :
    (((ofString "abcdef".toList Bold 0).setStyleFlags 2 2 Italic).mid 1 3).text = "bcd".toList ∧
    (((ofString "abcdef".toList Bold 0).setStyleFlags 2 2 Italic).mid 1 3).run 1
      = (some Italic, some 0) ∧
    (((ofString "abcdef".toList Bold 0).setStyleFlags 2 2 Italic).right 3).run 0
      = (some Italic, some 0) ∧
    (((ofString "abcdef".toList Bold 0).setStyleFlags 2 2 Italic).left 3).text
      = ((ofString "abcdef".toList Bold 0).setStyleFlags 2 2 Italic).text.take (3 : Int).toNat :=
  ⟨by decide, by decide, by decide,
    ((C28_slices_keep_styles ((ofString "abcdef".toList Bold 0).setStyleFlags 2 2 Italic)
      1 3 3).2.1 (by decide) (by decide)).1⟩

/-- C29: every non-empty span list that the literal matcher, the `QRegExp` matcher or the
`QRegularExpression` matcher returns ends with a terminator whose offset is the subject
length and whose length is the sum of the lengths of the spans before it, none of which is a
terminator. -/
theorem C29_span_list_ends_with_terminator (str : SString) (before : List Char)
    (replacement : SSHelper.Replacement) (cs : CaseSensitivity) (rx : QRegExp)
    (regExp : QRegularExpression) :
    (∀ l, SSHelper.matchLiteral str before replacement cs = some l → l ≠ [] →
      SSHelper.EndsWithTerminator str.length l) ∧
    (∀ l, SSHelper.matchQRegExp str rx replacement = some l → l ≠ [] →
      SSHelper.EndsWithTerminator str.length l) ∧
    (∀ l, SSHelper.matchQRegularExpression str regExp replacement = some l → l ≠ [] →
      SSHelper.EndsWithTerminator str.length l) :=
  ⟨fun l h hne => SSHelper.matchLiteral_terminator str before replacement cs l h hne,
    fun l h hne => SSHelper.matchQRegExp_terminator str rx replacement l h hne,
    fun l h hne => SSHelper.matchQRegularExpression_terminator str regExp replacement l h hne⟩

set_option maxRecDepth 100000 in
/-- Witness of C29: the three matchers on `John Smith`, with the target `o`, the expression
`b*` and the expression of the two words. -/
theorem C29_span_list_ends_with_terminator_witness :
    SSHelper.matchLiteral johnSmith "o".toList (.plain "00".toList) .CaseSensitive
      = some [⟨0, 1, .SUBJECT⟩, ⟨0, 2, .REPLACEMENT⟩, ⟨2, 8, .SUBJECT⟩, ⟨10, 11, .NONE⟩] ∧
    SSHelper.matchQRegularExpression johnSmith wordPair (.plain "\\2 \\1".toList)
      = some [⟨5, 5, .SUBJECT⟩, ⟨2, 1, .REPLACEMENT⟩, ⟨0, 4, .SUBJECT⟩, ⟨10, 10, .NONE⟩] ∧
    SSHelper.EndsWithTerminator johnSmith.length
      [⟨0, 1, .SUBJECT⟩, ⟨0, 2, .REPLACEMENT⟩, ⟨2, 8, .SUBJECT⟩, ⟨10, 11, .NONE⟩] :=
  ⟨by decide, by decide,
    (C29_span_list_ends_with_terminator johnSmith "o".toList (.plain "00".toList) .CaseSensitive
      bStar wordPair).1 _ (by decide) (by decide)⟩

set_option maxRecDepth 100000 in
/-- C30, evaluated on the subject `ab` and the lookahead `QRegExp("(?=b)")`, which matches the
empty string at position 1: the synthesized subject span has the offset 0 of the previous
scan position, not the position 1 of the match, so the replace by `Z` gives `aZa`, with the
`a` twice and the `b` lost. -/
theorem C30_zero_length_span_offset :
    SSHelper.matchQRegExp (ofString "ab".toList Bold 0) beforeB (.plain "Z".toList)
      = some [⟨0, 1, .SUBJECT⟩, ⟨0, 1, .REPLACEMENT⟩, ⟨0, 1, .SUBJECT⟩, ⟨2, 3, .NONE⟩] ∧
    ((ofString "ab".toList Bold 0).replaceQRegExp beforeB (.plain "Z".toList)).map
      (fun r => r.text) = some "aZa".toList := by
  decide

end SString

/-! # Lemmas on the back-reference pre-scan -/

theorem getD_of_drop (t l : List Char) (pos k : Nat) (x : Char) (h : t.drop pos = l) :
    t.getD (pos + k) x = l.getD k x := by
  subst h
  simp [List.getD_eq_getElem?_getD, List.getElem?_drop]

theorem digitValue_isDigit (d : Char) : 0 ≤ digitValue d ↔ d.isDigit = true := by
  unfold digitValue
  by_cases h : d.isDigit = true
  · rw [if_pos h]
    have h2 := h
    simp only [Char.isDigit, Bool.and_eq_true, decide_eq_true_eq] at h2
    have h3 : 48 ≤ d.toNat := by
      have h4 := h2.1
      have e0 : d.toNat = d.val.toNat := rfl
      simp only [ge_iff_le, UInt32.le_def, BitVec.le_def] at h4
      have e : d.val.toBitVec.toNat = d.val.toNat := rfl
      have e5 : (UInt32.toBitVec 48).toNat = 48 := rfl
      rw [e, e5] at h4
      omega
    constructor
    · intro _; exact h
    · intro _; omega
  · rw [if_neg h]
    constructor
    · intro h1; omega
    · intro h1; exact absurd h1 h

theorem digitValue_ne_neg_one (d : Char) : digitValue d ≠ -1 ↔ 0 ≤ digitValue d := by
  constructor
  · intro h
    rw [digitValue_isDigit]
    by_contra hd
    apply h
    unfold digitValue
    rw [if_neg hd]
  · intro h; omega

theorem digit_ne_backslash (d : Char) (h : 0 ≤ digitValue d) : d ≠ '\\' := by
  intro hd
  subst hd
  revert h
  decide


theorem drop_tail_of_cons (t l : List Char) (c : Char) (pos : Nat) (h : t.drop pos = c :: l) :
    t.drop (pos + 1) = l := by
  have h1 := congrArg (List.drop 1) h
  simpa [List.drop_drop, Nat.add_comm] using h1

theorem backslashesBefore_succ_of_ne (t : List Char) (p : Nat) (h : t.getD p ' ' ≠ '\\') :
    backslashesBefore t (p + 1) = 0 := by
  show (if t.getD p ' ' = '\\' then backslashesBefore t p + 1 else 0) = 0
  rw [if_neg h]

theorem backslashesBefore_succ_of_eq (t : List Char) (p : Nat) (h : t.getD p ' ' = '\\') :
    backslashesBefore t (p + 1) = backslashesBefore t p + 1 := by
  show (if t.getD p ' ' = '\\' then backslashesBefore t p + 1 else 0) = _
  rw [if_pos h]

theorem startsBackRef_of_ne (capCount : Int) (t : List Char) (p : Nat)
    (h : t.getD p ' ' ≠ '\\') : startsBackRef capCount t p = false := by
  unfold startsBackRef backslashDigitAt
  rw [Bool.and_eq_false_imp]
  intro h1
  rw [decide_eq_true_eq] at h1
  exact absurd h1.1 h

theorem startsBackRef_of_odd (capCount : Int) (t : List Char) (p : Nat)
    (h : backslashesBefore t p % 2 = 1) : startsBackRef capCount t p = false := by
  unfold startsBackRef
  rw [Bool.and_eq_false_imp]
  intro _
  rw [decide_eq_false_iff_not]
  omega

theorem startsBackRef_of_nondigit (capCount : Int) (t : List Char) (p : Nat)
    (h : ¬ (0 ≤ digitValue (t.getD (p + 1) ' ') ∧ digitValue (t.getD (p + 1) ' ') ≤ capCount)) :
    startsBackRef capCount t p = false := by
  unfold startsBackRef backslashDigitAt
  rw [Bool.and_eq_false_imp]
  intro h1
  rw [decide_eq_true_eq] at h1
  exact absurd h1.2 h

theorem startsBackRef_of_digit (capCount : Int) (t : List Char) (p : Nat)
    (h0 : t.getD p ' ' = '\\') (h1 : 0 ≤ digitValue (t.getD (p + 1) ' '))
    (h2 : digitValue (t.getD (p + 1) ' ') ≤ capCount) (h3 : backslashesBefore t p % 2 = 0) :
    startsBackRef capCount t p = true := by
  unfold startsBackRef backslashDigitAt
  rw [Bool.and_eq_true]
  exact ⟨decide_eq_true ⟨h0, h1, h2⟩, decide_eq_true h3⟩

theorem endsWithFreeBackslash_of_even (t : List Char)
    (h : backslashesBefore t t.length % 2 = 0) : endsWithFreeBackslash t = false := by
  unfold endsWithFreeBackslash
  rw [decide_eq_false_iff_not]
  rintro ⟨h1, h2, h3⟩
  have hl : t.length = (t.length - 1) + 1 := by
    have : t.length ≠ 0 := by simpa using h1
    omega
  rw [hl, backslashesBefore_succ_of_eq t _ h2] at h
  omega

theorem endsWithFreeBackslash_of_last_ne (t : List Char)
    (h : t.getD (t.length - 1) ' ' ≠ '\\') : endsWithFreeBackslash t = false := by
  unfold endsWithFreeBackslash
  rw [decide_eq_false_iff_not]
  rintro ⟨_, h2, _⟩
  exact h h2


theorem scanBackRefs_spec (capCount : Int) (t : List Char) :
    ∀ (n : Nat) (l : List Char) (pos : Nat), l.length ≤ n → t.drop pos = l →
      pos + l.length = t.length → backslashesBefore t pos % 2 = 0 →
      SSHelper.scanBackRefs capCount l pos =
        if endsWithFreeBackslash t = true then none
        else some (((List.range' pos l.length).filter (startsBackRef capCount t)).map
          (backRefAt capCount t)) := by
  intro n
  induction n with
  | zero =>
    intro l pos hn hd hlen hpar
    have hl : l = [] := List.length_eq_zero.mp (by omega)
    subst hl
    have hp : pos = t.length := by simpa using hlen
    subst hp
    rw [endsWithFreeBackslash_of_even t hpar]
    simp [SSHelper.scanBackRefs]
  | succ n ih =>
    intro l pos hn hd hlen hpar
    match l, hn, hd, hlen with
    | [], _, _, hlen =>
      have hp : pos = t.length := by simpa using hlen
      subst hp
      rw [endsWithFreeBackslash_of_even t hpar]
      simp [SSHelper.scanBackRefs]
    | [c], _, hd, hlen =>
      have hc : t.getD pos ' ' = c := by
        have := getD_of_drop t _ pos 0 ' ' hd
        simpa using this
      have hlast : t.length - 1 = pos := by simp at hlen; omega
      by_cases hb : c = '\\'
      · have hE : endsWithFreeBackslash t = true := by
          unfold endsWithFreeBackslash
          rw [decide_eq_true_eq, hlast]
          refine ⟨?_, by rw [hc, hb], hpar⟩
          intro h0
          rw [h0] at hlen
          simp at hlen
        rw [hE]
        simp [SSHelper.scanBackRefs, hb]
      · have hE : endsWithFreeBackslash t = false :=
          endsWithFreeBackslash_of_last_ne t (by rw [hlast, hc]; exact hb)
        have hs : startsBackRef capCount t pos = false :=
          startsBackRef_of_ne capCount t pos (by rw [hc]; exact hb)
        rw [hE]
        simp [SSHelper.scanBackRefs, hb, List.range', hs]
    | c :: d :: rest, hn, hd, hlen =>
      have hc : t.getD pos ' ' = c := by
        have := getD_of_drop t _ pos 0 ' ' hd
        simpa using this
      have hdd : t.getD (pos + 1) ' ' = d := by
        have := getD_of_drop t _ pos 1 ' ' hd
        simpa using this
      have hd1 : t.drop (pos + 1) = d :: rest := drop_tail_of_cons t _ c pos hd
      have hd2 : t.drop (pos + 2) = rest := drop_tail_of_cons t _ d (pos + 1) hd1
      simp only [List.length_cons] at hlen hn ⊢
      have hr : List.range' pos (rest.length + 1 + 1)
          = pos :: List.range' (pos + 1) (rest.length + 1) := List.range'_succ _ _ _
      have hr2 : List.range' pos (rest.length + 1 + 1)
          = pos :: (pos + 1) :: List.range' (pos + 2) rest.length := by
        rw [List.range'_succ, List.range'_succ]
      by_cases hb : c = '\\'
      · by_cases hno : 0 ≤ digitValue d ∧ digitValue d ≤ capCount
        · -- a back-reference is recorded
          have hs0 : startsBackRef capCount t pos = true :=
            startsBackRef_of_digit capCount t pos (by rw [hc, hb]) (by rw [hdd]; exact hno.1)
              (by rw [hdd]; exact hno.2) hpar
          have hdn : d ≠ '\\' := digit_ne_backslash d hno.1
          have hs1 : startsBackRef capCount t (pos + 1) = false :=
            startsBackRef_of_ne capCount t (pos + 1) (by rw [hdd]; exact hdn)
          have hp2 : backslashesBefore t (pos + 1 + 1) = 0 :=
            backslashesBefore_succ_of_ne t (pos + 1) (by rw [hdd]; exact hdn)
          match rest, hn, hd, hlen, hd1, hd2, hr2 with
          | [], _, _, hlen, _, _, hr2 =>
            have hlast : t.length - 1 = pos + 1 := by simp at hlen; omega
            have hE : endsWithFreeBackslash t = false :=
              endsWithFreeBackslash_of_last_ne t (by rw [hlast, hdd]; exact hdn)
            have he : t.getD (pos + 2) ' ' = ' ' := by
              rw [List.getD_eq_getElem?_getD, List.getElem?_eq_none (by simp at hlen; omega)]
              rfl
            have hB : backRefAt capCount t pos
                = { start := pos, «end» := (pos : Int) + 2, no := digitValue d } := by
              unfold backRefAt
              simp only [he, hdd]
              have hsp : digitValue ' ' = -1 := by decide
              rw [if_neg (fun h => h.1 hsp)]
            rw [hE]
            simp only [List.length_cons, List.length_nil] at hr2 ⊢
            rw [hr2]
            simp only [List.range', List.filter_cons, hs0, hs1, if_true, List.filter_nil,
              List.map_cons, List.map_nil, hB]
            simp [SSHelper.scanBackRefs, hb, hno]
          | e :: rest', hn, hd, hlen, hd1, hd2, hr2 =>
            have hee : t.getD (pos + 2) ' ' = e := by
              have := getD_of_drop t _ (pos + 2) 0 ' ' hd2
              simpa using this
            have hd3 : t.drop (pos + 3) = rest' := drop_tail_of_cons t _ e (pos + 2) hd2
            simp only [List.length_cons] at hlen hn hr2 ⊢
            by_cases h2 : digitValue e ≠ -1 ∧ digitValue d * 10 + digitValue e ≤ capCount
            · -- two digits
              have hen : e ≠ '\\' :=
                digit_ne_backslash e ((digitValue_ne_neg_one e).mp h2.1)
              have hs2 : startsBackRef capCount t (pos + 2) = false :=
                startsBackRef_of_ne capCount t (pos + 2) (by rw [hee]; exact hen)
              have hp3 : backslashesBefore t (pos + 2 + 1) = 0 :=
                backslashesBefore_succ_of_ne t (pos + 2) (by rw [hee]; exact hen)
              have hB : backRefAt capCount t pos
                  = { start := pos, «end» := (pos : Int) + 3,
                      no := digitValue d * 10 + digitValue e } := by
                unfold backRefAt
                simp only [hee, hdd]
                rw [if_pos ⟨h2.1, by omega⟩]
                congr 1
                omega
              have hrec := ih rest' (pos + 3) (by omega) hd3 (by omega)
                (by rw [hp3])
              have hr3 : List.range' pos (rest'.length + 1 + 1 + 1)
                  = pos :: (pos + 1) :: (pos + 2) :: List.range' (pos + 3) rest'.length := by
                rw [List.range'_succ, List.range'_succ, List.range'_succ]
              rw [hr3]
              simp only [List.filter_cons, hs0, hs1, hs2, if_true, List.map_cons, hB]
              unfold SSHelper.scanBackRefs
              rw [if_neg (not_not.mpr hb)]
              simp only []
              rw [if_pos hno, if_pos h2, hrec]
              by_cases hE : endsWithFreeBackslash t = true
              · simp [hE]
              · simp [hE]
            · -- one digit
              have hB : backRefAt capCount t pos
                  = { start := pos, «end» := (pos : Int) + 2, no := digitValue d } := by
                unfold backRefAt
                simp only [hee, hdd]
                rw [if_neg (by
                  intro h3
                  exact h2 ⟨h3.1, by omega⟩)]
              have hrec := ih (e :: rest') (pos + 2) (by simp; omega) hd2
                (by simp; omega) (by rw [hp2])
              have hr3 : List.range' pos (rest'.length + 1 + 1 + 1)
                  = pos :: (pos + 1) :: List.range' (pos + 2) (rest'.length + 1) := by
                rw [List.range'_succ, List.range'_succ]
              simp only [List.length_cons] at hrec
              rw [hr3]
              simp only [List.filter_cons, hs0, hs1, if_true, List.map_cons, hB]
              unfold SSHelper.scanBackRefs
              rw [if_neg (not_not.mpr hb)]
              simp only []
              rw [if_pos hno, if_neg h2, hrec]
              by_cases hE : endsWithFreeBackslash t = true
              · simp [hE]
              · simp [hE]
        · -- the character after the backslash is consumed, nothing is recorded
          have hs0 : startsBackRef capCount t pos = false :=
            startsBackRef_of_nondigit capCount t pos (by rw [hdd]; exact hno)
          have hs1 : startsBackRef capCount t (pos + 1) = false := by
            by_cases hdb : d = '\\'
            · apply startsBackRef_of_odd
              rw [backslashesBefore_succ_of_eq t pos (by rw [hc, hb])]
              omega
            · exact startsBackRef_of_ne capCount t (pos + 1) (by rw [hdd]; exact hdb)
          have hp2 : backslashesBefore t (pos + 2) % 2 = 0 := by
            by_cases hdb : d = '\\'
            · rw [show pos + 2 = (pos + 1) + 1 from rfl,
                backslashesBefore_succ_of_eq t (pos + 1) (by rw [hdd, hdb]),
                backslashesBefore_succ_of_eq t pos (by rw [hc, hb])]
              omega
            · rw [show pos + 2 = (pos + 1) + 1 from rfl,
                backslashesBefore_succ_of_ne t (pos + 1) (by rw [hdd]; exact hdb)]
          have hrec := ih rest (pos + 2) (by omega) hd2 (by omega) hp2
          rw [hr2]
          simp only [List.filter_cons, hs0, hs1]
          unfold SSHelper.scanBackRefs
          rw [if_neg (not_not.mpr hb)]
          simp only []
          rw [if_neg hno, hrec]
          simp
      · have hs0 : startsBackRef capCount t pos = false :=
          startsBackRef_of_ne capCount t pos (by rw [hc]; exact hb)
        have hp1 : backslashesBefore t (pos + 1) % 2 = 0 := by
          rw [backslashesBefore_succ_of_ne t pos (by rw [hc]; exact hb)]
        have hrec := ih (d :: rest) (pos + 1) (by simp; omega) hd1 (by simp; omega) hp1
        simp only [List.length_cons] at hrec
        rw [hr]
        simp only [List.filter_cons, hs0]
        unfold SSHelper.scanBackRefs
        rw [if_pos hb, hrec]
        simp


/-- The scan over the rest of the template and the scan pass by pass agree: a pass that
starts inside the template either steps over its end, and the scan has no result, or leaves
the scan of what remains. -/
theorem scanBackRefs_pass (capCount : Int) (t : List Char) (pos : Nat) (h : pos < t.length) :
    SSHelper.scanBackRefs capCount (t.drop pos) pos =
      if t.length < (SSHelper.preScanPass capCount t pos).1 then none
      else (SSHelper.scanBackRefs capCount (t.drop (SSHelper.preScanPass capCount t pos).1)
        (SSHelper.preScanPass capCount t pos).1).map
          fun l => (SSHelper.preScanPass capCount t pos).2 ++ l := by
  have hnul : digitValue (Char.ofNat 0) = -1 := by decide
  match hl : t.drop pos with
  | [] =>
    have := congrArg List.length hl
    simp at this
    omega
  | [c] =>
    have hlen : t.length = pos + 1 := by
      have := congrArg List.length hl
      simp at this
      omega
    have hc : t.getD pos (Char.ofNat 0) = c := by
      have := getD_of_drop t _ pos 0 (Char.ofNat 0) hl
      simpa using this
    have hd : t.getD (pos + 1) (Char.ofNat 0) = Char.ofNat 0 := by
      rw [List.getD_eq_getElem?_getD, List.getElem?_eq_none (by omega)]
      rfl
    have hd1 : t.drop (pos + 1) = [] := drop_tail_of_cons t _ c pos hl
    by_cases hb : c = '\\'
    · have hp : SSHelper.preScanPass capCount t pos = (pos + 2, []) := by
        unfold SSHelper.preScanPass
        simp only [hc, hd, hnul, hb]
        simp
      rw [hp]
      simp [SSHelper.scanBackRefs, hb, hlen]
    · have hp : SSHelper.preScanPass capCount t pos = (pos + 1, []) := by
        unfold SSHelper.preScanPass
        simp only [hc]
        rw [if_pos hb]
      rw [hp]
      simp [SSHelper.scanBackRefs, hb, hlen, hd1]
  | c :: d :: rest =>
    have hlen : t.length = pos + (rest.length + 2) := by
      have := congrArg List.length hl
      simp at this
      omega
    have hc : t.getD pos (Char.ofNat 0) = c := by
      have := getD_of_drop t _ pos 0 (Char.ofNat 0) hl
      simpa using this
    have hd : t.getD (pos + 1) (Char.ofNat 0) = d := by
      have := getD_of_drop t _ pos 1 (Char.ofNat 0) hl
      simpa using this
    have hd1 : t.drop (pos + 1) = d :: rest := drop_tail_of_cons t _ c pos hl
    have hd2 : t.drop (pos + 2) = rest := drop_tail_of_cons t _ d (pos + 1) hd1
    by_cases hb : c = '\\'
    · by_cases hno : digitValue d ≥ 0 ∧ digitValue d ≤ capCount
      · match rest, hlen, hd2 with
        | [], hlen, hd2 =>
          have hp : SSHelper.preScanPass capCount t pos
              = (pos + 2, [{ start := ((pos + 1 + 1 : Nat) : Int) - 2,
                             «end» := ((pos + 1 + 1 : Nat) : Int), no := digitValue d }]) := by
            unfold SSHelper.preScanPass
            simp only [hc, hd, hb]
            rw [if_neg (by simp), if_pos hno, if_neg (by simp at hlen ⊢; omega)]
          rw [hp]
          simp [SSHelper.scanBackRefs, hb, hno, hlen, hd2]
          constructor <;> omega
        | e :: rest', hlen, hd2 =>
          have he : t.getD (pos + 1 + 1) (Char.ofNat 0) = e := by
            have := getD_of_drop t _ (pos + 2) 0 (Char.ofNat 0) hd2
            simpa using this
          have hd3 : t.drop (pos + 3) = rest' := drop_tail_of_cons t _ e (pos + 2) hd2
          simp only [List.length_cons] at hlen
          by_cases h2 : digitValue e ≠ -1 ∧ digitValue d * 10 + digitValue e ≤ capCount
          · have hp : SSHelper.preScanPass capCount t pos
                = (pos + 3, [{ start := ((pos + 1 + 1 : Nat) : Int) - 2,
                               «end» := ((pos + 1 + 1 + 1 : Nat) : Int),
                               no := digitValue d * 10 + digitValue e }]) := by
              unfold SSHelper.preScanPass
              simp only [hc, hd, he, hb]
              rw [if_neg (by simp), if_pos hno, if_pos (by omega), if_pos h2]
            rw [hp]
            rw [SSHelper.scanBackRefs]
            rw [if_neg (not_not.mpr hb)]
            simp only []
            rw [if_pos hno, if_pos h2, if_neg (by omega), hd3]
            cases SSHelper.scanBackRefs capCount rest' (pos + 3) with
            | none => simp
            | some l => simp; constructor <;> omega
          · have hp : SSHelper.preScanPass capCount t pos
                = (pos + 2, [{ start := ((pos + 1 + 1 : Nat) : Int) - 2,
                               «end» := ((pos + 1 + 1 : Nat) : Int),
                               no := digitValue d }]) := by
              unfold SSHelper.preScanPass
              simp only [hc, hd, he, hb]
              rw [if_neg (by simp), if_pos hno, if_pos (by omega), if_neg h2]
            rw [hp]
            rw [SSHelper.scanBackRefs]
            rw [if_neg (not_not.mpr hb)]
            simp only []
            rw [if_pos hno, if_neg h2, if_neg (by omega), hd2]
            cases SSHelper.scanBackRefs capCount (e :: rest') (pos + 2) with
            | none => simp
            | some l => simp; constructor <;> omega
      · have hp : SSHelper.preScanPass capCount t pos = (pos + 2, []) := by
          unfold SSHelper.preScanPass
          simp only [hc, hd, hb]
          rw [if_neg (by simp), if_neg hno]
        rw [hp]
        rw [SSHelper.scanBackRefs]
        rw [if_neg (not_not.mpr hb)]
        simp only []
        rw [if_neg hno, if_neg (by omega), hd2]
        cases SSHelper.scanBackRefs capCount rest (pos + 2) <;> simp
    · have hp : SSHelper.preScanPass capCount t pos = (pos + 1, []) := by
        unfold SSHelper.preScanPass
        simp only [hc]
        rw [if_pos hb]
      rw [hp]
      rw [SSHelper.scanBackRefs]
      rw [if_pos hb, if_neg (by omega), hd1]
      cases SSHelper.scanBackRefs capCount (d :: rest) (pos + 1) <;> simp

/-! # Lemmas on the markup of two runs -/

theorem skipSpaces_run (W : List Char) (v : Char) (V : List Char) (index : Nat)
    (hW : ∀ c ∈ W, c = ' ' ∨ c = '\t' ∨ c = '\r' ∨ c = '\n')
    (hv : v ≠ ' ' ∧ v ≠ '\t' ∧ v ≠ '\r' ∧ v ≠ '\n') :
    skipSpaces (W ++ v :: V) index = (W, index + W.length) := by
  induction W generalizing index with
  | nil =>
    simp only [List.nil_append, List.length_nil, Nat.add_zero]
    unfold skipSpaces
    rw [if_pos ⟨hv.2.2.2, hv.2.2.1, hv.1, hv.2.1⟩]
  | cons c W ih =>
    have hc := hW c (List.mem_cons_self _ _)
    have ih' := ih (index + 1) (fun x hx => hW x (List.mem_cons_of_mem _ hx))
    simp only [List.cons_append]
    unfold skipSpaces
    rw [if_neg (by
      rintro ⟨h1, h2, h3, h4⟩
      rcases hc with h | h | h | h
      · exact h3 h
      · exact h4 h
      · exact h2 h
      · exact h1 h)]
    rw [ih']
    simp only [List.length_cons, Prod.mk.injEq, true_and]
    omega

namespace SString

theorem richStringLoop_end (s : SString) (fuel index : Nat) (st : RichState)
    (h : s.text.length ≤ index) : richStringLoop s fuel index st = some st := by
  cases fuel with
  | zero => unfold richStringLoop; rw [if_neg (by omega)]
  | succ fuel => unfold richStringLoop; rw [if_neg (by omega)]

end SString

theorem iterEq_iff (a b : Nat × Nat) : iterEq a b = true ↔ SameStyle a b := by
  unfold iterEq SameStyle
  simp only [Bool.and_eq_true, decide_eq_true_eq, Bool.or_eq_true, Bool.not_eq_true']
  constructor
  · rintro ⟨h1, h2⟩
    refine ⟨h1, fun hc => ?_⟩
    rcases h2 with h2 | h2
    · rw [hc] at h2; exact absurd h2 (by decide)
    · exact h2
  · rintro ⟨h1, h2⟩
    refine ⟨h1, ?_⟩
    cases hc : hasFlags a Color
    · left; rfl
    · right; exact h2 hc

theorem hasFlags_congr (a b : Nat × Nat) (mask : Nat) (h : a.1 = b.1) :
    hasFlags a mask = hasFlags b mask := by
  unfold hasFlags
  rw [h]

theorem sameStyle_refl (a : Nat × Nat) : SameStyle a a := ⟨rfl, fun _ => rfl⟩

theorem sameStyle_symm {a b : Nat × Nat} (h : SameStyle a b) : SameStyle b a :=
  ⟨h.1.symm, fun hc => (h.2 (by rw [hasFlags_congr a b Color h.1]; exact hc)).symm⟩

theorem sameStyle_trans {a b c : Nat × Nat} (h1 : SameStyle a b) (h2 : SameStyle b c) :
    SameStyle a c :=
  ⟨h1.1.trans h2.1, fun hc =>
    (h1.2 hc).trans (h2.2 (by rw [← hasFlags_congr a b Color h1.1]; exact hc))⟩

theorem initialTags_congr {a b : Nat × Nat} (h : SameStyle a b) :
    initialTags a = initialTags b := by
  unfold initialTags
  simp only [hasFlags_congr a b _ h.1]
  by_cases hc : hasFlags b Color = true
  · rw [h.2 (by rw [hasFlags_congr a b Color h.1]; exact hc)]
  · simp only [hc, Bool.false_eq_true, if_false]

theorem finalTags_congr {a b : Nat × Nat} (h : SameStyle a b) :
    finalTags a = finalTags b := by
  unfold finalTags
  simp only [hasFlags_congr a b _ h.1]

theorem closeTags_congr {a a' b b' : Nat × Nat} (ha : SameStyle a a') (hb : SameStyle b b') :
    closeTags a b = closeTags a' b' := by
  unfold closeTags
  simp only [hasFlags_congr a a' _ ha.1, hasFlags_congr b b' _ hb.1]
  congr 1
  by_cases hc : hasFlags a' Color = true
  · by_cases hd : hasFlags b' Color = true
    · rw [ha.2 (by rw [hasFlags_congr a a' Color ha.1]; exact hc),
        hb.2 (by rw [hasFlags_congr b b' Color hb.1]; exact hd)]
    · simp only [hc, hd, not_false_eq_true, true_or, and_self, if_true, Bool.false_eq_true]
  · simp only [hc, false_and, if_false, Bool.false_eq_true]

theorem openTags_congr {a a' b b' : Nat × Nat} (ha : SameStyle a a') (hb : SameStyle b b') :
    openTags a b = openTags a' b' := by
  unfold openTags
  simp only [hasFlags_congr a a' _ ha.1, hasFlags_congr b b' _ hb.1]
  congr 1
  by_cases hd : hasFlags b' Color = true
  · have eb := hb.2 (by rw [hasFlags_congr b b' Color hb.1]; exact hd)
    by_cases hc : hasFlags a' Color = true
    · rw [ha.2 (by rw [hasFlags_congr a a' Color ha.1]; exact hc), eb]
    · simp only [hc, hd, not_false_eq_true, true_or, and_self, if_true, Bool.false_eq_true, eb]
  · simp only [hd, false_and, if_false, Bool.false_eq_true]

theorem closeTags_same {a b : Nat × Nat} (h : SameStyle a b) : closeTags a b = [] := by
  unfold closeTags
  simp only [hasFlags_congr a b _ h.1]
  by_cases hc : hasFlags b Color = true
  · have := h.2 (by rw [hasFlags_congr a b Color h.1]; exact hc)
    simp [this]
  · simp [hc]

theorem openTags_same {a b : Nat × Nat} (h : SameStyle a b) : openTags a b = [] := by
  unfold openTags
  simp only [hasFlags_congr a b _ h.1]
  by_cases hc : hasFlags b Color = true
  · have := h.2 (by rw [hasFlags_congr a b Color h.1]; exact hc)
    simp [this]
  · simp [hc]

theorem escapedText_whitespace (W : List Char)
    (hW : ∀ c ∈ W, c = ' ' ∨ c = '\t' ∨ c = '\r' ∨ c = '\n') : escapedText W = W := by
  induction W with
  | nil => rfl
  | cons c W ih =>
    have hc := hW c (List.mem_cons_self _ _)
    have h1 : c ≠ '<' := by
      rintro rfl; revert hc; decide
    have h2 : c ≠ '>' := by
      rintro rfl; revert hc; decide
    have e : escapedText (c :: W) = escapedText [c] ++ escapedText W :=
      escapedText_append [c] W
    rw [e, ih (fun x hx => hW x (List.mem_cons_of_mem _ hx))]
    simp [escapedText, h1, h2]

namespace SString

/-- The loop of `richString` passes the positions whose run has the style of `prevStyle`. -/
theorem richStringLoop_same (s : SString) (m : Nat) (hm : m ≤ s.text.length) :
    ∀ (fuel index : Nat) (st : RichState), index ≤ m → m - index ≤ fuel →
      (∀ j, index ≤ j → j < m →
        ∃ style, s.m_style.iter j = some style ∧ SameStyle st.prevStyle style) →
      richStringLoop s fuel index st = richStringLoop s (fuel - (m - index)) m st := by
  intro fuel
  induction fuel with
  | zero =>
    intro index st h1 h2 _
    have : index = m := by omega
    subst this
    simp
  | succ fuel ih =>
    intro index st h1 h2 h3
    by_cases he : index = m
    · subst he
      simp
    · have hlt : index < m := by omega
      obtain ⟨style, hs, hsame⟩ := h3 index (le_refl _) hlt
      conv_lhs => unfold richStringLoop
      rw [if_pos (by omega)]
      simp only [hs]
      rw [if_neg (not_not.mpr ((iterEq_iff _ _).mpr hsame))]
      rw [ih (index + 1) st (by omega) (by omega) (fun j hj1 hj2 => h3 j (by omega) hj2)]
      congr 1
      omega

/-- The markup of a string of two runs, the second one starting with the white space `W`. -/
theorem richString_two_runs (s : SString) (A W V : List Char) (v : Char) (sA sB : Nat × Nat)
    (ht : s.text = A ++ W ++ v :: V) (hA : A ≠ [])
    (hsA : ∀ i, i < A.length → ∃ style, s.m_style.iter i = some style ∧ SameStyle sA style)
    (hsB : ∀ i, A.length ≤ i → i < s.text.length →
      ∃ style, s.m_style.iter i = some style ∧ SameStyle sB style)
    (hW : ∀ c ∈ W, c = ' ' ∨ c = '\t' ∨ c = '\r' ∨ c = '\n')
    (hv : v ≠ ' ' ∧ v ≠ '\t' ∧ v ≠ '\r' ∧ v ≠ '\n') :
    s.richString = some (initialTags sA ++ escapedText A ++ closeTags sA sB ++ W
      ++ openTags sA sB ++ escapedText (v :: V) ++ finalTags sB) := by
  have hApos : 0 < A.length := List.length_pos.mpr hA
  have hlen : s.text.length = A.length + W.length + (V.length + 1) := by
    rw [ht]; simp; omega
  obtain ⟨a0, ha0, sa0⟩ := hsA 0 hApos
  obtain ⟨b0, hb0, sb0⟩ := hsB A.length (le_refl _) (by omega)
  unfold richString
  have hne0 : ¬ s.text.isEmpty = true := by
    intro h
    have := List.isEmpty_iff.mp h
    rw [this] at hlen
    simp at hlen
    omega
  rw [if_neg hne0]
  simp only [ha0]
  by_cases hab : SameStyle a0 b0
  · -- the two runs have one style: there is no boundary
    have hall : ∀ j, 1 ≤ j → j < s.text.length →
        ∃ style, s.m_style.iter j = some style ∧ SameStyle a0 style := by
      intro j _ hj
      by_cases hjA : j < A.length
      · obtain ⟨st, e, hs⟩ := hsA j hjA
        exact ⟨st, e, sameStyle_trans (sameStyle_symm sa0) hs⟩
      · obtain ⟨st, e, hs⟩ := hsB j (by omega) hj
        exact ⟨st, e, sameStyle_trans (sameStyle_trans hab (sameStyle_symm sb0)) hs⟩
    rw [richStringLoop_same s s.text.length (le_refl _) s.text.length 1 _ (by omega) (by omega)
      hall]
    rw [richStringLoop_end s _ _ _ (le_refl _)]
    simp only []
    have hp : ((0 : Nat) : Int) ≠ s.length := by
      simp only [SString.length]
      omega
    rw [if_pos hp]
    have hmid : qMid s.text ((0 : Nat) : Int) (s.length - ((0 : Nat) : Int)) = s.text := by
      simp only [SString.length]
      rw [qMid_inRange _ _ _ (by omega) (by omega) (by omega)]
      simp
    have hAB : SameStyle sA sB :=
      sameStyle_trans (sameStyle_trans sa0 hab) (sameStyle_symm sb0)
    rw [hmid, escapeTags_eq, closeTags_same hAB, openTags_same hAB,
      ← finalTags_congr hAB, initialTags_congr sa0, finalTags_congr sa0, ht,
      escapedText_append, escapedText_append, escapedText_whitespace W hW]
    simp only [List.append_nil, List.append_assoc]
  · -- the first run
    rw [richStringLoop_same s A.length (by omega) s.text.length 1 _ (by omega) (by omega)
      (fun j _ hj2 => by
        obtain ⟨st, e, hs⟩ := hsA j hj2
        exact ⟨st, e, sameStyle_trans (sameStyle_symm sa0) hs⟩)]
    have hf : s.text.length - (A.length - 1) = (s.text.length - A.length) + 1 := by omega
    rw [hf]
    -- the boundary
    conv_lhs => unfold richStringLoop
    rw [if_pos (by omega)]
    simp only [hb0]
    rw [if_pos (fun h => hab ((iterEq_iff _ _).mp h))]
    have hdrop : s.text.drop A.length = W ++ v :: V := by
      rw [ht, List.append_assoc, List.drop_left]
    have hmid : qMid s.text ((0 : Nat) : Int) ((A.length : Int) - ((0 : Nat) : Int)) = A := by
      rw [qMid_inRange _ _ _ (by omega) (by omega) (by omega)]
      simp only [Nat.cast_zero, Int.toNat_zero, List.drop_zero, sub_zero, Int.toNat_ofNat]
      rw [ht, List.append_assoc, List.take_left]
    rw [hdrop, skipSpaces_run W v V A.length hW hv]
    simp only [hmid]
    -- the second run
    rw [richStringLoop_same s s.text.length (le_refl _) _ _ _ (by omega) (by omega)
      (fun j hj1 hj2 => by
        obtain ⟨st, e, hs⟩ := hsB j (by omega) hj2
        exact ⟨st, e, sameStyle_trans (sameStyle_symm sb0) hs⟩)]
    rw [richStringLoop_end s _ _ _ (le_refl _)]
    simp only []
    have hp : ((A.length + W.length : Nat) : Int) ≠ s.length := by
      simp only [SString.length]
      omega
    rw [if_pos hp]
    have hmid2 : qMid s.text ((A.length + W.length : Nat) : Int)
        (s.length - ((A.length + W.length : Nat) : Int)) = v :: V := by
      simp only [SString.length]
      rw [qMid_inRange _ _ _ (by omega) (by omega) (by omega)]
      have e1 : (((A.length + W.length : Nat) : Int)).toNat = (A ++ W).length := by
        rw [List.length_append]; omega
      have e2 : ((s.text.length : Int) - ((A.length + W.length : Nat) : Int)).toNat
          = (v :: V).length := by
        simp only [List.length_cons]; omega
      rw [e1, e2, ht, List.drop_left, List.take_length]
    rw [hmid2, initialTags_congr sa0, closeTags_congr sa0 sb0, openTags_congr sa0 sb0,
      finalTags_congr sb0]
    simp only [escapeTags_eq, List.append_assoc]

end SString

/-! # Lemmas on the shape of the simplified text -/

theorem simplifiedChar_facts (ch : Char) :
    simplifiedChar ch ≠ '\t' ∧ simplifiedChar ch ≠ '\r' ∧
    (simplifiedChar ch = ' ' ↔ (ch = ' ' ∨ ch = '\t')) ∧
    (simplifiedChar ch = '\n' ↔ (ch = '\n' ∨ ch = '\r')) := by
  unfold simplifiedChar
  by_cases h1 : ch = '\t'
  · subst h1; decide
  · by_cases h2 : ch = '\r'
    · subst h2; decide
    · rw [if_neg h1, if_neg h2]
      simp [h1, h2]

/-- Writing the character `c` after the text `out`, in the place of its last character when
`replace` holds, keeps the text simplified. -/
theorem simplifiedSoFar_write (out : List Char) (lws lwlf : Bool) (ch : Char)
    (inv : SimplifiedSoFar out lws lwlf)
    (hA : ¬ (lws = true ∧ (ch = ' ' ∨ ch = '\t')))
    (hB : ¬ (lwlf = true ∧ (ch = '\n' ∨ ch = '\r'))) :
    SimplifiedSoFar
      ((if lws = true ∧ (ch = '\n' ∨ ch = '\r') then out.dropLast else out)
        ++ [simplifiedChar ch])
      (decide (simplifiedChar ch = '\n') || decide (simplifiedChar ch = ' '))
      (decide (simplifiedChar ch = '\n')) := by
  obtain ⟨hchain, htab, hhead, hnil, hlast⟩ := inv
  obtain ⟨f1, f2, f3, f4⟩ := simplifiedChar_facts ch
  by_cases hC : lws = true ∧ (ch = '\n' ∨ ch = '\r')
  · rw [if_pos hC]
    have hlf : lwlf = false := by
      cases hl : lwlf
      · rfl
      · exact absurd ⟨hl, hC.2⟩ hB
    have hne : out ≠ [] := by
      intro h0
      have := (hnil h0).2
      rw [hlf] at this
      exact Bool.false_ne_true this
    obtain ⟨x, hx⟩ : ∃ x, out.getLast? = some x := by
      cases hg : out.getLast? with
      | none => exact absurd (List.getLast?_eq_none_iff.mp hg) hne
      | some x => exact ⟨x, rfl⟩
    have hxl := hlast x (by rw [hx]; exact rfl)
    have hxn : x ≠ '\n' := by
      intro h
      have := hxl.1
      rw [hlf, h] at this
      simp at this
    have hxs : x = ' ' := by
      have := hxl.2
      rw [hC.1] at this
      simp only [hxn, decide_False, Bool.false_or] at this
      simpa using this.symm
    have hout : out.dropLast ++ [' '] = out := by
      have := List.dropLast_append_getLast? x (by rw [hx]; exact rfl)
      rw [hxs] at this
      exact this
    have hc' : simplifiedChar ch = '\n' := f4.mpr hC.2
    rw [hc']
    have hbne : out.dropLast ≠ [] := by
      intro h0
      rw [h0] at hout
      have := hhead ' ' (by rw [← hout]; exact rfl)
      exact this.1 rfl
    refine ⟨?_, ?_, ?_, ?_, ?_⟩
    · rw [List.chain'_append]
      refine ⟨hchain.init, List.chain'_singleton _, ?_⟩
      intro y hy z hz
      have hz' : z = '\n' := by simpa using hz.symm
      subst hz'
      have hc2 : (out.dropLast ++ [' ']).Chain' SimplifiedPair := by rw [hout]; exact hchain
      rw [List.chain'_append] at hc2
      have hp := hc2.2.2 y hy ' ' rfl
      unfold SimplifiedPair at hp ⊢
      obtain ⟨p1, p2, p3, p4⟩ := hp
      have y1 : y ≠ ' ' := fun h => p1 ⟨h, rfl⟩
      have y2 : y ≠ '\n' := fun h => p4 ⟨h, rfl⟩
      refine ⟨?_, ?_, ?_, ?_⟩
      · rintro ⟨h, _⟩; exact y1 h
      · rintro ⟨h, _⟩; exact y2 h
      · rintro ⟨h, _⟩; exact y1 h
      · rintro ⟨h, _⟩; exact y2 h
    · intro c hc
      rw [List.mem_append] at hc
      rcases hc with hc | hc
      · exact htab c (List.mem_of_mem_dropLast hc)
      · have : c = '\n' := by simpa using hc
        subst this
        decide
    · intro c hc
      apply hhead c
      rw [← hout]
      rw [List.head?_append] at hc ⊢
      cases hd : out.dropLast.head? with
      | none =>
        rw [List.head?_eq_none_iff] at hd
        exact absurd hd hbne
      | some v =>
        rw [hd] at hc
        exact hc
    · intro h0
      simp at h0
    · intro c hc
      rw [List.getLast?_concat] at hc
      have : c = '\n' := by simpa using hc.symm
      subst this
      decide
  · rw [if_neg hC]
    refine ⟨?_, ?_, ?_, ?_, ?_⟩
    · rw [List.chain'_append]
      refine ⟨hchain, List.chain'_singleton _, ?_⟩
      intro x hx z hz
      have hz' : z = simplifiedChar ch := by simpa using hz.symm
      subst hz'
      have hxl := hlast x hx
      unfold SimplifiedPair
      have hsp : simplifiedChar ch = ' ' → x ≠ ' ' ∧ x ≠ '\n' := by
        intro h
        have hl : lws = false := by
          cases hl : lws
          · rfl
          · exact absurd ⟨hl, f3.mp h⟩ hA
        have := hxl.2
        rw [hl] at this
        simp only [Bool.false_eq, Bool.or_eq_false_iff, decide_eq_false_iff_not] at this
        exact ⟨this.2, this.1⟩
      have hnl : simplifiedChar ch = '\n' → x ≠ ' ' ∧ x ≠ '\n' := by
        intro h
        have hl : lws = false := by
          cases hl : lws
          · rfl
          · exact absurd ⟨hl, f4.mp h⟩ hC
        have := hxl.2
        rw [hl] at this
        simp only [Bool.false_eq, Bool.or_eq_false_iff, decide_eq_false_iff_not] at this
        exact ⟨this.2, this.1⟩
      refine ⟨?_, ?_, ?_, ?_⟩
      · rintro ⟨h, h'⟩; exact (hsp h').1 h
      · rintro ⟨h, h'⟩; exact (hnl h').2 h
      · rintro ⟨h, h'⟩; exact (hnl h').1 h
      · rintro ⟨h, h'⟩; exact (hsp h').2 h
    · intro c hc
      rw [List.mem_append] at hc
      rcases hc with hc | hc
      · exact htab c hc
      · have : c = simplifiedChar ch := by simpa using hc
        subst this
        exact ⟨f1, f2⟩
    · intro c hc
      rw [List.head?_append] at hc
      cases hd : out.head? with
      | none =>
        rw [List.head?_eq_none_iff] at hd
        obtain ⟨n1, n2⟩ := hnil hd
        rw [hd] at hc
        have : c = simplifiedChar ch := by simpa using hc.symm
        subst this
        constructor
        · intro h; exact hA ⟨n1, f3.mp h⟩
        · intro h; exact hB ⟨n2, f4.mp h⟩
      | some v =>
        rw [hd] at hc
        have : c = v := by simpa using hc.symm
        subst this
        exact hhead c (by rw [hd]; exact rfl)
    · intro h0
      simp at h0
    · intro c hc
      rw [List.getLast?_concat] at hc
      have : c = simplifiedChar ch := by simpa using hc.symm
      subst this
      exact ⟨rfl, rfl⟩


theorem sourceStep_simplified (text : List Char) (tr : SourceState) (i : Nat)
    (inv : SimplifiedSoFar
      (tr.sources.map fun j => simplifiedChar (text.getD j (Char.ofNat 0)))
      tr.lastWasSpace tr.lastWasLineFeed) :
    SimplifiedSoFar
      ((sourceStep text tr i).sources.map fun j => simplifiedChar (text.getD j (Char.ofNat 0)))
      (sourceStep text tr i).lastWasSpace (sourceStep text tr i).lastWasLineFeed := by
  unfold sourceStep
  simp only [qAt_natCast]
  by_cases hA : tr.lastWasSpace = true ∧
      (text.getD i (Char.ofNat 0) = ' ' ∨ text.getD i (Char.ofNat 0) = '\t')
  · rw [if_pos hA]; exact inv
  · rw [if_neg hA]
    by_cases hB : tr.lastWasLineFeed = true ∧
        (text.getD i (Char.ofNat 0) = '\n' ∨ text.getD i (Char.ofNat 0) = '\r')
    · rw [if_pos hB]; exact inv
    · rw [if_neg hB]
      have h := simplifiedSoFar_write _ _ _ (text.getD i (Char.ofNat 0)) inv hA hB
      by_cases hC : tr.lastWasSpace = true ∧
          (text.getD i (Char.ofNat 0) = '\n' ∨ text.getD i (Char.ofNat 0) = '\r')
      · rw [if_pos hC] at h
        simp only [if_pos hC, List.map_append, List.map_dropLast, List.map_cons, List.map_nil]
        exact h
      · rw [if_neg hC] at h
        simp only [if_neg hC, List.map_append, List.map_cons, List.map_nil]
        exact h

theorem foldl_sourceStep_simplified (text : List Char) :
    ∀ (l : List Nat) (tr : SourceState),
      SimplifiedSoFar (tr.sources.map fun j => simplifiedChar (text.getD j (Char.ofNat 0)))
        tr.lastWasSpace tr.lastWasLineFeed →
      SimplifiedSoFar
        ((l.foldl (sourceStep text) tr).sources.map
          fun j => simplifiedChar (text.getD j (Char.ofNat 0)))
        (l.foldl (sourceStep text) tr).lastWasSpace
        (l.foldl (sourceStep text) tr).lastWasLineFeed := by
  intro l
  induction l with
  | nil => intro tr h; exact h
  | cons i l ih =>
    intro tr h
    rw [List.foldl_cons]
    exact ih _ (sourceStep_simplified text tr i h)

/-- The characters at the surviving source positions, converted, form a simplified text. -/
theorem simplifySources_simplified (text : List Char) :
    ((simplifySources text).map fun j => simplifiedChar (text.getD j (Char.ofNat 0))).Chain'
      SimplifiedPair ∧
    (∀ c ∈ (simplifySources text).map fun j => simplifiedChar (text.getD j (Char.ofNat 0)),
      c ≠ '\t' ∧ c ≠ '\r') ∧
    (∀ c ∈ ((simplifySources text).map
        fun j => simplifiedChar (text.getD j (Char.ofNat 0))).head?, c ≠ ' ' ∧ c ≠ '\n') := by
  have h0 : SimplifiedSoFar
      (([] : List Nat).map fun j => simplifiedChar (text.getD j (Char.ofNat 0))) true true :=
    ⟨List.chain'_nil, by simp, by simp, by simp, by simp⟩
  have h := foldl_sourceStep_simplified text (List.range text.length)
    { sources := [], lastWasSpace := true, lastWasLineFeed := true } h0
  unfold simplifySources
  generalize (List.range text.length).foldl (sourceStep text)
    { sources := [], lastWasSpace := true, lastWasLineFeed := true } = tr at h
  obtain ⟨h1, h2, h3, _, _⟩ := h
  simp only []
  by_cases hl : tr.lastWasLineFeed = true
  · rw [if_pos hl, List.map_dropLast]
    refine ⟨h1.init, fun c hc => h2 c (List.mem_of_mem_dropLast hc), ?_⟩
    intro c hc
    rw [List.head?_dropLast] at hc
    split_ifs at hc
    · exact h3 c hc
    · simp at hc
  · rw [if_neg hl]
    exact ⟨h1, h2, h3⟩

theorem qSimplifyWhiteSpace_eq_map (text : List Char) :
    qSimplifyWhiteSpace text
      = (simplifySources text).map fun j => simplifiedChar (text.getD j (Char.ofNat 0)) := by
  have hwf : (SString.ofString text 0 0).WF := SString.ofString_wf text 0 0
  obtain ⟨h1, _, _, h4⟩ := SString.simplifyWhiteSpace_spec (SString.ofString text 0 0) hwf
  rw [SString.simplifyWhiteSpace_text] at h1 h4
  have ht : (SString.ofString text 0 0).text = text := rfl
  rw [ht] at h1 h4
  apply List.ext_getElem (by rw [h1, List.length_map])
  intro d hd1 hd2
  have := (h4 d (by rw [← h1]; exact hd1)).2.1
  rw [List.getD_eq_getElem _ _ hd1] at this
  rw [this, List.getElem_map]
  congr 2
  rw [List.getD_eq_getElem _ _ (by simpa using hd2)]

theorem chain'_getElem? {α : Type} {R : α → α → Prop} :
    ∀ (l : List α), l.Chain' R → ∀ (i : Nat) (a b : α), l[i]? = some a → l[i + 1]? = some b →
      R a b := by
  intro l
  induction l with
  | nil => intro _ i a b ha _; simp at ha
  | cons x l ih =>
    intro h i a b ha hb
    cases i with
    | zero =>
      simp only [List.getElem?_cons_zero, Option.some.injEq] at ha
      subst ha
      cases l with
      | nil => simp at hb
      | cons y l =>
        simp only [zero_add, List.getElem?_cons_succ, List.getElem?_cons_zero,
          Option.some.injEq] at hb
        subst hb
        exact (List.chain'_cons.mp h).1
    | succ i =>
      simp only [List.getElem?_cons_succ] at ha hb
      exact ih h.tail i a b ha hb

/-! # Lemmas on the replace without a match -/

namespace SSHelper

/-- The span list of a subject in which nothing matches: nothing for the empty subject, else
the whole subject and the terminator. -/
theorem matchLiteral_no_match (str : SString) (before : List Char) (after : Replacement)
    (cs : CaseSensitivity) (hb : before ≠ []) (h : qIndexOf str.text before 0 cs = none) :
    matchLiteral str before after cs =
      some (if str.text = [] then []
        else [{ offset := 0, length := str.length, ref := .SUBJECT },
              { offset := str.length, length := str.length, ref := .NONE }]) := by
  unfold matchLiteral
  have he : before.isEmpty = false := by
    cases before with
    | nil => exact absurd rfl hb
    | cons c t => rfl
  simp only [he, Bool.false_eq_true, if_false]
  have hl : matchLiteralLoop str.text before after cs (str.text.length + 1) 0
      { matchList := [], newLength := str.length, matched := false }
      = some ({ matchList := [], newLength := str.length, matched := false }, 0) := by
    unfold matchLiteralLoop
    simp only [h]
  rw [hl]
  simp only [MatchState.push, MatchState.finish, SString.length]
  by_cases h0 : str.text = []
  · simp [h0]
  · have : (str.text.length : Int) ≠ 0 := by
      have := List.length_pos.mpr h0
      omega
    simp [h0, this]

theorem matchQRegularExpression_no_match (str : SString) (regExp : QRegularExpression)
    (replacement : Replacement) (refs : List BackRef) (hv : regExp.isValid = true)
    (hscan : scanBackRefs regExp.captureCount replacement.text 0 = some refs)
    (h : regExp.globalMatch str.text = []) :
    matchQRegularExpression str regExp replacement =
      some (if str.text = [] then []
        else [{ offset := 0, length := str.length, ref := .SUBJECT },
              { offset := str.length, length := str.length, ref := .NONE }]) := by
  unfold matchQRegularExpression
  simp only [hv, not_true_eq_false, if_false, hscan, h, List.foldl_nil, List.isEmpty_nil,
    Bool.not_true, MatchState.push, MatchState.finish, SString.length]
  by_cases h0 : str.text = []
  · simp [h0]
  · have : (str.text.length : Int) > 0 := by
      have := List.length_pos.mpr h0
      omega
    simp [h0, this]

theorem matchQRegExp_no_match (str : SString) (regExp : QRegExp)
    (replacement : Replacement) (refs : List BackRef) (hv : regExp.isValid = true)
    (hscan : scanBackRefs regExp.captureCount replacement.text 0 = some refs)
    (h : regExp.indexIn str.text 0 true = none) :
    matchQRegExp str regExp replacement =
      some (if str.text = [] then []
        else [{ offset := 0, length := str.length, ref := .SUBJECT },
              { offset := str.length, length := str.length, ref := .NONE }]) := by
  unfold matchQRegExp
  have hl : matchQRegExpLoop str.text regExp refs replacement (str.text.length + 2) 0
      { matchList := [], newLength := 0, matched := false }
      = some ({ matchList := [], newLength := 0, matched := false }, 0) := by
    unfold matchQRegExpLoop
    have e : ((0 : Int) == 0) = true := rfl
    simp only [e, h]
  simp only [hv, not_true_eq_false, if_false, hscan, hl, MatchState.push, MatchState.finish,
    SString.length]
  by_cases h0 : str.text = []
  · simp [h0]
  · have : (str.text.length : Int) > 0 := by
      have := List.length_pos.mpr h0
      omega
    simp [h0, this]

/-- The materializer on the span list of a subject in which nothing matches. -/
theorem replace_whole (str : SString) (replacement : Replacement) :
    SameTextAndRuns str
      (replace [{ offset := 0, length := str.length, ref := .SUBJECT },
                { offset := str.length, length := str.length, ref := .NONE }]
        str replacement) := by
  have hout : spanOutput str.text replacement.text
      [{ offset := 0, length := str.length, ref := .SUBJECT }] = tagFrom str.text 0 := by
    simp [spanOutput, MatchRef.output, subjectSlice, SString.length]
  obtain ⟨h1, _, h3⟩ := replace_spec str replacement
    [{ offset := 0, length := str.length, ref := .SUBJECT }]
    { offset := str.length, length := str.length, ref := .NONE }
    (by
      intro md hmd
      have : md = { offset := 0, length := str.length, ref := .SUBJECT } := by simpa using hmd
      subst this
      simp [MatchRef.InRange, SString.length])
    rfl
    (by rw [hout, tagFrom_length]; rfl)
  rw [hout] at h1 h3
  simp only [List.singleton_append] at h1 h3
  constructor
  · rw [h1]
    apply List.ext_getElem?
    intro j
    rw [List.getElem?_map, tagFrom_getElem?]
    cases str.text[j]? <;> rfl
  · intro i hi
    apply h3 i (str.text[i]) i
    rw [tagFrom_getElem?, List.getElem?_eq_getElem hi]
    simp

end SSHelper

theorem SameTextAndRuns.refl (s : SString) : SameTextAndRuns s s := ⟨rfl, fun _ _ => rfl⟩

/-- A replace that materializes the span list of a subject in which nothing matches leaves
the text and the runs. -/
theorem no_match_spans_same (s : SString) (replacement : SSHelper.Replacement) :
    SameTextAndRuns s
      (if (if s.text = [] then ([] : SSHelper.MatchRefList)
          else [{ offset := 0, length := s.length, ref := .SUBJECT },
                { offset := s.length, length := s.length, ref := .NONE }]) ≠ [] then
        SSHelper.replace (if s.text = [] then []
          else [{ offset := 0, length := s.length, ref := .SUBJECT },
                { offset := s.length, length := s.length, ref := .NONE }]) s replacement
      else s) := by
  by_cases h0 : s.text = []
  · simp only [h0, if_true, ne_eq, not_true_eq_false, if_false]
    exact SameTextAndRuns.refl s
  · simp only [h0, if_false, ne_eq, List.cons_ne_nil, not_false_eq_true, if_true]
    exact SSHelper.replace_whole s replacement

theorem qReplaceChar_no_match (t : List Char) (b a : Char) (cs : CaseSensitivity)
    (h : qIndexOf t [b] 0 cs = none) : qReplaceChar t b a .CaseSensitive = t := by
  unfold qIndexOf at h
  rw [if_pos (Nat.zero_le _)] at h
  have hn := qIndexOfAux_none cs [b] _ 0 h
  simp only [List.drop_zero] at hn
  unfold qReplaceChar
  apply List.ext_getElem (by simp)
  intro j h1 h2
  rw [List.getElem_map]
  have hj := hn j (by omega)
  have hd : t.drop j = t[j] :: t.drop (j + 1) := by
    rw [List.drop_eq_getElem_cons h2]
  rw [hd] at hj
  simp only [startsWith, Bool.and_true] at hj
  have hne : charEq .CaseSensitive b t[j] = false := by
    cases cs with
    | CaseSensitive => exact hj
    | CaseInsensitive =>
      simp only [charEq, beq_eq_false_iff_ne, ne_eq] at hj ⊢
      intro e
      exact hj (by rw [e])
  rw [hne]
  simp


/-- The pre-scan of a template that does not end with a free backslash has a result. -/
theorem scanBackRefs_some (capCount : Int) (t : List Char)
    (h : endsWithFreeBackslash t = false) :
    SSHelper.scanBackRefs capCount t 0 = some (backRefsOfFreeBackslashes capCount t) := by
  have h1 := scanBackRefs_spec capCount t t.length t 0 (le_refl _) (by simp) (by simp) (by
    simp [backslashesBefore])
  rw [h] at h1
  simp only [Bool.false_eq_true, if_false, ← List.range_eq_range'] at h1
  exact h1

namespace SString

theorem replaceLiteral_no_match (s : SString) (before after : List Char)
    (cs : CaseSensitivity) (hb : before ≠ []) (h : qIndexOf s.text before 0 cs = none) :
    ∃ r, s.replaceLiteral before after cs = some r ∧ SameTextAndRuns s r := by
  have he : before.isEmpty = false := by
    cases before with
    | nil => exact absurd rfl hb
    | cons c t => rfl
  have hm := SSHelper.matchLiteral_no_match s before (.plain after) cs hb h
  have hgen : (match SSHelper.matchLiteral s before (.plain after) cs with
      | none => none
      | some matchList =>
        if matchList ≠ [] then some (SSHelper.replace matchList s (.plain after)) else some s)
      = some (if (if s.text = [] then ([] : SSHelper.MatchRefList)
          else [{ offset := 0, length := s.length, ref := .SUBJECT },
                { offset := s.length, length := s.length, ref := .NONE }]) ≠ [] then
        SSHelper.replace (if s.text = [] then []
          else [{ offset := 0, length := s.length, ref := .SUBJECT },
                { offset := s.length, length := s.length, ref := .NONE }]) s (.plain after)
      else s) := by
    rw [hm]
    simp only []
    split_ifs <;> rfl
  unfold replaceLiteral
  simp only [he, Bool.false_eq_true, false_and, if_false]
  split
  · rename_i b a
    refine ⟨_, rfl, ?_, fun _ _ => rfl⟩
    exact qReplaceChar_no_match s.text b a cs h
  · exact ⟨_, hgen, no_match_spans_same s (.plain after)⟩

end SString

/-! # Lemmas on the copies of a literal replace -/

theorem decomp_snoc {α : Type} (acc : List α) (t : α) (pre : List α) (md : α) (post : List α)
    (h : acc ++ [t] = pre ++ md :: post) :
    (post = [] ∧ pre = acc ∧ md = t) ∨ (∃ post', post = post' ++ [t] ∧ acc = pre ++ md :: post') := by
  rcases List.eq_nil_or_concat post with hp | ⟨post', x, hp⟩
  · subst hp
    left
    have := List.append_inj' h rfl
    exact ⟨rfl, this.1.symm, by simpa using this.2.symm⟩
  · rw [List.concat_eq_append] at hp
    subst hp
    right
    have h' : acc ++ [t] = (pre ++ md :: post') ++ [x] := by
      rw [h]; simp
    have := List.append_inj' h' rfl
    have hx : x = t := by simpa using this.2.symm
    subst hx
    exact ⟨post', rfl, this.1⟩

namespace SSHelper

theorem subjectEnd_append (a b : MatchRefList) (c : Int) :
    subjectEnd (a ++ b) c = subjectEnd b (subjectEnd a c) := by
  induction a generalizing c with
  | nil => rfl
  | cons md rest ih =>
    simp only [List.cons_append, subjectEnd]
    exact ih _

theorem subjectPosition_snoc (n : Nat) (l : MatchRefList) (m : MatchRef) :
    subjectPosition n (l ++ [m]) = subjectPosition n l + m.consumed n := by
  simp [subjectPosition]

theorem adjacentMatches_snoc (l : MatchRefList) (m : MatchRef) :
    adjacentMatches (l ++ [m]) = if m.ref = .REPLACEMENT then adjacentMatches l + 1 else 0 := by
  unfold adjacentMatches
  rw [List.reverse_append, List.reverse_singleton, List.singleton_append, List.takeWhile_cons]
  by_cases h : m.ref = .REPLACEMENT
  · simp [h]
  · simp [h]

theorem qIndexOf_some (t before : List Char) (off idx : Nat) (cs : CaseSensitivity)
    (h : qIndexOf t before off cs = some idx) :
    off ≤ idx ∧ idx + before.length ≤ t.length ∧ startsWith cs before (t.drop idx) = true := by
  unfold qIndexOf at h
  split_ifs at h with h0
  obtain ⟨k, hk1, hk2, hk3, _⟩ := qIndexOfAux_some _ _ _ _ _ h
  rw [List.drop_drop] at hk3
  rw [List.length_drop] at hk1
  have hk3' : startsWith cs before (t.drop idx) = true := by
    have e : off + k = idx := by omega
    rw [e] at hk3
    exact hk3
  have hl := startsWith_length cs before _ hk3'
  rw [List.length_drop] at hl
  exact ⟨by omega, by omega, hk3'⟩

theorem LiteralInv.init (str before : List Char) (n : Nat) (cs : CaseSensitivity) :
    LiteralInv str before n cs [] 0 where
  off_le := Nat.zero_le _
  position := by simp [subjectPosition]
  cursor := by simp [subjectEnd, adjacentMatches]
  spans := by simp
  copies := by
    intro pre md post h
    simp at h

/-- The invariant after a non-empty subject span up to the position `idx`. -/
theorem LiteralInv.gap {str before : List Char} {n : Nat} {cs : CaseSensitivity}
    {acc : MatchRefList} {off : Nat} (inv : LiteralInv str before n cs acc off) (idx : Nat)
    (h1 : off < idx) (h2 : idx ≤ str.length) :
    LiteralInv str before n cs
      (acc ++ [{ offset := off, length := (idx : Int) - off, ref := .SUBJECT }]) idx where
  off_le := h2
  position := by
    rw [subjectPosition_snoc, inv.position]
    simp only [MatchRef.consumed]
    omega
  cursor := by
    rw [subjectEnd_append, adjacentMatches_snoc]
    have hne : (idx : Int) - off ≠ 0 := by omega
    simp [subjectEnd, hne]
  spans := by
    intro m hm
    rw [List.mem_append] at hm
    rcases hm with hm | hm
    · exact inv.spans m hm
    · have : m = { offset := off, length := (idx : Int) - off, ref := .SUBJECT } := by
        simpa using hm
      subst this
      refine ⟨?_, by simp⟩
      simp only [MatchRef.InRange]
      omega
  copies := by
    intro pre md post h hr
    rcases decomp_snoc _ _ _ _ _ h with ⟨_, _, h3⟩ | ⟨post', _, h3⟩
    · rw [h3] at hr
      simp at hr
    · exact inv.copies pre md post' h3 hr

/-- The invariant after the replacement span of a match found at `off`. -/
theorem LiteralInv.copy {str before : List Char} {n : Nat} {cs : CaseSensitivity}
    {acc : MatchRefList} {off : Nat} (inv : LiteralInv str before n cs acc off)
    (hs : startsWith cs before (str.drop off) = true) (hl : off + before.length ≤ str.length) :
    LiteralInv str before n cs
      (acc ++ [{ offset := 0, length := (n : Int), ref := .REPLACEMENT }])
      (off + before.length) where
  off_le := hl
  position := by
    rw [subjectPosition_snoc, inv.position]
    simp only [MatchRef.consumed]
    omega
  cursor := by
    rw [subjectEnd_append, adjacentMatches_snoc]
    have hc := inv.cursor
    simp only [subjectEnd, if_true]
    rw [if_neg (fun h => Ref.noConfusion h.2)]
    push_cast
    rw [add_mul, one_mul]
    linarith
  spans := by
    intro m hm
    rw [List.mem_append] at hm
    rcases hm with hm | hm
    · exact inv.spans m hm
    · have : m = { offset := 0, length := (n : Int), ref := .REPLACEMENT } := by
        simpa using hm
      subst this
      refine ⟨?_, by simp⟩
      simp only [MatchRef.InRange]
      omega
  copies := by
    intro pre md post h hr
    rcases decomp_snoc _ _ _ _ _ h with ⟨_, h2, h3⟩ | ⟨post', _, h3⟩
    · subst h2 h3
      refine ⟨rfl, rfl, ?_, ?_, ?_, ?_⟩
      · rw [inv.position]; omega
      · rw [inv.position]; omega
      · rw [inv.position]; simpa using hs
      · rw [inv.position]; exact inv.cursor
    · exact inv.copies pre md post' h3 hr

/-- The loop of the literal matcher returns, and it keeps the invariant. -/
theorem matchLiteralLoop_inv (str before : List Char) (after : Replacement)
    (cs : CaseSensitivity) (hb : before ≠ []) (ha : after.isEmpty = false) :
    ∀ (fuel off : Nat) (st : MatchState), str.length - off < fuel →
      LiteralInv str before after.text.length cs st.matchList off →
      ∃ r, matchLiteralLoop str before after cs fuel off st = some r ∧
        LiteralInv str before after.text.length cs r.1.matchList r.2 := by
  intro fuel
  induction fuel with
  | zero => intro off st h _; omega
  | succ fuel ih =>
    intro off st hf inv
    unfold matchLiteralLoop
    cases hq : qIndexOf str before off cs with
    | none => exact ⟨(st, off), rfl, inv⟩
    | some idx =>
      obtain ⟨q1, q2, q3⟩ := qIndexOf_some str before off idx cs hq
      have hbl : 0 < before.length := List.length_pos.mpr hb
      simp only [ha, Bool.false_eq_true, not_false_eq_true, if_true]
      apply ih
      · omega
      · by_cases hg : (idx : Int) - off ≠ 0
        · rw [if_pos hg]
          exact (inv.gap idx (by omega) (by omega)).copy q3 q2
        · rw [if_neg hg]
          have e : idx = off := by omega
          subst e
          exact inv.copy q3 q2

theorem spanOutput_length_eq (str rep : List Char) (l : MatchRefList)
    (h : ∀ m ∈ l, m.InRange str.length rep.length) :
    ((spanOutput str rep l).length : Int) = spansLength l := by
  induction l with
  | nil => rfl
  | cons md rest ih =>
    have h1 := MatchRef.output_length str rep md (h md (List.mem_cons_self _ _))
    have h2 := ih (fun m hm => h m (List.mem_cons_of_mem _ hm))
    simp only [spanOutput, List.length_append, spansLength, List.map_cons, List.sum_cons]
      at h2 ⊢
    push_cast
    rw [h1, h2]


/-- The copies of a literal replace with a plain replacement: the literal matcher returns,
and every replacement span of its list stands for a match at the subject position reached
and is written with the style that the subject has at the start of the adjacent matches
that end there. -/
theorem matchLiteral_copies (s : SString) (before after : List Char) (cs : CaseSensitivity)
    (hb : before ≠ []) (ha : after ≠ []) :
    ∃ l, matchLiteral s before (.plain after) cs = some l ∧
      ∀ pre md post last, l = pre ++ md :: post ++ [last] → md.ref = .REPLACEMENT →
        0 ≤ subjectPosition before.length pre ∧
        subjectPosition before.length pre + before.length ≤ s.text.length ∧
        startsWith cs before (s.text.drop (subjectPosition before.length pre).toNat) = true ∧
        ((adjacentMatches pre * before.length : Nat) : Int)
          ≤ subjectPosition before.length pre ∧
        md.length = (after.length : Int) ∧
        ∀ q, q < after.length →
          (replace l s (.plain after)).run ((spanOutput s.text after pre).length + q) =
            s.run (subjectPosition before.length pre
              - ((adjacentMatches pre * before.length : Nat) : Int)).toNat := by
  have he : before.isEmpty = false := by
    cases before with
    | nil => exact absurd rfl hb
    | cons c t => rfl
  have hae : (Replacement.plain after).isEmpty = false := by
    cases after with
    | nil => exact absurd rfl ha
    | cons c t => rfl
  have hbl : 0 < before.length := List.length_pos.mpr hb
  obtain ⟨⟨st1, off⟩, hr, inv⟩ := matchLiteralLoop_inv s.text before (.plain after) cs hb hae
    (s.text.length + 1) 0 { matchList := [], newLength := s.length, matched := false }
    (by omega) (LiteralInv.init _ _ _ _)
  simp only [Replacement.text] at inv
  have hm : matchLiteral s before (.plain after) cs =
      some ((if (s.length - (off : Int)) ≠ 0 then
          st1.push { offset := off, length := s.length - off, ref := .SUBJECT }
        else st1).finish s.length) := by
    unfold matchLiteral
    simp only [he, Bool.false_eq_true, if_false, hr]
  refine ⟨_, hm, ?_⟩
  -- the spans before the terminator
  obtain ⟨full, offF, hfull, invF⟩ : ∃ full offF,
      (if (s.length - (off : Int)) ≠ 0 then
          st1.push { offset := off, length := s.length - off, ref := .SUBJECT }
        else st1).matchList = full ∧ LiteralInv s.text before after.length cs full offF := by
    by_cases hg : (s.length - (off : Int)) ≠ 0
    · rw [if_pos hg]
      have hlt : off < s.text.length := by
        have := inv.off_le
        simp only [SString.length] at hg
        omega
      exact ⟨_, _, rfl, inv.gap s.text.length hlt (le_refl _)⟩
    · rw [if_neg hg]
      exact ⟨_, _, rfl, inv⟩
  generalize hst : (if (s.length - (off : Int)) ≠ 0 then
      st1.push { offset := off, length := s.length - off, ref := .SUBJECT }
    else st1) = st2 at hm hfull ⊢
  intro pre md post last hl hmd
  have hne : st2.finish s.length ≠ [] := by
    rw [hl]; simp
  obtain ⟨spans, hsp, _⟩ := matchLiteral_terminator s before (.plain after) cs _ hm hne
  have hfin : st2.finish s.length = full ++ [⟨s.length, st2.newLength, .NONE⟩] := by
    unfold MatchState.finish at hne ⊢
    by_cases hc : st2.matched = true ∨ st2.matchList ≠ []
    · rw [if_pos hc, hfull]
    · rw [if_neg hc] at hne
      rw [if_neg hc]
      exfalso
      apply hc
      right
      exact hne
  have h1 : full ++ [⟨s.length, st2.newLength, .NONE⟩] = (pre ++ md :: post) ++ [last] := by
    rw [← hfin, hl]
  have h2 := List.append_inj' h1 rfl
  have hfull2 : full = pre ++ md :: post := h2.1
  have hlast : last = ⟨s.length, st2.newLength, .NONE⟩ := by
    simpa using h2.2.symm
  have h3 : full ++ [(⟨s.length, st2.newLength, .NONE⟩ : MatchRef)]
      = spans ++ [⟨s.length, spansLength spans, .NONE⟩] := by
    rw [← hfin, hsp]
  have h4 := List.append_inj' h3 rfl
  have hnl : st2.newLength = spansLength full := by
    have := h4.2
    simp only [List.cons.injEq, MatchRef.mk.injEq, and_true, true_and] at this
    rw [this, h4.1]
  have hcopy := invF.copies pre md post hfull2 hmd
  obtain ⟨c1, c2, c3, c4, c5, c6⟩ := hcopy
  have hin : ∀ m ∈ pre ++ md :: post, m.InRange s.text.length after.length := by
    intro m hmem
    rw [← hfull2] at hmem
    exact (invF.spans m hmem).1
  have hpre : ∀ m ∈ pre, m.InRange s.text.length after.length :=
    fun m hmem => hin m (List.mem_append_left _ hmem)
  have hse := subjectEnd_nonneg pre 0 _ _ hpre (le_refl _)
  refine ⟨c3, c4, c5, by push_cast; linarith, c1, ?_⟩
  intro q hq
  have hw := replace_plain_written s after pre post md last hpre
    (hin md (by simp)) hmd (fun m hmem => hin m (by simp [hmem])) (by rw [hlast])
    (by
      rw [hlast]
      simp only []
      rw [hnl, hfull2]
      exact (spanOutput_length_eq s.text after _ hin).symm)
    q (by rw [c1]; simpa using hq)
  rw [hl]
  rw [hw]
  have hlt : subjectEnd pre 0 < s.length := by
    simp only [SString.length]
    have : (0 : Int) ≤ (adjacentMatches pre : Int) * (before.length : Int) :=
      mul_nonneg (by omega) (by omega)
    linarith
  rw [if_pos hlt]
  congr 2
  push_cast
  linarith


end SSHelper

/-! # Claims on the pre-scan, the markup, the white space, the splitting and the copies -/

namespace SString

/-- C31 (counterexample): not every backslash followed by a digit that is at most the capture
count is recorded.  In the template of a backslash, a backslash and the digit 1, with one
capture group, the second backslash is followed by the digit 1, so that the list of the
back-references of every such backslash holds the range from 1 to 3 for the group 1; the
pre-scan records nothing, because the pass that reads the first backslash consumes the
second one as the character after it. -/
theorem C31_consumed_backslash_counterexample :
    backslashDigitAt 1 ['\\', '\\', '1'] 1 = true ∧
    backRefsOfEveryBackslash 1 ['\\', '\\', '1'] = [{ start := 1, «end» := 3, no := 1 }] ∧
    SSHelper.scanBackRefs 1 ['\\', '\\', '1'] 0 = some [] := by
  decide

/-- C31 (amended): for every capture count and every template that does not end with a
backslash preceded by an even number of backslashes, the pre-scan returns, in the order of
the template, exactly one back-reference for each backslash that has an even number of
backslashes right before it and is followed by a digit `d1` that is at most the capture
count: it starts at the backslash and is the group `10 * d1 + d2` with a range of three
characters when a second digit `d2` follows and `10 * d1 + d2` is at most the capture count,
else the group `d1` with a range of two characters.  The recorded ranges follow one another
inside the template. -/
theorem C31_prescan_records_free_backslashes (capCount : Int) (t : List Char)
    (h : endsWithFreeBackslash t = false) :
    SSHelper.scanBackRefs capCount t 0 = some (backRefsOfFreeBackslashes capCount t) ∧
    SSHelper.BackRefsOK t.length (backRefsOfFreeBackslashes capCount t) 0 := by
  have h2 := scanBackRefs_some capCount t h
  refine ⟨h2, ?_⟩
  have h3 := SSHelper.scanBackRefs_ok capCount t.length t 0 _ (le_refl _) h2
  simpa using h3

/-- Witness of C31: a template with a consumed backslash, a back-reference of two digits, one
of one digit and a digit beyond the capture count of 12. -/
theorem C31_prescan_records_free_backslashes_witness :
    endsWithFreeBackslash "\\\\1\\12\\1\\3a".toList = false ∧
    SSHelper.scanBackRefs 12 "\\\\1\\12\\1\\3a".toList 0
      = some (backRefsOfFreeBackslashes 12 "\\\\1\\12\\1\\3a".toList) ∧
    SSHelper.BackRefsOK "\\\\1\\12\\1\\3a".toList.length
      (backRefsOfFreeBackslashes 12 "\\\\1\\12\\1\\3a".toList) 0 :=
  ⟨by decide, C31_prescan_records_free_backslashes 12 "\\\\1\\12\\1\\3a".toList (by decide)⟩

/-- C32: for every string whose text is a non-empty run `A` of the style `sA` followed by a
run of the style `sB` made of white space `W` (spaces, tabs, CR, LF, possibly none) and of a
text that starts with a character `v` that is no white space, `richString` returns the
opening tags of `sA` in the order i, b, u, s, font, the escaped `A`, the closing tags in the
order s, u, b, i, font of what `sA` has and `sB` has not (font also when the color differs),
`W` unchanged, the opening tags in the order i, b, u, s, font of what `sB` has and `sA` has
not (font with its color, also when the color differs), the escaped rest, and the closing
tags of `sB` in the order s, u, b, i, font.  A run has the style `sA` when each of its
positions has the flags of `sA` and, with the `Color` flag, the color of `sA`, which is how
`Iterator::operator==` compares the runs; the equation holds whether or not the two styles
differ. -/
theorem C32_markup_of_two_runs (s : SString) (A W V : List Char) (v : Char)
    (sA sB : Nat × Nat) (ht : s.text = A ++ W ++ v :: V) (hA : A ≠ [])
    (hsA : ∀ i, i < A.length → ∃ f c, s.run i = (some f, some c) ∧ SameStyle sA (f, c))
    (hsB : ∀ i, A.length ≤ i → i < s.text.length →
      ∃ f c, s.run i = (some f, some c) ∧ SameStyle sB (f, c))
    (hW : ∀ c ∈ W, c = ' ' ∨ c = '\t' ∨ c = '\r' ∨ c = '\n')
    (hv : v ≠ ' ' ∧ v ≠ '\t' ∧ v ≠ '\r' ∧ v ≠ '\n') :
    s.richString = some (initialTags sA ++ escapedText A ++ closeTags sA sB ++ W
      ++ openTags sA sB ++ escapedText (v :: V) ++ finalTags sB) ∧
    initialTags sA =
      (if hasFlags sA Italic then "<i>".toList else []) ++
      (if hasFlags sA Bold then "<b>".toList else []) ++
      (if hasFlags sA Underline then "<u>".toList else []) ++
      (if hasFlags sA StrikeThrough then "<s>".toList else []) ++
      (if hasFlags sA Color then "<font color=".toList ++ colorName sA.2 ++ ">".toList
        else []) ∧
    closeTags sA sB =
      (if hasFlags sA StrikeThrough ∧ ¬ hasFlags sB StrikeThrough then "</s>".toList
        else []) ++
      (if hasFlags sA Underline ∧ ¬ hasFlags sB Underline then "</u>".toList else []) ++
      (if hasFlags sA Bold ∧ ¬ hasFlags sB Bold then "</b>".toList else []) ++
      (if hasFlags sA Italic ∧ ¬ hasFlags sB Italic then "</i>".toList else []) ++
      (if hasFlags sA Color ∧ (¬ hasFlags sB Color ∨ sA.2 ≠ sB.2) then "</font>".toList
        else []) ∧
    openTags sA sB =
      (if ¬ hasFlags sA Italic ∧ hasFlags sB Italic then "<i>".toList else []) ++
      (if ¬ hasFlags sA Bold ∧ hasFlags sB Bold then "<b>".toList else []) ++
      (if ¬ hasFlags sA Underline ∧ hasFlags sB Underline then "<u>".toList else []) ++
      (if ¬ hasFlags sA StrikeThrough ∧ hasFlags sB StrikeThrough then "<s>".toList
        else []) ++
      (if hasFlags sB Color ∧ (¬ hasFlags sA Color ∨ sA.2 ≠ sB.2) then
        "<font color=".toList ++ colorName sB.2 ++ ">".toList else []) ∧
    finalTags sB =
      (if hasFlags sB StrikeThrough then "</s>".toList else []) ++
      (if hasFlags sB Underline then "</u>".toList else []) ++
      (if hasFlags sB Bold then "</b>".toList else []) ++
      (if hasFlags sB Italic then "</i>".toList else []) ++
      (if hasFlags sB Color then "</font>".toList else []) := by
  have hi : ∀ (i : Nat) (f c : Nat), s.run i = (some f, some c) →
      s.m_style.iter i = some (f, c) := by
    intro i f c e
    simp only [SString.run, SStringStyle.run, Prod.mk.injEq] at e
    unfold SStringStyle.iter
    rw [e.1, e.2]
  refine ⟨richString_two_runs s A W V v sA sB ht hA
    (fun i h => by
      obtain ⟨f, c, e, hs⟩ := hsA i h
      exact ⟨(f, c), hi i f c e, hs⟩)
    (fun i h1 h2 => by
      obtain ⟨f, c, e, hs⟩ := hsB i h1 h2
      exact ⟨(f, c), hi i f c e, hs⟩) hW hv, rfl, rfl, rfl, rfl⟩

set_option maxRecDepth 100000 in
/-- Witness of C32: in `a bc` the bold `a`, the bold space, which holds the color red without
the `Color` flag, and the italic `bc`: the first run is `a` and the space. -/
theorem C32_markup_of_two_runs_witness :
    ((((ofString "a bc".toList Bold 0).setStyleColor 1 1 0xff0000).setStyleFlags 1 1
        Bold).setStyleFlags 2 2 Italic).run 1 = (some Bold, some 0xff0000) ∧
    ((((ofString "a bc".toList Bold 0).setStyleColor 1 1 0xff0000).setStyleFlags 1 1
        Bold).setStyleFlags 2 2 Italic).richString = some "<b>a </b><i>bc</i>".toList :=
  ⟨by decide,
    (C32_markup_of_two_runs
      ((((ofString "a bc".toList Bold 0).setStyleColor 1 1 0xff0000).setStyleFlags 1 1
        Bold).setStyleFlags 2 2 Italic)
      "a ".toList [] "c".toList 'b' (Bold, 0) (Italic, 0) (by decide) (by decide)
      (by
        intro i hi
        have hi2 : i < 2 := hi
        interval_cases i
        · exact ⟨Bold, 0, by decide, ⟨rfl, fun _ => rfl⟩⟩
        · exact ⟨Bold, 0xff0000, by decide, ⟨rfl, fun h => absurd h (by decide)⟩⟩)
      (by
        intro i h1 h2
        have h3 : 2 ≤ i := h1
        have h4 : i < 4 := h2
        interval_cases i
        · exact ⟨Italic, 0, by decide, ⟨rfl, fun _ => rfl⟩⟩
        · exact ⟨Italic, 0, by decide, ⟨rfl, fun _ => rfl⟩⟩)
      (by decide) (by decide)).1.trans (by decide)⟩

/-- C33: for every text, the text that `simplifyWhiteSpace` leaves holds no tab and no CR,
no two neighbouring spaces, no two neighbouring line feeds and no space right before a line
feed, and it starts neither with a space nor with a line feed; the member function leaves
the same text as the static one. -/
theorem C33_simplified_text_shape (text : List Char) :
    '\t' ∉ qSimplifyWhiteSpace text ∧ '\r' ∉ qSimplifyWhiteSpace text ∧
    (∀ (i : Nat) (a b : Char), (qSimplifyWhiteSpace text)[i]? = some a →
      (qSimplifyWhiteSpace text)[i + 1]? = some b →
      ¬ (a = ' ' ∧ b = ' ') ∧ ¬ (a = '\n' ∧ b = '\n') ∧ ¬ (a = ' ' ∧ b = '\n')) ∧
    (qSimplifyWhiteSpace text).head? ≠ some ' ' ∧
    (qSimplifyWhiteSpace text).head? ≠ some '\n' ∧
    ∀ s : SString, s.simplifyWhiteSpace.text = qSimplifyWhiteSpace s.text := by
  obtain ⟨h1, h2, h3⟩ := simplifySources_simplified text
  rw [← qSimplifyWhiteSpace_eq_map] at h1 h2 h3
  refine ⟨fun h => (h2 _ h).1 rfl, fun h => (h2 _ h).2 rfl, ?_, ?_, ?_,
    simplifyWhiteSpace_text⟩
  · intro i a b ha hb
    have hp := chain'_getElem? _ h1 i a b ha hb
    exact ⟨hp.1, hp.2.1, hp.2.2.1⟩
  · intro h
    exact (h3 ' ' (by rw [h]; exact rfl)).1 rfl
  · intro h
    exact (h3 '\n' (by rw [h]; exact rfl)).2 rfl

/-- C34: the back-reference pre-scan does not keep its read position inside every template.
For a template whose last character is a backslash, whatever the capture count and whatever
stands before that backslash, the pass that reads this backslash also consumes the
terminating NUL as the character after it and ends at the position `length + 1`, one past
the end of the template, where the loop condition `repChar != repEnd` still holds; the scan
of the templates `\` and `a\` has no result. -/
theorem C34_prescan_steps_over_template_end (capCount : Int) (pre : List Char) :
    (SSHelper.preScanPass capCount (pre ++ ['\\']) pre.length).1 = (pre ++ ['\\']).length + 1 ∧
    (SSHelper.preScanPass capCount (pre ++ ['\\']) pre.length).1 ≠ (pre ++ ['\\']).length ∧
    SSHelper.preScanPass capCount ['\\'] 0 = (2, []) ∧
    SSHelper.scanBackRefs capCount ['\\'] 0 = none ∧
    SSHelper.scanBackRefs capCount ['a', '\\'] 0 = none := by
  have e0 : (pre ++ ['\\']).getD pre.length (Char.ofNat 0) = '\\' := by
    simp [List.getD_eq_getElem?_getD]
  have e1 : (pre ++ ['\\']).getD (pre.length + 1) (Char.ofNat 0) = Char.ofNat 0 := by
    rw [List.getD_eq_getElem?_getD, List.getElem?_eq_none (by simp)]
    rfl
  have e2 : digitValue (Char.ofNat 0) = -1 := by decide
  have h1 : (SSHelper.preScanPass capCount (pre ++ ['\\']) pre.length).1
      = (pre ++ ['\\']).length + 1 := by
    unfold SSHelper.preScanPass
    simp only [e0, e1, e2]
    simp
  refine ⟨h1, by rw [h1]; omega, ?_, ?_, ?_⟩
  · have := e2
    unfold SSHelper.preScanPass
    simp [e2]
  · simp [SSHelper.scanBackRefs]
  · simp [SSHelper.scanBackRefs]

set_option maxRecDepth 100000 in
/-- C35: the length that `simplifyWhiteSpace` passes to `truncate` is not always in the range
from 0 to the length of the text.  For the empty text and for the text of a space, a tab, a
CR and a LF nothing is written, the write index stays 0 and `lastWasLineFeed` keeps its
initial value `true`, so the closing `di--` makes the value passed to `truncate` equal to
`-1`, in the static function and in the member function alike. -/
theorem C35_simplify_truncates_to_minus_one :
    (fun st : SimplifyState =>
        (st.di, st.lastWasLineFeed, if st.lastWasLineFeed then st.di - 1 else st.di))
      ((List.range ([] : List Char).length).foldl SubtitleComposer.simplifyStep
        { text := [], di := 0, lastWasSpace := true, lastWasLineFeed := true })
      = (0, true, -1) ∧
    (fun st : SimplifyState =>
        (st.di, st.lastWasLineFeed, if st.lastWasLineFeed then st.di - 1 else st.di))
      ((List.range [' ', '\t', '\r', '\n'].length).foldl SubtitleComposer.simplifyStep
        { text := [' ', '\t', '\r', '\n'], di := 0, lastWasSpace := true,
          lastWasLineFeed := true })
      = (0, true, -1) ∧
    (fun st : SimplifyStyledState =>
        (st.di, st.lastWasLineFeed, if st.lastWasLineFeed then st.di - 1 else st.di))
      ((List.range (ofString [' ', '\t', '\r', '\n'] 0 0).text.length).foldl
        SString.simplifyStep
        { string := ofString [' ', '\t', '\r', '\n'] 0 0, di := 0, lastWasSpace := true,
          lastWasLineFeed := true })
      = (0, true, -1) := by
  decide

set_option maxRecDepth 100000 in
/-- C36: the markup of a string whose last style run is only whitespace is not balanced.  For
the text `a`, space, with an unstyled `a` and a bold space, `richString` returns `a <b>`: the
tag `<b>` is opened after the whitespace and, the scan having reached the end of the string,
no closing tag is written; the output holds one `<b>` and no `</b>`. -/
theorem C36_markup_unbalanced_after_final_whitespace :
    ((ofString "a ".toList 0 0).setStyleFlags 1 1 Bold).richString = some "a <b>".toList ∧
    countOccurrences "<b>".toList "a <b>".toList = 1 ∧
    countOccurrences "</b>".toList "a <b>".toList = 0 := by
  decide

set_option maxRecDepth 100000 in
/-- C37: the round trip through the markup does not keep the flags of a visible character
that follows whitespace of another style.  For the text `a b` without a color flag and
without angle brackets, whose space alone is bold, `richString` returns `a <b>b</b>`;
reading this markup gives back the text `a b`, but the `b` at position 2, unstyled in the
original, is bold. -/
theorem C37_markup_round_trip_restyles_after_whitespace :
    ((ofString "a b".toList 0 0).setStyleFlags 1 1 Bold).richString
      = some "a <b>b</b>".toList ∧
    ((ofString [] 0 0).setRichString tagRegExp "a <b>b</b>".toList).text = "a b".toList ∧
    ((ofString "a b".toList 0 0).setStyleFlags 1 1 Bold).styleFlagsAt 2 = some 0 ∧
    ((ofString [] 0 0).setRichString tagRegExp "a <b>b</b>".toList).styleFlagsAt 2
      = some Bold := by
  decide

set_option maxRecDepth 100000 in
/-- C38: `split` with `SkipEmptyParts` loses a final part of exactly one character.  The
string `a,b` split on the separator `,` gives the parts `a` and `b` with `KeepEmptyParts`,
but only the part `a` with `SkipEmptyParts`, for the string separator and for the character
separator alike: the test `off < length() - 1` after the loop is false for `off = 2` and
`length() = 3`. -/
theorem C38_split_drops_final_single_character :
    ((ofString "a,b".toList 0 0).split ",".toList .KeepEmptyParts .CaseSensitive).map
        (List.map SString.text) = some ["a".toList, "b".toList] ∧
    ((ofString "a,b".toList 0 0).split ",".toList .SkipEmptyParts .CaseSensitive).map
        (List.map SString.text) = some ["a".toList] ∧
    ((ofString "a,b".toList 0 0).splitChar ',' .KeepEmptyParts .CaseSensitive).map
        (List.map SString.text) = some ["a".toList, "b".toList] ∧
    ((ofString "a,b".toList 0 0).splitChar ',' .SkipEmptyParts .CaseSensitive).map
        (List.map SString.text) = some ["a".toList] := by
  decide

/-- A pattern-based replace without a match: for every subject, every non-empty literal
target and every character target that do not occur in the subject, every valid
`QRegularExpression` and every valid `QRegExp` without a match in the subject, every plain
replacement `after`, every styled replacement `afterS` and every replacement template that
does not end with a free backslash, each of the pattern-based `replace` functions returns a
string with the text of the subject and, at every position, the style flags and the color of
the subject. -/
theorem replace_without_match (s : SString) (before after : List Char) (ch : Char)
    (afterS : SString) (cs : CaseSensitivity) (regExp : QRegularExpression) (rx : QRegExp)
    (replacement : SSHelper.Replacement)
    (hb : before ≠ []) (h1 : qIndexOf s.text before 0 cs = none)
    (h2 : qIndexOf s.text [ch] 0 cs = none)
    (hrep : endsWithFreeBackslash replacement.text = false)
    (hv : regExp.isValid = true) (hm : regExp.globalMatch s.text = [])
    (hv' : rx.isValid = true) (hm' : rx.indexIn s.text 0 true = none) :
    (∃ r, s.replaceLiteral before after cs = some r ∧ SameTextAndRuns s r) ∧
    (∃ r, s.replaceLiteralStyled before afterS cs = some r ∧ SameTextAndRuns s r) ∧
    (∃ r, s.replaceChar ch after cs = some r ∧ SameTextAndRuns s r) ∧
    (∃ r, s.replaceCharStyled ch afterS cs = some r ∧ SameTextAndRuns s r) ∧
    (∃ r, s.replaceQRegularExpression regExp replacement = some r ∧ SameTextAndRuns s r) ∧
    (∃ r, s.replaceQRegExp rx replacement = some r ∧ SameTextAndRuns s r) := by
  have he : before.isEmpty = false := by
    cases before with
    | nil => exact absurd rfl hb
    | cons c t => rfl
  have hsplit : ∀ (l : SSHelper.MatchRefList) (rep : SSHelper.Replacement),
      (if l ≠ [] then some (SSHelper.replace l s rep) else some s)
        = some (if l ≠ [] then SSHelper.replace l s rep else s) := by
    intro l rep
    split_ifs <;> rfl
  refine ⟨replaceLiteral_no_match s before after cs hb h1, ?_, ?_, ?_, ?_, ?_⟩
  · unfold replaceLiteralStyled
    simp only [he, Bool.false_eq_true, false_and, if_false,
      SSHelper.matchLiteral_no_match s before (.styled afterS) cs hb h1, hsplit]
    exact ⟨_, rfl, no_match_spans_same s _⟩
  · unfold replaceChar
    split
    · rename_i a
      exact ⟨_, rfl, qReplaceChar_no_match s.text ch a cs h2, fun _ _ => rfl⟩
    · simp only [SSHelper.matchLiteral_no_match s [ch] (.plain after) cs (by simp) h2, hsplit]
      exact ⟨_, rfl, no_match_spans_same s _⟩
  · unfold replaceCharStyled
    simp only [SSHelper.matchLiteral_no_match s [ch] (.styled afterS) cs (by simp) h2, hsplit]
    exact ⟨_, rfl, no_match_spans_same s _⟩
  · unfold replaceQRegularExpression
    simp only [SSHelper.matchQRegularExpression_no_match s regExp replacement _ hv
      (scanBackRefs_some _ _ hrep) hm, hsplit]
    exact ⟨_, rfl, no_match_spans_same s _⟩
  · unfold replaceQRegExp
    simp only [SSHelper.matchQRegExp_no_match s rx replacement _ hv'
      (scanBackRefs_some _ _ hrep) hm', hsplit]
    exact ⟨_, rfl, no_match_spans_same s _⟩

set_option maxRecDepth 100000 in
/-- An instance of `replace_without_match`: the bold subject `ac`, in which neither `x` nor
`q` occurs, which holds no tag and no `b`, and the template of a backslash, `1` and `x`. -/
theorem replace_without_match_example :
    qIndexOf (ofString "ac".toList Bold 0).text "x".toList 0 .CaseInsensitive = none ∧
    tagRegExp.globalMatch (ofString "ac".toList Bold 0).text = [] ∧
    beforeB.indexIn (ofString "ac".toList Bold 0).text 0 true = none ∧
    (∃ r, (ofString "ac".toList Bold 0).replaceLiteral "x".toList "yz".toList .CaseInsensitive
      = some r ∧ SameTextAndRuns (ofString "ac".toList Bold 0) r) ∧
    (∃ r, (ofString "ac".toList Bold 0).replaceQRegularExpression tagRegExp
      (.plain "\\1x".toList) = some r ∧ SameTextAndRuns (ofString "ac".toList Bold 0) r) ∧
    (∃ r, (ofString "ac".toList Bold 0).replaceQRegExp beforeB
      (.plain "\\1x".toList) = some r ∧ SameTextAndRuns (ofString "ac".toList Bold 0) r) :=
  have h := replace_without_match (ofString "ac".toList Bold 0) "x".toList "yz".toList 'q'
    (ofString "Z".toList Italic 0) .CaseInsensitive tagRegExp beforeB (.plain "\\1x".toList)
    (by decide) (by decide) (by decide) (by decide) (by decide) (by decide) (by decide)
    (by decide)
  ⟨by decide, by decide, by decide, h.1, h.2.2.2.2.1, h.2.2.2.2.2⟩

set_option maxRecDepth 100000 in
/-- C40 (counterexample): a copy for a match that starts exactly where the previous match
ended does not take the style of the first character of its match.  In the subject `aa`
with a bold first and an italic second character, the replace of `a` by `xy` finds the
matches at 0 and at 1; the span list is two replacement spans and the terminator, and the
result `xyxy` is bold throughout: the second copy, at the positions 2 and 3, is bold, whereas
the first character of its match, at position 1, is italic. -/
theorem C40_adjacent_match_counterexample :
    ((ofString "aa".toList Bold 0).setStyleFlags 1 1 Italic).run 1 = (some Italic, some 0) ∧
    SSHelper.matchLiteral ((ofString "aa".toList Bold 0).setStyleFlags 1 1 Italic) "a".toList
        (.plain "xy".toList) .CaseSensitive
      = some [⟨0, 2, .REPLACEMENT⟩, ⟨0, 2, .REPLACEMENT⟩, ⟨2, 4, .NONE⟩] ∧
    (((ofString "aa".toList Bold 0).setStyleFlags 1 1 Italic).replaceLiteral "a".toList
        "xy".toList .CaseSensitive).map (fun r => (r.text, r.run 2, r.run 3))
      = some ("xyxy".toList, (some Bold, some 0), (some Bold, some 0)) := by
  decide

/-- C40 (amended): for every subject, every non-empty literal target and every non-empty
plain replacement that goes through the matcher, the matcher returns a span list and the
replace materializes it.  Every replacement span of the list stands for a match: the target
occurs at the subject position `m` reached by the spans before it, and the copy written for
it has, at each of its positions, the style that the subject has at the position
`m - k * |target|`, where `k` is the number of matches right before it that each start where
the one before ended, that is the first character of the first match of the series of
adjacent matches that the match belongs to.  `k` is 0, and the style is the one at the
first character of the match itself, when the match starts at 0 or when unmatched subject
text lies right before it; a match that starts exactly where the previous match ended has
one adjacent match more than that one, and its copy has the style of the previous copy. -/
theorem C40_copy_style_of_adjacent_matches (s : SString) (before after : List Char)
    (cs : CaseSensitivity) (hb : before ≠ []) (ha : after ≠ [])
    (hm : ¬ (before.length = 1 ∧ after.length = 1)) :
    ∃ l, SSHelper.matchLiteral s before (.plain after) cs = some l ∧
      s.replaceLiteral before after cs
        = some (if l ≠ [] then SSHelper.replace l s (.plain after) else s) ∧
      ∀ pre md post last, l = pre ++ md :: post ++ [last] → md.ref = .REPLACEMENT →
        0 ≤ SSHelper.subjectPosition before.length pre ∧
        SSHelper.subjectPosition before.length pre + before.length ≤ s.text.length ∧
        startsWith cs before
          (s.text.drop (SSHelper.subjectPosition before.length pre).toNat) = true ∧
        ((SSHelper.adjacentMatches pre * before.length : Nat) : Int)
          ≤ SSHelper.subjectPosition before.length pre ∧
        md.length = (after.length : Int) ∧
        (∀ q, q < after.length →
          (SSHelper.replace l s (.plain after)).run
              ((SSHelper.spanOutput s.text after pre).length + q) =
            s.run (SSHelper.subjectPosition before.length pre
              - ((SSHelper.adjacentMatches pre * before.length : Nat) : Int)).toNat) ∧
        (pre = [] → SSHelper.adjacentMatches pre = 0 ∧
          SSHelper.subjectPosition before.length pre = 0) ∧
        (∀ pre' g, pre = pre' ++ [g] → g.ref = .SUBJECT → SSHelper.adjacentMatches pre = 0) ∧
        (∀ pre' r, pre = pre' ++ [r] → r.ref = .REPLACEMENT →
          SSHelper.adjacentMatches pre = SSHelper.adjacentMatches pre' + 1 ∧
          SSHelper.subjectPosition before.length pre
              - ((SSHelper.adjacentMatches pre * before.length : Nat) : Int)
            = SSHelper.subjectPosition before.length pre'
              - ((SSHelper.adjacentMatches pre' * before.length : Nat) : Int)) := by
  obtain ⟨l, h1, h2⟩ := SSHelper.matchLiteral_copies s before after cs hb ha
  refine ⟨l, h1, ?_, ?_⟩
  · have he : before.isEmpty = false := by
      cases before with
      | nil => exact absurd rfl hb
      | cons c t => rfl
    unfold replaceLiteral
    simp only [he, Bool.false_eq_true, false_and, if_false]
    split
    · exact absurd ⟨rfl, rfl⟩ hm
    · rw [h1]
      simp only []
      split_ifs <;> rfl
  · intro pre md post last hl hr
    obtain ⟨c1, c2, c3, c4, c5, c6⟩ := h2 pre md post last hl hr
    refine ⟨c1, c2, c3, c4, c5, c6, ?_, ?_, ?_⟩
    · intro h0
      subst h0
      exact ⟨rfl, rfl⟩
    · intro pre' g hp hg
      rw [hp, SSHelper.adjacentMatches_snoc, if_neg (by rw [hg]; simp)]
    · intro pre' r hp hr'
      rw [hp, SSHelper.adjacentMatches_snoc, if_pos hr', SSHelper.subjectPosition_snoc]
      refine ⟨rfl, ?_⟩
      simp only [SSHelper.MatchRef.consumed, hr']
      push_cast
      ring

set_option maxRecDepth 100000 in
/-- Witness of C40: in `baab` with an underlined `b`, a bold `a`, an italic `a` and an
underlined `b`, the replace of `a` by `xy` gives the spans of `b`, two copies, `b` and the
terminator; the second copy, at the positions 3 and 4 of the result, stands for the match at
2, has one adjacent match before it and takes the style of the position 1. -/
theorem C40_copy_style_of_adjacent_matches_witness :
    ∃ l, SSHelper.matchLiteral
        (((ofString "baab".toList Underline 0).setStyleFlags 1 1 Bold).setStyleFlags 2 1 Italic)
        "a".toList (.plain "xy".toList) .CaseSensitive = some l ∧
      l = [⟨0, 1, .SUBJECT⟩, ⟨0, 2, .REPLACEMENT⟩, ⟨0, 2, .REPLACEMENT⟩, ⟨3, 1, .SUBJECT⟩,
        ⟨4, 6, .NONE⟩] ∧
      SSHelper.subjectPosition 1 [⟨0, 1, .SUBJECT⟩, ⟨0, 2, .REPLACEMENT⟩] = 2 ∧
      SSHelper.adjacentMatches [⟨0, 1, .SUBJECT⟩, ⟨0, 2, .REPLACEMENT⟩] = 1 ∧
      ∀ q, q < 2 →
        (SSHelper.replace l
          (((ofString "baab".toList Underline 0).setStyleFlags 1 1 Bold).setStyleFlags 2 1
            Italic) (.plain "xy".toList)).run (3 + q)
          = (((ofString "baab".toList Underline 0).setStyleFlags 1 1 Bold).setStyleFlags 2 1
            Italic).run 1 := by
  obtain ⟨l, h1, _, h3⟩ := C40_copy_style_of_adjacent_matches
    (((ofString "baab".toList Underline 0).setStyleFlags 1 1 Bold).setStyleFlags 2 1 Italic)
    "a".toList "xy".toList .CaseSensitive (by decide) (by decide) (by decide)
  have hl : l = [⟨0, 1, .SUBJECT⟩, ⟨0, 2, .REPLACEMENT⟩, ⟨0, 2, .REPLACEMENT⟩,
      ⟨3, 1, .SUBJECT⟩, ⟨4, 6, .NONE⟩] :=
    Option.some.inj (h1.symm.trans (by decide))
  refine ⟨l, h1, hl, by decide, by decide, ?_⟩
  intro q hq
  have h4 := (h3 [⟨0, 1, .SUBJECT⟩, ⟨0, 2, .REPLACEMENT⟩] ⟨0, 2, .REPLACEMENT⟩
    [⟨3, 1, .SUBJECT⟩] ⟨4, 6, .NONE⟩ (by rw [hl]; rfl) rfl).2.2.2.2.2.1 q hq
  have e1 : (SSHelper.spanOutput
      (((ofString "baab".toList Underline 0).setStyleFlags 1 1 Bold).setStyleFlags 2 1
        Italic).text "xy".toList [⟨0, 1, .SUBJECT⟩, ⟨0, 2, .REPLACEMENT⟩]).length = 3 := by
    decide
  have e2 : (SSHelper.subjectPosition "a".toList.length
      [⟨0, 1, .SUBJECT⟩, ⟨0, 2, .REPLACEMENT⟩]
      - ((SSHelper.adjacentMatches [⟨0, 1, .SUBJECT⟩, ⟨0, 2, .REPLACEMENT⟩]
        * "a".toList.length : Nat) : Int)).toNat = 1 := by
    decide
  rw [e1, e2] at h4
  exact h4

end SString

/-! ### Back-references of the template and the replace without a match, for every template -/

namespace SString

set_option maxRecDepth 100000 in
/-- C3, counterexample: on the subject `John Smith` with the expression `(\w+) (\w+)`, whose
only match is the whole subject with the groups `John` and `Smith`, the template of a
backslash, a backslash and the digit `1` holds a backslash followed by `1`, but the pre-scan
records nothing and the result is the template as it stands, three characters without the
text of group 1; and for the
template of a backslash, the digit `1` and a backslash the replace has no result, the
pre-scan having stepped over the end of the template. -/
theorem C3_backreference_counterexample :
    wordPair.isValid = true ∧
    wordPair.globalMatch johnSmith.text = [{ captured := [(0, 10), (0, 4), (5, 5)] }] ∧
    johnSmith.text = "John Smith".toList ∧
    SSHelper.scanBackRefs wordPair.captureCount ['\\', '\\', '1'] 0 = some [] ∧
    (johnSmith.replaceQRegularExpression wordPair (.plain ['\\', '\\', '1'])).map SString.text
      = some ['\\', '\\', '1'] ∧
    johnSmith.replaceQRegularExpression wordPair (.plain ['\\', '1', '\\']) = none := by
  decide

/-- C3, amended: for a valid `QRegularExpression` whose matches are ordered and lie inside
the subject and a template that does not end with a free backslash, the back-references of
the template are its backslashes that are followed by a digit of a group and preceded by an
even number of backslashes (`backRefsOfFreeBackslashes`).  The replace yields the subject
text between the matches and, for every match, the template in which every such
back-reference `\N` is replaced by the text of group `N` taken from the original subject;
every character that comes from the subject, in particular every character of a group,
carries the style run it had in the original subject. -/
theorem C3_backreference_replace (s : SString) (regExp : QRegularExpression)
    (replacement : SSHelper.Replacement)
    (hvalid : regExp.isValid = true)
    (hrep : endsWithFreeBackslash replacement.text = false)
    (hms : SSHelper.MatchesOK s.text.length (regExp.globalMatch s.text) 0) :
    ∃ s', s.replaceQRegularExpression regExp replacement = some s' ∧
      s'.text = (SSHelper.regexReplaceSpec s.text replacement.text
        (backRefsOfFreeBackslashes regExp.captureCount replacement.text)
        (regExp.globalMatch s.text) 0).map Prod.fst ∧
      (∀ (j : Nat) (c : Char) (i : Nat),
        (SSHelper.regexReplaceSpec s.text replacement.text
          (backRefsOfFreeBackslashes regExp.captureCount replacement.text)
          (regExp.globalMatch s.text) 0)[j]? = some (c, some i) →
          s'.text[j]? = some c ∧ s.text[i]? = some c ∧ s'.run j = s.run i) :=
  regexReplace_of_recorded_backRefs s regExp replacement
    (backRefsOfFreeBackslashes regExp.captureCount replacement.text) hvalid
    (scanBackRefs_some regExp.captureCount replacement.text hrep) hms

set_option maxRecDepth 100000 in
/-- Witness of C3: `John Smith` with `John` bold and `Smith` italic, the expression
`(\w+) (\w+)` and the template `\2 \1` give `Smith John`, where `Smith` and `John` keep the
runs they had in the subject. -/
theorem C3_backreference_replace_witness :
    wordPair.isValid = true ∧
    endsWithFreeBackslash "\\2 \\1".toList = false ∧
    backRefsOfFreeBackslashes wordPair.captureCount "\\2 \\1".toList
      = [{ start := 0, «end» := 2, no := 2 }, { start := 3, «end» := 5, no := 1 }] ∧
    SSHelper.MatchesOK johnSmith.text.length (wordPair.globalMatch johnSmith.text) 0 ∧
    (∀ k, k < 4 → johnSmith.run k = (some Bold, some 0)) ∧
    (∀ k, k < 5 → johnSmith.run (5 + k) = (some Italic, some 0)) ∧
    (∃ s', johnSmith.replaceQRegularExpression wordPair (.plain "\\2 \\1".toList) = some s' ∧
      s'.text = "Smith John".toList ∧
      (∀ k, k < 5 → s'.run k = johnSmith.run (5 + k)) ∧
      (∀ k, k < 4 → s'.run (6 + k) = johnSmith.run k)) := by
  have hv : wordPair.isValid = true := rfl
  have hs : endsWithFreeBackslash
      (SSHelper.Replacement.plain "\\2 \\1".toList).text = false := by
    decide
  have hm : SSHelper.MatchesOK johnSmith.text.length (wordPair.globalMatch johnSmith.text) 0 := by
    have ht : johnSmith.text = "John Smith".toList := by decide
    rw [ht]
    simp only [wordPair, if_true, SSHelper.MatchesOK, SSHelper.GroupOK,
      QRegularExpressionMatch.capturedStart, QRegularExpressionMatch.capturedEnd,
      SSHelper.groupAt]
    decide
  refine ⟨hv, hs, by decide, hm, by decide, by decide, ?_⟩
  obtain ⟨s', h1, h2, h3⟩ := C3_backreference_replace johnSmith wordPair
    (.plain "\\2 \\1".toList) hv hs hm
  refine ⟨s', h1, ?_, ?_, ?_⟩
  · rw [h2]; decide
  · intro k hk
    interval_cases k
    · exact (h3 0 'S' 5 (by decide)).2.2
    · exact (h3 1 'm' 6 (by decide)).2.2
    · exact (h3 2 'i' 7 (by decide)).2.2
    · exact (h3 3 't' 8 (by decide)).2.2
    · exact (h3 4 'h' 9 (by decide)).2.2
  · intro k hk
    interval_cases k
    · exact (h3 6 'J' 0 (by decide)).2.2
    · exact (h3 7 'o' 1 (by decide)).2.2
    · exact (h3 8 'h' 2 (by decide)).2.2
    · exact (h3 9 'n' 3 (by decide)).2.2

set_option maxRecDepth 100000 in
/-- C39, evaluated: the bold subject `ac` holds no tag and no `b`, so the valid expressions
`tagRegExp` and `beforeB` have no match in it; with the template of a single backslash the
pass of the pre-scan over that backslash ends at position 2, one past the end of the
template, and the replace by either expression, with the plain or the styled template, has
no result: the pre-scan comes before the matching and leaves the template. -/
theorem C39_template_ending_in_backslash :
    tagRegExp.isValid = true ∧
    tagRegExp.globalMatch (ofString "ac".toList Bold 0).text = [] ∧
    beforeB.isValid = true ∧
    beforeB.indexIn (ofString "ac".toList Bold 0).text 0 true = none ∧
    SSHelper.preScanPass tagRegExp.captureCount ['\\'] 0 = (2, []) ∧
    (ofString "ac".toList Bold 0).replaceQRegularExpression tagRegExp (.plain ['\\']) = none ∧
    (ofString "ac".toList Bold 0).replaceQRegularExpression tagRegExp
      (.styled (ofString ['\\'] Italic 0)) = none ∧
    (ofString "ac".toList Bold 0).replaceQRegExp beforeB (.plain ['\\']) = none ∧
    (ofString "ac".toList Bold 0).replaceQRegExp beforeB
      (.styled (ofString ['\\'] Italic 0)) = none := by
  decide

end SString

end SubtitleComposer
